import Mathlib

/-! # The per-file block engine of the XRootD file cache

A shallow embedding of `src/XrdFileCache/XrdFileCacheFile.cc` (class `File`):
the block map, reference counting, `Read`, writeback, sync, prefetch and `ioActive`.

Conventions of the embedding.

* Machine integers are `Int`; every value is assumed to fit its C++ type.  C++ integer
  division truncates toward zero and is written `cdiv`.
* A `Block*` is represented by the key under which the block is stored in
  `m_block_map`.  An operation applied to a key that is not in the map (a dangling
  pointer in the source) leaves the state unchanged.
* Code running under one acquisition of a lock is one function.  The collaborators
  (origin input, disk backend, cache coordinator, scheduler) are inputs of these
  functions: their answers are arguments, the calls made on them are recorded in the
  state.
* Tracing and assertions are not executed.
-/

namespace XrdFileCache

/-! ## Integers and constants -/

/-- C++ integer division: the quotient is truncated toward zero. -/
def cdiv (a b : Int) : Int := Int.tdiv a b

/-- The constant `PREFETCH_MAX_ATTEMPTS` of the source. -/
def PREFETCH_MAX_ATTEMPTS : Int := 10

/-- The value of `EINTR` (interrupted system call). -/
def EINTR : Int := 4

/-! ## Block -/

/-- Modelled from the spec: the class `Block` is declared in `XrdFileCacheFile.hh`, which is
not among the sources.  Spec §3: byte offset, length, prefetch flag (immutable); ref-count,
downloaded flag, failed flag, error code (mutable).  The buffer is represented by its
length. -/
structure Block where
  m_offset : Int
  m_size : Int
  m_prefetch : Bool
  m_refcnt : Int
  m_downloaded : Bool
  m_failed : Bool
  m_errno : Int
deriving DecidableEq, Repr

namespace Block

/-- The constructor `Block(file, off, size, prefetch)`: ref-count 0, neither flag set. -/
def create (off size : Int) (prefetch : Bool) : Block :=
  { m_offset := off, m_size := size, m_prefetch := prefetch, m_refcnt := 0,
    m_downloaded := false, m_failed := false, m_errno := 0 }

def is_ok (b : Block) : Bool := b.m_downloaded

def is_failed (b : Block) : Bool := b.m_failed

def is_finished (b : Block) : Bool := b.m_downloaded || b.m_failed

/-- Spec §4.1: "set the block's error and mark it failed". -/
def set_error_and_free (b : Block) (err : Int) : Block :=
  { b with m_errno := err, m_failed := true }

end Block

/-! ## Block map (`std::map<int, Block*>`) -/

abbrev BlockMap := List (Int × Block)

namespace BlockMap

/-- The lookup `m_block_map.find(i)`; `none` stands for `end()`. -/
def find : BlockMap → Int → Option Block
  | [], _ => none
  | (k, b) :: rest, i => if k = i then some b else find rest i

/-- The removal `m_block_map.erase(i)`. -/
def erase (m : BlockMap) (i : Int) : BlockMap := m.filter (fun e => decide (e.1 ≠ i))

/-- The assignment `m_block_map[i] = b`. -/
def set (m : BlockMap) (i : Int) (b : Block) : BlockMap := (i, b) :: erase m i

/-- A write through the pointer stored under key `i`. -/
def modify (m : BlockMap) (i : Int) (f : Block → Block) : BlockMap :=
  m.map (fun e => if e.1 = i then (e.1, f e.2) else e)

/-- The size `m_block_map.size()`. -/
def size (m : BlockMap) : Int := (m.length : Int)

def keys (m : BlockMap) : List Int := m.map Prod.fst

end BlockMap

/-! ## Cache-info mirror (`m_cfi`) -/

/-- Modelled from the spec: the class `Info` (`XrdFileCacheInfo.hh`) is not among the sources.
Spec §3: buffer size, file size and three bit vectors with `bits_total` entries.  A bit vector
is the list of the indices whose bit is set. -/
structure Info where
  buffer_size : Int
  file_size : Int
  present_bits : List Int
  prefetch_bits : List Int
  write_called_bits : List Int
deriving DecidableEq, Repr

namespace Info

def GetBufferSize (c : Info) : Int := c.buffer_size

/-- Modelled from the spec: `bits_total = ⌈file_size / buffer_size⌉`. -/
def GetSizeInBits (c : Info) : Int := cdiv (c.file_size + c.buffer_size - 1) c.buffer_size

def TestBit (c : Info) (i : Int) : Bool := decide (i ∈ c.present_bits)

def TestPrefetchBit (c : Info) (i : Int) : Bool := decide (i ∈ c.prefetch_bits)

def TestWriteCalledBit (c : Info) (i : Int) : Bool := decide (i ∈ c.write_called_bits)

def SetBitFetched (c : Info) (i : Int) : Info := { c with present_bits := i :: c.present_bits }

def SetBitWriteCalled (c : Info) (i : Int) : Info :=
  { c with write_called_bits := i :: c.write_called_bits }

end Info

/-! ## Collaborators -/

/-- Modelled from the spec: the cache coordinator (`XrdFileCache.cc`) is not among the sources.
Spec §4.5.  Recorded here is what this file has done to it: the RAM-block permits it holds, the
blocks it queued for writeback, whether it is registered for prefetch.  Whether the coordinator
grants a request depends on the whole process and is an input of the operation asking. -/
structure Cache where
  ram_blocks : Int
  write_queue : List Int
  prefetch_registered : Bool
deriving DecidableEq, Repr

namespace Cache

/-- The call `RequestRAMBlock()`: the budget is decremented iff the permit is granted. -/
def RequestRAMBlock (c : Cache) (granted : Bool) : Cache :=
  if granted then { c with ram_blocks := c.ram_blocks + 1 } else c

def RAMBlockReleased (c : Cache) : Cache := { c with ram_blocks := c.ram_blocks - 1 }

def AddWriteTask (c : Cache) (b : Int) : Cache := { c with write_queue := c.write_queue ++ [b] }

/-- Modelled from the spec: §4.2, "write-queue exit (coordinator)".  The coordinator takes a block
out of the write queue, to write it (`WriteBlockToDisk`) or to drop it
(`BlockRemovedFromWriteQ`). -/
def TakeWriteTask (c : Cache) (b : Int) : Cache := { c with write_queue := c.write_queue.erase b }

def RegisterPrefetchFile (c : Cache) : Cache := { c with prefetch_registered := true }

def DeRegisterPrefetchFile (c : Cache) : Cache := { c with prefetch_registered := false }

end Cache

/-- One call `m_io->GetInput()->Read(handler, buffer, offset, length)`.  For a block fetch
`target` is the block index (the handler is a `BlockResponseHandler`); for a direct read it is
the offset in the user buffer (the handler is the shared `DirectResponseHandler`). -/
structure OriginRead where
  direct : Bool
  target : Int
  offset : Int
  length : Int
deriving DecidableEq, Repr

/-- The answers of the coordinator while `Read` classifies block index `i`. -/
structure CacheAnswers where
  HaveFreeWritingSlots : Int → Bool
  RequestRAMBlock : Int → Bool

/-! ## File -/

inductive PrefetchState where
  | kOff
  | kOn
  | kHold
  | kStopped
  | kComplete
deriving DecidableEq, Repr

structure Stats where
  m_BytesDisk : Int
  m_BytesRam : Int
  m_BytesMissed : Int
deriving DecidableEq, Repr

/-- The state of one `File`, with the configuration value it reads and the record of its calls
on the collaborators (`origin_reads`, `cache`, `sync_jobs`). -/
structure File where
  m_cfi : Info
  m_offset : Int
  m_fileSize : Int
  m_block_map : BlockMap
  m_non_flushed_cnt : Int
  m_in_sync : Bool
  m_writes_during_sync : List Int
  m_prefetchState : PrefetchState
  m_prefetchReadCnt : Int
  m_prefetchHitCnt : Int
  m_prefetchScore : ℚ
  m_stats : Stats
  m_prefetch_max_blocks : Int
  origin_reads : List OriginRead
  cache : Cache
  sync_jobs : Nat
deriving DecidableEq, Repr

/-- The values left in the output arguments of `overlap`. -/
structure Overlap where
  off : Int
  blk_off : Int
  size : Int
deriving DecidableEq, Repr

namespace File

def BufferSize (s : File) : Int := s.m_cfi.GetBufferSize

def offsetIdx (s : File) (iIdx : Int) : Int := iIdx - cdiv s.m_offset s.m_cfi.GetBufferSize

/-- The function `File::overlap`.  `out` holds the values of the three output arguments before the
call: they are left as they were when the function returns false. -/
def overlap (blk blk_size req_off req_size : Int) (out : Overlap) : Bool × Overlap :=
  let beg := blk * blk_size
  let end_ := beg + blk_size
  let req_end := req_off + req_size
  if req_off < end_ ∧ req_end > beg then
    let ovlp_beg := max beg req_off
    let ovlp_end := min end_ req_end
    (true, { off := ovlp_beg - req_off, blk_off := ovlp_beg - beg, size := ovlp_end - ovlp_beg })
  else
    (false, out)

def inc_ref_count (s : File) (b : Int) : File :=
  { s with m_block_map := s.m_block_map.modify b (fun x => { x with m_refcnt := x.m_refcnt + 1 }) }

/-- The function `File::free_block`.  `m_block_map[i]` creates the entry when it is missing, so
`erase` always removes one entry and the permit is always returned. -/
def free_block (s : File) (b : Int) : File :=
  match s.m_block_map.find b with
  | none => s
  | some blk =>
    let i := cdiv blk.m_offset s.BufferSize
    let s1 := { s with m_block_map := s.m_block_map.erase i, cache := s.cache.RAMBlockReleased }
    if s1.m_prefetchState = PrefetchState.kHold ∧ s1.m_block_map.size < s1.m_prefetch_max_blocks then
      { s1 with m_prefetchState := PrefetchState.kOn, cache := s1.cache.RegisterPrefetchFile }
    else s1

def dec_ref_count (s : File) (b : Int) : File :=
  match s.m_block_map.find b with
  | none => s
  | some blk =>
    let s1 := { s with m_block_map :=
                  s.m_block_map.modify b (fun x => { x with m_refcnt := x.m_refcnt - 1 }) }
    if blk.m_refcnt - 1 = 0 ∧ blk.is_finished = true then free_block s1 b else s1

/-- The function `File::RequestBlock`; the block returned is the one stored under key `i`. -/
def RequestBlock (s : File) (i : Int) (prefetch : Bool) : File :=
  let BS := s.m_cfi.GetBufferSize
  let last_block := s.m_cfi.GetSizeInBits - 1
  let off := i * BS
  let this_bs := if i = last_block then s.m_fileSize - off else BS
  let b := Block.create off this_bs prefetch
  let s1 := { s with
    origin_reads := s.origin_reads ++ [{ direct := false, target := i, offset := off, length := this_bs }],
    m_block_map := s.m_block_map.set i b }
  if s1.m_prefetchState = PrefetchState.kOn ∧ s1.m_block_map.size > s1.m_prefetch_max_blocks then
    { s1 with m_prefetchState := PrefetchState.kHold, cache := s1.cache.DeRegisterPrefetchFile }
  else s1

/-- The function `File::ProcessBlockResponse`; `err` is the value of `errno` left by the origin. -/
def ProcessBlockResponse (s : File) (b : Int) (res err : Int) : File :=
  match s.m_block_map.find b with
  | none => s
  | some _ =>
    if res ≥ 0 then
      let s1 := { s with m_block_map := s.m_block_map.modify b (fun x => { x with m_downloaded := true }) }
      let s2 := inc_ref_count s1 b
      { s2 with cache := s2.cache.AddWriteTask b }
    else
      let s1 := { s with m_block_map := s.m_block_map.modify b (fun x => x.set_error_and_free err) }
      inc_ref_count s1 b

def CheckPrefetchStatRAM (s : File) (b : Block) : File :=
  if s.m_prefetch_max_blocks ≠ 0 then
    if b.m_prefetch then
      { s with m_prefetchHitCnt := s.m_prefetchHitCnt + 1,
               m_prefetchScore := ((s.m_prefetchHitCnt + 1 : Int) : ℚ) / (s.m_prefetchReadCnt : ℚ) }
    else s
  else s

def CheckPrefetchStatDisk (s : File) (idx : Int) : File :=
  if s.m_prefetch_max_blocks ≠ 0 then
    if s.m_cfi.TestPrefetchBit (s.offsetIdx idx) then
      { s with m_prefetchHitCnt := s.m_prefetchHitCnt + 1 }
    else s
  else s

/-! ## Read -/

/-- The indices visited by `for (block_idx = idx_first; block_idx <= idx_last; ++block_idx)`. -/
def idxRange (first last : Int) : List Int :=
  (List.range (last - first + 1).toNat).map (fun (k : Nat) => first + (k : Int))

/-- The lists filled by the classification loop of `Read`. -/
structure ReadLists where
  blks_to_process : List Int
  blks_on_disk : List Int
  blks_direct : List Int
deriving DecidableEq, Repr

/-- The body of the classification loop of `Read` for one block index.  `RequestBlock` returns the
block it allocated with `new`, never null, so `preProcOK` stays true. -/
def Read_classify_step (ca : CacheAnswers) (acc : File × ReadLists) (block_idx : Int) :
    File × ReadLists :=
  match acc.1.m_block_map.find block_idx with
  | some _ =>
    (acc.1.inc_ref_count block_idx,
     { acc.2 with blks_to_process := block_idx :: acc.2.blks_to_process })
  | none =>
    if acc.1.m_cfi.TestBit (acc.1.offsetIdx block_idx) then
      (acc.1, { acc.2 with blks_on_disk := acc.2.blks_on_disk ++ [block_idx] })
    else if ca.HaveFreeWritingSlots block_idx && ca.RequestRAMBlock block_idx then
      let s1 := { acc.1 with cache := acc.1.cache.RequestRAMBlock true }
      let s2 := s1.RequestBlock block_idx false
      (s2.inc_ref_count block_idx,
       { acc.2 with blks_to_process := acc.2.blks_to_process ++ [block_idx] })
    else
      (acc.1, { acc.2 with blks_direct := acc.2.blks_direct ++ [block_idx] })

/-- The part of `Read` that runs under the first acquisition of the download lock. -/
def Read_classify (s : File) (ca : CacheAnswers) (idx_first idx_last : Int) : File × ReadLists :=
  (idxRange idx_first idx_last).foldl (Read_classify_step ca)
    (s, { blks_to_process := [], blks_on_disk := [], blks_direct := [] })

/-- The loop of `File::RequestBlocksDirect`, with the running `total`.  `junk` is the indeterminate
content of the uninitialised locals `off`, `blk_off`, `size`. -/
def RequestBlocksDirect_loop (req_off req_size : Int) (junk : Overlap) :
    List Int → File × Int → File × Int
  | [], acc => acc
  | ii :: rest, (s, total) =>
    let BS := s.m_cfi.GetBufferSize
    let o := (overlap ii BS req_off req_size junk).2
    let s1 := { s with origin_reads := s.origin_reads ++
      [{ direct := true, target := o.off, offset := ii * BS + o.blk_off, length := o.size }] }
    RequestBlocksDirect_loop req_off req_size junk rest (s1, total + o.size)

def RequestBlocksDirect (s : File) (blocks : List Int) (req_off req_size : Int) (junk : Overlap) :
    File × Int :=
  RequestBlocksDirect_loop req_off req_size junk blocks (s, 0)

/-- The loop of `File::ReadBlocksFromDisk`, with the running `total`; `disk_read offset size` is
the result of `m_output->Read(buffer, offset, size)`. -/
def ReadBlocksFromDisk_loop (disk_read : Int → Int → Int) (req_off req_size : Int) (junk : Overlap) :
    List Int → File × Int → File × Int
  | [], (s, total) =>
    ({ s with m_stats := { s.m_stats with m_BytesDisk := s.m_stats.m_BytesDisk + total } }, total)
  | ii :: rest, (s, total) =>
    let BS := s.m_cfi.GetBufferSize
    let o := (overlap ii BS req_off req_size junk).2
    let rs := disk_read (ii * BS + o.blk_off - s.m_offset) o.size
    if rs < 0 then (s, rs)
    else if rs ≠ o.size then (s, -1)
    else ReadBlocksFromDisk_loop disk_read req_off req_size junk rest
           (s.CheckPrefetchStatDisk ii, total + rs)

def ReadBlocksFromDisk (s : File) (disk_read : Int → Int → Int) (blocks : List Int)
    (req_off req_size : Int) (junk : Overlap) : File × Int :=
  ReadBlocksFromDisk_loop disk_read req_off req_size junk blocks (s, 0)

/-- One completion delivered by the origin to a `BlockResponseHandler`. -/
structure Response where
  blk : Int
  res : Int
  err : Int
deriving DecidableEq, Repr

/-- The calls `BlockResponseHandler::Done` made by the origin between two acquisitions of the
download lock by a reader. -/
def deliver (s : File) (batch : List Response) : File :=
  batch.foldl (fun st r => st.ProcessBlockResponse r.blk r.res r.err) s

/-- The locals of `Read` that its third phase updates. -/
structure ReadVars where
  bytes_read : Int
  errno : Option Int
  blks_to_process : List Int
  blks_processed : List Int
deriving DecidableEq, Repr

/-- The blocks of `blks_to_process` that are finished, with the block found under each key. -/
def Read_finished (s : File) (blks : List Int) : List (Int × Block) :=
  blks.filterMap (fun k =>
    match s.m_block_map.find k with
    | some b => if b.is_finished then some (k, b) else none
    | none => none)

/-- The blocks that stay in `blks_to_process`. -/
def Read_pending (s : File) (blks : List Int) : List Int :=
  blks.filter (fun k =>
    match s.m_block_map.find k with
    | some b => !b.is_finished
    | none => true)

/-- The inner loop of the third phase of `Read` over the list `finished`; the result carries
`bytes_read` and the value stored into `errno` (if any).  A failed block ends the loop. -/
def Read_consume (iUserOff iUserSize : Int) (junk : Overlap) :
    List (Int × Block) → File × Int × Option Int → File × Int × Option Int
  | [], acc => acc
  | (_, b) :: rest, (s, bytes_read, e) =>
    if b.is_ok then
      let BS := s.m_cfi.GetBufferSize
      let o := (overlap (cdiv b.m_offset BS) BS iUserOff iUserSize junk).2
      let s1 := { s with m_stats := { s.m_stats with m_BytesRam := s.m_stats.m_BytesRam + o.size } }
      Read_consume iUserOff iUserSize junk rest (s1.CheckPrefetchStatRAM b, bytes_read + o.size, e)
    else
      (s, -1, some b.m_errno)

/-- One pass through the body of `while (!blks_to_process.empty() && bytes_read >= 0)`.  When no
block is finished the reader waits on the download condition and the state is left as it is. -/
def Read_iter (iUserOff iUserSize : Int) (junk : Overlap) (s : File) (v : ReadVars) :
    File × ReadVars :=
  let finished := Read_finished s v.blks_to_process
  if finished = [] then (s, v)
  else
    let r := Read_consume iUserOff iUserSize junk finished (s, v.bytes_read, v.errno)
    (r.1, { bytes_read := r.2.1, errno := r.2.2,
            blks_to_process := Read_pending s v.blks_to_process,
            blks_processed := v.blks_processed ++ finished.map Prod.fst })

/-- The exit test of the third phase. -/
def Read_loop_done (v : ReadVars) : Bool := v.blks_to_process.isEmpty || decide (v.bytes_read < 0)

/-- The third phase of `Read`.  The origin delivers its completions in batches, one batch before
each pass; after the last batch no completion arrives any more, and a reader that still waits
then waits for ever (`none`). -/
def Read_wait_loop (iUserOff iUserSize : Int) (junk : Overlap) :
    List (List Response) → File → ReadVars → Option (File × ReadVars)
  | [], s, v =>
    if Read_loop_done v then some (s, v)
    else
      let r := Read_iter iUserOff iUserSize junk s v
      if Read_loop_done r.2 then some r else none
  | batch :: rest, s, v =>
    if Read_loop_done v then some (s, v)
    else
      let r := Read_iter iUserOff iUserSize junk (deliver s batch) v
      Read_wait_loop iUserOff iUserSize junk rest r.1 r.2

/-- The class `DirectResponseHandler`. -/
structure DirectResponseHandler where
  m_to_wait : Int
  m_errno : Int
deriving DecidableEq, Repr

namespace DirectResponseHandler

def create (to_wait : Int) : DirectResponseHandler := { m_to_wait := to_wait, m_errno := 0 }

/-- The function `DirectResponseHandler::Done`; `err` is the value of `errno` at the call. -/
def Done (h : DirectResponseHandler) (res err : Int) : DirectResponseHandler :=
  { m_to_wait := h.m_to_wait - 1, m_errno := if res < 0 then err else h.m_errno }

end DirectResponseHandler

/-- What the collaborators do during one call of `Read`. -/
structure ReadEnv where
  cache : CacheAnswers
  disk_read : Int → Int → Int
  responses : List (List Response)
  direct_done : List (Int × Int)
  junk : Overlap

/-- The outcome of `Read`: the value returned, the value it stored into `errno` (if any), and the
state of the file. -/
structure ReadResult where
  ret : Int
  errno : Option Int
  file : File
deriving DecidableEq, Repr

/-- The function `File::Read`.  `none`: the call never returns (it waits for a completion that
does not arrive). -/
def Read (s : File) (iUserOff iUserSize : Int) (env : ReadEnv) : Option ReadResult :=
  let BS := s.m_cfi.GetBufferSize
  let idx_first := cdiv iUserOff BS
  let idx_last := cdiv (iUserOff + iUserSize - 1) BS
  let c := Read_classify s env.cache idx_first idx_last
  let blks := c.2
  -- First, send out any direct requests.
  let d := if blks.blks_direct.isEmpty then (c.1, 0)
           else RequestBlocksDirect c.1 blks.blks_direct iUserOff iUserSize env.junk
  let direct_size := d.2
  if !blks.blks_direct.isEmpty ∧ direct_size < 0 then
    some { ret := -1, errno := none, file := blks.blks_to_process.foldl dec_ref_count d.1 }
  else
    -- Second, read blocks from disk.
    let k := if blks.blks_on_disk.isEmpty then (d.1, 0)
             else ReadBlocksFromDisk d.1 env.disk_read blks.blks_on_disk iUserOff iUserSize env.junk
    -- Third, loop over blocks that are available or incoming.
    match Read_wait_loop iUserOff iUserSize env.junk env.responses k.1
            { bytes_read := k.2, errno := none,
              blks_to_process := blks.blks_to_process, blks_processed := [] } with
    | none => none
    | some (s3, v) =>
      let release := fun (st : File) =>
        (v.blks_processed ++ v.blks_to_process).foldl dec_ref_count st
      -- Fourth, make sure all direct requests have arrived.
      if !blks.blks_direct.isEmpty ∧ v.bytes_read ≥ 0 then
        let h := env.direct_done.foldl (fun h r => h.Done r.1 r.2)
                   (DirectResponseHandler.create blks.blks_direct.length)
        if h.m_to_wait > 0 then none
        else if h.m_errno = 0 then
          let s4 := { s3 with m_stats :=
            { s3.m_stats with m_BytesMissed := s3.m_stats.m_BytesMissed + direct_size } }
          some { ret := v.bytes_read + direct_size, errno := v.errno, file := release s4 }
        else
          some { ret := -1, errno := some h.m_errno, file := release s3 }
      else
        some { ret := v.bytes_read, errno := v.errno, file := release s3 }

/-! ## Writeback and sync -/

/-- One result of `m_output->Write`: the value returned and the value of `errno` after the call. -/
structure WriteResult where
  ret : Int
  err : Int
deriving DecidableEq, Repr

/-- One call `m_output->Write(buff, offset, size)` with its result; `buff` is the position of the
pointer relative to the start of the block buffer. -/
structure WriteCall where
  buff : Int
  offset : Int
  size : Int
  ret : Int
deriving DecidableEq, Repr

/-- The locals of the write loop of `WriteBlockToDisk`, and the calls it has made. -/
structure WriteLoop where
  buffer_remaining : Int
  buffer_offset : Int
  buff : Int
  cnt : Int
  calls : List WriteCall
deriving DecidableEq, Repr

/-- The write loop of `File::WriteBlockToDisk`; `w n` is the result of the `n`-th call of `Write`
(counted from 0).  The second component is true when the function returns from inside the loop
(too many attempts).  Each pass increments `cnt` and the function returns once `cnt` exceeds
`PREFETCH_MAX_ATTEMPTS`, so `PREFETCH_MAX_ATTEMPTS + 1` passes are all there can be; `fuel`
bounds the passes. -/
def WriteBlockToDisk_loop (w : Nat → WriteResult) (offset : Int) : Nat → WriteLoop → WriteLoop × Bool
  | 0, st => (st, true)
  | fuel + 1, st =>
    if st.buffer_remaining > 0 then
      let r := w st.calls.length
      let call : WriteCall := { buff := st.buff, offset := offset + st.buffer_offset,
                                size := st.buffer_remaining, ret := r.ret }
      if r.ret ≠ -1 ∨ r.err = EINTR then
        let st1 : WriteLoop :=
          { buffer_remaining := st.buffer_remaining - r.ret,
            buffer_offset := st.buffer_offset,
            buff := st.buff + r.ret,
            cnt := st.cnt + 1,
            calls := st.calls ++ [call] }
        if st1.cnt > PREFETCH_MAX_ATTEMPTS then (st1, true)
        else WriteBlockToDisk_loop w offset fuel st1
      else ({ st with calls := st.calls ++ [call] }, false)
    else (st, false)

/-- The byte offset of the block in the data file, as computed by `WriteBlockToDisk`. -/
def WriteBlockToDisk_offset (s : File) (blk : Block) : Int := blk.m_offset - s.m_offset

/-- The number of bytes `WriteBlockToDisk` sets out to write. -/
def WriteBlockToDisk_size (s : File) (blk : Block) : Int :=
  let offset := WriteBlockToDisk_offset s blk
  if offset + s.m_cfi.GetBufferSize > s.m_fileSize then s.m_fileSize - offset
  else s.m_cfi.GetBufferSize

/-- The run of the write loop of `WriteBlockToDisk` for block `blk`. -/
def WriteBlockToDisk_write (s : File) (blk : Block) (w : Nat → WriteResult) : WriteLoop × Bool :=
  WriteBlockToDisk_loop w (WriteBlockToDisk_offset s blk) (PREFETCH_MAX_ATTEMPTS + 1).toNat
    { buffer_remaining := WriteBlockToDisk_size s blk, buffer_offset := 0, buff := 0, cnt := 0,
      calls := [] }

/-- The bit index `pfIdx` computed by `WriteBlockToDisk`. -/
def WriteBlockToDisk_pfIdx (s : File) (blk : Block) : Int :=
  cdiv (blk.m_offset - s.m_offset) s.m_cfi.GetBufferSize

/-- The first locked section of `WriteBlockToDisk`: `m_cfi.SetBitFetched(pfIdx)`. -/
def WriteBlockToDisk_setbit (s : File) (pfIdx : Int) : File :=
  { s with m_cfi := s.m_cfi.SetBitFetched pfIdx }

/-- The section of `WriteBlockToDisk` under the sync mutex, and the scheduling of the sync job. -/
def WriteBlockToDisk_synced (s : File) (pfIdx : Int) : File :=
  if s.m_in_sync then
    { s with m_writes_during_sync := s.m_writes_during_sync ++ [pfIdx] }
  else
    let s1 := { s with m_cfi := s.m_cfi.SetBitWriteCalled pfIdx,
                       m_non_flushed_cnt := s.m_non_flushed_cnt + 1 }
    if s1.m_non_flushed_cnt ≥ 100 then
      { s1 with m_in_sync := true, m_non_flushed_cnt := 0, sync_jobs := s1.sync_jobs + 1 }
    else s1

/-- The function `File::WriteBlockToDisk`. -/
def WriteBlockToDisk (s : File) (b : Int) (w : Nat → WriteResult) : File :=
  match s.m_block_map.find b with
  | none => s
  | some blk =>
    if (WriteBlockToDisk_write s blk w).2 then s
    else
      let pfIdx := WriteBlockToDisk_pfIdx s blk
      WriteBlockToDisk_synced (dec_ref_count (WriteBlockToDisk_setbit s pfIdx) b) pfIdx

/-- The content of the data file after a sequence of `Write` calls: a call that returned `ret > 0`
stored the `ret` bytes of the block buffer that start at `buff` at the file positions that start
at `offset`.  `buf` is the content of the block buffer, `disk` the content of the file before. -/
def disk_after (buf : Int → Nat) (disk : Int → Nat) : List WriteCall → Int → Nat
  | [], p => disk p
  | c :: rest, p =>
    disk_after buf
      (fun q => if c.offset ≤ q ∧ q < c.offset + c.ret then buf (c.buff + (q - c.offset)) else disk q)
      rest p

/-- The function `File::Sync` (the section under the sync mutex; the calls of `Fsync` and
`WriteHeader` act on the disk only). -/
def Sync (s : File) : File :=
  { s with
    m_cfi := s.m_writes_during_sync.foldl Info.SetBitWriteCalled s.m_cfi,
    m_non_flushed_cnt := (s.m_writes_during_sync.length : Int),
    m_writes_during_sync := [],
    m_in_sync := false }

def BlockRemovedFromWriteQ (s : File) (b : Int) : File := dec_ref_count s b

/-! ## Close, wake-up, prefetch, construction -/

/-- The first section of `File::ioActive`, under the state lock. -/
def ioActive_stop (s : File) : File :=
  if s.m_prefetchState ≠ PrefetchState.kStopped then
    { s with m_prefetchState := PrefetchState.kStopped, cache := s.cache.DeRegisterPrefetchFile }
  else s

/-- The loop of `File::ioActive` over the block map, under the download lock. -/
def ioActive_sweep (s : File) : File :=
  s.m_block_map.foldl
    (fun st e => if e.2.is_failed = true ∧ e.2.m_refcnt = 1 then st.free_block e.1 else st) s

/-- The function `File::ioActive`: the state it leaves and the value it returns. -/
def ioActive (s : File) : File × Bool :=
  let s2 := ioActive_sweep (ioActive_stop s)
  let blockMapEmpty := s2.m_block_map.isEmpty
  if blockMapEmpty then
    if s2.m_in_sync = false then (s2, false) else (s2, true)
  else (s2, true)

def WakeUp (s : File) : File :=
  if s.m_prefetchState ≠ PrefetchState.kComplete then { s with m_prefetchState := PrefetchState.kOn }
  else s

/-- The body of `if (bi == m_block_map.end())` in `File::Prefetch`: the block of index `f` is taken.
`ram_granted` is the answer of `RequestRAMBlock()`, which the function does not look at. -/
def Prefetch_take (s : File) (ram_granted : Bool) (f : Int) : File :=
  let s1 := { s with cache := s.cache.RequestRAMBlock ram_granted }
  let s2 := s1.RequestBlock f true
  { s2 with
    m_prefetchReadCnt := s2.m_prefetchReadCnt + 1,
    m_prefetchScore := (s2.m_prefetchHitCnt : ℚ) / ((s2.m_prefetchReadCnt + 1 : Int) : ℚ) }

/-- The body of `if (!found)` in `File::Prefetch`. -/
def Prefetch_complete (s : File) : File :=
  { s with m_prefetchState := PrefetchState.kComplete, cache := s.cache.DeRegisterPrefetchFile }

/-- The loop `for (int f = 0; f < m_cfi.GetSizeInBits(); ++f)` of `File::Prefetch`, from the
value `f` of the loop variable; the result says whether a block was taken.  `none`: the loop did
not end within `fuel` passes. -/
def Prefetch_loop (s : File) (ram_granted : Bool) : Nat → Int → Option (File × Bool)
  | 0, _ => none
  | fuel + 1, f =>
    if f < s.m_cfi.GetSizeInBits then
      if !s.m_cfi.TestBit f then
        let f1 := f + cdiv s.m_offset s.m_cfi.GetBufferSize
        match s.m_block_map.find f1 with
        | none => some (Prefetch_take s ram_granted f1, true)
        | some _ => Prefetch_loop s ram_granted fuel (f1 + 1)
      else Prefetch_loop s ram_granted fuel (f + 1)
    else some (s, false)

/-- The function `File::Prefetch`.  The loop variable grows by at least one in each pass when
`m_offset / BS` is not negative, so `GetSizeInBits + 1` passes are enough then. -/
def Prefetch (s : File) (ram_granted : Bool) : Option File :=
  if s.m_prefetchState ≠ PrefetchState.kOn then some s
  else
    match Prefetch_loop s ram_granted (s.m_cfi.GetSizeInBits.toNat + 1) 0 with
    | none => none
    | some (s1, found) =>
      if !found then some (Prefetch_complete s1)
      else some s1

end File

namespace Info

/-- Modelled from the spec: `IsComplete ≡ all present_bits set`. -/
def IsComplete (c : Info) : Bool :=
  (List.range c.GetSizeInBits.toNat).all (fun i => c.TestBit (i : Int))

/-- Modelled from the spec: a new info file has the current buffer size and file size and
all-zero bit vectors. -/
def fresh (bufferSize fileSize : Int) : Info :=
  { buffer_size := bufferSize, file_size := fileSize, present_bits := [], prefetch_bits := [],
    write_called_bits := [] }

end Info

namespace File

/-- The constructor `File::File` followed by a successful `File::Open`.  `loaded` is the content
of the info file when it existed; `bufferSize` and `prefetch_max_blocks` are the configuration
values. -/
def create (bufferSize prefetch_max_blocks iOffset iFileSize : Int) (loaded : Option Info) : File :=
  let cfi := match loaded with
    | some c => c
    | none => Info.fresh bufferSize iFileSize
  let complete := match loaded with
    | some c => c.IsComplete
    | none => false
  { m_cfi := cfi
    m_offset := iOffset
    m_fileSize := iFileSize
    m_block_map := []
    m_non_flushed_cnt := 0
    m_in_sync := false
    m_writes_during_sync := []
    m_prefetchState := if complete then PrefetchState.kComplete else PrefetchState.kOn
    m_prefetchReadCnt := 0
    m_prefetchHitCnt := 0
    m_prefetchScore := 1
    m_stats := { m_BytesDisk := 0, m_BytesRam := 0, m_BytesMissed := 0 }
    m_prefetch_max_blocks := prefetch_max_blocks
    origin_reads := []
    cache := { ram_blocks := 0, write_queue := [], prefetch_registered := !complete }
    sync_jobs := 0 }

end File

/-! ## Notions used in the statements -/

namespace File

/-- The start of block `i` clamped into the request `[off, off + size]`. -/
def clampPos (BS off size i : Int) : Int := max off (min (i * BS) (off + size))

/-- The output arguments of `overlap` for block `i` of the request `(off, size)`. -/
def ovl (BS off size : Int) (junk : Overlap) (i : Int) : Overlap := (overlap i BS off size junk).2

/-- Every block in the map is stored under the index of its offset. -/
def MapWF (s : File) : Prop :=
  ∀ k b, s.m_block_map.find k = some b → b.m_offset = k * s.m_cfi.GetBufferSize

/-- Whether the block under key `k` is in the map and finished. -/
def finished_at (s : File) (k : Int) : Bool :=
  match s.m_block_map.find k with
  | some b => b.is_finished
  | none => false

/-- The state after all the completions of a schedule have been delivered. -/
def deliverAll (s : File) (responses : List (List Response)) : File := responses.foldl deliver s

/-- The blocks for which the schedule holds a completion. -/
def responded (responses : List (List Response)) : List Int :=
  responses.flatten.map Response.blk

/-- The origin answers each fetch once: the schedule holds at most one completion for a block and
none for a block that is already finished. -/
def AnswersOnce (s : File) (responses : List (List Response)) : Prop :=
  (responded responses).Nodup ∧ ∀ k ∈ responded responses, finished_at s k = false

/-- The state of the blocks that the call `Read(off, size)` gets to see: the state after its
classification and after every completion of the schedule. -/
def Read_final (s : File) (off size : Int) (env : ReadEnv) : File :=
  let BS := s.m_cfi.GetBufferSize
  deliverAll (Read_classify s env.cache (cdiv off BS) (cdiv (off + size - 1) BS)).1 env.responses

/-- Every disk read of the call `Read(off, size)` delivers the bytes asked for. -/
def Read_disk_ok (s : File) (off size : Int) (env : ReadEnv) : Prop :=
  let BS := s.m_cfi.GetBufferSize
  ∀ i ∈ (Read_classify s env.cache (cdiv off BS) (cdiv (off + size - 1) BS)).2.blks_on_disk,
    env.disk_read (i * BS + (ovl BS off size env.junk i).blk_off - s.m_offset)
      (ovl BS off size env.junk i).size = (ovl BS off size env.junk i).size

/-- The direct request that `RequestBlocksDirect` hands to the origin for block index `i`. -/
def directRead (BS off size : Int) (junk : Overlap) (i : Int) : OriginRead :=
  { direct := true
    target := (ovl BS off size junk i).off
    offset := i * BS + (ovl BS off size junk i).blk_off
    length := (ovl BS off size junk i).size }

/-- The collaborators let the call `Read(off, size)` return: once every completion of the schedule
has been delivered each block the reader took is finished, and the direct handler has been called
once for each direct request. -/
def Read_served (s : File) (off size : Int) (env : ReadEnv) : Bool :=
  let BS := s.m_cfi.GetBufferSize
  let c := Read_classify s env.cache (cdiv off BS) (cdiv (off + size - 1) BS)
  c.2.blks_to_process.all (fun k => finished_at (deliverAll c.1 env.responses) k) &&
    decide (c.2.blks_direct.length ≤ env.direct_done.length)

end File

/-! ## The file under concurrent use

The operations of a file run on several threads.  A state of the system is the state of the file
together with the calls that are under way: the readers that have classified their blocks and not
yet released them, and the calls of `WriteBlockToDisk` that have left the write loop.  An event is
one section of code that runs under one acquisition of a lock (or one lock-free phase of `Read`),
with what the collaborators do in it. -/

/-- How far a call of `WriteBlockToDisk` has got: it has left the write loop and goes on to set
the present bit (`written`); it has set the bit (`bit_set`); it has released its reference and
has yet to enter the section under the sync mutex (`released`); it has returned from inside the
write loop, without releasing the reference taken for it (`gave_up`). -/
inductive WbStage where
  | written
  | bit_set
  | released
  | gave_up
deriving DecidableEq, Repr

namespace WbStage

/-- The call still has the reference that was taken for the writeback. -/
def holding : WbStage → Bool
  | released => false
  | _ => true

/-- The call has not set the present bit. -/
def pending : WbStage → Bool
  | written => true
  | gave_up => true
  | _ => false

end WbStage

/-- A call of `WriteBlockToDisk`: the block, the bit index `pfIdx`, the stage. -/
structure Writeback where
  blk : Int
  pfIdx : Int
  stage : WbStage
deriving DecidableEq, Repr

/-- A state of the system: the file, the blocks that each reader under way has taken (its
`blks_to_process` after the classification), the calls of `WriteBlockToDisk`. -/
structure System where
  file : File
  readers : List (List Int)
  writers : List Writeback

/-- The events of the system. -/
inductive Event where
  /-- A call of `Read` classifies its blocks. -/
  | read_begin (off size : Int) (ca : CacheAnswers)
  /-- A reader sends out its direct requests. -/
  | read_direct (off size : Int) (junk : Overlap) (blocks : List Int)
  /-- A reader reads its blocks from disk. -/
  | read_disk (disk_read : Int → Int → Int) (off size : Int) (junk : Overlap) (blocks : List Int)
  /-- A reader copies from finished blocks. -/
  | read_ram (off size : Int) (junk : Overlap) (finished : List (Int × Block))
  /-- A reader accounts the bytes of its direct requests. -/
  | read_missed (direct_size : Int)
  /-- Reader `n` releases the blocks it took, in the order `order`, and returns. -/
  | read_end (n : Nat) (order : List Int)
  /-- The origin completes the fetch of block `b`. -/
  | response (b res err : Int)
  /-- The coordinator takes block `b` from the write queue and calls `WriteBlockToDisk`, which
  runs its write loop. -/
  | wb_begin (b : Int) (w : Nat → File.WriteResult)
  /-- Call `n` of `WriteBlockToDisk` sets the present bit. -/
  | wb_set_bit (n : Nat)
  /-- Call `n` of `WriteBlockToDisk` releases its reference. -/
  | wb_dec_ref (n : Nat)
  /-- Call `n` of `WriteBlockToDisk` runs its section under the sync mutex and returns. -/
  | wb_synced (n : Nat)
  /-- The coordinator drops block `b` from the write queue (`BlockRemovedFromWriteQ`). -/
  | removed_from_writeQ (b : Int)
  /-- The scheduler runs a scheduled sync job (`DiskSyncer::DoIt`). -/
  | sync_job
  /-- A call of `Prefetch`. -/
  | prefetch (ram_granted : Bool)
  /-- The first section of `ioActive`. -/
  | ioActive_stop
  /-- The second section of `ioActive`. -/
  | ioActive_sweep
  | wakeUp

namespace System

/-- The number of references to block `k` held by readers. -/
def holds (S : System) (k : Int) : Nat := (S.readers.map (fun r => r.count k)).sum

/-- The number of calls of `WriteBlockToDisk` for block `k` whose stage satisfies `P`. -/
def calls (S : System) (P : WbStage → Bool) (k : Int) : Nat :=
  (S.writers.map (fun w => if w.blk = k ∧ P w.stage = true then 1 else 0)).sum

/-- The number of references to block `k` held for the writeback: one for each time the block is
in the write queue and one for each call of `WriteBlockToDisk` that has not released it. -/
def wbrefs (S : System) (k : Int) : Nat :=
  S.file.cache.write_queue.count k + S.calls WbStage.holding k

/-- The number of calls of `WriteBlockToDisk` that have set present bit `p` and have not yet run
the section under the sync mutex. -/
def unsynced (S : System) (p : Int) : Nat :=
  (S.writers.map (fun w =>
    if w.pfIdx = p ∧ (w.stage = WbStage.bit_set ∨ w.stage = WbStage.released) then 1 else 0)).sum

/-- The state change of an event; `none` when the event cannot happen in the state.  The guards
say what the collaborators do: the origin completes a fetch once, for a block that is in the map
and not yet answered; the coordinator hands a block of its write queue to `WriteBlockToDisk`, or
drops it; the scheduler runs a sync job that was scheduled; a reader releases, in some order, the
blocks it took.  The sections of one call of `WriteBlockToDisk` happen in their order.  The
destructor is not an event: it ends the life of the file. -/
def step (S : System) : Event → Option System
  | Event.read_begin off size ca =>
    let BS := S.file.m_cfi.GetBufferSize
    let c := S.file.Read_classify ca (cdiv off BS) (cdiv (off + size - 1) BS)
    some { S with file := c.1, readers := S.readers ++ [c.2.blks_to_process] }
  | Event.read_direct off size junk blocks =>
    some { S with file := (S.file.RequestBlocksDirect blocks off size junk).1 }
  | Event.read_disk disk_read off size junk blocks =>
    some { S with file := (S.file.ReadBlocksFromDisk disk_read blocks off size junk).1 }
  | Event.read_ram off size junk finished =>
    some { S with file := (File.Read_consume off size junk finished (S.file, 0, none)).1 }
  | Event.read_missed direct_size =>
    some { S with file := { S.file with m_stats :=
      { S.file.m_stats with m_BytesMissed := S.file.m_stats.m_BytesMissed + direct_size } } }
  | Event.read_end n order =>
    match S.readers[n]? with
    | none => none
    | some r =>
      if order.Perm r then
        some { S with file := order.foldl File.dec_ref_count S.file, readers := S.readers.eraseIdx n }
      else none
  | Event.response b res err =>
    match S.file.m_block_map.find b with
    | none => none
    | some blk =>
      if blk.is_finished then none
      else some { S with file := S.file.ProcessBlockResponse b res err }
  | Event.wb_begin b w =>
    match S.file.m_block_map.find b with
    | none => none
    | some blk =>
      if b ∈ S.file.cache.write_queue then
        some { S with
          file := { S.file with cache := S.file.cache.TakeWriteTask b }
          writers := S.writers ++
            [{ blk := b
               pfIdx := File.WriteBlockToDisk_pfIdx S.file blk
               stage := if (File.WriteBlockToDisk_write S.file blk w).2 then WbStage.gave_up
                        else WbStage.written }] }
      else none
  | Event.wb_set_bit n =>
    match S.writers[n]? with
    | none => none
    | some w =>
      if w.stage = WbStage.written then
        some { S with
          file := File.WriteBlockToDisk_setbit S.file w.pfIdx
          writers := S.writers.set n { w with stage := WbStage.bit_set } }
      else none
  | Event.wb_dec_ref n =>
    match S.writers[n]? with
    | none => none
    | some w =>
      if w.stage = WbStage.bit_set then
        some { S with
          file := S.file.dec_ref_count w.blk
          writers := S.writers.set n { w with stage := WbStage.released } }
      else none
  | Event.wb_synced n =>
    match S.writers[n]? with
    | none => none
    | some w =>
      if w.stage = WbStage.released then
        some { S with
          file := File.WriteBlockToDisk_synced S.file w.pfIdx
          writers := S.writers.eraseIdx n }
      else none
  | Event.removed_from_writeQ b =>
    if b ∈ S.file.cache.write_queue then
      some { S with file :=
        File.BlockRemovedFromWriteQ { S.file with cache := S.file.cache.TakeWriteTask b } b }
    else none
  | Event.sync_job =>
    if 0 < S.file.sync_jobs then
      some { S with file := File.Sync { S.file with sync_jobs := S.file.sync_jobs - 1 } }
    else none
  | Event.prefetch ram_granted =>
    match S.file.Prefetch ram_granted with
    | none => none
    | some f1 => some { S with file := f1 }
  | Event.ioActive_stop => some { S with file := S.file.ioActive_stop }
  | Event.ioActive_sweep => some { S with file := S.file.ioActive_sweep }
  | Event.wakeUp => some { S with file := S.file.WakeUp }

/-- The events of a list, one after the other. -/
def run (S : System) : List Event → Option System
  | [] => some S
  | e :: rest =>
    match S.step e with
    | none => none
    | some S1 => run S1 rest

/-- The system after the constructor of the file. -/
def init (bufferSize prefetch_max_blocks iOffset iFileSize : Int) (loaded : Option Info) : System :=
  { file := File.create bufferSize prefetch_max_blocks iOffset iFileSize loaded
    readers := []
    writers := [] }

/-- The states that the system reaches from the state `S0`. -/
inductive Reachable (S0 : System) : System → Prop where
  | start : Reachable S0 S0
  | step (S S1 : System) (e : Event) (hS : Reachable S0 S) (h : S.step e = some S1) :
      Reachable S0 S1

end System

namespace File

/-- The ref-counts of the blocks are accounted for by the number `T k` of references held to each
block `k`: a block in the map has ref-count `T k`, plus one when it is failed (the reference that
`ProcessBlockResponse` takes and nobody releases); a finished block in the map has a positive
ref-count; nobody holds a reference to a block that is not in the map. -/
structure Acct (s : File) (T : Int → Nat) : Prop where
  bs : 0 < s.m_cfi.GetBufferSize
  wf : s.MapWF
  nodup : (BlockMap.keys s.m_block_map).Nodup
  refs : ∀ k b, s.m_block_map.find k = some b →
    b.m_refcnt = (T k : Int) + (if b.m_failed = true then 1 else 0)
  pos : ∀ k b, s.m_block_map.find k = some b → b.is_finished = true → 1 ≤ b.m_refcnt
  absent : ∀ k, s.m_block_map.find k = none → T k = 0

/-- From `s` to `t` the blocks of the map have changed in their ref-counts only, and a block that
has come into the map is unanswered and its present bit is not set. -/
def Evolves (s t : File) : Prop :=
  ∀ k b1, t.m_block_map.find k = some b1 →
    (∃ b, s.m_block_map.find k = some b ∧ b1 = { b with m_refcnt := b1.m_refcnt }) ∨
    (s.m_block_map.find k = none ∧ b1.m_downloaded = false ∧ b1.m_failed = false ∧
      s.m_cfi.TestBit (s.offsetIdx k) = false)

/-- From `s` to `t` the blocks of the map have changed in their ref-counts only, and none has come
into the map. -/
def Shrinks (s t : File) : Prop :=
  ∀ k b1, t.m_block_map.find k = some b1 →
    ∃ b, s.m_block_map.find k = some b ∧ b1 = { b with m_refcnt := b1.m_refcnt }

/-- The part of the state that the operations on blocks leave alone. -/
def frame (s : File) : Info × Int × List Int × Bool × List Int :=
  (s.m_cfi, s.m_offset, s.cache.write_queue, s.m_in_sync, s.m_writes_during_sync)

end File

namespace System

/-- The invariant of the block map and the present bits. -/
structure Inv (S : System) : Prop where
  acct : S.file.Acct (fun k => S.holds k + S.wbrefs k)
  aligned : ∃ c : Int, S.file.m_offset = c * S.file.m_cfi.GetBufferSize
  once : ∀ k b, S.file.m_block_map.find k = some b →
    S.wbrefs k ≤ (if b.m_downloaded = true then 1 else 0)
  excl : ∀ k b, S.file.m_block_map.find k = some b → b.m_downloaded = true → b.m_failed = false
  present : ∀ k b, S.file.m_block_map.find k = some b →
    S.file.m_cfi.TestBit (S.file.offsetIdx k) = true →
    b.m_downloaded = true ∧ S.file.cache.write_queue.count k = 0 ∧
      S.calls WbStage.pending k = 0
  idx : ∀ w ∈ S.writers, w.pfIdx = S.file.offsetIdx w.blk

/-- The invariant of the present bits and the write-called bits. -/
structure InvSync (S : System) : Prop where
  bits : ∀ p, S.file.m_cfi.TestBit p = true →
    S.file.m_cfi.TestWriteCalledBit p = true ∨ p ∈ S.file.m_writes_during_sync ∨ 0 < S.unsynced p
  deferred : S.file.m_in_sync = false → S.file.m_writes_during_sync = []

end System

/-! ## Concrete inputs (spec §8: `BS = 1024`, `file_size = 3000`) -/

/-- A newly opened file of 3000 bytes cached from offset 0 with 1024-byte blocks. -/
def file3000 : File := File.create 1024 10 0 3000 none

/-- A coordinator that grants every request. -/
def grantAll : CacheAnswers := { HaveFreeWritingSlots := fun _ => true, RequestRAMBlock := fun _ => true }

/-- A coordinator with free writing slots and no RAM-block permit left. -/
def refuseRAM : CacheAnswers := { HaveFreeWritingSlots := fun _ => true, RequestRAMBlock := fun _ => false }

/-- Cold read: every permit is granted, the three blocks arrive in two batches. -/
def envCold : File.ReadEnv :=
  { cache := grantAll
    disk_read := fun _ n => n
    responses := [[{ blk := 0, res := 1024, err := 0 }],
                  [{ blk := 2, res := 952, err := 0 }, { blk := 1, res := 1024, err := 0 }]]
    direct_done := []
    junk := { off := 0, blk_off := 0, size := 0 } }

/-- Budget exhaustion (spec §8, scenario 4): no RAM-block permit, the direct request completes. -/
def envBudget : File.ReadEnv :=
  { cache := refuseRAM
    disk_read := fun _ n => n
    responses := []
    direct_done := [(1024, 0)]
    junk := { off := 0, blk_off := 0, size := 0 } }

/-- Origin failure on index 1 (spec §8, scenario 5): the fetch of block 1 fails with error 110. -/
def envFail1 : File.ReadEnv :=
  { cache := grantAll
    disk_read := fun _ n => n
    responses := [[{ blk := 0, res := 1024, err := 0 }],
                  [{ blk := 2, res := 952, err := 0 }, { blk := 1, res := -1, err := 110 }]]
    direct_done := []
    junk := { off := 0, blk_off := 0, size := 0 } }

/-- The block left in the map by a failed fetch: failed, error `err`, held by the reference that
`ProcessBlockResponse` took. -/
def failedBlock (off size err : Int) : Block :=
  { m_offset := off, m_size := size, m_prefetch := false, m_refcnt := 1, m_downloaded := false,
    m_failed := true, m_errno := err }

/-- The 3000-byte file with block 0 on disk and block 1 failed with error 110. -/
def fileDisk0Failed1 : File :=
  { file3000 with
    m_cfi := { file3000.m_cfi with present_bits := [0], write_called_bits := [0] }
    m_block_map := [(1, failedBlock 1024 1024 110)] }

/-- The 3000-byte file with block 0 failed with error 5 and block 1 failed with error 7. -/
def fileFailed01 : File :=
  { file3000 with m_block_map := [(0, failedBlock 0 1024 5), (1, failedBlock 1024 1024 7)] }

/-- The disk backend fails every read (`-1`, POSIX convention); the origin delivers nothing. -/
def envDiskError : File.ReadEnv :=
  { cache := grantAll
    disk_read := fun _ _ => -1
    responses := []
    direct_done := []
    junk := { off := 0, blk_off := 0, size := 0 } }

/-- Nothing fails and the origin delivers nothing. -/
def envIdle : File.ReadEnv :=
  { cache := grantAll
    disk_read := fun _ n => n
    responses := []
    direct_done := []
    junk := { off := 0, blk_off := 0, size := 0 } }

/-- The 3000-byte file with block 0 failed and held by `ProcessBlockResponse` only, block 1
downloaded, and block 2 failed and still held by a reader. -/
def fileMixed : File :=
  { file3000 with
    m_block_map :=
      [(0, failedBlock 0 1024 5),
       (1, { m_offset := 1024, m_size := 1024, m_prefetch := false, m_refcnt := 1,
             m_downloaded := true, m_failed := false, m_errno := 0 }),
       (2, { failedBlock 2048 952 7 with m_refcnt := 2 })] }

/-! ### Writeback of one block -/

/-- A 4-byte file with 4-byte blocks whose block 0 has been prefetched and downloaded: the block is
in the map with the one reference that `ProcessBlockResponse` took for the writeback. -/
def fileTiny : File :=
  (((File.create 4 10 0 4 none).Prefetch true).getD (File.create 4 10 0 4 none)).ProcessBlockResponse
    0 4 0

/-- Block 0 of `fileTiny`. -/
def blockTiny : Block :=
  { m_offset := 0, m_size := 4, m_prefetch := true, m_refcnt := 1, m_downloaded := true,
    m_failed := false, m_errno := 0 }

/-- The bytes `10, 20, 30, 40` in the buffer of the block (0 elsewhere). -/
def bufTiny (p : Int) : Nat :=
  if p = 0 then 10 else if p = 1 then 20 else if p = 2 then 30 else if p = 3 then 40 else 0

/-- An empty data file. -/
def diskEmpty (_ : Int) : Nat := 0

/-- The disk accepts two bytes at each call of `Write`. -/
def writeShort (_ : Nat) : File.WriteResult := { ret := 2, err := 0 }

/-- The first call of `Write` fails with `EIO`. -/
def writeEIO (_ : Nat) : File.WriteResult := { ret := -1, err := 5 }

/-- Every call of `Write` accepts no byte. -/
def writeNothing (_ : Nat) : File.WriteResult := { ret := 0, err := 0 }

/-- A `Write` that stores all of the `n` bytes it is given. -/
def writeAll (n : Int) (_ : Nat) : File.WriteResult := { ret := n, err := 0 }

/-- A reader takes block 0, the origin answers, and the block is written back while the reader
still holds it. -/
def runHeld : List Event :=
  [Event.read_begin 0 1024 grantAll, Event.response 0 1024 0, Event.wb_begin 0 (writeAll 1024),
   Event.wb_set_bit 0, Event.wb_dec_ref 0, Event.wb_synced 0]

/-- The life of a prefetched block `i` of one byte: taken by `Prefetch`, answered by the origin,
written back. -/
def prefetchCycle (i : Int) : List Event :=
  [Event.prefetch true, Event.response i 1 0, Event.wb_begin i (writeAll 1), Event.wb_set_bit 0,
   Event.wb_dec_ref 0, Event.wb_synced 0]

/-- The lives of the `n` first blocks, one after the other. -/
def prefetchCycles (n : Nat) : List Event :=
  ((List.range n).map (fun (k : Nat) => prefetchCycle (k : Int))).flatten

/-- The state at the end of `runHeld`. -/
def sysHeld : System :=
  ((System.init 1024 10 0 3000 none).run runHeld).getD (System.init 1024 10 0 3000 none)

/-- Block 0 in the state `sysHeld`. -/
def blockHeld : Block :=
  { m_offset := 0, m_size := 1024, m_prefetch := false, m_refcnt := 1, m_downloaded := true,
    m_failed := false, m_errno := 0 }

end XrdFileCache
namespace XrdFileCache

/-! ## The ref-count discipline: notions -/

namespace System

/-- The invariant of the ref-counts: the accounting, at most one reference for the writeback of a
block, and that only of a downloaded block; a block is not both downloaded and failed; a reader
holds a block once. -/
structure InvRef (S : System) : Prop where
  acct : S.file.Acct (fun k => S.holds k + S.wbrefs k)
  once : ∀ k b, S.file.m_block_map.find k = some b →
    S.wbrefs k ≤ (if b.m_downloaded = true then 1 else 0)
  excl : ∀ k b, S.file.m_block_map.find k = some b → b.m_downloaded = true → b.m_failed = false
  readers_nodup : ∀ r ∈ S.readers, r.Nodup

/-- Whether block `k` is in writeback: it is in the write queue, or a call of `WriteBlockToDisk`
for it has yet to release its reference (1 or 0). -/
def in_writeback (S : System) (k : Int) : Nat :=
  if k ∈ S.file.cache.write_queue ∨
      ∃ w ∈ S.writers, w.blk = k ∧ (w.stage = WbStage.written ∨ w.stage = WbStage.bit_set)
  then 1 else 0

end System

namespace File

/-- Whether each call of a sequence of calls of `dec_ref_count` is for a block of the map and
passes the assertion `b->m_refcnt >= 0`. -/
def dec_ref_asserts (s : File) : List Int → Bool
  | [] => true
  | b :: rest =>
    (match s.m_block_map.find b with
     | some blk => decide (0 ≤ blk.m_refcnt - 1)
     | none => false) && dec_ref_asserts (s.dec_ref_count b) rest

end File

namespace System

/-- The calls of `dec_ref_count` that an event makes: the state of the file at the first call and
the blocks of the calls, in their order. -/
def dec_refs (S : System) : Event → File × List Int
  | Event.read_end _ order => (S.file, order)
  | Event.wb_dec_ref n =>
    match S.writers[n]? with
    | some w => (S.file, [w.blk])
    | none => (S.file, [])
  | Event.removed_from_writeQ b =>
    ({ S.file with cache := S.file.cache.TakeWriteTask b }, [b])
  | _ => (S.file, [])

end System

end XrdFileCache

namespace XrdFileCache

/-! ## Concrete inputs for the ref-count discipline -/

/-- The state after one call of `Prefetch` on the new file of 3000 bytes. -/
def sysPrefetched : System :=
  ((System.init 1024 10 0 3000 none).run [Event.prefetch true]).getD
    (System.init 1024 10 0 3000 none)

/-- Block 0 in the state `sysPrefetched`. -/
def blockPrefetched : Block :=
  { m_offset := 0, m_size := 1024, m_prefetch := true, m_refcnt := 0, m_downloaded := false,
    m_failed := false, m_errno := 0 }

/-- A reader takes block 0, the origin fails the fetch with error 5, and the reader releases the
block. -/
def runFailed : List Event :=
  [Event.read_begin 0 1024 grantAll, Event.response 0 (-1) 5, Event.read_end 0 [0]]

/-- The state at the end of `runFailed`. -/
def sysFailed : System :=
  ((System.init 1024 10 0 3000 none).run runFailed).getD (System.init 1024 10 0 3000 none)

/-- Block 0 in the state `sysFailed`. -/
def blockFailedKept : Block :=
  { m_offset := 0, m_size := 1024, m_prefetch := false, m_refcnt := 1, m_downloaded := false,
    m_failed := true, m_errno := 5 }

end XrdFileCache

namespace XrdFileCache

/-! ## The references of a reader -/

namespace File

/-- The ref-count of block `k`; 0 when the block is not in the map. -/
def refcnt_of (s : File) (k : Int) : Int :=
  match s.m_block_map.find k with
  | some b => b.m_refcnt
  | none => 0

/-- The calls of `dec_ref_count` that a call of `File::Read` makes before it returns: the state of
the file at the first of them and the blocks of the calls, in their order.  `none`: the call never
returns.  The function follows `Read` path by path. -/
def Read_release (s : File) (iUserOff iUserSize : Int) (env : ReadEnv) : Option (File × List Int) :=
  let BS := s.m_cfi.GetBufferSize
  let idx_first := cdiv iUserOff BS
  let idx_last := cdiv (iUserOff + iUserSize - 1) BS
  let c := Read_classify s env.cache idx_first idx_last
  let blks := c.2
  let d := if blks.blks_direct.isEmpty then (c.1, 0)
           else RequestBlocksDirect c.1 blks.blks_direct iUserOff iUserSize env.junk
  let direct_size := d.2
  if !blks.blks_direct.isEmpty ∧ direct_size < 0 then
    some (d.1, blks.blks_to_process)
  else
    let k := if blks.blks_on_disk.isEmpty then (d.1, 0)
             else ReadBlocksFromDisk d.1 env.disk_read blks.blks_on_disk iUserOff iUserSize env.junk
    match Read_wait_loop iUserOff iUserSize env.junk env.responses k.1
            { bytes_read := k.2, errno := none,
              blks_to_process := blks.blks_to_process, blks_processed := [] } with
    | none => none
    | some (s3, v) =>
      if !blks.blks_direct.isEmpty ∧ v.bytes_read ≥ 0 then
        let h := env.direct_done.foldl (fun h r => h.Done r.1 r.2)
                   (DirectResponseHandler.create blks.blks_direct.length)
        if h.m_to_wait > 0 then none
        else if h.m_errno = 0 then
          let s4 := { s3 with m_stats :=
            { s3.m_stats with m_BytesMissed := s3.m_stats.m_BytesMissed + direct_size } }
          some (s4, v.blks_processed ++ v.blks_to_process)
        else
          some (s3, v.blks_processed ++ v.blks_to_process)
      else
        some (s3, v.blks_processed ++ v.blks_to_process)

end File

end XrdFileCache

namespace XrdFileCache

/-! ## Sequences of writebacks -/

namespace File

/-- The calls of `WriteBlockToDisk` of a list (block and results of `Write`), one after the
other. -/
def WriteBlockToDisk_all (s : File) : List (Int × (Nat → WriteResult)) → File
  | [] => s
  | c :: rest => WriteBlockToDisk_all (WriteBlockToDisk s c.1 c.2) rest

/-- Each call of the list is for a block of the map and leaves its write loop by the end of the
loop (it does not give up). -/
def Writebacks_done (s : File) : List (Int × (Nat → WriteResult)) → Prop
  | [] => True
  | c :: rest =>
    (∃ blk, s.m_block_map.find c.1 = some blk ∧ (WriteBlockToDisk_write s blk c.2).2 = false) ∧
    Writebacks_done (WriteBlockToDisk s c.1 c.2) rest

end File

end XrdFileCache

namespace XrdFileCache

/-! ## The prefetch state: notions -/

namespace File

/-- A fetch of block `k` into a block of the cache has been requested from the origin. -/
def requested (s : File) (k : Int) : Prop :=
  ∃ rd ∈ s.origin_reads, rd.direct = false ∧ rd.target = k

/-- In the prefetch state Hold the block map has at least `prefetch_max_blocks` entries. -/
def HoldOK (s : File) : Prop :=
  s.m_prefetchState = PrefetchState.kHold → s.m_prefetch_max_blocks ≤ s.m_block_map.size

/-- What the operations other than the completion of the prefetch keep from a state `s` to a
state `t`: the geometry of the file, the present bits that are set, the requests made, that a block
comes into the map by a request only, that the prefetch state does not become Complete, and
`HoldOK`. -/
structure Tracks (s t : File) : Prop where
  bs : t.m_cfi.GetBufferSize = s.m_cfi.GetBufferSize
  bits_total : t.m_cfi.GetSizeInBits = s.m_cfi.GetSizeInBits
  offset : t.m_offset = s.m_offset
  present : ∀ i, s.m_cfi.TestBit i = true → t.m_cfi.TestBit i = true
  reads : ∀ k, s.requested k → t.requested k
  inmap : ∀ k, t.m_block_map.find k ≠ none → s.m_block_map.find k ≠ none ∨ t.requested k
  complete : t.m_prefetchState = PrefetchState.kComplete →
    s.m_prefetchState = PrefetchState.kComplete
  hold : s.HoldOK → t.HoldOK

/-- From `s` to `t` only counters, statistics, the record of the coordinator and the log of the
origin reads have changed, the log by additions at its end. -/
def Same (s t : File) : Prop :=
  t.m_cfi = s.m_cfi ∧ t.m_offset = s.m_offset ∧ t.m_block_map = s.m_block_map ∧
  t.m_prefetchState = s.m_prefetchState ∧ t.m_prefetch_max_blocks = s.m_prefetch_max_blocks ∧
  ∃ F, t.origin_reads = s.origin_reads ++ F

end File

end XrdFileCache

namespace XrdFileCache

/-- A file that covers the bytes 1024..4095 of its origin in three blocks of 1024 bytes (block
indices 1, 2, 3; bits 0, 1, 2), after a reader has taken block 1. -/
def sysShifted : System :=
  ((System.init 1024 10 1024 3072 none).run [Event.read_begin 1024 1024 grantAll]).getD
    (System.init 1024 10 1024 3072 none)

/-- A file with `prefetch_max_blocks = 1` after a reader has taken its blocks 0 and 1. -/
def sysHold : System :=
  ((System.init 1024 1 0 3000 none).run [Event.read_begin 0 2048 grantAll]).getD
    (System.init 1024 1 0 3000 none)

end XrdFileCache

namespace XrdFileCache

namespace File

namespace DirectResponseHandler

/-- Whether the call of `DirectResponseHandler::Done` on the handler `h` signals the condition:
the test `m_to_wait == 0` after `--m_to_wait`. -/
def Done_signals (h : DirectResponseHandler) : Bool := decide (h.m_to_wait - 1 = 0)

/-- The handler created for `n` requests after the completions `rs` (result and `errno` of each
call of `Done`, in their order). -/
def after (n : Int) (rs : List (Int × Int)) : DirectResponseHandler :=
  rs.foldl (fun h r => h.Done r.1 r.2) (DirectResponseHandler.create n)

/-- The `errno` of the last failing completion of `rs`, 0 when none fails. -/
def last_error (rs : List (Int × Int)) : Int :=
  (((rs.filter (fun r => decide (r.1 < 0))).getLast?).map Prod.snd).getD 0

end DirectResponseHandler

end File

namespace File

/-- The number of RAM-block permits that the file has taken and not returned is the number of
blocks in its map. -/
def PermitsOK (s : File) : Prop := s.cache.ram_blocks = s.m_block_map.size

/-- The buffer size is positive, every block is stored under the index of its offset, and no key
occurs twice in the map. -/
def MapOK (s : File) : Prop :=
  0 < s.m_cfi.GetBufferSize ∧ s.MapWF ∧ (BlockMap.keys s.m_block_map).Nodup

end File

/-- The coordinator refuses the RAM-block permit of `Prefetch`; the origin fails the fetch, and
the file is closed. -/
def runUnpermitted : List Event :=
  [Event.prefetch false, Event.response 0 (-1) 5, Event.ioActive_stop, Event.ioActive_sweep]

/-- The state after the first event of `runUnpermitted`. -/
def sysUnpermitted : System :=
  ((System.init 1024 10 0 3000 none).run [Event.prefetch false]).getD
    (System.init 1024 10 0 3000 none)

/-- The state at the end of `runUnpermitted`. -/
def sysUnpermittedClosed : System :=
  ((System.init 1024 10 0 3000 none).run runUnpermitted).getD (System.init 1024 10 0 3000 none)

/-- A file whose offset 100 is not a multiple of the buffer size 1024. -/
def fileUnaligned : File := File.create 1024 10 100 3000 none

/-- The new file of 3000 bytes under the configuration `prefetch_max_blocks = 0`. -/
def fileNoPrefetch : File := File.create 1024 0 0 3000 none

/-- The info file of a file of 3000 bytes whose block 1 was prefetched and written in an earlier
life of the cache. -/
def infoPrefetched1 : Info :=
  { buffer_size := 1024, file_size := 3000, present_bits := [1], prefetch_bits := [1],
    write_called_bits := [1] }

/-- The file opened with the info file `infoPrefetched1`, after `Prefetch` has taken block 0. -/
def fileScore : File :=
  ((File.create 1024 10 0 3000 (some infoPrefetched1)).Prefetch true).getD
    (File.create 1024 10 0 3000 (some infoPrefetched1))

/-- No RAM-block permit is left, the disk delivers what is asked, and the origin has completed
nothing yet: neither a block fetch nor a direct read. -/
def envDirectPending : File.ReadEnv :=
  { cache := refuseRAM
    disk_read := fun _ n => n
    responses := []
    direct_done := []
    junk := { off := 0, blk_off := 0, size := 0 } }

/-- As `envDirectPending`, with a disk that fails every read. -/
def envDirectPendingDiskError : File.ReadEnv :=
  { cache := refuseRAM
    disk_read := fun _ _ => -1
    responses := []
    direct_done := []
    junk := { off := 0, blk_off := 0, size := 0 } }

/-- Every permit is granted, the origin delivers block 0, and the locals that `overlap` is to
fill hold 7, 8 and 77 before the call. -/
def envJunk : File.ReadEnv :=
  { cache := grantAll
    disk_read := fun _ n => n
    responses := [[{ blk := 0, res := 1024, err := 0 }]]
    direct_done := []
    junk := { off := 7, blk_off := 8, size := 77 } }

end XrdFileCache

namespace XrdFileCache

namespace File

/-- The test of `Writebacks_done`, computed: each call of the list finds its block in the map and
leaves the write loop without giving up. -/
def Writebacks_ok (s : File) : List (Int × (Nat → WriteResult)) → Bool
  | [] => true
  | c :: rest =>
    (match s.m_block_map.find c.1 with
     | some blk => !(WriteBlockToDisk_write s blk c.2).2
     | none => false) &&
    Writebacks_ok (WriteBlockToDisk s c.1 c.2) rest

end File

/-- A downloaded block of one byte at offset `k`, held by the reference that
`ProcessBlockResponse` took for the writeback. -/
def blockByte (k : Nat) : Block :=
  { m_offset := (k : Int), m_size := 1, m_prefetch := false, m_refcnt := 1, m_downloaded := true,
    m_failed := false, m_errno := 0 }

/-- A file of 101 bytes with blocks of one byte, all 101 of them downloaded and in the map,
waiting for their writeback. -/
def file101 : File :=
  { File.create 1 200 0 101 none with
    m_block_map := (List.range 101).map (fun (k : Nat) => ((k : Int), blockByte k)) }

/-- The writebacks of the blocks 0 to 100 of `file101`, in their order, each with a `Write` that
stores the byte. -/
def writeback101 : List (Int × (Nat → File.WriteResult)) :=
  (List.range 101).map (fun (k : Nat) => ((k : Int), writeAll 1))

end XrdFileCache

/-! ## The client provider of XrdSsi (`XrdSsiClient.cc`) -/

namespace XrdSsi

/-- The conversion `static_cast<short>(x)` of an `int`: the value of `x` modulo `2^16` in the
range of `short`. -/
def toShort (x : Int) : Int := (x + 32768) % 65536 - 32768

/-- The value of an `int` expression whose mathematical value is `x`: `x` modulo `2^32` in the
range of `int`. -/
def toInt (x : Int) : Int := (x + 2147483648) % 4294967296 - 2147483648

/-- The globals `maxTCB` and `maxCLW` of `XrdSsiClient.cc` (both `short`). -/
structure Globals where
  maxTCB : Int
  maxCLW : Int
deriving DecidableEq, Repr

/-- The initial values `maxTCB = 300`, `maxCLW = 30`. -/
def Globals.initial : Globals := { maxTCB := 300, maxCLW := 30 }

/-- The function `XrdSsiClientProvider::SetCBThreads`. -/
def SetCBThreads (g : Globals) (cbNum ntNum : Int) : Globals :=
  if cbNum > 1 then
    let cbNum1 := if cbNum < 32767 then 32767 else cbNum
    let ntNum1 := if ntNum < 1 then XrdFileCache.cdiv (toInt (cbNum1 * 10)) 100 else ntNum
    let ntNum2 := if ntNum1 < 3 then 0 else ntNum1
    { maxTCB := toShort cbNum1, maxCLW := toShort ntNum2 }
  else g

end XrdSsi

/-! # Theorems -/

namespace XrdFileCache

open File

/-! ## Arithmetic of `overlap` -/

theorem mem_idxRange (first last i : Int) : i ∈ idxRange first last ↔ first ≤ i ∧ i ≤ last := by
  unfold idxRange
  simp only [List.mem_map, List.mem_range]
  constructor
  · rintro ⟨k, hk, rfl⟩
    omega
  · rintro ⟨h1, h2⟩
    refine ⟨(i - first).toNat, ?_, ?_⟩ <;> omega

theorem cdiv_bounds (BS a : Int) (hBS : 0 < BS) (ha : 0 ≤ a) :
    cdiv a BS * BS ≤ a ∧ a < (cdiv a BS + 1) * BS := by
  unfold cdiv
  rw [Int.tdiv_eq_ediv ha (le_of_lt hBS)]
  exact ⟨Int.ediv_mul_le a (ne_of_gt hBS), Int.lt_ediv_add_one_mul_self a hBS⟩

theorem overlap_in_range (BS off size i : Int) (junk : Overlap) (hBS : 0 < BS) (hoff : 0 ≤ off)
    (hsize : 0 < size) (hi : i ∈ idxRange (cdiv off BS) (cdiv (off + size - 1) BS)) :
    (overlap i BS off size junk).1 = true ∧
    (overlap i BS off size junk).2.off = clampPos BS off size i - off ∧
    (overlap i BS off size junk).2.blk_off = clampPos BS off size i - i * BS ∧
    (overlap i BS off size junk).2.size = clampPos BS off size (i + 1) - clampPos BS off size i ∧
    0 < (overlap i BS off size junk).2.size ∧
    (overlap i BS off size junk).2.size ≤ BS := by
  rw [mem_idxRange] at hi
  obtain ⟨hf1, hf2⟩ := cdiv_bounds BS off hBS hoff
  obtain ⟨hl1, hl2⟩ := cdiv_bounds BS (off + size - 1) hBS (by omega)
  have e1 : cdiv off BS * BS ≤ i * BS := Int.mul_le_mul_of_nonneg_right hi.1 (le_of_lt hBS)
  have e2 : i * BS ≤ cdiv (off + size - 1) BS * BS :=
    Int.mul_le_mul_of_nonneg_right hi.2 (le_of_lt hBS)
  have e3 : (cdiv off BS + 1) * BS ≤ (i + 1) * BS :=
    Int.mul_le_mul_of_nonneg_right (by omega) (le_of_lt hBS)
  have e4 : (i + 1) * BS ≤ (cdiv (off + size - 1) BS + 1) * BS :=
    Int.mul_le_mul_of_nonneg_right (by omega) (le_of_lt hBS)
  have e5 : (i + 1) * BS = i * BS + BS := by ring
  have hc : off < i * BS + BS ∧ off + size > i * BS := by constructor <;> omega
  unfold overlap clampPos
  simp only [hc, and_self, if_true]
  refine ⟨trivial, ?_, ?_, ?_, ?_, ?_⟩ <;> (try simp only [e5]) <;> omega

theorem cdiv_mono_range (BS off size : Int) (hBS : 0 < BS) (hoff : 0 ≤ off) (hsize : 0 < size) :
    cdiv off BS ≤ cdiv (off + size - 1) BS := by
  obtain ⟨hf1, _⟩ := cdiv_bounds BS off hBS hoff
  obtain ⟨_, hl2⟩ := cdiv_bounds BS (off + size - 1) hBS (by omega)
  by_contra hlt
  have h1 : cdiv (off + size - 1) BS + 1 ≤ cdiv off BS := by omega
  have h2 : (cdiv (off + size - 1) BS + 1) * BS ≤ cdiv off BS * BS :=
    Int.mul_le_mul_of_nonneg_right h1 (le_of_lt hBS)
  omega

theorem sum_telescope (h : Int → Int) (a : Int) (n : Nat) :
    ((List.range n).map (fun (k : Nat) => h (a + (k : Int) + 1) - h (a + (k : Int)))).sum
      = h (a + (n : Int)) - h a := by
  induction n with
  | zero => simp
  | succ n ih =>
    rw [List.range_succ, List.map_append, List.sum_append, ih]
    simp only [List.map_cons, List.map_nil, List.sum_cons, List.sum_nil, Nat.cast_succ]
    have e : a + ((n : Int) + 1) = a + (n : Int) + 1 := by ring
    rw [e]
    ring

theorem clampPos_first (BS off size : Int) (hBS : 0 < BS) (hoff : 0 ≤ off) (_hsize : 0 < size) :
    clampPos BS off size (cdiv off BS) = off := by
  obtain ⟨hf1, _⟩ := cdiv_bounds BS off hBS hoff
  unfold clampPos
  omega

theorem clampPos_last (BS off size : Int) (hBS : 0 < BS) (hoff : 0 ≤ off) (hsize : 0 < size) :
    clampPos BS off size (cdiv (off + size - 1) BS + 1) = off + size := by
  obtain ⟨_, hl2⟩ := cdiv_bounds BS (off + size - 1) hBS (by omega)
  unfold clampPos
  omega

theorem sum_ovl_size (BS off size : Int) (junk : Overlap) (hBS : 0 < BS) (hoff : 0 ≤ off)
    (hsize : 0 < size) :
    ((idxRange (cdiv off BS) (cdiv (off + size - 1) BS)).map
        (fun i => (ovl BS off size junk i).size)).sum = size := by
  have hcongr : (idxRange (cdiv off BS) (cdiv (off + size - 1) BS)).map
        (fun i => (ovl BS off size junk i).size)
      = (idxRange (cdiv off BS) (cdiv (off + size - 1) BS)).map
        (fun i => clampPos BS off size (i + 1) - clampPos BS off size i) := by
    apply List.map_congr_left
    intro i hi
    exact (overlap_in_range BS off size i junk hBS hoff hsize hi).2.2.2.1
  rw [hcongr]
  unfold idxRange
  rw [List.map_map]
  have hle := cdiv_mono_range BS off size hBS hoff hsize
  have := sum_telescope (clampPos BS off size) (cdiv off BS)
    (cdiv (off + size - 1) BS - cdiv off BS + 1).toNat
  simp only [Function.comp_def]
  rw [this, Int.toNat_of_nonneg (by omega)]
  have e : cdiv off BS + (cdiv (off + size - 1) BS - cdiv off BS + 1)
      = cdiv (off + size - 1) BS + 1 := by ring
  rw [e, clampPos_first BS off size hBS hoff hsize, clampPos_last BS off size hBS hoff hsize]
  ring

/-! ## Block map -/

namespace BlockMap

@[simp] theorem find_nil (i : Int) : find [] i = none := rfl

theorem find_cons (k : Int) (b : Block) (m : BlockMap) (i : Int) :
    find ((k, b) :: m) i = if k = i then some b else find m i := rfl

theorem find_erase (m : BlockMap) (i j : Int) :
    find (erase m i) j = if j = i then none else find m j := by
  induction m with
  | nil => simp [erase]
  | cons e m ih =>
    obtain ⟨k, b⟩ := e
    unfold erase at ih ⊢
    by_cases hk : k = i
    · subst hk
      simp only [List.filter_cons, ne_eq, not_true_eq_false, decide_False, Bool.false_eq_true,
        if_false, ih, find_cons]
      by_cases hj : j = k
      · simp [hj]
      · have : ¬ k = j := fun h => hj h.symm
        simp [hj, this]
    · simp only [List.filter_cons, ne_eq, hk, not_false_eq_true, decide_True, if_true, find_cons, ih]
      by_cases hj : j = i
      · subst hj; simp [hk]
      · simp [hj]

theorem find_set (m : BlockMap) (i : Int) (b : Block) (j : Int) :
    find (set m i b) j = if j = i then some b else find m j := by
  unfold set
  rw [find_cons, find_erase]
  by_cases hj : j = i
  · subst hj; simp
  · have : ¬ i = j := fun h => hj h.symm
    simp [hj, this]

theorem find_modify (m : BlockMap) (i : Int) (f : Block → Block) (j : Int) :
    find (modify m i f) j = if j = i then (find m i).map f else find m j := by
  induction m with
  | nil => simp [modify]
  | cons e m ih =>
    obtain ⟨k, b⟩ := e
    unfold modify at ih ⊢
    simp only [List.map_cons]
    by_cases hk : k = i
    · subst hk
      simp only [if_true, find_cons, ih]
      by_cases hj : j = k
      · subst hj; simp
      · have : ¬ k = j := fun h => hj h.symm
        simp [hj, this]
    · simp only [hk, if_false, find_cons, ih]
      by_cases hj : j = i
      · subst hj; simp [hk]
      · simp [hj]

end BlockMap

/-! ## Frame lemmas: what each operation leaves unchanged -/

namespace File

@[simp] theorem inc_ref_count_cfi (s : File) (b : Int) : (s.inc_ref_count b).m_cfi = s.m_cfi := rfl

@[simp] theorem inc_ref_count_map (s : File) (b : Int) :
    (s.inc_ref_count b).m_block_map
      = s.m_block_map.modify b (fun x => { x with m_refcnt := x.m_refcnt + 1 }) := rfl

@[simp] theorem RequestBlock_cfi (s : File) (i : Int) (p : Bool) :
    (s.RequestBlock i p).m_cfi = s.m_cfi := by
  unfold RequestBlock
  dsimp only
  split_ifs <;> rfl

theorem RequestBlock_map (s : File) (i : Int) (p : Bool) :
    (s.RequestBlock i p).m_block_map
      = s.m_block_map.set i
          (Block.create (i * s.m_cfi.GetBufferSize)
            (if i = s.m_cfi.GetSizeInBits - 1 then s.m_fileSize - i * s.m_cfi.GetBufferSize
             else s.m_cfi.GetBufferSize) p) := by
  unfold RequestBlock
  dsimp only
  split_ifs <;> rfl

theorem RequestBlock_origin_reads (s : File) (i : Int) (p : Bool) :
    (s.RequestBlock i p).origin_reads
      = s.origin_reads ++
          [{ direct := false
             target := i
             offset := i * s.m_cfi.GetBufferSize
             length := (if i = s.m_cfi.GetSizeInBits - 1 then s.m_fileSize - i * s.m_cfi.GetBufferSize
                        else s.m_cfi.GetBufferSize) }] := by
  unfold RequestBlock
  dsimp only
  split_ifs <;> rfl

@[simp] theorem RequestBlock_stats (s : File) (i : Int) (p : Bool) :
    (s.RequestBlock i p).m_stats = s.m_stats := by
  unfold RequestBlock
  dsimp only
  split_ifs <;> rfl

@[simp] theorem ProcessBlockResponse_cfi (s : File) (b res err : Int) :
    (s.ProcessBlockResponse b res err).m_cfi = s.m_cfi := by
  unfold ProcessBlockResponse
  cases s.m_block_map.find b with
  | none => rfl
  | some _ => dsimp only; split_ifs <;> rfl

/-- The block map after a completion, as a function of the block map before. -/
theorem ProcessBlockResponse_map (s : File) (b res err : Int) :
    (s.ProcessBlockResponse b res err).m_block_map =
      match s.m_block_map.find b with
      | none => s.m_block_map
      | some _ =>
        if res ≥ 0 then
          (s.m_block_map.modify b (fun x => { x with m_downloaded := true })).modify b
            (fun x => { x with m_refcnt := x.m_refcnt + 1 })
        else
          (s.m_block_map.modify b (fun x => x.set_error_and_free err)).modify b
            (fun x => { x with m_refcnt := x.m_refcnt + 1 }) := by
  unfold ProcessBlockResponse
  cases s.m_block_map.find b with
  | none => rfl
  | some _ => dsimp only; split_ifs <;> rfl

theorem ProcessBlockResponse_map_congr (s t : File) (b res err : Int)
    (h : s.m_block_map = t.m_block_map) :
    (s.ProcessBlockResponse b res err).m_block_map
      = (t.ProcessBlockResponse b res err).m_block_map := by
  rw [ProcessBlockResponse_map, ProcessBlockResponse_map, h]

/-- The entry of key `j` after a completion for block `b`. -/
theorem find_ProcessBlockResponse (s : File) (b res err j : Int) :
    (s.ProcessBlockResponse b res err).m_block_map.find j =
      if j = b then
        (s.m_block_map.find b).map (fun x =>
          if res ≥ 0 then { x with m_downloaded := true, m_refcnt := x.m_refcnt + 1 }
          else { x with m_errno := err, m_failed := true, m_refcnt := x.m_refcnt + 1 })
      else s.m_block_map.find j := by
  rw [ProcessBlockResponse_map]
  cases hfb : s.m_block_map.find b with
  | none =>
    by_cases hj : j = b
    · subst hj; simp [hfb]
    · simp [hj]
  | some x =>
    by_cases hr : res ≥ 0
    · simp only [hr, if_true, BlockMap.find_modify, hfb]
      by_cases hj : j = b
      · simp [hj]
      · simp [hj]
    · simp only [hr, if_false, BlockMap.find_modify, hfb]
      by_cases hj : j = b
      · simp [hj, Block.set_error_and_free]
      · simp [hj]

@[simp] theorem deliver_cfi (s : File) (batch : List Response) : (deliver s batch).m_cfi = s.m_cfi := by
  unfold deliver
  induction batch generalizing s with
  | nil => rfl
  | cons r rest ih => simp only [List.foldl_cons]; rw [ih]; simp

theorem deliver_map_congr (s t : File) (batch : List Response) (h : s.m_block_map = t.m_block_map) :
    (deliver s batch).m_block_map = (deliver t batch).m_block_map := by
  unfold deliver
  induction batch generalizing s t with
  | nil => exact h
  | cons r rest ih =>
    simp only [List.foldl_cons]
    exact ih _ _ (ProcessBlockResponse_map_congr s t r.blk r.res r.err h)

theorem deliverAll_map_congr (s t : File) (sched : List (List Response))
    (h : s.m_block_map = t.m_block_map) :
    (deliverAll s sched).m_block_map = (deliverAll t sched).m_block_map := by
  unfold deliverAll
  induction sched generalizing s t with
  | nil => exact h
  | cons b rest ih =>
    simp only [List.foldl_cons]
    exact ih _ _ (deliver_map_congr s t b h)

theorem finished_at_congr (s t : File) (k : Int) (h : s.m_block_map = t.m_block_map) :
    finished_at s k = finished_at t k := by
  unfold finished_at; rw [h]

theorem MapWF_ProcessBlockResponse (s : File) (b res err : Int) (h : s.MapWF) :
    (s.ProcessBlockResponse b res err).MapWF := by
  intro k x hx
  rw [find_ProcessBlockResponse] at hx
  rw [ProcessBlockResponse_cfi]
  by_cases hk : k = b
  · subst hk
    simp only [if_true] at hx
    cases hf : s.m_block_map.find k with
    | none => simp [hf] at hx
    | some y =>
      simp only [hf, Option.map_some', Option.some.injEq] at hx
      have := h k y hf
      subst hx
      split <;> exact this
  · simp only [hk, if_false] at hx
    exact h k x hx

theorem MapWF_deliver (s : File) (batch : List Response) (h : s.MapWF) : (deliver s batch).MapWF := by
  unfold deliver
  induction batch generalizing s with
  | nil => exact h
  | cons r rest ih =>
    simp only [List.foldl_cons]
    exact ih _ (MapWF_ProcessBlockResponse s r.blk r.res r.err h)

@[simp] theorem CheckPrefetchStatRAM_cfi (s : File) (b : Block) :
    (s.CheckPrefetchStatRAM b).m_cfi = s.m_cfi := by
  unfold CheckPrefetchStatRAM; split_ifs <;> rfl

@[simp] theorem CheckPrefetchStatRAM_map (s : File) (b : Block) :
    (s.CheckPrefetchStatRAM b).m_block_map = s.m_block_map := by
  unfold CheckPrefetchStatRAM; split_ifs <;> rfl

@[simp] theorem CheckPrefetchStatDisk_cfi (s : File) (i : Int) :
    (s.CheckPrefetchStatDisk i).m_cfi = s.m_cfi := by
  unfold CheckPrefetchStatDisk; split_ifs <;> rfl

@[simp] theorem CheckPrefetchStatDisk_map (s : File) (i : Int) :
    (s.CheckPrefetchStatDisk i).m_block_map = s.m_block_map := by
  unfold CheckPrefetchStatDisk; split_ifs <;> rfl

@[simp] theorem CheckPrefetchStatDisk_offset (s : File) (i : Int) :
    (s.CheckPrefetchStatDisk i).m_offset = s.m_offset := by
  unfold CheckPrefetchStatDisk; split_ifs <;> rfl

end File

/-! ## The phases of `Read` -/

namespace File

theorem RequestBlocksDirect_loop_spec (off size : Int) (junk : Overlap) (l : List Int) (s : File)
    (total : Int) :
    (RequestBlocksDirect_loop off size junk l (s, total)).1.m_cfi = s.m_cfi ∧
    (RequestBlocksDirect_loop off size junk l (s, total)).1.m_block_map = s.m_block_map ∧
    (RequestBlocksDirect_loop off size junk l (s, total)).1.m_stats = s.m_stats ∧
    (RequestBlocksDirect_loop off size junk l (s, total)).2
      = total + (l.map (fun i => (ovl s.m_cfi.GetBufferSize off size junk i).size)).sum := by
  induction l generalizing s total with
  | nil => simp [RequestBlocksDirect_loop]
  | cons i rest ih =>
    simp only [RequestBlocksDirect_loop]
    obtain ⟨h1, h2, h3, h4⟩ := ih
      { s with origin_reads := s.origin_reads ++
          [{ direct := true
             target := (overlap i s.m_cfi.GetBufferSize off size junk).2.off
             offset := i * s.m_cfi.GetBufferSize + (overlap i s.m_cfi.GetBufferSize off size junk).2.blk_off
             length := (overlap i s.m_cfi.GetBufferSize off size junk).2.size }] }
      (total + (overlap i s.m_cfi.GetBufferSize off size junk).2.size)
    refine ⟨h1, h2, h3, ?_⟩
    rw [h4]
    simp only [List.map_cons, List.sum_cons, ovl]
    ring

theorem ReadBlocksFromDisk_loop_spec (rd : Int → Int → Int) (off size : Int) (junk : Overlap)
    (l : List Int) (s : File) (total : Int) :
    (ReadBlocksFromDisk_loop rd off size junk l (s, total)).1.m_cfi = s.m_cfi ∧
    (ReadBlocksFromDisk_loop rd off size junk l (s, total)).1.m_block_map = s.m_block_map ∧
    ((ReadBlocksFromDisk_loop rd off size junk l (s, total)).2 < 0 ∨
     (ReadBlocksFromDisk_loop rd off size junk l (s, total)).2
        = total + (l.map (fun i => (ovl s.m_cfi.GetBufferSize off size junk i).size)).sum) := by
  induction l generalizing s total with
  | nil => simp [ReadBlocksFromDisk_loop]
  | cons i rest ih =>
    simp only [ReadBlocksFromDisk_loop]
    split_ifs with h1 h2
    · exact ⟨rfl, rfl, Or.inl h1⟩
    · refine ⟨rfl, rfl, Or.inl ?_⟩
      show (-1 : Int) < 0
      decide
    · obtain ⟨g1, g2, g3⟩ := ih (s.CheckPrefetchStatDisk i)
        (total + rd (i * s.m_cfi.GetBufferSize + (overlap i s.m_cfi.GetBufferSize off size junk).2.blk_off
                      - s.m_offset) (overlap i s.m_cfi.GetBufferSize off size junk).2.size)
      simp only [CheckPrefetchStatDisk_cfi, CheckPrefetchStatDisk_map] at g1 g2 g3
      refine ⟨g1, g2, ?_⟩
      rcases g3 with g3 | g3
      · exact Or.inl g3
      · right
        rw [g3]
        simp only [List.map_cons, List.sum_cons, ovl]
        have : rd (i * s.m_cfi.GetBufferSize + (overlap i s.m_cfi.GetBufferSize off size junk).2.blk_off
                      - s.m_offset) (overlap i s.m_cfi.GetBufferSize off size junk).2.size
            = (overlap i s.m_cfi.GetBufferSize off size junk).2.size := by
          by_contra hne; exact h2 hne
        rw [this]
        ring

theorem cdiv_mul_cancel (k BS : Int) (hBS : 0 < BS) : cdiv (k * BS) BS = k :=
  Int.mul_tdiv_cancel k (ne_of_gt hBS)

theorem Read_consume_spec (off size : Int) (junk : Overlap) (fin : List (Int × Block)) (s : File)
    (br : Int) (e : Option Int) (hBS : 0 < s.m_cfi.GetBufferSize)
    (hfin : ∀ p ∈ fin, p.2.m_offset = p.1 * s.m_cfi.GetBufferSize) :
    (Read_consume off size junk fin (s, br, e)).1.m_cfi = s.m_cfi ∧
    (Read_consume off size junk fin (s, br, e)).1.m_block_map = s.m_block_map ∧
    ((Read_consume off size junk fin (s, br, e)).2.1 < 0 ∨
     (Read_consume off size junk fin (s, br, e)).2.1
        = br + (fin.map (fun p => (ovl s.m_cfi.GetBufferSize off size junk p.1).size)).sum) := by
  induction fin generalizing s br e with
  | nil => simp [Read_consume]
  | cons p rest ih =>
    obtain ⟨k, b⟩ := p
    simp only [Read_consume]
    split_ifs with hok
    · have hb : b.m_offset = k * s.m_cfi.GetBufferSize := hfin (k, b) (List.mem_cons_self _ _)
      obtain ⟨g1, g2, g3⟩ := ih
        (CheckPrefetchStatRAM
          { s with m_stats := { s.m_stats with m_BytesRam := s.m_stats.m_BytesRam +
              (overlap (cdiv b.m_offset s.m_cfi.GetBufferSize) s.m_cfi.GetBufferSize off size junk).2.size } } b)
        (br + (overlap (cdiv b.m_offset s.m_cfi.GetBufferSize) s.m_cfi.GetBufferSize off size junk).2.size)
        e (by simpa using hBS)
        (by intro q hq; simpa using hfin q (List.mem_cons_of_mem _ hq))
      simp only [CheckPrefetchStatRAM_cfi, CheckPrefetchStatRAM_map] at g1 g2 g3
      refine ⟨g1, g2, ?_⟩
      rcases g3 with g3 | g3
      · exact Or.inl g3
      · right
        rw [g3, hb, cdiv_mul_cancel k _ hBS]
        simp only [List.map_cons, List.sum_cons, ovl]
        ring
    · refine ⟨rfl, rfl, Or.inl ?_⟩
      show (-1 : Int) < 0
      decide

theorem Read_finished_mem (s : File) (l : List Int) (p : Int × Block)
    (hp : p ∈ Read_finished s l) : p.1 ∈ l ∧ s.m_block_map.find p.1 = some p.2 ∧ p.2.is_finished = true := by
  unfold Read_finished at hp
  rw [List.mem_filterMap] at hp
  obtain ⟨k, hk, hm⟩ := hp
  cases hf : s.m_block_map.find k with
  | none => simp [hf] at hm
  | some b =>
    simp only [hf] at hm
    split_ifs at hm with hfin
    simp only [Option.some.injEq] at hm
    subst hm
    exact ⟨hk, hf, hfin⟩

theorem Read_pending_subset (s : File) (l : List Int) (k : Int) (hk : k ∈ Read_pending s l) : k ∈ l := by
  unfold Read_pending at hk
  exact (List.mem_filter.mp hk).1

theorem sum_finished_pending (s : File) (T : Int → Int) (l : List Int) :
    ((Read_finished s l).map (fun p => T p.1)).sum + ((Read_pending s l).map T).sum
      = (l.map T).sum := by
  induction l with
  | nil => simp [Read_finished, Read_pending]
  | cons k rest ih =>
    unfold Read_finished Read_pending at ih ⊢
    simp only [List.filterMap_cons, List.filter_cons, List.map_cons, List.sum_cons]
    cases hf : s.m_block_map.find k with
    | none =>
      simp only [if_true, List.map_cons, List.sum_cons]
      rw [← ih]; ring
    | some b =>
      dsimp only
      cases hfin : b.is_finished with
      | true =>
        simp only [if_true, Bool.not_true, Bool.false_eq_true, if_false, List.map_cons,
          List.sum_cons]
        rw [← ih]; ring
      | false =>
        simp only [Bool.false_eq_true, if_false, Bool.not_false, if_true, List.map_cons,
          List.sum_cons]
        rw [← ih]; ring

theorem Read_pending_nil_of_finished (s : File) (l : List Int)
    (h : ∀ k ∈ l, finished_at s k = true) : Read_pending s l = [] := by
  unfold Read_pending
  rw [List.filter_eq_nil_iff]
  intro k hk
  have := h k hk
  unfold finished_at at this
  cases hf : s.m_block_map.find k with
  | none => simp [hf] at this
  | some b => simp only [hf] at this; simp [this]

theorem Read_finished_ne_nil (s : File) (l : List Int) (hl : l ≠ [])
    (h : ∀ k ∈ l, finished_at s k = true) : Read_finished s l ≠ [] := by
  cases l with
  | nil => exact absurd rfl hl
  | cons k rest =>
    have := h k (List.mem_cons_self _ _)
    unfold finished_at at this
    unfold Read_finished
    cases hf : s.m_block_map.find k with
    | none => simp [hf] at this
    | some b =>
      simp only [hf] at this
      simp [List.filterMap_cons, hf, this]

end File

namespace File

theorem Read_iter_spec (off size : Int) (junk : Overlap) (s : File) (v : ReadVars)
    (hBS : 0 < s.m_cfi.GetBufferSize) (hwf : s.MapWF) :
    (Read_iter off size junk s v).1.m_cfi = s.m_cfi ∧
    (Read_iter off size junk s v).1.m_block_map = s.m_block_map ∧
    ((Read_iter off size junk s v).2.bytes_read < 0 ∨
      (Read_iter off size junk s v).2.bytes_read
        + ((Read_iter off size junk s v).2.blks_to_process.map
            (fun k => (ovl s.m_cfi.GetBufferSize off size junk k).size)).sum
      = v.bytes_read
        + (v.blks_to_process.map (fun k => (ovl s.m_cfi.GetBufferSize off size junk k).size)).sum) ∧
    (∀ k ∈ (Read_iter off size junk s v).2.blks_to_process, k ∈ v.blks_to_process) ∧
    ((∀ k ∈ v.blks_to_process, finished_at s k = true) → v.blks_to_process ≠ [] →
      (Read_iter off size junk s v).2.blks_to_process = []) := by
  unfold Read_iter
  dsimp only
  split_ifs with hfin
  · refine ⟨rfl, rfl, Or.inr rfl, fun k hk => hk, ?_⟩
    intro hall hne
    exact absurd hfin (Read_finished_ne_nil s _ hne hall)
  · have hoffs : ∀ p ∈ Read_finished s v.blks_to_process,
        p.2.m_offset = p.1 * s.m_cfi.GetBufferSize := by
      intro p hp
      exact hwf p.1 p.2 (Read_finished_mem s _ p hp).2.1
    obtain ⟨g1, g2, g3⟩ := Read_consume_spec off size junk (Read_finished s v.blks_to_process) s
      v.bytes_read v.errno hBS hoffs
    refine ⟨g1, g2, ?_, fun k hk => Read_pending_subset s _ k hk, ?_⟩
    · rcases g3 with g3 | g3
      · exact Or.inl g3
      · right
        dsimp only
        rw [g3]
        have := sum_finished_pending s (fun k => (ovl s.m_cfi.GetBufferSize off size junk k).size)
          v.blks_to_process
        omega
    · intro hall _
      exact Read_pending_nil_of_finished s _ hall

theorem Read_loop_done_iff (v : ReadVars) :
    Read_loop_done v = true ↔ v.blks_to_process = [] ∨ v.bytes_read < 0 := by
  unfold Read_loop_done
  simp [List.isEmpty_iff]

theorem Read_wait_loop_spec (off size : Int) (junk : Overlap) (sched : List (List Response))
    (s : File) (v : ReadVars) (hBS : 0 < s.m_cfi.GetBufferSize) (hwf : s.MapWF)
    (hserved : ∀ k ∈ v.blks_to_process, finished_at (deliverAll s sched) k = true) :
    ∃ s1 v1, Read_wait_loop off size junk sched s v = some (s1, v1) ∧
      s1.m_cfi = s.m_cfi ∧ s1.MapWF ∧
      (v1.bytes_read < 0 ∨
        (0 ≤ v.bytes_read ∧ v1.bytes_read = v.bytes_read
          + (v.blks_to_process.map (fun k => (ovl s.m_cfi.GetBufferSize off size junk k).size)).sum)) := by
  induction sched generalizing s v with
  | nil =>
    unfold Read_wait_loop
    by_cases hd : Read_loop_done v = true
    · simp only [hd, if_true]
      refine ⟨s, v, rfl, rfl, hwf, ?_⟩
      rcases (Read_loop_done_iff v).mp hd with h | h
      · by_cases hb : v.bytes_read < 0
        · exact Or.inl hb
        · right; rw [h]; simp; omega
      · exact Or.inl h
    · simp only [hd, Bool.false_eq_true, if_false]
      have hnd : ¬ (v.blks_to_process = [] ∨ v.bytes_read < 0) := fun h =>
        hd ((Read_loop_done_iff v).mpr h)
      have hne : v.blks_to_process ≠ [] := fun h => hnd (Or.inl h)
      have hnn : 0 ≤ v.bytes_read := by
        by_contra h; exact hnd (Or.inr (by omega))
      obtain ⟨g1, g2, g3, _, g5⟩ := Read_iter_spec off size junk s v hBS hwf
      have hall : ∀ k ∈ v.blks_to_process, finished_at s k = true := hserved
      have hnil := g5 hall hne
      have hdone : Read_loop_done (Read_iter off size junk s v).2 = true :=
        (Read_loop_done_iff _).mpr (Or.inl hnil)
      simp only [hdone, if_true]
      refine ⟨(Read_iter off size junk s v).1, (Read_iter off size junk s v).2, rfl, g1, ?_, ?_⟩
      · intro k b hb
        rw [g2] at hb; rw [g1]; exact hwf k b hb
      · rcases g3 with g3 | g3
        · exact Or.inl g3
        · right
          refine ⟨hnn, ?_⟩
          rw [hnil] at g3
          simpa using g3
  | cons batch rest ih =>
    unfold Read_wait_loop
    by_cases hd : Read_loop_done v = true
    · simp only [hd, if_true]
      refine ⟨s, v, rfl, rfl, hwf, ?_⟩
      rcases (Read_loop_done_iff v).mp hd with h | h
      · by_cases hb : v.bytes_read < 0
        · exact Or.inl hb
        · right; rw [h]; simp; omega
      · exact Or.inl h
    · simp only [hd, Bool.false_eq_true, if_false]
      have hnd : ¬ (v.blks_to_process = [] ∨ v.bytes_read < 0) := fun h =>
        hd ((Read_loop_done_iff v).mpr h)
      have hnn : 0 ≤ v.bytes_read := by
        by_contra h; exact hnd (Or.inr (by omega))
      have hBS1 : 0 < (deliver s batch).m_cfi.GetBufferSize := by simpa using hBS
      have hwf1 := MapWF_deliver s batch hwf
      obtain ⟨g1, g2, g3, g4, _⟩ := Read_iter_spec off size junk (deliver s batch) v hBS1 hwf1
      have hwf2 : (Read_iter off size junk (deliver s batch) v).1.MapWF := by
        intro k b hb
        rw [g2] at hb; rw [g1]; exact hwf1 k b hb
      have hserved2 : ∀ k ∈ (Read_iter off size junk (deliver s batch) v).2.blks_to_process,
          finished_at (deliverAll (Read_iter off size junk (deliver s batch) v).1 rest) k = true := by
        intro k hk
        rw [finished_at_congr _ (deliverAll (deliver s batch) rest) k
          (deliverAll_map_congr _ _ rest g2)]
        exact hserved k (g4 k hk)
      obtain ⟨s1, v1, e1, e2, e3, e4⟩ := ih _ _ (by rw [g1]; exact hBS1) hwf2 hserved2
      refine ⟨s1, v1, e1, ?_, e3, ?_⟩
      · rw [e2, g1]; simp
      · rcases e4 with e4 | ⟨e4, e5⟩
        · exact Or.inl e4
        · rcases g3 with g3 | g3
          · omega
          · right
            refine ⟨hnn, ?_⟩
            rw [e5]
            simp only [g1, deliver_cfi] at g3 ⊢
            omega

end File

namespace File

theorem MapWF_inc_ref_count (s : File) (b : Int) (h : s.MapWF) : (s.inc_ref_count b).MapWF := by
  intro k x hx
  rw [inc_ref_count_map, BlockMap.find_modify] at hx
  rw [inc_ref_count_cfi]
  by_cases hk : k = b
  · subst hk
    simp only [if_true] at hx
    cases hf : s.m_block_map.find k with
    | none => simp [hf] at hx
    | some y =>
      simp only [hf, Option.map_some', Option.some.injEq] at hx
      subst hx
      exact h k y hf
  · simp only [hk, if_false] at hx
    exact h k x hx

theorem MapWF_RequestBlock (s : File) (i : Int) (p : Bool) (h : s.MapWF) :
    (s.RequestBlock i p).MapWF := by
  intro k x hx
  rw [RequestBlock_map, BlockMap.find_set] at hx
  rw [RequestBlock_cfi]
  by_cases hk : k = i
  · subst hk
    simp only [if_true, Option.some.injEq] at hx
    subst hx
    rfl
  · simp only [hk, if_false] at hx
    exact h k x hx

theorem Read_classify_step_spec (ca : CacheAnswers) (s : File) (L : ReadLists) (i : Int) :
    (Read_classify_step ca (s, L) i).1.m_cfi = s.m_cfi ∧
    (s.MapWF → (Read_classify_step ca (s, L) i).1.MapWF) ∧
    List.Perm
      ((Read_classify_step ca (s, L) i).2.blks_to_process
        ++ (Read_classify_step ca (s, L) i).2.blks_on_disk
        ++ (Read_classify_step ca (s, L) i).2.blks_direct)
      (i :: (L.blks_to_process ++ L.blks_on_disk ++ L.blks_direct)) := by
  unfold Read_classify_step
  cases hf : s.m_block_map.find i with
  | some b =>
    dsimp only
    refine ⟨rfl, fun h => MapWF_inc_ref_count s i h, ?_⟩
    simp
  | none =>
    dsimp only
    split_ifs with h1 h2
    · refine ⟨rfl, fun h => h, ?_⟩
      simp only [List.append_assoc, List.singleton_append]
      have e1 : List.Perm (L.blks_on_disk ++ i :: L.blks_direct)
          (i :: (L.blks_on_disk ++ L.blks_direct)) := List.perm_middle
      exact (List.Perm.append_left L.blks_to_process e1).trans List.perm_middle
    · refine ⟨by simp, ?_, ?_⟩
      · intro h
        apply MapWF_inc_ref_count
        apply MapWF_RequestBlock
        exact h
      · simp only [List.append_assoc]
        exact List.perm_middle
    · refine ⟨rfl, fun h => h, ?_⟩
      have : L.blks_to_process ++ L.blks_on_disk ++ (L.blks_direct ++ [i])
          = (L.blks_to_process ++ L.blks_on_disk ++ L.blks_direct) ++ [i] := by simp
      rw [this]
      exact List.perm_append_singleton _ _

theorem Read_classify_fold_spec (ca : CacheAnswers) (l : List Int) (s : File) (L : ReadLists) :
    (l.foldl (Read_classify_step ca) (s, L)).1.m_cfi = s.m_cfi ∧
    (s.MapWF → (l.foldl (Read_classify_step ca) (s, L)).1.MapWF) ∧
    List.Perm
      ((l.foldl (Read_classify_step ca) (s, L)).2.blks_to_process
        ++ (l.foldl (Read_classify_step ca) (s, L)).2.blks_on_disk
        ++ (l.foldl (Read_classify_step ca) (s, L)).2.blks_direct)
      ((L.blks_to_process ++ L.blks_on_disk ++ L.blks_direct) ++ l) := by
  induction l generalizing s L with
  | nil => simp
  | cons i rest ih =>
    simp only [List.foldl_cons]
    obtain ⟨g1, g2, g3⟩ := Read_classify_step_spec ca s L i
    obtain ⟨e1, e2, e3⟩ := ih (Read_classify_step ca (s, L) i).1 (Read_classify_step ca (s, L) i).2
    refine ⟨e1.trans g1, fun h => e2 (g2 h), ?_⟩
    refine e3.trans ?_
    refine (List.Perm.append_right rest g3).trans ?_
    simp only [List.cons_append]
    exact List.perm_middle.symm

theorem Read_classify_spec (ca : CacheAnswers) (s : File) (first last : Int) :
    (Read_classify s ca first last).1.m_cfi = s.m_cfi ∧
    (s.MapWF → (Read_classify s ca first last).1.MapWF) ∧
    List.Perm
      ((Read_classify s ca first last).2.blks_to_process
        ++ (Read_classify s ca first last).2.blks_on_disk
        ++ (Read_classify s ca first last).2.blks_direct)
      (idxRange first last) := by
  unfold Read_classify
  obtain ⟨g1, g2, g3⟩ := Read_classify_fold_spec ca (idxRange first last) s
    { blks_to_process := [], blks_on_disk := [], blks_direct := [] }
  exact ⟨g1, g2, by simpa using g3⟩

end File

namespace File

theorem DirectResponseHandler_fold_to_wait (done : List (Int × Int)) (h : DirectResponseHandler) :
    (done.foldl (fun h r => h.Done r.1 r.2) h).m_to_wait = h.m_to_wait - (done.length : Int) := by
  induction done generalizing h with
  | nil => simp
  | cons r rest ih =>
    simp only [List.foldl_cons, List.length_cons, Nat.cast_succ]
    rw [ih]
    simp only [DirectResponseHandler.Done]
    ring

/-- What `Read` returns when the collaborators let it return: a negative value, or the sum of the
overlap sizes of the three lists of the classification. -/
theorem Read_ret_spec (s : File) (off size : Int) (env : ReadEnv)
    (hBS : 0 < s.m_cfi.GetBufferSize) (hwf : s.MapWF)
    (hserved : Read_served s off size env = true) :
    ∃ r, Read s off size env = some r ∧
      (r.ret < 0 ∨ r.ret =
        ((Read_classify s env.cache (cdiv off s.m_cfi.GetBufferSize)
            (cdiv (off + size - 1) s.m_cfi.GetBufferSize)).2.blks_on_disk.map
          (fun i => (ovl s.m_cfi.GetBufferSize off size env.junk i).size)).sum +
        ((Read_classify s env.cache (cdiv off s.m_cfi.GetBufferSize)
            (cdiv (off + size - 1) s.m_cfi.GetBufferSize)).2.blks_to_process.map
          (fun i => (ovl s.m_cfi.GetBufferSize off size env.junk i).size)).sum +
        ((Read_classify s env.cache (cdiv off s.m_cfi.GetBufferSize)
            (cdiv (off + size - 1) s.m_cfi.GetBufferSize)).2.blks_direct.map
          (fun i => (ovl s.m_cfi.GetBufferSize off size env.junk i).size)).sum) := by
  unfold Read_served at hserved
  simp only [Bool.and_eq_true, List.all_eq_true, decide_eq_true_eq] at hserved
  obtain ⟨hs1, hs2⟩ := hserved
  unfold Read
  dsimp only
  generalize hc : Read_classify s env.cache (cdiv off s.m_cfi.GetBufferSize)
    (cdiv (off + size - 1) s.m_cfi.GetBufferSize) = c at hs1 hs2 ⊢
  obtain ⟨hc1, hc2, _⟩ := Read_classify_spec env.cache s (cdiv off s.m_cfi.GetBufferSize)
    (cdiv (off + size - 1) s.m_cfi.GetBufferSize)
  rw [hc] at hc1 hc2
  have hwfc := hc2 hwf
  -- the direct requests
  generalize hd : (if c.2.blks_direct.isEmpty = true then (c.1, (0 : Int))
      else RequestBlocksDirect c.1 c.2.blks_direct off size env.junk) = d
  have hdspec : d.1.m_cfi = s.m_cfi ∧ d.1.m_block_map = c.1.m_block_map ∧
      d.2 = (c.2.blks_direct.map (fun i => (ovl s.m_cfi.GetBufferSize off size env.junk i).size)).sum := by
    rw [← hd]
    by_cases he : c.2.blks_direct.isEmpty = true
    · rw [if_pos he]
      rw [List.isEmpty_iff] at he
      simp [he, hc1]
    · rw [if_neg he]
      obtain ⟨g1, g2, _, g4⟩ := RequestBlocksDirect_loop_spec off size env.junk c.2.blks_direct c.1 0
      unfold RequestBlocksDirect
      refine ⟨g1.trans hc1, g2, ?_⟩
      rw [g4, hc1]; simp
  obtain ⟨hd1, hd2, hd3⟩ := hdspec
  by_cases hneg : (!c.2.blks_direct.isEmpty) = true ∧ d.2 < 0
  · rw [if_pos hneg]
    exact ⟨_, rfl, Or.inl (by show (-1 : Int) < 0; decide)⟩
  · rw [if_neg hneg]
    -- the blocks on disk
    generalize hk : (if c.2.blks_on_disk.isEmpty = true then (d.1, (0 : Int))
        else ReadBlocksFromDisk d.1 env.disk_read c.2.blks_on_disk off size env.junk) = k
    have hkspec : k.1.m_cfi = s.m_cfi ∧ k.1.m_block_map = c.1.m_block_map ∧
        (k.2 < 0 ∨ k.2 =
          (c.2.blks_on_disk.map (fun i => (ovl s.m_cfi.GetBufferSize off size env.junk i).size)).sum) := by
      rw [← hk]
      by_cases he : c.2.blks_on_disk.isEmpty = true
      · rw [if_pos he]
        rw [List.isEmpty_iff] at he
        simp [he, hd1, hd2]
      · rw [if_neg he]
        obtain ⟨g1, g2, g3⟩ := ReadBlocksFromDisk_loop_spec env.disk_read off size env.junk
          c.2.blks_on_disk d.1 0
        unfold ReadBlocksFromDisk
        refine ⟨g1.trans hd1, g2.trans hd2, ?_⟩
        rw [hd1] at g3
        simpa using g3
    obtain ⟨hk1, hk2, hk3⟩ := hkspec
    -- the blocks in RAM
    have hwfk : k.1.MapWF := by
      intro i b hb
      rw [hk2] at hb; rw [hk1, ← hc1]; exact hwfc i b hb
    obtain ⟨s3, v, hloop, _, _, hv⟩ := Read_wait_loop_spec off size env.junk env.responses k.1
      { bytes_read := k.2, errno := none, blks_to_process := c.2.blks_to_process,
        blks_processed := [] }
      (by rw [hk1]; exact hBS) hwfk
      (by
        intro i hi
        rw [finished_at_congr _ (deliverAll c.1 env.responses) i
          (deliverAll_map_congr _ _ _ hk2)]
        exact hs1 i hi)
    rw [hloop]
    dsimp only at hv ⊢
    rw [hk1] at hv
    by_cases hdir : (!c.2.blks_direct.isEmpty) = true ∧ v.bytes_read ≥ 0
    · rw [if_pos hdir]
      have hwait : ¬ (List.foldl (fun h r => h.Done r.1 r.2)
          (DirectResponseHandler.create (c.2.blks_direct.length : Int)) env.direct_done).m_to_wait > 0 := by
        rw [DirectResponseHandler_fold_to_wait]
        simp only [DirectResponseHandler.create]
        omega
      rw [if_neg hwait]
      by_cases herr : (List.foldl (fun h r => h.Done r.1 r.2)
          (DirectResponseHandler.create (c.2.blks_direct.length : Int)) env.direct_done).m_errno = 0
      · rw [if_pos herr]
        refine ⟨_, rfl, ?_⟩
        dsimp only
        rcases hv with hv | ⟨hv0, hv⟩
        · omega
        · right
          rcases hk3 with hk3 | hk3
          · omega
          · rw [hv, hk3, hd3]
      · rw [if_neg herr]
        exact ⟨_, rfl, Or.inl (by show (-1 : Int) < 0; decide)⟩
    · rw [if_neg hdir]
      refine ⟨_, rfl, ?_⟩
      dsimp only
      by_cases hvn : v.bytes_read < 0
      · exact Or.inl hvn
      · rcases hv with hv | ⟨hv0, hv⟩
        · exact Or.inl hv
        · right
          have hemp : c.2.blks_direct = [] := by
            by_contra hne
            apply hdir
            refine ⟨?_, by omega⟩
            simp [List.isEmpty_iff, hne]
          rcases hk3 with hk3 | hk3
          · omega
          · rw [hv, hk3, hemp]; simp

end File

namespace File

/-- C1. For a positive buffer size, a non-negative offset and a positive size, a `Read` that the
collaborators let return gives a negative value or exactly `size`, so never more than `size` (the
assertion `iUserSize >= bytes_read` holds).  The overlaps of the block indices
`idx_first .. idx_last` all exist and are non-empty, they tile the user buffer `[0, size)` from
left to right without gap or intersection, and the overlap sizes of the three classes (disk, RAM,
direct) sum to `size`. -/
theorem Read_returns_negative_or_size (s : File) (off size : Int) (env : ReadEnv)
    (hBS : 0 < s.m_cfi.GetBufferSize) (hoff : 0 ≤ off) (hsize : 0 < size) (hwf : s.MapWF)
    (hserved : Read_served s off size env = true) :
    (∃ r, Read s off size env = some r ∧ (r.ret < 0 ∨ r.ret = size) ∧ r.ret ≤ size) ∧
    (∀ i ∈ idxRange (cdiv off s.m_cfi.GetBufferSize) (cdiv (off + size - 1) s.m_cfi.GetBufferSize),
      (overlap i s.m_cfi.GetBufferSize off size env.junk).1 = true ∧
      0 < (ovl s.m_cfi.GetBufferSize off size env.junk i).size) ∧
    (ovl s.m_cfi.GetBufferSize off size env.junk (cdiv off s.m_cfi.GetBufferSize)).off = 0 ∧
    (∀ i, cdiv off s.m_cfi.GetBufferSize ≤ i → i < cdiv (off + size - 1) s.m_cfi.GetBufferSize →
      (ovl s.m_cfi.GetBufferSize off size env.junk i).off
        + (ovl s.m_cfi.GetBufferSize off size env.junk i).size
      = (ovl s.m_cfi.GetBufferSize off size env.junk (i + 1)).off) ∧
    ((ovl s.m_cfi.GetBufferSize off size env.junk (cdiv (off + size - 1) s.m_cfi.GetBufferSize)).off
      + (ovl s.m_cfi.GetBufferSize off size env.junk (cdiv (off + size - 1) s.m_cfi.GetBufferSize)).size
      = size) ∧
    (((Read_classify s env.cache (cdiv off s.m_cfi.GetBufferSize)
          (cdiv (off + size - 1) s.m_cfi.GetBufferSize)).2.blks_on_disk.map
        (fun i => (ovl s.m_cfi.GetBufferSize off size env.junk i).size)).sum +
      ((Read_classify s env.cache (cdiv off s.m_cfi.GetBufferSize)
          (cdiv (off + size - 1) s.m_cfi.GetBufferSize)).2.blks_to_process.map
        (fun i => (ovl s.m_cfi.GetBufferSize off size env.junk i).size)).sum +
      ((Read_classify s env.cache (cdiv off s.m_cfi.GetBufferSize)
          (cdiv (off + size - 1) s.m_cfi.GetBufferSize)).2.blks_direct.map
        (fun i => (ovl s.m_cfi.GetBufferSize off size env.junk i).size)).sum
      = size) := by
  have hle := cdiv_mono_range s.m_cfi.GetBufferSize off size hBS hoff hsize
  have hsum : ((Read_classify s env.cache (cdiv off s.m_cfi.GetBufferSize)
          (cdiv (off + size - 1) s.m_cfi.GetBufferSize)).2.blks_on_disk.map
        (fun i => (ovl s.m_cfi.GetBufferSize off size env.junk i).size)).sum +
      ((Read_classify s env.cache (cdiv off s.m_cfi.GetBufferSize)
          (cdiv (off + size - 1) s.m_cfi.GetBufferSize)).2.blks_to_process.map
        (fun i => (ovl s.m_cfi.GetBufferSize off size env.junk i).size)).sum +
      ((Read_classify s env.cache (cdiv off s.m_cfi.GetBufferSize)
          (cdiv (off + size - 1) s.m_cfi.GetBufferSize)).2.blks_direct.map
        (fun i => (ovl s.m_cfi.GetBufferSize off size env.junk i).size)).sum
      = size := by
    obtain ⟨_, _, hperm⟩ := Read_classify_spec env.cache s (cdiv off s.m_cfi.GetBufferSize)
      (cdiv (off + size - 1) s.m_cfi.GetBufferSize)
    have h1 := (hperm.map (fun i => (ovl s.m_cfi.GetBufferSize off size env.junk i).size)).sum_eq
    rw [sum_ovl_size s.m_cfi.GetBufferSize off size env.junk hBS hoff hsize] at h1
    simp only [List.map_append, List.sum_append] at h1
    omega
  refine ⟨?_, ?_, ?_, ?_, ?_, hsum⟩
  · obtain ⟨r, hr, hret⟩ := Read_ret_spec s off size env hBS hwf hserved
    refine ⟨r, hr, ?_, ?_⟩
    · rcases hret with h | h
      · exact Or.inl h
      · right; rw [h]; exact hsum
    · rcases hret with h | h
      · omega
      · rw [h, hsum]
  · intro i hi
    obtain ⟨h1, _, _, _, h5, _⟩ := overlap_in_range s.m_cfi.GetBufferSize off size i env.junk hBS hoff hsize hi
    exact ⟨h1, h5⟩
  · have hi : cdiv off s.m_cfi.GetBufferSize ∈ idxRange (cdiv off s.m_cfi.GetBufferSize)
        (cdiv (off + size - 1) s.m_cfi.GetBufferSize) := (mem_idxRange _ _ _).mpr ⟨le_refl _, hle⟩
    obtain ⟨_, h2, _⟩ := overlap_in_range s.m_cfi.GetBufferSize off size _ env.junk hBS hoff hsize hi
    unfold ovl
    rw [h2, clampPos_first _ _ _ hBS hoff hsize]
    ring
  · intro i hi1 hi2
    have hi : i ∈ idxRange (cdiv off s.m_cfi.GetBufferSize)
        (cdiv (off + size - 1) s.m_cfi.GetBufferSize) := (mem_idxRange _ _ _).mpr ⟨hi1, by omega⟩
    have hj : i + 1 ∈ idxRange (cdiv off s.m_cfi.GetBufferSize)
        (cdiv (off + size - 1) s.m_cfi.GetBufferSize) := (mem_idxRange _ _ _).mpr ⟨by omega, by omega⟩
    obtain ⟨_, h2, _, h4, _⟩ := overlap_in_range s.m_cfi.GetBufferSize off size i env.junk hBS hoff hsize hi
    obtain ⟨_, g2, _⟩ := overlap_in_range s.m_cfi.GetBufferSize off size (i + 1) env.junk hBS hoff hsize hj
    unfold ovl
    rw [h2, h4, g2]
    ring
  · have hi : cdiv (off + size - 1) s.m_cfi.GetBufferSize ∈ idxRange (cdiv off s.m_cfi.GetBufferSize)
        (cdiv (off + size - 1) s.m_cfi.GetBufferSize) := (mem_idxRange _ _ _).mpr ⟨hle, le_refl _⟩
    obtain ⟨_, h2, _, h4, _⟩ := overlap_in_range s.m_cfi.GetBufferSize off size _ env.junk hBS hoff hsize hi
    unfold ovl
    rw [h2, h4, clampPos_last _ _ _ hBS hoff hsize]
    ring

end File

namespace File

theorem file3000_MapWF : file3000.MapWF := by
  intro k b h
  cases h

/-- C1 at the cold read of the spec (`Read(500, 2000)` on a new 3000-byte file). -/
theorem Read_returns_negative_or_size_witness :
    (0 < file3000.m_cfi.GetBufferSize ∧ (0 : Int) ≤ 500 ∧ (0 : Int) < 2000 ∧ file3000.MapWF ∧
      Read_served file3000 500 2000 envCold = true) ∧
    (∃ r, Read file3000 500 2000 envCold = some r ∧ (r.ret < 0 ∨ r.ret = 2000) ∧ r.ret ≤ 2000) :=
  ⟨⟨by decide, by decide, by decide, file3000_MapWF, by rfl⟩,
   (Read_returns_negative_or_size file3000 500 2000 envCold (by decide) (by decide) (by decide)
      file3000_MapWF (by rfl)).1⟩

end File

namespace File

/-! ### More frame lemmas -/

@[simp] theorem inc_ref_count_offset (s : File) (b : Int) : (s.inc_ref_count b).m_offset = s.m_offset := rfl
@[simp] theorem inc_ref_count_stats (s : File) (b : Int) : (s.inc_ref_count b).m_stats = s.m_stats := rfl
@[simp] theorem inc_ref_count_origin_reads (s : File) (b : Int) :
    (s.inc_ref_count b).origin_reads = s.origin_reads := rfl

@[simp] theorem RequestBlock_offset (s : File) (i : Int) (p : Bool) :
    (s.RequestBlock i p).m_offset = s.m_offset := by
  unfold RequestBlock
  dsimp only
  split_ifs <;> rfl

@[simp] theorem ProcessBlockResponse_offset (s : File) (b res err : Int) :
    (s.ProcessBlockResponse b res err).m_offset = s.m_offset := by
  unfold ProcessBlockResponse
  cases s.m_block_map.find b with
  | none => rfl
  | some _ => dsimp only; split_ifs <;> rfl

@[simp] theorem ProcessBlockResponse_stats (s : File) (b res err : Int) :
    (s.ProcessBlockResponse b res err).m_stats = s.m_stats := by
  unfold ProcessBlockResponse
  cases s.m_block_map.find b with
  | none => rfl
  | some _ => dsimp only; split_ifs <;> rfl

@[simp] theorem ProcessBlockResponse_origin_reads (s : File) (b res err : Int) :
    (s.ProcessBlockResponse b res err).origin_reads = s.origin_reads := by
  unfold ProcessBlockResponse
  cases s.m_block_map.find b with
  | none => rfl
  | some _ => dsimp only; split_ifs <;> rfl

@[simp] theorem deliver_stats (s : File) (batch : List Response) :
    (deliver s batch).m_stats = s.m_stats := by
  unfold deliver
  induction batch generalizing s with
  | nil => rfl
  | cons r rest ih => simp only [List.foldl_cons]; rw [ih]; simp

@[simp] theorem deliver_origin_reads (s : File) (batch : List Response) :
    (deliver s batch).origin_reads = s.origin_reads := by
  unfold deliver
  induction batch generalizing s with
  | nil => rfl
  | cons r rest ih => simp only [List.foldl_cons]; rw [ih]; simp

@[simp] theorem CheckPrefetchStatRAM_stats (s : File) (b : Block) :
    (s.CheckPrefetchStatRAM b).m_stats = s.m_stats := by
  unfold CheckPrefetchStatRAM; split_ifs <;> rfl

@[simp] theorem CheckPrefetchStatRAM_origin_reads (s : File) (b : Block) :
    (s.CheckPrefetchStatRAM b).origin_reads = s.origin_reads := by
  unfold CheckPrefetchStatRAM; split_ifs <;> rfl

@[simp] theorem CheckPrefetchStatDisk_stats (s : File) (i : Int) :
    (s.CheckPrefetchStatDisk i).m_stats = s.m_stats := by
  unfold CheckPrefetchStatDisk; split_ifs <;> rfl

@[simp] theorem CheckPrefetchStatDisk_origin_reads (s : File) (i : Int) :
    (s.CheckPrefetchStatDisk i).origin_reads = s.origin_reads := by
  unfold CheckPrefetchStatDisk; split_ifs <;> rfl

@[simp] theorem free_block_cfi (s : File) (b : Int) : (s.free_block b).m_cfi = s.m_cfi := by
  unfold free_block
  cases s.m_block_map.find b with
  | none => rfl
  | some _ => dsimp only; split_ifs <;> rfl

@[simp] theorem free_block_offset (s : File) (b : Int) : (s.free_block b).m_offset = s.m_offset := by
  unfold free_block
  cases s.m_block_map.find b with
  | none => rfl
  | some _ => dsimp only; split_ifs <;> rfl

@[simp] theorem free_block_stats (s : File) (b : Int) : (s.free_block b).m_stats = s.m_stats := by
  unfold free_block
  cases s.m_block_map.find b with
  | none => rfl
  | some _ => dsimp only; split_ifs <;> rfl

@[simp] theorem free_block_origin_reads (s : File) (b : Int) :
    (s.free_block b).origin_reads = s.origin_reads := by
  unfold free_block
  cases s.m_block_map.find b with
  | none => rfl
  | some _ => dsimp only; split_ifs <;> rfl

/-- The block map after `free_block`. -/
theorem free_block_map (s : File) (b : Int) :
    (s.free_block b).m_block_map =
      match s.m_block_map.find b with
      | none => s.m_block_map
      | some blk => s.m_block_map.erase (cdiv blk.m_offset s.BufferSize) := by
  unfold free_block
  cases s.m_block_map.find b with
  | none => rfl
  | some _ => dsimp only; split_ifs <;> rfl

@[simp] theorem dec_ref_count_cfi (s : File) (b : Int) : (s.dec_ref_count b).m_cfi = s.m_cfi := by
  unfold dec_ref_count
  cases s.m_block_map.find b with
  | none => rfl
  | some _ => dsimp only; split_ifs <;> simp

@[simp] theorem dec_ref_count_offset (s : File) (b : Int) :
    (s.dec_ref_count b).m_offset = s.m_offset := by
  unfold dec_ref_count
  cases s.m_block_map.find b with
  | none => rfl
  | some _ => dsimp only; split_ifs <;> simp

@[simp] theorem dec_ref_count_stats (s : File) (b : Int) :
    (s.dec_ref_count b).m_stats = s.m_stats := by
  unfold dec_ref_count
  cases s.m_block_map.find b with
  | none => rfl
  | some _ => dsimp only; split_ifs <;> simp

@[simp] theorem dec_ref_count_origin_reads (s : File) (b : Int) :
    (s.dec_ref_count b).origin_reads = s.origin_reads := by
  unfold dec_ref_count
  cases s.m_block_map.find b with
  | none => rfl
  | some _ => dsimp only; split_ifs <;> simp

/-- A key that is not in the map is not in it after `free_block`. -/
theorem find_none_free_block (s : File) (b j : Int) (h : s.m_block_map.find j = none) :
    (s.free_block b).m_block_map.find j = none := by
  rw [free_block_map]
  cases s.m_block_map.find b with
  | none => exact h
  | some blk =>
    dsimp only
    rw [BlockMap.find_erase]
    split_ifs
    · rfl
    · exact h

/-- A key that is not in the map is not in it after `dec_ref_count`. -/
theorem find_none_dec_ref_count (s : File) (b j : Int) (h : s.m_block_map.find j = none) :
    (s.dec_ref_count b).m_block_map.find j = none := by
  unfold dec_ref_count
  cases hb : s.m_block_map.find b with
  | none => exact h
  | some blk =>
    dsimp only
    have hm : (s.m_block_map.modify b (fun x => { x with m_refcnt := x.m_refcnt - 1 })).find j = none := by
      rw [BlockMap.find_modify]
      split_ifs with hj
      · subst hj; rw [h]; rfl
      · exact h
    split_ifs
    · exact find_none_free_block _ b j hm
    · exact hm

theorem release_frame (l : List Int) (s : File) :
    (l.foldl dec_ref_count s).m_cfi = s.m_cfi ∧
    (l.foldl dec_ref_count s).m_offset = s.m_offset ∧
    (l.foldl dec_ref_count s).m_stats = s.m_stats ∧
    (l.foldl dec_ref_count s).origin_reads = s.origin_reads ∧
    (∀ j, s.m_block_map.find j = none → (l.foldl dec_ref_count s).m_block_map.find j = none) := by
  induction l generalizing s with
  | nil => simp
  | cons b rest ih =>
    simp only [List.foldl_cons]
    obtain ⟨h1, h2, h3, h4, h5⟩ := ih (s.dec_ref_count b)
    refine ⟨by rw [h1]; simp, by rw [h2]; simp, by rw [h3]; simp, by rw [h4]; simp, ?_⟩
    intro j hj
    exact h5 j (find_none_dec_ref_count s b j hj)

theorem find_none_ProcessBlockResponse (s : File) (b res err j : Int)
    (h : s.m_block_map.find j = none) :
    (s.ProcessBlockResponse b res err).m_block_map.find j = none := by
  rw [find_ProcessBlockResponse]
  by_cases hj : j = b
  · subst hj; rw [if_pos rfl, h]; rfl
  · rw [if_neg hj]; exact h

theorem find_none_deliver (s : File) (batch : List Response) (j : Int)
    (h : s.m_block_map.find j = none) : (deliver s batch).m_block_map.find j = none := by
  unfold deliver
  induction batch generalizing s with
  | nil => exact h
  | cons r rest ih =>
    simp only [List.foldl_cons]
    exact ih _ (find_none_ProcessBlockResponse s r.blk r.res r.err j h)

end File

namespace File

/-! ### Completions and the blocks they leave alone -/

theorem find_ProcessBlockResponse_ne (s : File) (b res err j : Int) (h : j ≠ b) :
    (s.ProcessBlockResponse b res err).m_block_map.find j = s.m_block_map.find j := by
  rw [find_ProcessBlockResponse, if_neg h]

theorem find_deliver_not_mem (s : File) (batch : List Response) (j : Int)
    (h : j ∉ batch.map Response.blk) :
    (deliver s batch).m_block_map.find j = s.m_block_map.find j := by
  unfold deliver
  induction batch generalizing s with
  | nil => rfl
  | cons r rest ih =>
    simp only [List.map_cons, List.mem_cons, not_or] at h
    simp only [List.foldl_cons]
    rw [ih _ h.2, find_ProcessBlockResponse_ne _ _ _ _ _ h.1]

theorem responded_cons (batch : List Response) (rest : List (List Response)) :
    responded (batch :: rest) = batch.map Response.blk ++ responded rest := by
  simp [responded]

theorem find_deliverAll_not_mem (s : File) (sched : List (List Response)) (j : Int)
    (h : j ∉ responded sched) :
    (deliverAll s sched).m_block_map.find j = s.m_block_map.find j := by
  unfold deliverAll
  induction sched generalizing s with
  | nil => rfl
  | cons batch rest ih =>
    rw [responded_cons, List.mem_append, not_or] at h
    simp only [List.foldl_cons]
    rw [ih _ h.2, find_deliver_not_mem _ _ _ h.1]

theorem AnswersOnce_tail (s : File) (batch : List Response) (rest : List (List Response))
    (h : AnswersOnce s (batch :: rest)) : AnswersOnce (deliver s batch) rest := by
  obtain ⟨hn, hf⟩ := h
  rw [responded_cons] at hn hf
  refine ⟨(List.nodup_append.mp hn).2.1, ?_⟩
  intro k hk
  have hnot : k ∉ batch.map Response.blk := fun hb =>
    (List.nodup_append.mp hn).2.2 hb hk
  have := hf k (List.mem_append_right _ hk)
  unfold finished_at at this ⊢
  rw [find_deliver_not_mem _ _ _ hnot]
  exact this

/-- Under `AnswersOnce` a finished block is left as it is by the rest of the schedule. -/
theorem find_deliverAll_finished (s : File) (sched : List (List Response)) (k : Int)
    (h : AnswersOnce s sched) (hk : finished_at s k = true) :
    (deliverAll s sched).m_block_map.find k = s.m_block_map.find k := by
  apply find_deliverAll_not_mem
  intro hmem
  have := h.2 k hmem
  rw [hk] at this
  cases this

theorem AnswersOnce_congr (s t : File) (sched : List (List Response))
    (hm : s.m_block_map = t.m_block_map) (h : AnswersOnce s sched) : AnswersOnce t sched := by
  refine ⟨h.1, fun k hk => ?_⟩
  rw [← finished_at_congr s t k hm]
  exact h.2 k hk

end File

namespace File

/-! ### The outcome of the third phase of `Read` -/

theorem Read_consume_frame (off size : Int) (junk : Overlap) (fin : List (Int × Block)) (s : File)
    (br : Int) (e : Option Int) :
    (Read_consume off size junk fin (s, br, e)).1.m_offset = s.m_offset ∧
    (Read_consume off size junk fin (s, br, e)).1.origin_reads = s.origin_reads ∧
    (Read_consume off size junk fin (s, br, e)).1.m_stats.m_BytesMissed = s.m_stats.m_BytesMissed := by
  induction fin generalizing s br e with
  | nil => simp [Read_consume]
  | cons p rest ih =>
    obtain ⟨k, b⟩ := p
    simp only [Read_consume]
    by_cases hok : b.is_ok = true
    · rw [if_pos hok]
      obtain ⟨g1, g2, g3⟩ := ih
        (CheckPrefetchStatRAM
          { s with m_stats := { s.m_stats with m_BytesRam := s.m_stats.m_BytesRam +
              (overlap (cdiv b.m_offset s.m_cfi.GetBufferSize) s.m_cfi.GetBufferSize off size junk).2.size } } b)
        (br + (overlap (cdiv b.m_offset s.m_cfi.GetBufferSize) s.m_cfi.GetBufferSize off size junk).2.size)
        e
      refine ⟨g1.trans ?_, g2.trans ?_, g3.trans ?_⟩
      · unfold CheckPrefetchStatRAM; split_ifs <;> rfl
      · simp
      · simp
    · rw [if_neg hok]
      exact ⟨rfl, rfl, rfl⟩

theorem Read_consume_outcome (off size : Int) (junk : Overlap) (fin : List (Int × Block)) (s : File)
    (br : Int) (e : Option Int) (hBS : 0 < s.m_cfi.GetBufferSize)
    (hfin : ∀ p ∈ fin, p.2.m_offset = p.1 * s.m_cfi.GetBufferSize) :
    ((∀ p ∈ fin, p.2.is_ok = true) ∧
      (Read_consume off size junk fin (s, br, e)).2.1
        = br + (fin.map (fun p => (ovl s.m_cfi.GetBufferSize off size junk p.1).size)).sum ∧
      (Read_consume off size junk fin (s, br, e)).2.2 = e) ∨
    ((Read_consume off size junk fin (s, br, e)).2.1 = -1 ∧
      ∃ p ∈ fin, p.2.is_ok = false ∧
        (Read_consume off size junk fin (s, br, e)).2.2 = some p.2.m_errno) := by
  induction fin generalizing s br e with
  | nil => left; simp [Read_consume]
  | cons p rest ih =>
    obtain ⟨k, b⟩ := p
    simp only [Read_consume]
    by_cases hok : b.is_ok = true
    · rw [if_pos hok]
      have hb : b.m_offset = k * s.m_cfi.GetBufferSize := hfin (k, b) (List.mem_cons_self _ _)
      rcases ih
        (CheckPrefetchStatRAM
          { s with m_stats := { s.m_stats with m_BytesRam := s.m_stats.m_BytesRam +
              (overlap (cdiv b.m_offset s.m_cfi.GetBufferSize) s.m_cfi.GetBufferSize off size junk).2.size } } b)
        (br + (overlap (cdiv b.m_offset s.m_cfi.GetBufferSize) s.m_cfi.GetBufferSize off size junk).2.size)
        e (by simpa using hBS)
        (by intro q hq; simpa using hfin q (List.mem_cons_of_mem _ hq)) with ⟨g1, g2, g3⟩ | ⟨g1, q, hq, g2, g3⟩
      · left
        simp only [CheckPrefetchStatRAM_cfi] at g2
        refine ⟨?_, ?_, g3⟩
        · intro q hq
          rcases List.mem_cons.mp hq with h | h
          · rw [h]; exact hok
          · exact g1 q h
        · rw [g2, hb, cdiv_mul_cancel k _ hBS]
          simp only [List.map_cons, List.sum_cons, ovl]
          ring
      · right
        exact ⟨g1, q, List.mem_cons_of_mem _ hq, g2, g3⟩
    · rw [if_neg hok]
      right
      refine ⟨rfl, (k, b), List.mem_cons_self _ _, ?_, rfl⟩
      simpa using hok

theorem Read_iter_frame (off size : Int) (junk : Overlap) (s : File) (v : ReadVars) :
    (Read_iter off size junk s v).1.m_offset = s.m_offset ∧
    (Read_iter off size junk s v).1.origin_reads = s.origin_reads ∧
    (Read_iter off size junk s v).1.m_stats.m_BytesMissed = s.m_stats.m_BytesMissed ∧
    List.Perm ((Read_iter off size junk s v).2.blks_processed
                ++ (Read_iter off size junk s v).2.blks_to_process)
              (v.blks_processed ++ v.blks_to_process) := by
  unfold Read_iter
  dsimp only
  split_ifs with hfin
  · exact ⟨rfl, rfl, rfl, List.Perm.refl _⟩
  · obtain ⟨g1, g2, g3⟩ := Read_consume_frame off size junk (Read_finished s v.blks_to_process) s
      v.bytes_read v.errno
    refine ⟨g1, g2, g3, ?_⟩
    rw [List.append_assoc]
    refine List.Perm.append_left _ ?_
    have e1 : (Read_finished s v.blks_to_process).map Prod.fst
        = v.blks_to_process.filter (fun k => finished_at s k) := by
      unfold Read_finished finished_at
      induction v.blks_to_process with
      | nil => rfl
      | cons k rest ih =>
        simp only [List.filterMap_cons, List.filter_cons]
        cases hf : s.m_block_map.find k with
        | none => simpa using ih
        | some b =>
          dsimp only
          cases hb : b.is_finished with
          | true => simpa using ih
          | false => simpa using ih
    have e2 : Read_pending s v.blks_to_process
        = v.blks_to_process.filter (fun k => !finished_at s k) := by
      unfold Read_pending finished_at
      congr 1
      funext k
      cases s.m_block_map.find k with
      | none => rfl
      | some b => rfl
    rw [e1, e2]
    exact List.filter_append_perm _ _

theorem Read_iter_outcome (off size : Int) (junk : Overlap) (s : File) (v : ReadVars)
    (hBS : 0 < s.m_cfi.GetBufferSize) (hwf : s.MapWF)
    (hT : ∀ k ∈ v.blks_to_process, 0 ≤ (ovl s.m_cfi.GetBufferSize off size junk k).size) :
    ((Read_iter off size junk s v).2.errno = v.errno ∧
      v.bytes_read ≤ (Read_iter off size junk s v).2.bytes_read ∧
      (Read_iter off size junk s v).2.bytes_read
        + ((Read_iter off size junk s v).2.blks_to_process.map
            (fun k => (ovl s.m_cfi.GetBufferSize off size junk k).size)).sum
        = v.bytes_read
        + (v.blks_to_process.map (fun k => (ovl s.m_cfi.GetBufferSize off size junk k).size)).sum ∧
      (∀ k ∈ v.blks_to_process, k ∉ (Read_iter off size junk s v).2.blks_to_process →
        ∃ b, s.m_block_map.find k = some b ∧ b.is_finished = true ∧ b.is_ok = true)) ∨
    ((Read_iter off size junk s v).2.bytes_read = -1 ∧
      ∃ k ∈ v.blks_to_process, ∃ b, s.m_block_map.find k = some b ∧ b.is_finished = true ∧
        b.is_ok = false ∧ (Read_iter off size junk s v).2.errno = some b.m_errno) := by
  unfold Read_iter
  dsimp only
  split_ifs with hfin
  · left
    refine ⟨rfl, le_refl _, rfl, fun k hk hn => absurd hk hn⟩
  · have hoffs : ∀ p ∈ Read_finished s v.blks_to_process,
        p.2.m_offset = p.1 * s.m_cfi.GetBufferSize := by
      intro p hp
      exact hwf p.1 p.2 (Read_finished_mem s _ p hp).2.1
    rcases Read_consume_outcome off size junk (Read_finished s v.blks_to_process) s
      v.bytes_read v.errno hBS hoffs with ⟨g1, g2, g3⟩ | ⟨g1, p, hp, g2, g3⟩
    · left
      dsimp only
      have hsum := sum_finished_pending s (fun k => (ovl s.m_cfi.GetBufferSize off size junk k).size)
        v.blks_to_process
      have hnn : 0 ≤ ((Read_finished s v.blks_to_process).map
          (fun p => (ovl s.m_cfi.GetBufferSize off size junk p.1).size)).sum := by
        apply List.sum_nonneg
        intro x hx
        rw [List.mem_map] at hx
        obtain ⟨p, hp, rfl⟩ := hx
        exact hT p.1 (Read_finished_mem s _ p hp).1
      refine ⟨g3, by rw [g2]; omega, by rw [g2]; omega, ?_⟩
      intro k hk hn
      have hfk : finished_at s k = true := by
        by_contra hc
        apply hn
        unfold Read_pending
        rw [List.mem_filter]
        refine ⟨hk, ?_⟩
        unfold finished_at at hc
        cases hf : s.m_block_map.find k with
        | none => rfl
        | some b => simp only [hf] at hc; simpa using hc
      unfold finished_at at hfk
      cases hf : s.m_block_map.find k with
      | none => simp [hf] at hfk
      | some b =>
        simp only [hf] at hfk
        refine ⟨b, rfl, hfk, ?_⟩
        have hmem : (k, b) ∈ Read_finished s v.blks_to_process := by
          unfold Read_finished
          rw [List.mem_filterMap]
          exact ⟨k, hk, by simp [hf, hfk]⟩
        exact g1 (k, b) hmem
    · right
      obtain ⟨h1, h2, h3⟩ := Read_finished_mem s _ p hp
      exact ⟨g1, p.1, h1, p.2, h2, h3, g2, g3⟩

end File

namespace File

theorem Read_consume_map (off size : Int) (junk : Overlap) (fin : List (Int × Block)) (s : File)
    (br : Int) (e : Option Int) :
    (Read_consume off size junk fin (s, br, e)).1.m_block_map = s.m_block_map := by
  induction fin generalizing s br e with
  | nil => rfl
  | cons p rest ih =>
    obtain ⟨k, b⟩ := p
    simp only [Read_consume]
    split_ifs
    · rw [ih]; simp
    · rfl

theorem Read_iter_spec_map (off size : Int) (junk : Overlap) (s : File) (v : ReadVars) :
    (Read_iter off size junk s v).1.m_block_map = s.m_block_map := by
  unfold Read_iter
  dsimp only
  split_ifs with hfin
  · rfl
  · exact Read_consume_map off size junk _ s _ _

@[simp] theorem deliver_offset (s : File) (batch : List Response) :
    (deliver s batch).m_offset = s.m_offset := by
  unfold deliver
  induction batch generalizing s with
  | nil => rfl
  | cons r rest ih => simp only [List.foldl_cons]; rw [ih]; simp

theorem Read_wait_loop_frame (off size : Int) (junk : Overlap) (sched : List (List Response))
    (s : File) (v : ReadVars) (s1 : File) (v1 : ReadVars)
    (h : Read_wait_loop off size junk sched s v = some (s1, v1)) :
    s1.m_offset = s.m_offset ∧ s1.origin_reads = s.origin_reads ∧
    s1.m_stats.m_BytesMissed = s.m_stats.m_BytesMissed ∧
    (∀ j, s.m_block_map.find j = none → s1.m_block_map.find j = none) ∧
    List.Perm (v1.blks_processed ++ v1.blks_to_process) (v.blks_processed ++ v.blks_to_process) ∧
    Read_loop_done v1 = true := by
  induction sched generalizing s v with
  | nil =>
    unfold Read_wait_loop at h
    by_cases hd : Read_loop_done v = true
    · rw [if_pos hd] at h
      have hs := congrArg Prod.fst (Option.some.inj h)
      have hv' := congrArg Prod.snd (Option.some.inj h)
      dsimp only at hs hv'
      subst hs
      subst hv'
      exact ⟨rfl, rfl, rfl, fun _ hj => hj, List.Perm.refl _, hd⟩
    · rw [if_neg hd] at h
      dsimp only at h
      by_cases hd2 : Read_loop_done (Read_iter off size junk s v).2 = true
      · rw [if_pos hd2] at h
        obtain ⟨g1, g2, g3, g4⟩ := Read_iter_frame off size junk s v
        have gm := (Read_iter_spec_map off size junk s v)
        have hs := congrArg Prod.fst (Option.some.inj h)
        have hv' := congrArg Prod.snd (Option.some.inj h)
        dsimp only at hs hv'
        subst hs
        subst hv'
        exact ⟨g1, g2, g3, fun j hj => by rw [gm]; exact hj, g4, hd2⟩
      · rw [if_neg hd2] at h
        cases h
  | cons batch rest ih =>
    unfold Read_wait_loop at h
    by_cases hd : Read_loop_done v = true
    · rw [if_pos hd] at h
      have hs := congrArg Prod.fst (Option.some.inj h)
      have hv' := congrArg Prod.snd (Option.some.inj h)
      dsimp only at hs hv'
      subst hs
      subst hv'
      exact ⟨rfl, rfl, rfl, fun _ hj => hj, List.Perm.refl _, hd⟩
    · rw [if_neg hd] at h
      dsimp only at h
      obtain ⟨g1, g2, g3, g4⟩ := Read_iter_frame off size junk (deliver s batch) v
      have gm := (Read_iter_spec_map off size junk (deliver s batch) v)
      obtain ⟨e1, e2, e3, e4, e5, e6⟩ := ih _ _ h
      refine ⟨by rw [e1, g1]; simp [deliver_offset], by rw [e2, g2]; simp, by rw [e3, g3]; simp, ?_,
        e5.trans g4, e6⟩
      intro j hj
      apply e4
      rw [gm]
      exact find_none_deliver s batch j hj

theorem Read_wait_loop_outcome (off size : Int) (junk : Overlap) (sched : List (List Response))
    (s : File) (v : ReadVars) (s1 : File) (v1 : ReadVars)
    (hBS : 0 < s.m_cfi.GetBufferSize) (hwf : s.MapWF) (honce : AnswersOnce s sched)
    (hv : 0 ≤ v.bytes_read)
    (hT : ∀ k ∈ v.blks_to_process, 0 ≤ (ovl s.m_cfi.GetBufferSize off size junk k).size)
    (h : Read_wait_loop off size junk sched s v = some (s1, v1)) :
    (v1.errno = v.errno ∧
      v1.bytes_read = v.bytes_read
        + (v.blks_to_process.map (fun k => (ovl s.m_cfi.GetBufferSize off size junk k).size)).sum ∧
      (∀ k ∈ v.blks_to_process, ∃ b, (deliverAll s sched).m_block_map.find k = some b ∧
        b.is_finished = true ∧ b.is_ok = true)) ∨
    (v1.bytes_read = -1 ∧
      ∃ k ∈ v.blks_to_process, ∃ b, (deliverAll s sched).m_block_map.find k = some b ∧
        b.is_finished = true ∧ b.is_ok = false ∧ v1.errno = some b.m_errno) := by
  induction sched generalizing s v with
  | nil =>
    unfold Read_wait_loop at h
    by_cases hd : Read_loop_done v = true
    · rw [if_pos hd] at h
      have hs := congrArg Prod.fst (Option.some.inj h)
      have hv' := congrArg Prod.snd (Option.some.inj h)
      dsimp only at hs hv'
      subst hs
      subst hv'
      rcases (Read_loop_done_iff v).mp hd with he | he
      · left
        rw [he]
        exact ⟨rfl, by simp, fun k hk => by cases hk⟩
      · omega
    · rw [if_neg hd] at h
      dsimp only at h
      by_cases hd2 : Read_loop_done (Read_iter off size junk s v).2 = true
      · rw [if_pos hd2] at h
        have hs := congrArg Prod.fst (Option.some.inj h)
        have hv' := congrArg Prod.snd (Option.some.inj h)
        dsimp only at hs hv'
        subst hs
        subst hv'
        rcases Read_iter_outcome off size junk s v hBS hwf hT with ⟨g1, g2, g3, g4⟩ | ⟨g1, k, hk, b, g2, g3, g4, g5⟩
        · rcases (Read_loop_done_iff _).mp hd2 with he | he
          · left
            rw [he] at g3 g4
            refine ⟨g1, by simpa using g3, ?_⟩
            intro k hk
            exact g4 k hk (by simp)
          · omega
        · right
          exact ⟨g1, k, hk, b, g2, g3, g4, g5⟩
      · rw [if_neg hd2] at h
        cases h
  | cons batch rest ih =>
    unfold Read_wait_loop at h
    by_cases hd : Read_loop_done v = true
    · rw [if_pos hd] at h
      have hs := congrArg Prod.fst (Option.some.inj h)
      have hv' := congrArg Prod.snd (Option.some.inj h)
      dsimp only at hs hv'
      subst hs
      subst hv'
      rcases (Read_loop_done_iff v).mp hd with he | he
      · left
        rw [he]
        exact ⟨rfl, by simp, fun k hk => by cases hk⟩
      · omega
    · rw [if_neg hd] at h
      dsimp only at h
      have hBS1 : 0 < (deliver s batch).m_cfi.GetBufferSize := by simpa using hBS
      have hwf1 := MapWF_deliver s batch hwf
      have honce1 := AnswersOnce_tail s batch rest honce
      have hT1 : ∀ k ∈ v.blks_to_process,
          0 ≤ (ovl (deliver s batch).m_cfi.GetBufferSize off size junk k).size := by
        simpa using hT
      obtain ⟨f1, f2, _, f4, _⟩ := Read_iter_spec off size junk (deliver s batch) v hBS1 hwf1
      have hwf2 : (Read_iter off size junk (deliver s batch) v).1.MapWF := by
        intro k b hb
        rw [f2] at hb; rw [f1]; exact hwf1 k b hb
      have honce2 : AnswersOnce (Read_iter off size junk (deliver s batch) v).1 rest :=
        AnswersOnce_congr _ _ rest f2.symm honce1
      have hfinal : ∀ k, (deliverAll (Read_iter off size junk (deliver s batch) v).1 rest).m_block_map.find k
          = (deliverAll s (batch :: rest)).m_block_map.find k := by
        intro k
        rw [deliverAll_map_congr _ (deliver s batch) rest f2]
        rfl
      have hstable : ∀ k b, (deliver s batch).m_block_map.find k = some b → b.is_finished = true →
          (deliverAll s (batch :: rest)).m_block_map.find k = some b := by
        intro k b hb hfin
        have : finished_at (deliver s batch) k = true := by
          unfold finished_at; rw [hb]; exact hfin
        have := find_deliverAll_finished (deliver s batch) rest k honce1 this
        rw [hb] at this
        exact this
      rcases Read_iter_outcome off size junk (deliver s batch) v hBS1 hwf1 hT1 with
        ⟨g1, g2, g3, g4⟩ | ⟨g1, k, hk, b, g2, g3, g4, g5⟩
      · have hT2 : ∀ k ∈ (Read_iter off size junk (deliver s batch) v).2.blks_to_process,
            0 ≤ (ovl (Read_iter off size junk (deliver s batch) v).1.m_cfi.GetBufferSize off size junk k).size := by
          intro k hk
          rw [f1]
          exact hT1 k (f4 k hk)
        rcases ih _ _ (by rw [f1]; exact hBS1) hwf2 honce2 (by omega) hT2 h with
          ⟨e1, e2, e3⟩ | ⟨e1, k, hk, b, e2, e3, e4, e5⟩
        · left
          simp only [f1, deliver_cfi] at e2 g3
          refine ⟨e1.trans g1, by rw [e2]; omega, ?_⟩
          intro k hk
          by_cases hmem : k ∈ (Read_iter off size junk (deliver s batch) v).2.blks_to_process
          · obtain ⟨b, hb1, hb2, hb3⟩ := e3 k hmem
            exact ⟨b, by rw [← hfinal k]; exact hb1, hb2, hb3⟩
          · obtain ⟨b, hb1, hb2, hb3⟩ := g4 k hk hmem
            exact ⟨b, hstable k b hb1 hb2, hb2, hb3⟩
        · right
          exact ⟨e1, k, f4 k hk, b, by rw [← hfinal k]; exact e2, e3, e4, e5⟩
      · right
        have hdone : Read_loop_done (Read_iter off size junk (deliver s batch) v).2 = true :=
          (Read_loop_done_iff _).mpr (Or.inr (by rw [g1]; decide))
        have hret : Read_wait_loop off size junk rest (Read_iter off size junk (deliver s batch) v).1
            (Read_iter off size junk (deliver s batch) v).2
            = some ((Read_iter off size junk (deliver s batch) v).1,
                    (Read_iter off size junk (deliver s batch) v).2) := by
          cases rest with
          | nil => unfold Read_wait_loop; rw [if_pos hdone]
          | cons b2 r2 => unfold Read_wait_loop; rw [if_pos hdone]
        rw [hret] at h
        have hs := congrArg Prod.fst (Option.some.inj h)
        have hv' := congrArg Prod.snd (Option.some.inj h)
        dsimp only at hs hv'
        subst hs
        subst hv'
        exact ⟨g1, k, hk, b, hstable k b g2 g3, g3, g4, g5⟩

end File

namespace File

/-! ### Effects of `Read` on the state -/

theorem RequestBlocksDirect_loop_reads (off size : Int) (junk : Overlap) (l : List Int) (s : File)
    (total : Int) :
    (RequestBlocksDirect_loop off size junk l (s, total)).1.origin_reads
      = s.origin_reads ++ l.map (directRead s.m_cfi.GetBufferSize off size junk) ∧
    (RequestBlocksDirect_loop off size junk l (s, total)).1.m_offset = s.m_offset := by
  induction l generalizing s total with
  | nil => simp [RequestBlocksDirect_loop]
  | cons i rest ih =>
    simp only [RequestBlocksDirect_loop]
    obtain ⟨h1, h2⟩ := ih
      { s with origin_reads := s.origin_reads ++
          [{ direct := true
             target := (overlap i s.m_cfi.GetBufferSize off size junk).2.off
             offset := i * s.m_cfi.GetBufferSize + (overlap i s.m_cfi.GetBufferSize off size junk).2.blk_off
             length := (overlap i s.m_cfi.GetBufferSize off size junk).2.size }] }
      (total + (overlap i s.m_cfi.GetBufferSize off size junk).2.size)
    refine ⟨?_, h2⟩
    rw [h1]
    simp [directRead, ovl]

theorem ReadBlocksFromDisk_loop_frame (rd : Int → Int → Int) (off size : Int) (junk : Overlap)
    (l : List Int) (s : File) (total : Int) :
    (ReadBlocksFromDisk_loop rd off size junk l (s, total)).1.m_offset = s.m_offset ∧
    (ReadBlocksFromDisk_loop rd off size junk l (s, total)).1.origin_reads = s.origin_reads ∧
    (ReadBlocksFromDisk_loop rd off size junk l (s, total)).1.m_stats.m_BytesMissed
      = s.m_stats.m_BytesMissed := by
  induction l generalizing s total with
  | nil => simp [ReadBlocksFromDisk_loop]
  | cons i rest ih =>
    simp only [ReadBlocksFromDisk_loop]
    split_ifs with h1 h2
    · exact ⟨rfl, rfl, rfl⟩
    · exact ⟨rfl, rfl, rfl⟩
    · obtain ⟨g1, g2, g3⟩ := ih (s.CheckPrefetchStatDisk i)
        (total + rd (i * s.m_cfi.GetBufferSize + (overlap i s.m_cfi.GetBufferSize off size junk).2.blk_off
                      - s.m_offset) (overlap i s.m_cfi.GetBufferSize off size junk).2.size)
      exact ⟨by rw [g1]; simp, by rw [g2]; simp, by rw [g3]; simp⟩

theorem Read_classify_step_frame (ca : CacheAnswers) (s : File) (L : ReadLists) (i : Int) :
    (Read_classify_step ca (s, L) i).1.m_offset = s.m_offset ∧
    (Read_classify_step ca (s, L) i).1.m_stats = s.m_stats ∧
    (∀ k, finished_at (Read_classify_step ca (s, L) i).1 k = finished_at s k) ∧
    (∀ j, j ≠ i → (Read_classify_step ca (s, L) i).1.m_block_map.find j = s.m_block_map.find j) ∧
    (∀ j, j ∈ L.blks_direct → j ∈ (Read_classify_step ca (s, L) i).2.blks_direct) := by
  unfold Read_classify_step
  cases hf : s.m_block_map.find i with
  | some b =>
    dsimp only
    refine ⟨rfl, rfl, ?_, ?_, fun j hj => hj⟩
    · intro k
      unfold finished_at
      rw [inc_ref_count_map, BlockMap.find_modify]
      by_cases hk : k = i
      · subst hk; rw [if_pos rfl, hf]; rfl
      · rw [if_neg hk]
    · intro j hj
      rw [inc_ref_count_map, BlockMap.find_modify, if_neg hj]
  | none =>
    dsimp only
    split_ifs with h1 h2
    · exact ⟨rfl, rfl, fun _ => rfl, fun _ _ => rfl, fun j hj => hj⟩
    · refine ⟨by simp, by simp, ?_, ?_, fun j hj => hj⟩
      · intro k
        unfold finished_at
        simp only [inc_ref_count_map, BlockMap.find_modify, RequestBlock_map, BlockMap.find_set]
        by_cases hk : k = i
        · subst hk; simp only [if_true, Option.map_some', hf]; rfl
        · simp only [hk, if_false]
      · intro j hj
        simp only [inc_ref_count_map, BlockMap.find_modify, RequestBlock_map, BlockMap.find_set,
          hj, if_false]
    · exact ⟨rfl, rfl, fun _ => rfl, fun _ _ => rfl, fun j hj => List.mem_append_left _ hj⟩

theorem Read_classify_fold_frame (ca : CacheAnswers) (l : List Int) (s : File) (L : ReadLists) :
    (l.foldl (Read_classify_step ca) (s, L)).1.m_offset = s.m_offset ∧
    (l.foldl (Read_classify_step ca) (s, L)).1.m_stats = s.m_stats ∧
    (∀ k, finished_at (l.foldl (Read_classify_step ca) (s, L)).1 k = finished_at s k) ∧
    (∀ j, j ∉ l → (l.foldl (Read_classify_step ca) (s, L)).1.m_block_map.find j = s.m_block_map.find j) ∧
    (∀ j, j ∈ L.blks_direct → j ∈ (l.foldl (Read_classify_step ca) (s, L)).2.blks_direct) := by
  induction l generalizing s L with
  | nil => simp
  | cons i rest ih =>
    simp only [List.foldl_cons]
    obtain ⟨g1, g2, g3, g4, g5⟩ := Read_classify_step_frame ca s L i
    obtain ⟨e1, e2, e3, e4, e5⟩ := ih (Read_classify_step ca (s, L) i).1 (Read_classify_step ca (s, L) i).2
    refine ⟨e1.trans g1, e2.trans g2, fun k => (e3 k).trans (g3 k), ?_, fun j hj => e5 j (g5 j hj)⟩
    intro j hj
    simp only [List.mem_cons, not_or] at hj
    rw [e4 j hj.2, g4 j hj.1]

/-- A block index that is not in the map, whose present bit is clear and for which the coordinator
refuses a block ends up in `blks_direct`, and the map has no entry for it after the
classification. -/
theorem Read_classify_fold_refused (ca : CacheAnswers) (l : List Int) (s : File) (L : ReadLists)
    (i : Int) (hl : l.Nodup) (hi : i ∈ l) (hmap : s.m_block_map.find i = none)
    (hbit : s.m_cfi.TestBit (s.offsetIdx i) = false)
    (href : (ca.HaveFreeWritingSlots i && ca.RequestRAMBlock i) = false) :
    i ∈ (l.foldl (Read_classify_step ca) (s, L)).2.blks_direct ∧
    (l.foldl (Read_classify_step ca) (s, L)).1.m_block_map.find i = none := by
  induction l generalizing s L with
  | nil => cases hi
  | cons j rest ih =>
    simp only [List.foldl_cons]
    rw [List.nodup_cons] at hl
    by_cases hj : i = j
    · subst hj
      have hstep : Read_classify_step ca (s, L) i
          = (s, { L with blks_direct := L.blks_direct ++ [i] }) := by
        unfold Read_classify_step
        simp only [hmap, hbit, href, Bool.false_eq_true, if_false]
      rw [hstep]
      obtain ⟨_, _, _, e4, e5⟩ := Read_classify_fold_frame ca rest s
        { L with blks_direct := L.blks_direct ++ [i] }
      exact ⟨e5 i (by simp), by rw [e4 i hl.1]; exact hmap⟩
    · have hi' : i ∈ rest := by
        rcases List.mem_cons.mp hi with h | h
        · exact absurd h hj
        · exact h
      obtain ⟨g1, _, _, g4, _⟩ := Read_classify_step_frame ca s L j
      obtain ⟨c1, _, _⟩ := Read_classify_step_spec ca s L j
      refine ih (Read_classify_step ca (s, L) j).1 (Read_classify_step ca (s, L) j).2 hl.2 hi' ?_ ?_
      · rw [g4 i hj]; exact hmap
      · unfold offsetIdx
        rw [c1, g1]
        exact hbit

theorem idxRange_nodup (first last : Int) : (idxRange first last).Nodup := by
  unfold idxRange
  apply List.Nodup.map
  · intro a b h
    simpa using h
  · exact List.nodup_range _

end File

namespace File

theorem ReadBlocksFromDisk_loop_ok (rd : Int → Int → Int) (off size : Int) (junk : Overlap)
    (l : List Int) (s : File) (total : Int)
    (h : ∀ i ∈ l, rd (i * s.m_cfi.GetBufferSize + (ovl s.m_cfi.GetBufferSize off size junk i).blk_off
            - s.m_offset) (ovl s.m_cfi.GetBufferSize off size junk i).size
          = (ovl s.m_cfi.GetBufferSize off size junk i).size ∧
          0 ≤ (ovl s.m_cfi.GetBufferSize off size junk i).size) :
    (ReadBlocksFromDisk_loop rd off size junk l (s, total)).2
      = total + (l.map (fun i => (ovl s.m_cfi.GetBufferSize off size junk i).size)).sum := by
  induction l generalizing s total with
  | nil => simp [ReadBlocksFromDisk_loop]
  | cons i rest ih =>
    simp only [ReadBlocksFromDisk_loop]
    obtain ⟨hi1, hi2⟩ := h i (List.mem_cons_self _ _)
    unfold ovl at hi1 hi2
    rw [hi1]
    rw [if_neg (by omega), if_neg (by simp)]
    rw [ih]
    · simp only [CheckPrefetchStatDisk_cfi, List.map_cons, List.sum_cons, ovl]
      ring
    · intro j hj
      simpa using h j (List.mem_cons_of_mem _ hj)

theorem Read_consume_frame_cfi (off size : Int) (junk : Overlap) (fin : List (Int × Block)) (s : File)
    (br : Int) (e : Option Int) :
    (Read_consume off size junk fin (s, br, e)).1.m_cfi = s.m_cfi := by
  induction fin generalizing s br e with
  | nil => rfl
  | cons p rest ih =>
    obtain ⟨k, b⟩ := p
    simp only [Read_consume]
    split_ifs
    · rw [ih]; simp
    · rfl

theorem Read_iter_cfi (off size : Int) (junk : Overlap) (s : File) (v : ReadVars) :
    (Read_iter off size junk s v).1.m_cfi = s.m_cfi := by
  unfold Read_iter
  dsimp only
  split_ifs
  · rfl
  · exact Read_consume_frame_cfi off size junk _ s _ _

theorem Read_wait_loop_cfi (off size : Int) (junk : Overlap) (sched : List (List Response))
    (s : File) (v : ReadVars) (s1 : File) (v1 : ReadVars)
    (h : Read_wait_loop off size junk sched s v = some (s1, v1)) : s1.m_cfi = s.m_cfi := by
  induction sched generalizing s v with
  | nil =>
    unfold Read_wait_loop at h
    by_cases hd : Read_loop_done v = true
    · rw [if_pos hd] at h
      have hs := congrArg Prod.fst (Option.some.inj h)
      dsimp only at hs
      rw [← hs]
    · rw [if_neg hd] at h
      dsimp only at h
      by_cases hd2 : Read_loop_done (Read_iter off size junk s v).2 = true
      · rw [if_pos hd2] at h
        have hs := congrArg Prod.fst (Option.some.inj h)
        dsimp only at hs
        rw [← hs]
        exact Read_iter_cfi off size junk s v
      · rw [if_neg hd2] at h
        cases h
  | cons batch rest ih =>
    unfold Read_wait_loop at h
    by_cases hd : Read_loop_done v = true
    · rw [if_pos hd] at h
      have hs := congrArg Prod.fst (Option.some.inj h)
      dsimp only at hs
      rw [← hs]
    · rw [if_neg hd] at h
      dsimp only at h
      rw [ih _ _ h, Read_iter_cfi]
      simp

/-- The effects of a call of `Read` that returns. -/
theorem Read_effects (s : File) (off size : Int) (env : ReadEnv) (r : ReadResult)
    (h : Read s off size env = some r) :
    r.file.m_cfi = s.m_cfi ∧
    r.file.origin_reads
      = (Read_classify s env.cache (cdiv off s.m_cfi.GetBufferSize)
          (cdiv (off + size - 1) s.m_cfi.GetBufferSize)).1.origin_reads
        ++ (Read_classify s env.cache (cdiv off s.m_cfi.GetBufferSize)
          (cdiv (off + size - 1) s.m_cfi.GetBufferSize)).2.blks_direct.map
            (directRead s.m_cfi.GetBufferSize off size env.junk) ∧
    (∀ j, (Read_classify s env.cache (cdiv off s.m_cfi.GetBufferSize)
          (cdiv (off + size - 1) s.m_cfi.GetBufferSize)).1.m_block_map.find j = none →
        r.file.m_block_map.find j = none) ∧
    (0 ≤ r.ret → r.file.m_stats.m_BytesMissed = s.m_stats.m_BytesMissed
        + ((Read_classify s env.cache (cdiv off s.m_cfi.GetBufferSize)
          (cdiv (off + size - 1) s.m_cfi.GetBufferSize)).2.blks_direct.map
            (fun i => (ovl s.m_cfi.GetBufferSize off size env.junk i).size)).sum) := by
  unfold Read at h
  dsimp only at h
  generalize hc : Read_classify s env.cache (cdiv off s.m_cfi.GetBufferSize)
    (cdiv (off + size - 1) s.m_cfi.GetBufferSize) = c at h ⊢
  obtain ⟨hc1, _, _⟩ := Read_classify_spec env.cache s (cdiv off s.m_cfi.GetBufferSize)
    (cdiv (off + size - 1) s.m_cfi.GetBufferSize)
  have hcf := Read_classify_fold_frame env.cache (idxRange (cdiv off s.m_cfi.GetBufferSize)
    (cdiv (off + size - 1) s.m_cfi.GetBufferSize)) s
    { blks_to_process := [], blks_on_disk := [], blks_direct := [] }
  obtain ⟨_, hc3, _⟩ := hcf
  change (Read_classify s env.cache (cdiv off s.m_cfi.GetBufferSize)
    (cdiv (off + size - 1) s.m_cfi.GetBufferSize)).1.m_stats = s.m_stats at hc3
  rw [hc] at hc1 hc3
  generalize hd : (if c.2.blks_direct.isEmpty = true then (c.1, (0 : Int))
      else RequestBlocksDirect c.1 c.2.blks_direct off size env.junk) = d at h
  have hdspec : d.1.m_cfi = s.m_cfi ∧ d.1.m_block_map = c.1.m_block_map ∧
      d.1.m_stats = s.m_stats ∧
      d.1.origin_reads = c.1.origin_reads
        ++ c.2.blks_direct.map (directRead s.m_cfi.GetBufferSize off size env.junk) ∧
      d.2 = (c.2.blks_direct.map (fun i => (ovl s.m_cfi.GetBufferSize off size env.junk i).size)).sum := by
    rw [← hd]
    by_cases he : c.2.blks_direct.isEmpty = true
    · rw [if_pos he]
      rw [List.isEmpty_iff] at he
      simp [he, hc1, hc3]
    · rw [if_neg he]
      obtain ⟨g1, g2, g3, g4⟩ := RequestBlocksDirect_loop_spec off size env.junk c.2.blks_direct c.1 0
      obtain ⟨g5, _⟩ := RequestBlocksDirect_loop_reads off size env.junk c.2.blks_direct c.1 0
      unfold RequestBlocksDirect
      refine ⟨g1.trans hc1, g2, g3.trans hc3, by rw [g5, hc1], ?_⟩
      rw [g4, hc1]; simp
  obtain ⟨hd1, hd2, hd3, hd4, hd5⟩ := hdspec
  by_cases hneg : (!c.2.blks_direct.isEmpty) = true ∧ d.2 < 0
  · rw [if_pos hneg] at h
    have hr := Option.some.inj h
    subst hr
    dsimp only
    obtain ⟨f1, _, f3, f4, f5⟩ := release_frame c.2.blks_to_process d.1
    refine ⟨f1.trans hd1, f4.trans hd4, fun j hj => f5 j (by rw [hd2]; exact hj), ?_⟩
    intro hcontra
    exact absurd hcontra (by decide)
  · rw [if_neg hneg] at h
    generalize hk : (if c.2.blks_on_disk.isEmpty = true then (d.1, (0 : Int))
        else ReadBlocksFromDisk d.1 env.disk_read c.2.blks_on_disk off size env.junk) = k at h
    have hkspec : k.1.m_cfi = s.m_cfi ∧ k.1.m_block_map = c.1.m_block_map ∧
        k.1.origin_reads = d.1.origin_reads ∧
        k.1.m_stats.m_BytesMissed = s.m_stats.m_BytesMissed := by
      rw [← hk]
      by_cases he : c.2.blks_on_disk.isEmpty = true
      · rw [if_pos he]
        exact ⟨hd1, hd2, rfl, by rw [hd3]⟩
      · rw [if_neg he]
        obtain ⟨g1, g2, _⟩ := ReadBlocksFromDisk_loop_spec env.disk_read off size env.junk
          c.2.blks_on_disk d.1 0
        obtain ⟨_, g4, g5⟩ := ReadBlocksFromDisk_loop_frame env.disk_read off size env.junk
          c.2.blks_on_disk d.1 0
        unfold ReadBlocksFromDisk
        exact ⟨g1.trans hd1, g2.trans hd2, g4, by rw [g5, hd3]⟩
    obtain ⟨hk1, hk2, hk3, hk4⟩ := hkspec
    cases hloop : Read_wait_loop off size env.junk env.responses k.1
        { bytes_read := k.2, errno := none, blks_to_process := c.2.blks_to_process,
          blks_processed := [] } with
    | none => rw [hloop] at h; cases h
    | some p =>
      obtain ⟨s3, v⟩ := p
      rw [hloop] at h
      dsimp only at h
      obtain ⟨_, w2, w3, w4, _, _⟩ := Read_wait_loop_frame off size env.junk env.responses k.1 _ s3 v hloop
      have w1 : s3.m_cfi = s.m_cfi := by
        rw [Read_wait_loop_cfi off size env.junk env.responses k.1 _ s3 v hloop, hk1]
      by_cases hdir : (!c.2.blks_direct.isEmpty) = true ∧ v.bytes_read ≥ 0
      · rw [if_pos hdir] at h
        by_cases hwait : (List.foldl (fun h r => h.Done r.1 r.2)
            (DirectResponseHandler.create (c.2.blks_direct.length : Int)) env.direct_done).m_to_wait > 0
        · rw [if_pos hwait] at h; cases h
        · rw [if_neg hwait] at h
          by_cases herr : (List.foldl (fun h r => h.Done r.1 r.2)
              (DirectResponseHandler.create (c.2.blks_direct.length : Int)) env.direct_done).m_errno = 0
          · rw [if_pos herr] at h
            have hr := Option.some.inj h
            subst hr
            dsimp only
            obtain ⟨f1, _, f3, f4, f5⟩ := release_frame (v.blks_processed ++ v.blks_to_process)
              { s3 with m_stats := { s3.m_stats with m_BytesMissed := s3.m_stats.m_BytesMissed + d.2 } }
            refine ⟨f1.trans w1, by rw [f4]; dsimp only; rw [w2, hk3, hd4], ?_, ?_⟩
            · intro j hj
              apply f5
              dsimp only
              exact w4 j (by rw [hk2]; exact hj)
            · intro _
              rw [f3]
              dsimp only
              rw [w3, hk4, hd5]
          · rw [if_neg herr] at h
            have hr := Option.some.inj h
            subst hr
            dsimp only
            obtain ⟨f1, _, f3, f4, f5⟩ := release_frame (v.blks_processed ++ v.blks_to_process) s3
            refine ⟨f1.trans w1, by rw [f4, w2, hk3, hd4], ?_, ?_⟩
            · intro j hj
              exact f5 j (w4 j (by rw [hk2]; exact hj))
            · intro hcontra
              exact absurd hcontra (by decide)
      · rw [if_neg hdir] at h
        have hr := Option.some.inj h
        subst hr
        dsimp only
        obtain ⟨f1, _, f3, f4, f5⟩ := release_frame (v.blks_processed ++ v.blks_to_process) s3
        refine ⟨f1.trans w1, by rw [f4, w2, hk3, hd4], ?_, ?_⟩
        · intro j hj
          exact f5 j (w4 j (by rw [hk2]; exact hj))
        · intro hnn
          have hemp : c.2.blks_direct = [] := by
            by_contra hne
            apply hdir
            refine ⟨?_, hnn⟩
            simp [List.isEmpty_iff, hne]
          rw [f3, w3, hk4, hemp]
          simp

end File

namespace File

theorem Read_returns_sum_aux (s : File) (off size : Int) (env : ReadEnv)
    (hBS : 0 < s.m_cfi.GetBufferSize) (hoff : 0 ≤ off) (hsize : 0 < size) :
    ((Read_classify s env.cache (cdiv off s.m_cfi.GetBufferSize)
          (cdiv (off + size - 1) s.m_cfi.GetBufferSize)).2.blks_on_disk.map
        (fun i => (ovl s.m_cfi.GetBufferSize off size env.junk i).size)).sum +
      ((Read_classify s env.cache (cdiv off s.m_cfi.GetBufferSize)
          (cdiv (off + size - 1) s.m_cfi.GetBufferSize)).2.blks_to_process.map
        (fun i => (ovl s.m_cfi.GetBufferSize off size env.junk i).size)).sum +
      ((Read_classify s env.cache (cdiv off s.m_cfi.GetBufferSize)
          (cdiv (off + size - 1) s.m_cfi.GetBufferSize)).2.blks_direct.map
        (fun i => (ovl s.m_cfi.GetBufferSize off size env.junk i).size)).sum
      = size := by
  obtain ⟨_, _, hperm⟩ := Read_classify_spec env.cache s (cdiv off s.m_cfi.GetBufferSize)
    (cdiv (off + size - 1) s.m_cfi.GetBufferSize)
  have h1 := (hperm.map (fun i => (ovl s.m_cfi.GetBufferSize off size env.junk i).size)).sum_eq
  rw [sum_ovl_size s.m_cfi.GetBufferSize off size env.junk hBS hoff hsize] at h1
  simp only [List.map_append, List.sum_append] at h1
  omega

/-- The outcome of a call of `Read` that returns, when the origin answers each fetch once and
every disk read is complete: either every block the reader took is good, and the call returns
`size` unless the direct handler reports an error; or the call returns `-1` and `errno` is the
error stored in a failed block that the reader took. -/
theorem Read_outcome (s : File) (off size : Int) (env : ReadEnv) (r : ReadResult)
    (hBS : 0 < s.m_cfi.GetBufferSize) (hoff : 0 ≤ off) (hsize : 0 < size) (hwf : s.MapWF)
    (honce : AnswersOnce s env.responses) (hdisk : Read_disk_ok s off size env)
    (h : Read s off size env = some r) :
    ((∀ k ∈ (Read_classify s env.cache (cdiv off s.m_cfi.GetBufferSize)
          (cdiv (off + size - 1) s.m_cfi.GetBufferSize)).2.blks_to_process,
        ∃ b, (Read_final s off size env).m_block_map.find k = some b ∧
          b.is_finished = true ∧ b.is_ok = true) ∧
      ((((Read_classify s env.cache (cdiv off s.m_cfi.GetBufferSize)
            (cdiv (off + size - 1) s.m_cfi.GetBufferSize)).2.blks_direct = [] ∨
          (List.foldl (fun h r => h.Done r.1 r.2)
            (DirectResponseHandler.create
              ((Read_classify s env.cache (cdiv off s.m_cfi.GetBufferSize)
                (cdiv (off + size - 1) s.m_cfi.GetBufferSize)).2.blks_direct.length : Int))
            env.direct_done).m_errno = 0) ∧
          r.ret = size ∧ r.errno = none) ∨
        ((List.foldl (fun h r => h.Done r.1 r.2)
            (DirectResponseHandler.create
              ((Read_classify s env.cache (cdiv off s.m_cfi.GetBufferSize)
                (cdiv (off + size - 1) s.m_cfi.GetBufferSize)).2.blks_direct.length : Int))
            env.direct_done).m_errno ≠ 0 ∧
          r.ret = -1 ∧
          r.errno = some (List.foldl (fun h r => h.Done r.1 r.2)
            (DirectResponseHandler.create
              ((Read_classify s env.cache (cdiv off s.m_cfi.GetBufferSize)
                (cdiv (off + size - 1) s.m_cfi.GetBufferSize)).2.blks_direct.length : Int))
            env.direct_done).m_errno))) ∨
    (r.ret = -1 ∧
      ∃ k ∈ (Read_classify s env.cache (cdiv off s.m_cfi.GetBufferSize)
          (cdiv (off + size - 1) s.m_cfi.GetBufferSize)).2.blks_to_process,
        ∃ b, (Read_final s off size env).m_block_map.find k = some b ∧
          b.is_finished = true ∧ b.is_ok = false ∧ r.errno = some b.m_errno) := by
  have hsumall := (Read_returns_sum_aux s off size env hBS hoff hsize)
  unfold Read_disk_ok at hdisk
  unfold Read_final
  unfold Read at h
  dsimp only at h hdisk ⊢
  obtain ⟨hc1, hc2, hperm⟩ := Read_classify_spec env.cache s (cdiv off s.m_cfi.GetBufferSize)
    (cdiv (off + size - 1) s.m_cfi.GetBufferSize)
  have hcf := Read_classify_fold_frame env.cache (idxRange (cdiv off s.m_cfi.GetBufferSize)
    (cdiv (off + size - 1) s.m_cfi.GetBufferSize)) s
    { blks_to_process := [], blks_on_disk := [], blks_direct := [] }
  obtain ⟨hc4, _, hc5, _, _⟩ := hcf
  change (Read_classify s env.cache (cdiv off s.m_cfi.GetBufferSize)
    (cdiv (off + size - 1) s.m_cfi.GetBufferSize)).1.m_offset = s.m_offset at hc4
  change ∀ k, finished_at (Read_classify s env.cache (cdiv off s.m_cfi.GetBufferSize)
    (cdiv (off + size - 1) s.m_cfi.GetBufferSize)).1 k = finished_at s k at hc5
  generalize hc : Read_classify s env.cache (cdiv off s.m_cfi.GetBufferSize)
    (cdiv (off + size - 1) s.m_cfi.GetBufferSize) = c at h hdisk hc1 hc2 hperm hc4 hc5 hsumall ⊢
  have hwfc := hc2 hwf
  have hmem : ∀ i, i ∈ c.2.blks_to_process ∨ i ∈ c.2.blks_on_disk ∨ i ∈ c.2.blks_direct →
      i ∈ idxRange (cdiv off s.m_cfi.GetBufferSize) (cdiv (off + size - 1) s.m_cfi.GetBufferSize) := by
    intro i hi
    apply hperm.subset
    simp only [List.mem_append]
    tauto
  have hpos : ∀ i, i ∈ c.2.blks_to_process ∨ i ∈ c.2.blks_on_disk ∨ i ∈ c.2.blks_direct →
      0 < (ovl s.m_cfi.GetBufferSize off size env.junk i).size := by
    intro i hi
    exact (overlap_in_range _ off size i env.junk hBS hoff hsize (hmem i hi)).2.2.2.2.1
  generalize hd : (if c.2.blks_direct.isEmpty = true then (c.1, (0 : Int))
      else RequestBlocksDirect c.1 c.2.blks_direct off size env.junk) = d at h
  have hdspec : d.1.m_cfi = s.m_cfi ∧ d.1.m_block_map = c.1.m_block_map ∧
      d.1.m_offset = s.m_offset ∧
      d.2 = (c.2.blks_direct.map (fun i => (ovl s.m_cfi.GetBufferSize off size env.junk i).size)).sum := by
    rw [← hd]
    by_cases he : c.2.blks_direct.isEmpty = true
    · rw [if_pos he]
      rw [List.isEmpty_iff] at he
      simp [he, hc1, hc4]
    · rw [if_neg he]
      obtain ⟨g1, g2, _, g4⟩ := RequestBlocksDirect_loop_spec off size env.junk c.2.blks_direct c.1 0
      obtain ⟨_, g6⟩ := RequestBlocksDirect_loop_reads off size env.junk c.2.blks_direct c.1 0
      unfold RequestBlocksDirect
      refine ⟨g1.trans hc1, g2, g6.trans hc4, ?_⟩
      rw [g4, hc1]; simp
  obtain ⟨hd1, hd2, hd3, hd5⟩ := hdspec
  have hdnn : 0 ≤ d.2 := by
    rw [hd5]
    apply List.sum_nonneg
    intro x hx
    rw [List.mem_map] at hx
    obtain ⟨i, hi, rfl⟩ := hx
    exact le_of_lt (hpos i (Or.inr (Or.inr hi)))
  rw [if_neg (by intro hh; omega)] at h
  generalize hk : (if c.2.blks_on_disk.isEmpty = true then (d.1, (0 : Int))
      else ReadBlocksFromDisk d.1 env.disk_read c.2.blks_on_disk off size env.junk) = k at h
  have hkspec : k.1.m_cfi = s.m_cfi ∧ k.1.m_block_map = c.1.m_block_map ∧
      k.2 = (c.2.blks_on_disk.map (fun i => (ovl s.m_cfi.GetBufferSize off size env.junk i).size)).sum := by
    rw [← hk]
    by_cases he : c.2.blks_on_disk.isEmpty = true
    · rw [if_pos he]
      rw [List.isEmpty_iff] at he
      simp [he, hd1, hd2]
    · rw [if_neg he]
      obtain ⟨g1, g2, _⟩ := ReadBlocksFromDisk_loop_spec env.disk_read off size env.junk
        c.2.blks_on_disk d.1 0
      unfold ReadBlocksFromDisk
      refine ⟨g1.trans hd1, g2.trans hd2, ?_⟩
      rw [ReadBlocksFromDisk_loop_ok]
      · rw [hd1]; simp
      · intro i hi
        rw [hd1, hd3]
        exact ⟨hdisk i hi, le_of_lt (hpos i (Or.inr (Or.inl hi)))⟩
  obtain ⟨hk1, hk2, hk3⟩ := hkspec
  have hknn : 0 ≤ k.2 := by
    rw [hk3]
    apply List.sum_nonneg
    intro x hx
    rw [List.mem_map] at hx
    obtain ⟨i, hi, rfl⟩ := hx
    exact le_of_lt (hpos i (Or.inr (Or.inl hi)))
  have hwfk : k.1.MapWF := by
    intro i b hb
    rw [hk2] at hb; rw [hk1, ← hc1]; exact hwfc i b hb
  have honcec : AnswersOnce c.1 env.responses :=
    ⟨honce.1, fun i hi => by rw [hc5 i]; exact honce.2 i hi⟩
  have honcek : AnswersOnce k.1 env.responses := AnswersOnce_congr _ _ _ hk2.symm honcec
  have hfinal : ∀ i, (deliverAll k.1 env.responses).m_block_map.find i
      = (deliverAll c.1 env.responses).m_block_map.find i := by
    intro i
    rw [deliverAll_map_congr _ _ _ hk2]
  cases hloop : Read_wait_loop off size env.junk env.responses k.1
      { bytes_read := k.2, errno := none, blks_to_process := c.2.blks_to_process,
        blks_processed := [] } with
  | none => rw [hloop] at h; cases h
  | some p =>
    obtain ⟨s3, v⟩ := p
    rw [hloop] at h
    dsimp only at h
    have hout := Read_wait_loop_outcome off size env.junk env.responses k.1 _ s3 v
      (by rw [hk1]; exact hBS) hwfk honcek hknn
      (by
        intro i hi
        rw [hk1]
        exact le_of_lt (hpos i (Or.inl hi)))
      hloop
    dsimp only at hout
    rw [hk1] at hout
    rcases hout with ⟨o1, o2, o3⟩ | ⟨o1, i, hi, b, o2, o3, o4, o5⟩
    · left
      refine ⟨fun i hi => by
        obtain ⟨b, hb1, hb2, hb3⟩ := o3 i hi
        exact ⟨b, by rw [← hfinal i]; exact hb1, hb2, hb3⟩, ?_⟩
      have hvnn : 0 ≤ v.bytes_read := by
        rw [o2]
        have : 0 ≤ (c.2.blks_to_process.map
            (fun i => (ovl s.m_cfi.GetBufferSize off size env.junk i).size)).sum := by
          apply List.sum_nonneg
          intro x hx
          rw [List.mem_map] at hx
          obtain ⟨i, hi, rfl⟩ := hx
          exact le_of_lt (hpos i (Or.inl hi))
        omega
      by_cases hdir : (!c.2.blks_direct.isEmpty) = true ∧ v.bytes_read ≥ 0
      · rw [if_pos hdir] at h
        by_cases hwait : (List.foldl (fun h r => h.Done r.1 r.2)
            (DirectResponseHandler.create (c.2.blks_direct.length : Int)) env.direct_done).m_to_wait > 0
        · rw [if_pos hwait] at h; cases h
        · rw [if_neg hwait] at h
          by_cases herr : (List.foldl (fun h r => h.Done r.1 r.2)
              (DirectResponseHandler.create (c.2.blks_direct.length : Int)) env.direct_done).m_errno = 0
          · rw [if_pos herr] at h
            have hr := Option.some.inj h
            subst hr
            dsimp only
            left
            refine ⟨Or.inr herr, ?_, o1⟩
            rw [o2, hk3, hd5]
            omega
          · rw [if_neg herr] at h
            have hr := Option.some.inj h
            subst hr
            dsimp only
            right
            exact ⟨herr, rfl, rfl⟩
      · rw [if_neg hdir] at h
        have hr := Option.some.inj h
        subst hr
        dsimp only
        have hemp : c.2.blks_direct = [] := by
          by_contra hne
          apply hdir
          refine ⟨?_, hvnn⟩
          simp [List.isEmpty_iff, hne]
        left
        refine ⟨Or.inl hemp, ?_, o1⟩
        rw [o2, hk3]
        rw [hemp] at hsumall
        simp only [List.map_nil, List.sum_nil] at hsumall
        omega
    · right
      have hvneg : ¬ ((!c.2.blks_direct.isEmpty) = true ∧ v.bytes_read ≥ 0) := by
        intro hh
        omega
      rw [if_neg hvneg] at h
      have hr := Option.some.inj h
      subst hr
      dsimp only
      exact ⟨o1, i, hi, b, by rw [← hfinal i]; exact o2, o3, o4, o5⟩

end File

namespace File

theorem Read_wait_loop_value (off size : Int) (junk : Overlap) (sched : List (List Response))
    (s : File) (v : ReadVars) (s1 : File) (v1 : ReadVars)
    (hBS : 0 < s.m_cfi.GetBufferSize) (hwf : s.MapWF)
    (h : Read_wait_loop off size junk sched s v = some (s1, v1)) :
    v1.bytes_read < 0 ∨
      (0 ≤ v.bytes_read ∧ v1.blks_to_process = [] ∧ v1.bytes_read = v.bytes_read
        + (v.blks_to_process.map (fun k => (ovl s.m_cfi.GetBufferSize off size junk k).size)).sum) := by
  induction sched generalizing s v with
  | nil =>
    unfold Read_wait_loop at h
    by_cases hd : Read_loop_done v = true
    · rw [if_pos hd] at h
      have hs := congrArg Prod.fst (Option.some.inj h)
      have hv' := congrArg Prod.snd (Option.some.inj h)
      dsimp only at hs hv'
      subst hs
      subst hv'
      rcases (Read_loop_done_iff v).mp hd with he | he
      · by_cases hb : v.bytes_read < 0
        · exact Or.inl hb
        · right; rw [he]; simp; omega
      · exact Or.inl he
    · rw [if_neg hd] at h
      dsimp only at h
      have hnd : ¬ (v.blks_to_process = [] ∨ v.bytes_read < 0) := fun hh =>
        hd ((Read_loop_done_iff v).mpr hh)
      have hnn : 0 ≤ v.bytes_read := by
        by_contra hh; exact hnd (Or.inr (by omega))
      by_cases hd2 : Read_loop_done (Read_iter off size junk s v).2 = true
      · rw [if_pos hd2] at h
        have hs := congrArg Prod.fst (Option.some.inj h)
        have hv' := congrArg Prod.snd (Option.some.inj h)
        dsimp only at hs hv'
        subst hs
        subst hv'
        obtain ⟨_, _, g3, _, _⟩ := Read_iter_spec off size junk s v hBS hwf
        rcases (Read_loop_done_iff _).mp hd2 with he | he
        · rcases g3 with g3 | g3
          · exact Or.inl g3
          · right
            refine ⟨hnn, he, ?_⟩
            rw [he] at g3
            simpa using g3
        · exact Or.inl he
      · rw [if_neg hd2] at h
        cases h
  | cons batch rest ih =>
    unfold Read_wait_loop at h
    by_cases hd : Read_loop_done v = true
    · rw [if_pos hd] at h
      have hs := congrArg Prod.fst (Option.some.inj h)
      have hv' := congrArg Prod.snd (Option.some.inj h)
      dsimp only at hs hv'
      subst hs
      subst hv'
      rcases (Read_loop_done_iff v).mp hd with he | he
      · by_cases hb : v.bytes_read < 0
        · exact Or.inl hb
        · right; rw [he]; simp; omega
      · exact Or.inl he
    · rw [if_neg hd] at h
      dsimp only at h
      have hnd : ¬ (v.blks_to_process = [] ∨ v.bytes_read < 0) := fun hh =>
        hd ((Read_loop_done_iff v).mpr hh)
      have hnn : 0 ≤ v.bytes_read := by
        by_contra hh; exact hnd (Or.inr (by omega))
      have hBS1 : 0 < (deliver s batch).m_cfi.GetBufferSize := by simpa using hBS
      have hwf1 := MapWF_deliver s batch hwf
      obtain ⟨g1, g2, g3, _, _⟩ := Read_iter_spec off size junk (deliver s batch) v hBS1 hwf1
      have hwf2 : (Read_iter off size junk (deliver s batch) v).1.MapWF := by
        intro k b hb
        rw [g2] at hb; rw [g1]; exact hwf1 k b hb
      rcases ih _ _ (by rw [g1]; exact hBS1) hwf2 h with e4 | ⟨e4, e5, e6⟩
      · exact Or.inl e4
      · rcases g3 with g3 | g3
        · omega
        · right
          refine ⟨hnn, e5, ?_⟩
          rw [e6]
          simp only [g1, deliver_cfi] at g3 ⊢
          omega

/-- The value returned by a call of `Read` that returns: a negative value, or the sum of the
overlap sizes of the three lists of the classification. -/
theorem Read_ret_of_some (s : File) (off size : Int) (env : ReadEnv) (r : ReadResult)
    (hBS : 0 < s.m_cfi.GetBufferSize) (hwf : s.MapWF) (h : Read s off size env = some r) :
    r.ret < 0 ∨ r.ret =
        ((Read_classify s env.cache (cdiv off s.m_cfi.GetBufferSize)
            (cdiv (off + size - 1) s.m_cfi.GetBufferSize)).2.blks_on_disk.map
          (fun i => (ovl s.m_cfi.GetBufferSize off size env.junk i).size)).sum +
        ((Read_classify s env.cache (cdiv off s.m_cfi.GetBufferSize)
            (cdiv (off + size - 1) s.m_cfi.GetBufferSize)).2.blks_to_process.map
          (fun i => (ovl s.m_cfi.GetBufferSize off size env.junk i).size)).sum +
        ((Read_classify s env.cache (cdiv off s.m_cfi.GetBufferSize)
            (cdiv (off + size - 1) s.m_cfi.GetBufferSize)).2.blks_direct.map
          (fun i => (ovl s.m_cfi.GetBufferSize off size env.junk i).size)).sum := by
  unfold Read at h
  dsimp only at h
  obtain ⟨hc1, hc2, _⟩ := Read_classify_spec env.cache s (cdiv off s.m_cfi.GetBufferSize)
    (cdiv (off + size - 1) s.m_cfi.GetBufferSize)
  generalize hc : Read_classify s env.cache (cdiv off s.m_cfi.GetBufferSize)
    (cdiv (off + size - 1) s.m_cfi.GetBufferSize) = c at h hc1 hc2 ⊢
  have hwfc := hc2 hwf
  generalize hd : (if c.2.blks_direct.isEmpty = true then (c.1, (0 : Int))
      else RequestBlocksDirect c.1 c.2.blks_direct off size env.junk) = d at h
  have hdspec : d.1.m_cfi = s.m_cfi ∧ d.1.m_block_map = c.1.m_block_map ∧
      d.2 = (c.2.blks_direct.map (fun i => (ovl s.m_cfi.GetBufferSize off size env.junk i).size)).sum := by
    rw [← hd]
    by_cases he : c.2.blks_direct.isEmpty = true
    · rw [if_pos he]
      rw [List.isEmpty_iff] at he
      simp [he, hc1]
    · rw [if_neg he]
      obtain ⟨g1, g2, _, g4⟩ := RequestBlocksDirect_loop_spec off size env.junk c.2.blks_direct c.1 0
      unfold RequestBlocksDirect
      refine ⟨g1.trans hc1, g2, ?_⟩
      rw [g4, hc1]; simp
  obtain ⟨hd1, hd2, hd3⟩ := hdspec
  by_cases hneg : (!c.2.blks_direct.isEmpty) = true ∧ d.2 < 0
  · rw [if_pos hneg] at h
    have hr := Option.some.inj h
    subst hr
    exact Or.inl (by show (-1 : Int) < 0; decide)
  · rw [if_neg hneg] at h
    generalize hk : (if c.2.blks_on_disk.isEmpty = true then (d.1, (0 : Int))
        else ReadBlocksFromDisk d.1 env.disk_read c.2.blks_on_disk off size env.junk) = k at h
    have hkspec : k.1.m_cfi = s.m_cfi ∧ k.1.m_block_map = c.1.m_block_map ∧
        (k.2 < 0 ∨ k.2 =
          (c.2.blks_on_disk.map (fun i => (ovl s.m_cfi.GetBufferSize off size env.junk i).size)).sum) := by
      rw [← hk]
      by_cases he : c.2.blks_on_disk.isEmpty = true
      · rw [if_pos he]
        rw [List.isEmpty_iff] at he
        simp [he, hd1, hd2]
      · rw [if_neg he]
        obtain ⟨g1, g2, g3⟩ := ReadBlocksFromDisk_loop_spec env.disk_read off size env.junk
          c.2.blks_on_disk d.1 0
        unfold ReadBlocksFromDisk
        refine ⟨g1.trans hd1, g2.trans hd2, ?_⟩
        rw [hd1] at g3
        simpa using g3
    obtain ⟨hk1, hk2, hk3⟩ := hkspec
    have hwfk : k.1.MapWF := by
      intro i b hb
      rw [hk2] at hb; rw [hk1, ← hc1]; exact hwfc i b hb
    cases hloop : Read_wait_loop off size env.junk env.responses k.1
        { bytes_read := k.2, errno := none, blks_to_process := c.2.blks_to_process,
          blks_processed := [] } with
    | none => rw [hloop] at h; cases h
    | some p =>
      obtain ⟨s3, v⟩ := p
      rw [hloop] at h
      dsimp only at h
      have hv := Read_wait_loop_value off size env.junk env.responses k.1 _ s3 v
        (by rw [hk1]; exact hBS) hwfk hloop
      dsimp only at hv
      rw [hk1] at hv
      by_cases hdir : (!c.2.blks_direct.isEmpty) = true ∧ v.bytes_read ≥ 0
      · rw [if_pos hdir] at h
        by_cases hwait : (List.foldl (fun h r => h.Done r.1 r.2)
            (DirectResponseHandler.create (c.2.blks_direct.length : Int)) env.direct_done).m_to_wait > 0
        · rw [if_pos hwait] at h; cases h
        · rw [if_neg hwait] at h
          by_cases herr : (List.foldl (fun h r => h.Done r.1 r.2)
              (DirectResponseHandler.create (c.2.blks_direct.length : Int)) env.direct_done).m_errno = 0
          · rw [if_pos herr] at h
            have hr := Option.some.inj h
            subst hr
            dsimp only
            rcases hv with hv | ⟨hv0, _, hv⟩
            · omega
            · right
              rcases hk3 with hk3 | hk3
              · omega
              · rw [hv, hk3, hd3]
          · rw [if_neg herr] at h
            have hr := Option.some.inj h
            subst hr
            exact Or.inl (by show (-1 : Int) < 0; decide)
      · rw [if_neg hdir] at h
        have hr := Option.some.inj h
        subst hr
        dsimp only
        by_cases hvn : v.bytes_read < 0
        · exact Or.inl hvn
        · rcases hv with hv | ⟨hv0, _, hv⟩
          · exact Or.inl hv
          · right
            have hemp : c.2.blks_direct = [] := by
              by_contra hne
              apply hdir
              refine ⟨?_, by omega⟩
              simp [List.isEmpty_iff, hne]
            rcases hk3 with hk3 | hk3
            · omega
            · rw [hv, hk3, hemp]; simp

end File

namespace File

/-- C2. Let block index `i` of the request be neither in the block map nor marked present, and
let the coordinator report no free writing slot or refuse a RAM-block permit for it.  Then
(1) the classification of `i` changes nothing in the file (no block is inserted, no permit is
taken) and puts `i` on the direct list; (2) after the classification `i` is on the direct list and
the map has no entry for it; (3) every `Read` that returns has handed to the origin a direct read
of exactly the overlap of block `i` with the request (file offset `max(i·BS, off)`, length
`min((i+1)·BS, off+size) − max(i·BS, off) > 0`, placed at `max(i·BS, off) − off` in the user buffer),
leaves the map without an entry for `i`, and when it returns a non-negative value that length is a
summand of the value returned and of the increase of `bytes_missed`; (4) the refusal is no error:
when the origin answers each fetch once, every disk read is complete, no block taken is failed and
the direct handler reports no error, `Read` returns `size`. -/
theorem Read_refused_block_is_read_directly (s : File) (off size : Int) (env : ReadEnv) (i : Int)
    (hBS : 0 < s.m_cfi.GetBufferSize) (hoff : 0 ≤ off) (hsize : 0 < size) (hwf : s.MapWF)
    (hi : i ∈ idxRange (cdiv off s.m_cfi.GetBufferSize) (cdiv (off + size - 1) s.m_cfi.GetBufferSize))
    (hmap : s.m_block_map.find i = none)
    (hbit : s.m_cfi.TestBit (s.offsetIdx i) = false)
    (href : (env.cache.HaveFreeWritingSlots i && env.cache.RequestRAMBlock i) = false) :
    (∀ (t : File) (L : ReadLists), t.m_block_map.find i = none →
      t.m_cfi.TestBit (t.offsetIdx i) = false →
      Read_classify_step env.cache (t, L) i = (t, { L with blks_direct := L.blks_direct ++ [i] })) ∧
    (i ∈ (Read_classify s env.cache (cdiv off s.m_cfi.GetBufferSize)
          (cdiv (off + size - 1) s.m_cfi.GetBufferSize)).2.blks_direct ∧
      (Read_classify s env.cache (cdiv off s.m_cfi.GetBufferSize)
          (cdiv (off + size - 1) s.m_cfi.GetBufferSize)).1.m_block_map.find i = none) ∧
    (∀ r, Read s off size env = some r →
      directRead s.m_cfi.GetBufferSize off size env.junk i ∈ r.file.origin_reads ∧
      (directRead s.m_cfi.GetBufferSize off size env.junk i).offset
        = max (i * s.m_cfi.GetBufferSize) off ∧
      (directRead s.m_cfi.GetBufferSize off size env.junk i).length
        = min ((i + 1) * s.m_cfi.GetBufferSize) (off + size) - max (i * s.m_cfi.GetBufferSize) off ∧
      (directRead s.m_cfi.GetBufferSize off size env.junk i).target
        = max (i * s.m_cfi.GetBufferSize) off - off ∧
      0 < (directRead s.m_cfi.GetBufferSize off size env.junk i).length ∧
      r.file.m_block_map.find i = none ∧
      (0 ≤ r.ret →
        r.ret = (ovl s.m_cfi.GetBufferSize off size env.junk i).size +
          (((Read_classify s env.cache (cdiv off s.m_cfi.GetBufferSize)
              (cdiv (off + size - 1) s.m_cfi.GetBufferSize)).2.blks_on_disk.map
            (fun j => (ovl s.m_cfi.GetBufferSize off size env.junk j).size)).sum +
          ((Read_classify s env.cache (cdiv off s.m_cfi.GetBufferSize)
              (cdiv (off + size - 1) s.m_cfi.GetBufferSize)).2.blks_to_process.map
            (fun j => (ovl s.m_cfi.GetBufferSize off size env.junk j).size)).sum +
          (((Read_classify s env.cache (cdiv off s.m_cfi.GetBufferSize)
              (cdiv (off + size - 1) s.m_cfi.GetBufferSize)).2.blks_direct.erase i).map
            (fun j => (ovl s.m_cfi.GetBufferSize off size env.junk j).size)).sum) ∧
        r.file.m_stats.m_BytesMissed = s.m_stats.m_BytesMissed +
          (ovl s.m_cfi.GetBufferSize off size env.junk i).size +
          (((Read_classify s env.cache (cdiv off s.m_cfi.GetBufferSize)
              (cdiv (off + size - 1) s.m_cfi.GetBufferSize)).2.blks_direct.erase i).map
            (fun j => (ovl s.m_cfi.GetBufferSize off size env.junk j).size)).sum)) ∧
    (Read_served s off size env = true → AnswersOnce s env.responses → Read_disk_ok s off size env →
      (∀ k ∈ (Read_classify s env.cache (cdiv off s.m_cfi.GetBufferSize)
          (cdiv (off + size - 1) s.m_cfi.GetBufferSize)).2.blks_to_process,
        ∀ b, (Read_final s off size env).m_block_map.find k = some b → b.m_failed = false) →
      (List.foldl (fun h r => h.Done r.1 r.2)
          (DirectResponseHandler.create
            ((Read_classify s env.cache (cdiv off s.m_cfi.GetBufferSize)
              (cdiv (off + size - 1) s.m_cfi.GetBufferSize)).2.blks_direct.length : Int))
          env.direct_done).m_errno = 0 →
      ∃ r, Read s off size env = some r ∧ r.ret = size ∧ r.errno = none) := by
  have hstep : ∀ (t : File) (L : ReadLists), t.m_block_map.find i = none →
      t.m_cfi.TestBit (t.offsetIdx i) = false →
      Read_classify_step env.cache (t, L) i = (t, { L with blks_direct := L.blks_direct ++ [i] }) := by
    intro t L h1 h2
    unfold Read_classify_step
    simp only [h1, h2, href, Bool.false_eq_true, if_false]
  have hcl := Read_classify_fold_refused env.cache
    (idxRange (cdiv off s.m_cfi.GetBufferSize) (cdiv (off + size - 1) s.m_cfi.GetBufferSize)) s
    { blks_to_process := [], blks_on_disk := [], blks_direct := [] } i
    (idxRange_nodup _ _) hi hmap hbit href
  change i ∈ (Read_classify s env.cache (cdiv off s.m_cfi.GetBufferSize)
      (cdiv (off + size - 1) s.m_cfi.GetBufferSize)).2.blks_direct ∧
    (Read_classify s env.cache (cdiv off s.m_cfi.GetBufferSize)
      (cdiv (off + size - 1) s.m_cfi.GetBufferSize)).1.m_block_map.find i = none at hcl
  obtain ⟨o1, o2, o3, o4, o5, _⟩ := overlap_in_range s.m_cfi.GetBufferSize off size i env.junk hBS hoff hsize hi
  have hsumall := Read_returns_sum_aux s off size env hBS hoff hsize
  have herase := List.sum_map_erase (fun j => (ovl s.m_cfi.GetBufferSize off size env.junk j).size) hcl.1
  refine ⟨hstep, hcl, ?_, ?_⟩
  · intro r hr
    obtain ⟨e1, e2, e3, e4⟩ := Read_effects s off size env r hr
    obtain ⟨hf1, hf2⟩ := cdiv_bounds s.m_cfi.GetBufferSize off hBS hoff
    obtain ⟨hl1, hl2⟩ := cdiv_bounds s.m_cfi.GetBufferSize (off + size - 1) hBS (by omega)
    rw [mem_idxRange] at hi
    have b1 : cdiv off s.m_cfi.GetBufferSize * s.m_cfi.GetBufferSize ≤ i * s.m_cfi.GetBufferSize :=
      Int.mul_le_mul_of_nonneg_right hi.1 (le_of_lt hBS)
    have b2 : i * s.m_cfi.GetBufferSize
        ≤ cdiv (off + size - 1) s.m_cfi.GetBufferSize * s.m_cfi.GetBufferSize :=
      Int.mul_le_mul_of_nonneg_right hi.2 (le_of_lt hBS)
    have b3 : (cdiv off s.m_cfi.GetBufferSize + 1) * s.m_cfi.GetBufferSize
        ≤ (i + 1) * s.m_cfi.GetBufferSize :=
      Int.mul_le_mul_of_nonneg_right (by omega) (le_of_lt hBS)
    have b4 : (i + 1) * s.m_cfi.GetBufferSize = i * s.m_cfi.GetBufferSize + s.m_cfi.GetBufferSize := by
      ring
    refine ⟨?_, ?_, ?_, ?_, ?_, e3 i hcl.2, ?_⟩
    · rw [e2]
      exact List.mem_append_right _ (List.mem_map_of_mem _ hcl.1)
    · show i * s.m_cfi.GetBufferSize + (ovl s.m_cfi.GetBufferSize off size env.junk i).blk_off = _
      unfold ovl
      rw [o3]
      unfold clampPos
      omega
    · show (ovl s.m_cfi.GetBufferSize off size env.junk i).size = _
      unfold ovl
      rw [o4]
      unfold clampPos
      omega
    · show (ovl s.m_cfi.GetBufferSize off size env.junk i).off = _
      unfold ovl
      rw [o2]
      unfold clampPos
      omega
    · exact o5
    · intro hnn
      refine ⟨?_, ?_⟩
      · rcases Read_ret_of_some s off size env r hBS hwf hr with hneg | heq
        · omega
        · rw [heq, ← herase]; ring
      · rw [e4 hnn, ← herase]; ring
  · intro hserved honce hdisk hnofail hdirect
    obtain ⟨r, hr, _⟩ := Read_ret_spec s off size env hBS hwf hserved
    refine ⟨r, hr, ?_⟩
    rcases Read_outcome s off size env r hBS hoff hsize hwf honce hdisk hr with
      ⟨_, ⟨_, h2, h3⟩ | ⟨h1, _, _⟩⟩ | ⟨_, k, hk, b, hb1, hb2, hb3, _⟩
    · exact ⟨h2, h3⟩
    · exact absurd hdirect h1
    · exfalso
      have := hnofail k hk b hb1
      unfold Block.is_finished at hb2
      unfold Block.is_ok at hb3
      rw [hb3, this] at hb2
      cases hb2

end File

namespace File

/-- C2 at the budget-exhaustion scenario of the spec: `Read(0, 1024)` on a new file while the
coordinator has no RAM-block permit; block 0 is read directly and the call returns 1024. -/
theorem Read_refused_block_is_read_directly_witness :
    (0 < file3000.m_cfi.GetBufferSize ∧ (0 : Int) ≤ 0 ∧ (0 : Int) < 1024 ∧ file3000.MapWF ∧
      (0 : Int) ∈ idxRange (cdiv 0 file3000.m_cfi.GetBufferSize)
        (cdiv (0 + 1024 - 1) file3000.m_cfi.GetBufferSize) ∧
      file3000.m_block_map.find 0 = none ∧
      file3000.m_cfi.TestBit (file3000.offsetIdx 0) = false ∧
      (envBudget.cache.HaveFreeWritingSlots 0 && envBudget.cache.RequestRAMBlock 0) = false) ∧
    ((0 : Int) ∈ (Read_classify file3000 envBudget.cache (cdiv 0 file3000.m_cfi.GetBufferSize)
          (cdiv (0 + 1024 - 1) file3000.m_cfi.GetBufferSize)).2.blks_direct ∧
      (Read_classify file3000 envBudget.cache (cdiv 0 file3000.m_cfi.GetBufferSize)
          (cdiv (0 + 1024 - 1) file3000.m_cfi.GetBufferSize)).1.m_block_map.find 0 = none) ∧
    (∃ r, Read file3000 0 1024 envBudget = some r ∧ r.ret = 1024 ∧ r.errno = none) :=
  ⟨⟨by decide, by decide, by decide, file3000_MapWF, by decide, rfl, rfl, rfl⟩,
   (Read_refused_block_is_read_directly file3000 0 1024 envBudget 0 (by decide) (by decide)
      (by decide) file3000_MapWF (by decide) rfl rfl rfl).2.1,
   (Read_refused_block_is_read_directly file3000 0 1024 envBudget 0 (by decide) (by decide)
      (by decide) file3000_MapWF (by decide) rfl rfl rfl).2.2.2 rfl
      ⟨List.nodup_nil, fun _ hk => nomatch hk⟩
      (fun _ hi => nomatch hi)
      (fun _ hk => nomatch hk)
      rfl⟩

end File

namespace File

/-! ### Origin fetches of the classification -/

/-- Every entry of the map before a classification step is an entry after it, up to its ref-count. -/
theorem Read_classify_step_keeps (ca : CacheAnswers) (s : File) (L : ReadLists) (i k : Int)
    (b : Block) (hb : s.m_block_map.find k = some b) :
    ∃ b1, (Read_classify_step ca (s, L) i).1.m_block_map.find k = some b1 ∧
      b1 = { b with m_refcnt := b1.m_refcnt } := by
  unfold Read_classify_step
  cases hf : s.m_block_map.find i with
  | some x =>
    dsimp only
    rw [inc_ref_count_map, BlockMap.find_modify]
    by_cases hk : k = i
    · subst hk
      rw [if_pos rfl, hb]
      exact ⟨_, rfl, rfl⟩
    · rw [if_neg hk]
      exact ⟨b, hb, rfl⟩
  | none =>
    dsimp only
    have hki : k ≠ i := by
      intro h; subst h; rw [hf] at hb; cases hb
    split_ifs with h1 h2
    · exact ⟨b, hb, rfl⟩
    · simp only [inc_ref_count_map, BlockMap.find_modify, RequestBlock_map, BlockMap.find_set,
        hki, if_false]
      exact ⟨b, hb, rfl⟩
    · exact ⟨b, hb, rfl⟩

/-- The origin reads issued by one classification step: none, or one block fetch for the index
classified, and the latter only when the index is not in the map. -/
theorem Read_classify_step_reads (ca : CacheAnswers) (s : File) (L : ReadLists) (i : Int) :
    (Read_classify_step ca (s, L) i).1.origin_reads = s.origin_reads ∨
    (s.m_block_map.find i = none ∧
      ∃ rd : OriginRead, rd.direct = false ∧ rd.target = i ∧
        (Read_classify_step ca (s, L) i).1.origin_reads = s.origin_reads ++ [rd]) := by
  unfold Read_classify_step
  cases hf : s.m_block_map.find i with
  | some x => left; rfl
  | none =>
    dsimp only
    split_ifs with h1 h2
    · left; rfl
    · right
      refine ⟨rfl,
        { direct := false
          target := i
          offset := i * s.m_cfi.GetBufferSize
          length := (if i = s.m_cfi.GetSizeInBits - 1 then s.m_fileSize - i * s.m_cfi.GetBufferSize
                     else s.m_cfi.GetBufferSize) }, rfl, rfl, ?_⟩
      rw [inc_ref_count_origin_reads, RequestBlock_origin_reads]
    · left; rfl

theorem Read_classify_fold_reads (ca : CacheAnswers) (l : List Int) (s : File) (L : ReadLists)
    (hl : l.Nodup) :
    (∃ F : List OriginRead,
      (l.foldl (Read_classify_step ca) (s, L)).1.origin_reads = s.origin_reads ++ F ∧
      (F.map OriginRead.target).Nodup ∧
      ∀ rd ∈ F, rd.direct = false ∧ rd.target ∈ l ∧ s.m_block_map.find rd.target = none) ∧
    (∀ k b, s.m_block_map.find k = some b →
      ∃ b1, (l.foldl (Read_classify_step ca) (s, L)).1.m_block_map.find k = some b1 ∧
        b1 = { b with m_refcnt := b1.m_refcnt }) := by
  induction l generalizing s L with
  | nil =>
    refine ⟨⟨[], by simp, by simp, by simp⟩, fun k b hb => ⟨b, hb, rfl⟩⟩
  | cons i rest ih =>
    simp only [List.foldl_cons]
    rw [List.nodup_cons] at hl
    obtain ⟨⟨F, hF1, hF2, hF3⟩, hkeep⟩ := ih (Read_classify_step ca (s, L) i).1
      (Read_classify_step ca (s, L) i).2 hl.2
    obtain ⟨_, _, _, g4, _⟩ := Read_classify_step_frame ca s L i
    constructor
    · have hF3' : ∀ rd ∈ F, rd.direct = false ∧ rd.target ∈ i :: rest ∧
          s.m_block_map.find rd.target = none := by
        intro rd hrd
        obtain ⟨a1, a2, a3⟩ := hF3 rd hrd
        have hne : rd.target ≠ i := fun h => hl.1 (h ▸ a2)
        exact ⟨a1, List.mem_cons_of_mem _ a2, by rw [← g4 _ hne]; exact a3⟩
      rcases Read_classify_step_reads ca s L i with h | ⟨hnone, rd, hd1, hd2, hd3⟩
      · exact ⟨F, by rw [hF1, h], hF2, hF3'⟩
      · refine ⟨rd :: F, by rw [hF1, hd3]; simp, ?_, ?_⟩
        · rw [List.map_cons, List.nodup_cons]
          refine ⟨?_, hF2⟩
          intro hmem
          rw [List.mem_map] at hmem
          obtain ⟨x, hx, hxe⟩ := hmem
          apply hl.1
          rw [← hd2, ← hxe]
          exact (hF3 x hx).2.1
        · intro x hx
          rcases List.mem_cons.mp hx with h | h
          · subst h
            exact ⟨hd1, by rw [hd2]; exact List.mem_cons_self _ _, by rw [hd2]; exact hnone⟩
          · exact hF3' x h
    · intro k b hb
      obtain ⟨b1, hb1, hb1e⟩ := Read_classify_step_keeps ca s L i k b hb
      obtain ⟨b2, hb2, hb2e⟩ := hkeep k b1 hb1
      refine ⟨b2, hb2, ?_⟩
      rw [hb2e, hb1e]

/-- An index that is not classified is as often on the disk list and on the direct list after the
classification as before. -/
theorem Read_classify_fold_keeps_lists (ca : CacheAnswers) (l : List Int) (s : File) (L : ReadLists)
    (i : Int) (hi : i ∉ l) :
    List.count i (l.foldl (Read_classify_step ca) (s, L)).2.blks_on_disk
      = List.count i L.blks_on_disk ∧
    List.count i (l.foldl (Read_classify_step ca) (s, L)).2.blks_direct
      = List.count i L.blks_direct := by
  induction l generalizing s L with
  | nil => simp
  | cons j rest ih =>
    simp only [List.foldl_cons]
    simp only [List.mem_cons, not_or] at hi
    obtain ⟨e1, e2⟩ := ih (Read_classify_step ca (s, L) j).1 (Read_classify_step ca (s, L) j).2 hi.2
    rw [e1, e2]
    have hji : ¬ (j = i) := fun h => hi.1 h.symm
    unfold Read_classify_step
    cases hf : s.m_block_map.find j with
    | some x => exact ⟨rfl, rfl⟩
    | none =>
      dsimp only
      split_ifs with h1 h2
      · refine ⟨?_, rfl⟩
        have : List.count i [j] = 0 := List.count_eq_zero_of_not_mem (by simpa using hi.1)
        rw [List.count_append, this]; rfl
      · exact ⟨rfl, rfl⟩
      · refine ⟨rfl, ?_⟩
        have : List.count i [j] = 0 := List.count_eq_zero_of_not_mem (by simpa using hi.1)
        rw [List.count_append, this]; rfl

/-- A block index of the range that has an entry in the map after the classification is on the
list `blks_to_process`. -/
theorem Read_classify_fold_taken (ca : CacheAnswers) (l : List Int) (s : File) (L : ReadLists)
    (i : Int) (hl : l.Nodup) (hi : i ∈ l)
    (h : (l.foldl (Read_classify_step ca) (s, L)).1.m_block_map.find i ≠ none) :
    i ∈ (l.foldl (Read_classify_step ca) (s, L)).2.blks_to_process := by
  induction l generalizing s L with
  | nil => cases hi
  | cons j rest ih =>
    simp only [List.foldl_cons] at h ⊢
    rw [List.nodup_cons] at hl
    by_cases hj : i = j
    · subst hj
      obtain ⟨_, _, _, e4, _⟩ := Read_classify_fold_frame ca rest (Read_classify_step ca (s, L) i).1
        (Read_classify_step ca (s, L) i).2
      rw [e4 i hl.1] at h
      have hkeep : ∀ (t : File) (M : ReadLists), i ∈ M.blks_to_process →
          i ∈ (rest.foldl (Read_classify_step ca) (t, M)).2.blks_to_process := by
        intro t M hM
        have := (Read_classify_fold_spec ca rest t M).2.2
        by_contra hnot
        have hcount := this.count_eq i
        simp only [List.count_append] at hcount
        have h0 : List.count i (rest.foldl (Read_classify_step ca) (t, M)).2.blks_to_process = 0 :=
          List.count_eq_zero_of_not_mem hnot
        have h1 : 0 < List.count i M.blks_to_process := List.count_pos_iff.mpr hM
        have h2 : List.count i rest = 0 := List.count_eq_zero_of_not_mem hl.1
        have hod := Read_classify_fold_keeps_lists ca rest t M i hl.1
        omega
      have hstepin : i ∈ (Read_classify_step ca (s, L) i).2.blks_to_process := by
        unfold Read_classify_step at h ⊢
        cases hf : s.m_block_map.find i with
        | some x => simp
        | none =>
          simp only [hf] at h ⊢
          split_ifs at h ⊢ with h1 h2
          · exact absurd hf h
          · simp
          · exact absurd hf h
      exact hkeep _ _ hstepin
    · have hi' : i ∈ rest := by
        rcases List.mem_cons.mp hi with hh | hh
        · exact absurd hh hj
        · exact hh
      exact ih _ _ hl.2 hi' h

end File

namespace File

/-- C3, as stated, fails.  (a) Block 1 is failed with error 110 and block 0 is on disk; the disk
read of `Read(0, 2048)` fails: the call returns the result of the disk read and never stores the
error of block 1 into `errno`.  (b) Blocks 0 and 1 are failed with errors 5 and 7: `Read(0, 2048)`
returns `-1` with `errno = 7`, which is not the error stored in block 0. -/
theorem Read_failed_block_errno_counterexample :
    (fileDisk0Failed1.m_block_map.find 1 = some (failedBlock 1024 1024 110) ∧
      (1 : Int) ∈ idxRange (cdiv 0 1024) (cdiv (0 + 2048 - 1) 1024) ∧
      (Read fileDisk0Failed1 0 2048 envDiskError).map (fun r => (r.ret, r.errno))
        = some (-1, none)) ∧
    (fileFailed01.m_block_map.find 0 = some (failedBlock 0 1024 5) ∧
      (0 : Int) ∈ idxRange (cdiv 0 1024) (cdiv (0 + 2048 - 1) 1024) ∧
      (Read fileFailed01 0 2048 envIdle).map (fun r => (r.ret, r.errno))
        = some (-1, some 7)) := by
  decide

end File

namespace File

/-- C3, amended.  Let the range of `Read(off, size)` cover block index `i`, let block `i` be failed
and not downloaded once the origin has delivered its completions (it was failed before the call,
or its fetch fails during the call), let the origin answer each fetch once and let every disk read
of the call be complete.  Then the call returns `-1`, and `errno` is the error stored in a failed
block of the range (the first one the reader meets): in block `i` when no other block of the range
is failed.  When block `i` was in the map before the call, the call hands no fetch of block `i` to
the origin.  This holds for every such call, the first and the later ones, as long as the failed
block is in the map. -/
theorem Read_failed_block_returns_error (s : File) (off size : Int) (env : ReadEnv) (i : Int)
    (hBS : 0 < s.m_cfi.GetBufferSize) (hoff : 0 ≤ off) (hsize : 0 < size) (hwf : s.MapWF)
    (hi : i ∈ idxRange (cdiv off s.m_cfi.GetBufferSize) (cdiv (off + size - 1) s.m_cfi.GetBufferSize))
    (hserved : Read_served s off size env = true)
    (honce : AnswersOnce s env.responses) (hdisk : Read_disk_ok s off size env)
    (hfailed : ∃ b, (Read_final s off size env).m_block_map.find i = some b ∧
      b.m_failed = true ∧ b.m_downloaded = false) :
    ∃ r, Read s off size env = some r ∧ r.ret = -1 ∧
      (∃ k ∈ idxRange (cdiv off s.m_cfi.GetBufferSize) (cdiv (off + size - 1) s.m_cfi.GetBufferSize),
        ∃ b, (Read_final s off size env).m_block_map.find k = some b ∧ b.m_failed = true ∧
          r.errno = some b.m_errno) ∧
      ((∀ k ∈ idxRange (cdiv off s.m_cfi.GetBufferSize) (cdiv (off + size - 1) s.m_cfi.GetBufferSize),
          k ≠ i → ∀ b, (Read_final s off size env).m_block_map.find k = some b → b.m_failed = false) →
        ∃ b, (Read_final s off size env).m_block_map.find i = some b ∧ r.errno = some b.m_errno) ∧
      (s.m_block_map.find i ≠ none →
        ∃ F, r.file.origin_reads = s.origin_reads ++ F ∧
          ∀ rd ∈ F, rd.direct = false → rd.target ≠ i) := by
  obtain ⟨r, hr, _⟩ := Read_ret_spec s off size env hBS hwf hserved
  obtain ⟨bi, hbi1, hbi2, hbi3⟩ := hfailed
  obtain ⟨_, _, hperm⟩ := Read_classify_spec env.cache s (cdiv off s.m_cfi.GetBufferSize)
    (cdiv (off + size - 1) s.m_cfi.GetBufferSize)
  have hsub : ∀ k ∈ (Read_classify s env.cache (cdiv off s.m_cfi.GetBufferSize)
      (cdiv (off + size - 1) s.m_cfi.GetBufferSize)).2.blks_to_process,
      k ∈ idxRange (cdiv off s.m_cfi.GetBufferSize) (cdiv (off + size - 1) s.m_cfi.GetBufferSize) := by
    intro k hk
    apply hperm.subset
    simp only [List.mem_append]
    exact Or.inl (Or.inl hk)
  -- block `i` is one of the blocks the reader took
  have hitaken : i ∈ (Read_classify s env.cache (cdiv off s.m_cfi.GetBufferSize)
      (cdiv (off + size - 1) s.m_cfi.GetBufferSize)).2.blks_to_process := by
    apply Read_classify_fold_taken env.cache _ s _ i (idxRange_nodup _ _) hi
    intro hnone
    have hnone2 : (Read_final s off size env).m_block_map.find i = none := by
      unfold Read_final deliverAll
      dsimp only
      have hgen : ∀ (sched : List (List Response)) (t : File), t.m_block_map.find i = none →
          (sched.foldl deliver t).m_block_map.find i = none := by
        intro sched
        induction sched with
        | nil => intro t ht; exact ht
        | cons b rest ih => intro t ht; exact ih _ (find_none_deliver t b i ht)
      exact hgen _ _ hnone
    rw [hnone2] at hbi1
    cases hbi1
  have hfail_of : ∀ b : Block, b.is_finished = true → b.is_ok = false → b.m_failed = true := by
    intro b h1 h2
    unfold Block.is_finished at h1
    unfold Block.is_ok at h2
    rw [h2] at h1
    simpa using h1
  refine ⟨r, hr, ?_⟩
  rcases Read_outcome s off size env r hBS hoff hsize hwf honce hdisk hr with
    ⟨hall, _⟩ | ⟨hret, k, hk, b, hb1, hb2, hb3, hb4⟩
  · exfalso
    obtain ⟨b, hb1, _, hb3⟩ := hall i hitaken
    rw [hbi1] at hb1
    have hb := Option.some.inj hb1
    subst hb
    unfold Block.is_ok at hb3
    rw [hbi3] at hb3
    cases hb3
  · refine ⟨hret, ⟨k, hsub k hk, b, hb1, hfail_of b hb2 hb3, hb4⟩, ?_, ?_⟩
    · intro honly
      by_cases hki : k = i
      · subst hki
        exact ⟨b, hb1, hb4⟩
      · have := honly k (hsub k hk) hki b hb1
        rw [hfail_of b hb2 hb3] at this
        cases this
    · intro hin
      obtain ⟨_, e2, _, _⟩ := Read_effects s off size env r hr
      obtain ⟨⟨F, hF1, _, hF3⟩, _⟩ := Read_classify_fold_reads env.cache
        (idxRange (cdiv off s.m_cfi.GetBufferSize) (cdiv (off + size - 1) s.m_cfi.GetBufferSize)) s
        { blks_to_process := [], blks_on_disk := [], blks_direct := [] } (idxRange_nodup _ _)
      change (Read_classify s env.cache (cdiv off s.m_cfi.GetBufferSize)
        (cdiv (off + size - 1) s.m_cfi.GetBufferSize)).1.origin_reads = s.origin_reads ++ F at hF1
      refine ⟨F ++ (Read_classify s env.cache (cdiv off s.m_cfi.GetBufferSize)
          (cdiv (off + size - 1) s.m_cfi.GetBufferSize)).2.blks_direct.map
            (directRead s.m_cfi.GetBufferSize off size env.junk), ?_, ?_⟩
      · rw [e2, hF1, List.append_assoc]
      · intro rd hrd hdirect
        rcases List.mem_append.mp hrd with h | h
        · intro htarget
          have := (hF3 rd h).2.2
          rw [htarget] at this
          exact hin this
        · rw [List.mem_map] at h
          obtain ⟨j, _, hj⟩ := h
          rw [← hj] at hdirect
          cases hdirect

/-- C3, amended, at the origin failure of the spec: `Read(0, 3000)` on a new file while the fetch
of block 1 fails with error 110. -/
theorem Read_failed_block_returns_error_witness :
    (0 < file3000.m_cfi.GetBufferSize ∧ (0 : Int) ≤ 0 ∧ (0 : Int) < 3000 ∧ file3000.MapWF ∧
      (1 : Int) ∈ idxRange (cdiv 0 file3000.m_cfi.GetBufferSize)
        (cdiv (0 + 3000 - 1) file3000.m_cfi.GetBufferSize) ∧
      Read_served file3000 0 3000 envFail1 = true ∧
      AnswersOnce file3000 envFail1.responses ∧ Read_disk_ok file3000 0 3000 envFail1 ∧
      (∃ b, (Read_final file3000 0 3000 envFail1).m_block_map.find 1 = some b ∧
        b.m_failed = true ∧ b.m_downloaded = false)) ∧
    (∃ r, Read file3000 0 3000 envFail1 = some r ∧ r.ret = -1 ∧
      (∃ k ∈ idxRange (cdiv 0 file3000.m_cfi.GetBufferSize)
          (cdiv (0 + 3000 - 1) file3000.m_cfi.GetBufferSize),
        ∃ b, (Read_final file3000 0 3000 envFail1).m_block_map.find k = some b ∧ b.m_failed = true ∧
          r.errno = some b.m_errno)) :=
  have honce : AnswersOnce file3000 envFail1.responses := ⟨by decide, by decide⟩
  have hdisk : Read_disk_ok file3000 0 3000 envFail1 := fun _ hi => nomatch hi
  have hfailed : ∃ b, (Read_final file3000 0 3000 envFail1).m_block_map.find 1 = some b ∧
      b.m_failed = true ∧ b.m_downloaded = false := ⟨_, rfl, rfl, rfl⟩
  ⟨⟨by decide, by decide, by decide, file3000_MapWF, by decide, rfl, honce, hdisk, hfailed⟩,
   (Read_failed_block_returns_error file3000 0 3000 envFail1 1 (by decide) (by decide)
      (by decide) file3000_MapWF (by decide) rfl honce hdisk hfailed).imp
      (fun _ h => ⟨h.1, h.2.1, h.2.2.1⟩)⟩

end File

namespace File

/-! ## Writeback: the code at three inputs -/

/-- C4 (the code at a failing input).  The disk accepts the 4-byte block in two calls of two bytes.
`WriteBlockToDisk` makes the second call at the file offset of the first (`buffer_offset` is never
advanced), sets the present bit, and the data file holds `30, 40` at positions 0 and 1 and nothing
at positions 2 and 3, where the block buffer holds `10, 20, 30, 40`. -/
theorem WriteBlockToDisk_short_write_at_same_offset :
    fileTiny.m_block_map.find 0 = some blockTiny ∧
    WriteBlockToDisk_write fileTiny blockTiny writeShort
      = ({ buffer_remaining := 0, buffer_offset := 0, buff := 4, cnt := 2,
           calls := [{ buff := 0, offset := 0, size := 4, ret := 2 },
                     { buff := 2, offset := 0, size := 2, ret := 2 }] }, false) ∧
    (WriteBlockToDisk fileTiny 0 writeShort).m_cfi.TestBit 0 = true ∧
    (List.range 4).map (fun p => bufTiny (p : Int)) = [10, 20, 30, 40] ∧
    (List.range 4).map (fun p => disk_after bufTiny diskEmpty
        (WriteBlockToDisk_write fileTiny blockTiny writeShort).1.calls (p : Int)) = [30, 40, 0, 0] := by
  decide

/-- C5 (the code at a failing input).  The first call of `Write` fails with `EIO`: the write loop
ends with all 4 bytes still to be written, it is not left by the `return`, and `WriteBlockToDisk`
sets the present bit of the block. -/
theorem WriteBlockToDisk_sets_bit_after_write_error :
    fileTiny.m_block_map.find 0 = some blockTiny ∧
    fileTiny.m_cfi.TestBit 0 = false ∧
    WriteBlockToDisk_write fileTiny blockTiny writeEIO
      = ({ buffer_remaining := 4, buffer_offset := 0, buff := 0, cnt := 0,
           calls := [{ buff := 0, offset := 0, size := 4, ret := -1 }] }, false) ∧
    (WriteBlockToDisk fileTiny 0 writeEIO).m_cfi.TestBit 0 = true := by
  decide

/-- C6 (the code at a failing input).  Every call of `Write` accepts no byte: after the eleventh
call `WriteBlockToDisk` returns from inside the loop and leaves the file as it was; the block keeps
the reference taken for the writeback, stays in the map, and `ioActive` keeps returning true. -/
theorem WriteBlockToDisk_gives_up_without_dec_ref :
    fileTiny.m_block_map.find 0 = some blockTiny ∧
    (WriteBlockToDisk_write fileTiny blockTiny writeNothing).2 = true ∧
    (WriteBlockToDisk_write fileTiny blockTiny writeNothing).1.cnt = 11 ∧
    WriteBlockToDisk fileTiny 0 writeNothing = fileTiny ∧
    (WriteBlockToDisk fileTiny 0 writeNothing).m_block_map.find 0 = some blockTiny ∧
    blockTiny.m_refcnt = 1 ∧
    (ioActive (WriteBlockToDisk fileTiny 0 writeNothing)).2 = true ∧
    (ioActive (WriteBlockToDisk fileTiny 0 writeNothing)).1.m_block_map.find 0 = some blockTiny :=
  ⟨by decide, by decide, by decide, rfl, by decide, by decide, by decide, by decide⟩

end File

/-! ## `ioActive` -/

namespace BlockMap

theorem find_append_of_not_mem (a b : BlockMap) (k : Int) (h : k ∉ keys a) :
    find (a ++ b) k = find b k := by
  induction a with
  | nil => rfl
  | cons e rest ih =>
    obtain ⟨j, x⟩ := e
    simp only [keys, List.map_cons, List.mem_cons, not_or] at h
    rw [List.cons_append, find_cons, if_neg (fun hh => h.1 hh.symm)]
    exact ih h.2

theorem erase_of_not_mem (a : BlockMap) (k : Int) (h : k ∉ keys a) : erase a k = a := by
  unfold erase
  rw [List.filter_eq_self]
  intro e he
  have : e.1 ≠ k := by
    intro hh
    apply h
    rw [← hh]
    exact List.mem_map_of_mem _ he
  simpa using this

theorem erase_append_cons (pre l : BlockMap) (k : Int) (b : Block) (h1 : k ∉ keys pre)
    (h2 : k ∉ keys l) : erase (pre ++ (k, b) :: l) k = pre ++ l := by
  have e1 := erase_of_not_mem pre k h1
  have e2 := erase_of_not_mem l k h2
  unfold erase at e1 e2 ⊢
  rw [List.filter_append, List.filter_cons, e1, e2]
  simp

end BlockMap

namespace File

/-- The entries that `ioActive` keeps: all but the failed blocks with ref-count 1. -/
theorem ioActive_sweep_fold (l pre : BlockMap) (st : File)
    (hBS : 0 < st.m_cfi.GetBufferSize) (hmap : st.m_block_map = pre ++ l)
    (hnd : (BlockMap.keys (pre ++ l)).Nodup)
    (hoff : ∀ e ∈ l, e.2.m_offset = e.1 * st.m_cfi.GetBufferSize)
    (hstate : st.m_prefetchState ≠ PrefetchState.kHold) :
    (l.foldl (fun st e => if e.2.is_failed = true ∧ e.2.m_refcnt = 1 then st.free_block e.1 else st)
        st).m_block_map
      = pre ++ l.filter (fun e => !(e.2.is_failed && decide (e.2.m_refcnt = 1))) ∧
    (l.foldl (fun st e => if e.2.is_failed = true ∧ e.2.m_refcnt = 1 then st.free_block e.1 else st)
        st).m_prefetchState = st.m_prefetchState ∧
    (l.foldl (fun st e => if e.2.is_failed = true ∧ e.2.m_refcnt = 1 then st.free_block e.1 else st)
        st).m_in_sync = st.m_in_sync ∧
    (l.foldl (fun st e => if e.2.is_failed = true ∧ e.2.m_refcnt = 1 then st.free_block e.1 else st)
        st).m_cfi = st.m_cfi := by
  induction l generalizing pre st with
  | nil => simp [hmap]
  | cons e rest ih =>
    obtain ⟨k, b⟩ := e
    simp only [List.foldl_cons]
    have hk : k ∉ BlockMap.keys pre ∧ k ∉ BlockMap.keys rest := by
      simp only [BlockMap.keys, List.map_append, List.map_cons] at hnd
      rw [List.nodup_append] at hnd
      obtain ⟨_, h2, h3⟩ := hnd
      rw [List.nodup_cons] at h2
      refine ⟨fun h => h3 h (List.mem_cons_self _ _), h2.1⟩
    by_cases hq : b.is_failed = true ∧ b.m_refcnt = 1
    · rw [if_pos hq]
      have hfind : st.m_block_map.find k = some b := by
        rw [hmap, BlockMap.find_append_of_not_mem _ _ _ hk.1, BlockMap.find_cons, if_pos rfl]
      have hfree : st.free_block k
          = { st with m_block_map := pre ++ rest, cache := st.cache.RAMBlockReleased } := by
        unfold free_block
        rw [hfind]
        dsimp only
        have hb := hoff (k, b) (List.mem_cons_self _ _)
        dsimp only at hb
        rw [hb]
        unfold BufferSize
        rw [cdiv_mul_cancel k _ hBS, hmap, BlockMap.erase_append_cons pre rest k b hk.1 hk.2]
        rw [if_neg (fun h => hstate h.1)]
      rw [hfree]
      have hnd2 : (BlockMap.keys (pre ++ rest)).Nodup := by
        simp only [BlockMap.keys, List.map_append, List.map_cons] at hnd ⊢
        rw [List.nodup_append] at hnd ⊢
        obtain ⟨h1, h2, h3⟩ := hnd
        rw [List.nodup_cons] at h2
        exact ⟨h1, h2.2, fun x hx1 hx2 => h3 hx1 (List.mem_cons_of_mem _ hx2)⟩
      obtain ⟨g1, g2, g3, g4⟩ := ih pre
        { st with m_block_map := pre ++ rest, cache := st.cache.RAMBlockReleased }
        hBS rfl hnd2 (fun e he => hoff e (List.mem_cons_of_mem _ he)) hstate
      refine ⟨?_, g2, g3, g4⟩
      rw [g1, List.filter_cons]
      simp [hq.1, hq.2]
    · rw [if_neg hq]
      have hmap2 : st.m_block_map = (pre ++ [(k, b)]) ++ rest := by rw [hmap]; simp
      obtain ⟨g1, g2, g3, g4⟩ := ih (pre ++ [(k, b)]) st hBS hmap2 (by simpa using hnd)
        (fun e he => hoff e (List.mem_cons_of_mem _ he)) hstate
      refine ⟨?_, g2, g3, g4⟩
      rw [g1, List.filter_cons]
      have : (!(b.is_failed && decide (b.m_refcnt = 1))) = true := by
        by_contra hc
        apply hq
        simpa using hc
      simp [this]

theorem mem_find_of_nodup (m : BlockMap) (hnd : (BlockMap.keys m).Nodup) (e : Int × Block)
    (he : e ∈ m) : m.find e.1 = some e.2 := by
  induction m with
  | nil => cases he
  | cons x rest ih =>
    obtain ⟨k, b⟩ := x
    simp only [BlockMap.keys, List.map_cons, List.nodup_cons] at hnd
    rcases List.mem_cons.mp he with h | h
    · subst h
      rw [BlockMap.find_cons, if_pos rfl]
    · have hne : k ≠ e.1 := by
        intro hh
        apply hnd.1
        rw [hh]
        exact List.mem_map_of_mem _ h
      rw [BlockMap.find_cons, if_neg hne]
      exact ih hnd.2 h

/-- C7. `ioActive` sets the prefetch state to Stopped; it removes from the block map exactly the
entries whose block is failed with ref-count 1 and leaves every other entry, in place and
unchanged; it returns true if and only if the block map it leaves is non-empty or `m_in_sync` is
true.  (`m_in_sync` and the cache-info bits are left as they were.) -/
theorem ioActive_frees_failed_and_reports (s : File) (hBS : 0 < s.m_cfi.GetBufferSize)
    (hwf : s.MapWF) (hnd : (BlockMap.keys s.m_block_map).Nodup) :
    (ioActive s).1.m_prefetchState = PrefetchState.kStopped ∧
    (ioActive s).1.m_block_map
      = s.m_block_map.filter (fun e => !(e.2.is_failed && decide (e.2.m_refcnt = 1))) ∧
    (∀ k b, (ioActive s).1.m_block_map.find k = some b ↔
      (s.m_block_map.find k = some b ∧ ¬ (b.is_failed = true ∧ b.m_refcnt = 1))) ∧
    ((ioActive s).2 = true ↔
      ((ioActive s).1.m_block_map ≠ [] ∨ (ioActive s).1.m_in_sync = true)) ∧
    (ioActive s).1.m_in_sync = s.m_in_sync ∧
    (ioActive s).1.m_cfi = s.m_cfi := by
  have hstop : (ioActive_stop s).m_prefetchState = PrefetchState.kStopped ∧
      (ioActive_stop s).m_block_map = s.m_block_map ∧ (ioActive_stop s).m_cfi = s.m_cfi ∧
      (ioActive_stop s).m_in_sync = s.m_in_sync := by
    unfold ioActive_stop
    split_ifs with h
    · exact ⟨rfl, rfl, rfl, rfl⟩
    · exact ⟨by simpa using h, rfl, rfl, rfl⟩
  obtain ⟨t1, t2, t3, t4⟩ := hstop
  obtain ⟨g1, g2, g3, g4⟩ := ioActive_sweep_fold (ioActive_stop s).m_block_map [] (ioActive_stop s)
    (by rw [t3]; exact hBS) rfl (by rw [List.nil_append, t2]; exact hnd)
    (by
      intro e he
      rw [t2] at he
      rw [t3]
      exact hwf e.1 e.2 (mem_find_of_nodup _ hnd e he))
    (by rw [t1]; decide)
  change (ioActive_sweep (ioActive_stop s)).m_block_map = _ at g1
  change (ioActive_sweep (ioActive_stop s)).m_prefetchState = _ at g2
  change (ioActive_sweep (ioActive_stop s)).m_in_sync = _ at g3
  change (ioActive_sweep (ioActive_stop s)).m_cfi = _ at g4
  rw [List.nil_append, t2] at g1
  have hfst : (ioActive s).1 = ioActive_sweep (ioActive_stop s) := by
    unfold ioActive
    dsimp only
    split_ifs <;> rfl
  have hsnd : (ioActive s).2 = true ↔
      ((ioActive_sweep (ioActive_stop s)).m_block_map ≠ [] ∨
        (ioActive_sweep (ioActive_stop s)).m_in_sync = true) := by
    unfold ioActive
    dsimp only
    by_cases he : (ioActive_sweep (ioActive_stop s)).m_block_map.isEmpty = true
    · rw [if_pos he]
      have he' := List.isEmpty_iff.mp he
      by_cases hs : (ioActive_sweep (ioActive_stop s)).m_in_sync = false
      · rw [if_pos hs]
        simp [he', hs]
      · rw [if_neg hs]
        have : (ioActive_sweep (ioActive_stop s)).m_in_sync = true := by simpa using hs
        simp [this]
    · rw [if_neg he]
      have : (ioActive_sweep (ioActive_stop s)).m_block_map ≠ [] := fun h =>
        he (List.isEmpty_iff.mpr h)
      simp [this]
  rw [hfst]
  refine ⟨by rw [g2, t1], g1, ?_, hsnd, by rw [g3, t4], by rw [g4, t3]⟩
  intro k b
  rw [g1]
  have hgen : ∀ (m : BlockMap), (BlockMap.keys m).Nodup →
      (BlockMap.find (m.filter (fun e => !(e.2.is_failed && decide (e.2.m_refcnt = 1)))) k = some b ↔
        (BlockMap.find m k = some b ∧ ¬ (b.is_failed = true ∧ b.m_refcnt = 1))) := by
    intro m
    induction m with
    | nil => intro _; simp
    | cons e rest ih =>
      intro hnd2
      obtain ⟨j, x⟩ := e
      simp only [BlockMap.keys, List.map_cons, List.nodup_cons] at hnd2
      have ih' := ih hnd2.2
      rw [List.filter_cons]
      by_cases hj : j = k
      · subst hj
        have hrest : BlockMap.find rest j = none := by
          cases hf : BlockMap.find rest j with
          | none => rfl
          | some y =>
            exfalso
            apply hnd2.1
            have hmem : ∀ (m : BlockMap) (y : Block), BlockMap.find m j = some y → j ∈ m.map Prod.fst := by
              intro m
              induction m with
              | nil => intro y hy; cases hy
              | cons e2 r2 ih2 =>
                intro y hy
                obtain ⟨j2, x2⟩ := e2
                rw [BlockMap.find_cons] at hy
                by_cases hjj : j2 = j
                · subst hjj; simp
                · rw [if_neg hjj] at hy
                  exact List.mem_cons_of_mem _ (ih2 y hy)
            exact hmem rest y hf
        by_cases hq : x.is_failed = true ∧ x.m_refcnt = 1
        · have : (!(x.is_failed && decide (x.m_refcnt = 1))) = false := by simp [hq.1, hq.2]
          rw [this]
          simp only [Bool.false_eq_true, if_false]
          rw [ih', hrest, BlockMap.find_cons, if_pos rfl]
          constructor
          · intro h; cases h.1
          · intro h
            have := Option.some.inj h.1
            subst this
            exact absurd hq h.2
        · have : (!(x.is_failed && decide (x.m_refcnt = 1))) = true := by
            by_contra hc
            apply hq
            simpa using hc
          rw [this]
          simp only [if_true]
          rw [BlockMap.find_cons, if_pos rfl, BlockMap.find_cons, if_pos rfl]
          constructor
          · intro h
            have := Option.some.inj h
            subst this
            exact ⟨rfl, hq⟩
          · intro h; exact h.1
      · rw [BlockMap.find_cons, if_neg hj]
        split_ifs with hkeep
        · rw [BlockMap.find_cons, if_neg hj]
          exact ih'
        · exact ih'
  exact hgen s.m_block_map hnd

end File

namespace File

theorem find_mem (m : BlockMap) (k : Int) (b : Block) (h : m.find k = some b) : (k, b) ∈ m := by
  induction m with
  | nil => cases h
  | cons e rest ih =>
    obtain ⟨j, x⟩ := e
    rw [BlockMap.find_cons] at h
    by_cases hj : j = k
    · rw [if_pos hj] at h
      have := Option.some.inj h
      subst this; subst hj
      exact List.mem_cons_self _ _
    · rw [if_neg hj] at h
      exact List.mem_cons_of_mem _ (ih h)

theorem MapWF_of_forall_mem (s : File)
    (h : ∀ e ∈ s.m_block_map, e.2.m_offset = e.1 * s.m_cfi.GetBufferSize) : s.MapWF := by
  intro k b hf
  exact h (k, b) (find_mem _ k b hf)

/-- C7 on a map with a failed block held by nobody (freed), a downloaded block and a failed block
still held by a reader (both kept). -/
theorem ioActive_frees_failed_and_reports_witness :
    (0 < fileMixed.m_cfi.GetBufferSize ∧ fileMixed.MapWF ∧
      (BlockMap.keys fileMixed.m_block_map).Nodup) ∧
    ((ioActive fileMixed).1.m_prefetchState = PrefetchState.kStopped ∧
      (ioActive fileMixed).1.m_block_map
        = fileMixed.m_block_map.filter (fun e => !(e.2.is_failed && decide (e.2.m_refcnt = 1))) ∧
      ((ioActive fileMixed).2 = true ↔
        ((ioActive fileMixed).1.m_block_map ≠ [] ∨ (ioActive fileMixed).1.m_in_sync = true))) ∧
    BlockMap.keys (ioActive fileMixed).1.m_block_map = [1, 2] ∧ (ioActive fileMixed).2 = true :=
  have hwf : fileMixed.MapWF := MapWF_of_forall_mem fileMixed (by decide)
  ⟨⟨by decide, hwf, by decide⟩,
   ⟨(ioActive_frees_failed_and_reports fileMixed (by decide) hwf (by decide)).1,
    (ioActive_frees_failed_and_reports fileMixed (by decide) hwf (by decide)).2.1,
    (ioActive_frees_failed_and_reports fileMixed (by decide) hwf (by decide)).2.2.2.1⟩,
   by decide, by decide⟩

end File

/-! ## `RequestBlock` and its callers -/

namespace BlockMap

theorem keys_erase_nodup (m : BlockMap) (i : Int) (h : (keys m).Nodup) : (keys (erase m i)).Nodup := by
  unfold keys erase at *
  exact (List.Nodup.sublist (List.Sublist.map _ (List.filter_sublist _)) h)

theorem not_mem_keys_erase (m : BlockMap) (i : Int) : i ∉ keys (erase m i) := by
  unfold keys erase
  intro h
  rw [List.mem_map] at h
  obtain ⟨e, he, hk⟩ := h
  rw [List.mem_filter] at he
  have := he.2
  simp only [ne_eq, decide_not, Bool.not_eq_true', decide_eq_false_iff_not] at this
  exact this hk

theorem keys_set_nodup (m : BlockMap) (i : Int) (b : Block) (h : (keys m).Nodup) :
    (keys (set m i b)).Nodup := by
  unfold set
  show (keys ((i, b) :: erase m i)).Nodup
  unfold keys
  rw [List.map_cons, List.nodup_cons]
  exact ⟨not_mem_keys_erase m i, keys_erase_nodup m i h⟩

end BlockMap

namespace File

/-- A block requested for an index that is not in the map replaces no entry. -/
theorem RequestBlock_keeps (s : File) (i : Int) (p : Bool) (hi : s.m_block_map.find i = none)
    (k : Int) (b : Block) (hb : s.m_block_map.find k = some b) :
    (s.RequestBlock i p).m_block_map.find k = some b := by
  rw [RequestBlock_map, BlockMap.find_set]
  have hki : k ≠ i := by
    intro h; subst h; rw [hi] at hb; cases hb
  rw [if_neg hki]
  exact hb

theorem Prefetch_loop_spec (s : File) (g : Bool) (fuel : Nat) (f : Int) (s1 : File) (found : Bool)
    (h : Prefetch_loop s g fuel f = some (s1, found)) :
    (found = false ∧ s1 = s) ∨
    (found = true ∧ ∃ f1, s.m_block_map.find f1 = none ∧
      s1.origin_reads = s.origin_reads ++
        [{ direct := false
           target := f1
           offset := f1 * s.m_cfi.GetBufferSize
           length := (if f1 = s.m_cfi.GetSizeInBits - 1 then s.m_fileSize - f1 * s.m_cfi.GetBufferSize
                      else s.m_cfi.GetBufferSize) }] ∧
      s1.m_block_map = s.m_block_map.set f1
        (Block.create (f1 * s.m_cfi.GetBufferSize)
          (if f1 = s.m_cfi.GetSizeInBits - 1 then s.m_fileSize - f1 * s.m_cfi.GetBufferSize
           else s.m_cfi.GetBufferSize) true)) := by
  induction fuel generalizing f with
  | zero =>
    unfold Prefetch_loop at h
    cases h
  | succ n ih =>
    unfold Prefetch_loop at h
    by_cases h1 : f < s.m_cfi.GetSizeInBits
    · rw [if_pos h1] at h
      by_cases h2 : (!s.m_cfi.TestBit f) = true
      · rw [if_pos h2] at h
        dsimp only at h
        cases hf : s.m_block_map.find (f + cdiv s.m_offset s.m_cfi.GetBufferSize) with
        | none =>
          rw [hf] at h
          dsimp only at h
          have he := Option.some.inj h
          have hs := congrArg Prod.fst he
          have hfd := congrArg Prod.snd he
          dsimp only at hs hfd
          right
          refine ⟨hfd.symm, f + cdiv s.m_offset s.m_cfi.GetBufferSize, hf, ?_, ?_⟩
          · rw [← hs]
            unfold Prefetch_take
            dsimp only
            rw [RequestBlock_origin_reads]
          · rw [← hs]
            unfold Prefetch_take
            dsimp only
            rw [RequestBlock_map]
        | some x =>
          rw [hf] at h
          dsimp only at h
          exact ih _ h
      · rw [if_neg h2] at h
        exact ih _ h
    · rw [if_neg h1] at h
      have he := Option.some.inj h
      have hs := congrArg Prod.fst he
      have hfd := congrArg Prod.snd he
      dsimp only at hs hfd
      left
      exact ⟨hfd.symm, hs.symm⟩

/-- C8. `RequestBlock` is invoked for absent indices only, by both of its callers.  The
classification of `Read` hands to the origin only block fetches for indices that are not in the
map, at most one for each index, and every block that was in the map is still there, the same but
for its ref-count.  `Prefetch` hands to the origin no request, or one block fetch for an index that
is not in the map, and every entry of the map stays as it is.  The assignment
`m_block_map[i] = b` keeps the keys of the map distinct: there is at most one block for an
index. -/
theorem RequestBlock_only_for_absent_index (s : File) (ca : CacheAnswers) (first last : Int)
    (g : Bool) (i : Int) (p : Bool) :
    ((∃ F : List OriginRead,
        (Read_classify s ca first last).1.origin_reads = s.origin_reads ++ F ∧
        (F.map OriginRead.target).Nodup ∧
        ∀ rd ∈ F, rd.direct = false ∧ rd.target ∈ idxRange first last ∧
          s.m_block_map.find rd.target = none) ∧
      (∀ k b, s.m_block_map.find k = some b →
        ∃ b1, (Read_classify s ca first last).1.m_block_map.find k = some b1 ∧
          b1 = { b with m_refcnt := b1.m_refcnt })) ∧
    (∀ s1, Prefetch s g = some s1 →
      ((s1.origin_reads = s.origin_reads ∧ s1.m_block_map = s.m_block_map) ∨
        (∃ rd : OriginRead, rd.direct = false ∧ s.m_block_map.find rd.target = none ∧
          s1.origin_reads = s.origin_reads ++ [rd] ∧
          (∃ b, s1.m_block_map = s.m_block_map.set rd.target b) ∧
          ∀ k b, s.m_block_map.find k = some b → s1.m_block_map.find k = some b))) ∧
    (s.m_block_map.find i = none →
      ∀ k b, s.m_block_map.find k = some b → (s.RequestBlock i p).m_block_map.find k = some b) ∧
    ((BlockMap.keys s.m_block_map).Nodup → (BlockMap.keys (s.RequestBlock i p).m_block_map).Nodup) := by
  refine ⟨?_, ?_, ?_, ?_⟩
  · exact Read_classify_fold_reads ca (idxRange first last) s
      { blks_to_process := [], blks_on_disk := [], blks_direct := [] } (idxRange_nodup _ _)
  · intro s1 h
    unfold Prefetch at h
    by_cases hon : s.m_prefetchState ≠ PrefetchState.kOn
    · rw [if_pos hon] at h
      have := Option.some.inj h
      subst this
      exact Or.inl ⟨rfl, rfl⟩
    · rw [if_neg hon] at h
      cases hl : Prefetch_loop s g (s.m_cfi.GetSizeInBits.toNat + 1) 0 with
      | none => rw [hl] at h; cases h
      | some q =>
        obtain ⟨s2, found⟩ := q
        rw [hl] at h
        dsimp only at h
        rcases Prefetch_loop_spec s g _ 0 s2 found hl with ⟨hf, hs⟩ | ⟨hf, f1, hnone, hr, hm⟩
        · subst hf; subst hs
          simp only [Bool.not_false, if_true] at h
          have := Option.some.inj h
          subst this
          exact Or.inl ⟨rfl, rfl⟩
        · subst hf
          simp only [Bool.not_true, Bool.false_eq_true, if_false] at h
          have := Option.some.inj h
          subst this
          right
          refine ⟨_, ?_, ?_, hr, ⟨_, hm⟩, ?_⟩
          · rfl
          · exact hnone
          · intro k b hb
            rw [hm, BlockMap.find_set]
            have hki : k ≠ f1 := by
              intro hh; subst hh; rw [hnone] at hb; cases hb
            rw [if_neg hki]
            exact hb
  · intro hi k b hb
    exact RequestBlock_keeps s i p hi k b hb
  · intro hnd
    rw [RequestBlock_map]
    exact BlockMap.keys_set_nodup _ _ _ hnd

end File

/-! ## The ref-count discipline under concurrent use -/

theorem sum_map_set_add {α : Type} (f : α → Nat) (l : List α) (n : Nat) (a a1 : α)
    (h : l[n]? = some a) : ((l.set n a1).map f).sum + f a = (l.map f).sum + f a1 := by
  induction l generalizing n with
  | nil => simp at h
  | cons x rest ih =>
    cases n with
    | zero =>
      simp only [List.getElem?_cons_zero, Option.some.injEq] at h
      subst h
      simp only [List.set_cons_zero, List.map_cons, List.sum_cons]
      omega
    | succ m =>
      simp only [List.getElem?_cons_succ] at h
      have := ih m h
      simp only [List.set_cons_succ, List.map_cons, List.sum_cons]
      omega

theorem sum_map_eraseIdx_add {α : Type} (f : α → Nat) (l : List α) (n : Nat) (a : α)
    (h : l[n]? = some a) : ((l.eraseIdx n).map f).sum + f a = (l.map f).sum := by
  induction l generalizing n with
  | nil => simp at h
  | cons x rest ih =>
    cases n with
    | zero =>
      simp only [List.getElem?_cons_zero, Option.some.injEq] at h
      subst h
      simp only [List.eraseIdx_cons_zero, List.map_cons, List.sum_cons]
      omega
    | succ m =>
      simp only [List.getElem?_cons_succ] at h
      have := ih m h
      simp only [List.eraseIdx_cons_succ, List.map_cons, List.sum_cons]
      omega

namespace File

theorem inc_ref_count_frame (s : File) (b : Int) : (s.inc_ref_count b).frame = s.frame := rfl

theorem free_block_frame (s : File) (b : Int) : (s.free_block b).frame = s.frame := by
  unfold free_block
  cases s.m_block_map.find b with
  | none => rfl
  | some _ => dsimp only; split_ifs <;> rfl

theorem dec_ref_count_frame (s : File) (b : Int) : (s.dec_ref_count b).frame = s.frame := by
  unfold dec_ref_count
  cases s.m_block_map.find b with
  | none => rfl
  | some _ =>
    dsimp only
    split_ifs
    · rw [free_block_frame]; rfl
    · rfl

theorem RequestBlock_frame (s : File) (i : Int) (p : Bool) : (s.RequestBlock i p).frame = s.frame := by
  unfold RequestBlock
  dsimp only
  split_ifs <;> rfl

theorem release_keeps_frame (l : List Int) (s : File) :
    (l.foldl dec_ref_count s).frame = s.frame := by
  induction l generalizing s with
  | nil => rfl
  | cons b rest ih => rw [List.foldl_cons, ih, dec_ref_count_frame]

theorem Read_classify_step_keeps_frame (ca : CacheAnswers) (acc : File × ReadLists) (i : Int) :
    (Read_classify_step ca acc i).1.frame = acc.1.frame := by
  unfold Read_classify_step
  cases acc.1.m_block_map.find i with
  | some _ => rfl
  | none =>
    dsimp only
    split_ifs
    · rfl
    · rw [inc_ref_count_frame, RequestBlock_frame]; rfl
    · rfl

theorem Read_classify_fold_keeps_frame (ca : CacheAnswers) (l : List Int) (acc : File × ReadLists) :
    (l.foldl (Read_classify_step ca) acc).1.frame = acc.1.frame := by
  induction l generalizing acc with
  | nil => rfl
  | cons i rest ih => rw [List.foldl_cons, ih, Read_classify_step_keeps_frame]

/-- The operation leaves the block map and the frame as they are. -/
theorem RequestBlocksDirect_loop_keeps (off size : Int) (junk : Overlap) (l : List Int) (s : File)
    (total : Int) :
    (RequestBlocksDirect_loop off size junk l (s, total)).1.m_block_map = s.m_block_map ∧
    (RequestBlocksDirect_loop off size junk l (s, total)).1.frame = s.frame := by
  induction l generalizing s total with
  | nil => exact ⟨rfl, rfl⟩
  | cons i rest ih =>
    unfold RequestBlocksDirect_loop
    dsimp only
    obtain ⟨h1, h2⟩ := ih
      { s with origin_reads := s.origin_reads ++
          [{ direct := true, target := (overlap i s.m_cfi.GetBufferSize off size junk).2.off,
             offset := i * s.m_cfi.GetBufferSize + (overlap i s.m_cfi.GetBufferSize off size junk).2.blk_off,
             length := (overlap i s.m_cfi.GetBufferSize off size junk).2.size }] }
      (total + (overlap i s.m_cfi.GetBufferSize off size junk).2.size)
    exact ⟨h1, h2⟩

theorem CheckPrefetchStatDisk_keeps (s : File) (i : Int) :
    (s.CheckPrefetchStatDisk i).m_block_map = s.m_block_map ∧
    (s.CheckPrefetchStatDisk i).frame = s.frame := by
  unfold CheckPrefetchStatDisk
  split_ifs <;> exact ⟨rfl, rfl⟩

theorem CheckPrefetchStatRAM_keeps (s : File) (b : Block) :
    (s.CheckPrefetchStatRAM b).m_block_map = s.m_block_map ∧
    (s.CheckPrefetchStatRAM b).frame = s.frame := by
  unfold CheckPrefetchStatRAM
  split_ifs <;> exact ⟨rfl, rfl⟩

theorem ReadBlocksFromDisk_loop_keeps (rd : Int → Int → Int) (off size : Int) (junk : Overlap)
    (l : List Int) (s : File) (total : Int) :
    (ReadBlocksFromDisk_loop rd off size junk l (s, total)).1.m_block_map = s.m_block_map ∧
    (ReadBlocksFromDisk_loop rd off size junk l (s, total)).1.frame = s.frame := by
  induction l generalizing s total with
  | nil => exact ⟨rfl, rfl⟩
  | cons i rest ih =>
    unfold ReadBlocksFromDisk_loop
    dsimp only
    split_ifs
    · exact ⟨rfl, rfl⟩
    · exact ⟨rfl, rfl⟩
    · obtain ⟨h1, h2⟩ := ih (s.CheckPrefetchStatDisk i)
        (total + rd (i * s.m_cfi.GetBufferSize + (overlap i s.m_cfi.GetBufferSize off size junk).2.blk_off
          - s.m_offset) (overlap i s.m_cfi.GetBufferSize off size junk).2.size)
      exact ⟨h1.trans (CheckPrefetchStatDisk_keeps s i).1, h2.trans (CheckPrefetchStatDisk_keeps s i).2⟩

theorem Read_consume_keeps (off size : Int) (junk : Overlap) (fin : List (Int × Block)) (s : File)
    (br : Int) (e : Option Int) :
    (Read_consume off size junk fin (s, br, e)).1.m_block_map = s.m_block_map ∧
    (Read_consume off size junk fin (s, br, e)).1.frame = s.frame := by
  induction fin generalizing s br with
  | nil => exact ⟨rfl, rfl⟩
  | cons x rest ih =>
    obtain ⟨k, b⟩ := x
    unfold Read_consume
    dsimp only
    split_ifs
    · obtain ⟨h1, h2⟩ := ih
        (CheckPrefetchStatRAM { s with m_stats := { s.m_stats with m_BytesRam := s.m_stats.m_BytesRam +
          (overlap (cdiv b.m_offset s.m_cfi.GetBufferSize) s.m_cfi.GetBufferSize off size junk).2.size } } b)
        (br + (overlap (cdiv b.m_offset s.m_cfi.GetBufferSize) s.m_cfi.GetBufferSize off size junk).2.size)
      exact ⟨h1.trans (CheckPrefetchStatRAM_keeps _ b).1, h2.trans (CheckPrefetchStatRAM_keeps _ b).2⟩
    · exact ⟨rfl, rfl⟩

theorem ioActive_stop_keeps (s : File) :
    s.ioActive_stop.m_block_map = s.m_block_map ∧ s.ioActive_stop.frame = s.frame := by
  unfold ioActive_stop
  split_ifs <;> exact ⟨rfl, rfl⟩

theorem WakeUp_keeps (s : File) :
    s.WakeUp.m_block_map = s.m_block_map ∧ s.WakeUp.frame = s.frame := by
  unfold WakeUp
  split_ifs <;> exact ⟨rfl, rfl⟩

theorem Prefetch_take_frame (s : File) (g : Bool) (f : Int) : (s.Prefetch_take g f).frame = s.frame := by
  unfold Prefetch_take
  show (RequestBlock _ f true).frame = s.frame
  rw [RequestBlock_frame]
  cases g <;> rfl

end File

namespace BlockMap

theorem keys_modify (m : BlockMap) (i : Int) (f : Block → Block) : keys (modify m i f) = keys m := by
  unfold keys modify
  rw [List.map_map]
  apply List.map_congr_left
  intro e _
  dsimp only [Function.comp]
  split_ifs <;> rfl

end BlockMap

namespace File

/-- The block map after `dec_ref_count`. -/
theorem dec_ref_count_find (s : File) (b : Int) (hbs : 0 < s.m_cfi.GetBufferSize) (hwf : s.MapWF)
    (j : Int) :
    (s.dec_ref_count b).m_block_map.find j =
      if j = b then
        (s.m_block_map.find b).bind (fun blk =>
          if blk.m_refcnt - 1 = 0 ∧ blk.is_finished = true then none
          else some { blk with m_refcnt := blk.m_refcnt - 1 })
      else s.m_block_map.find j := by
  unfold dec_ref_count
  cases hb : s.m_block_map.find b with
  | none =>
    dsimp only
    split_ifs with hj
    · subst hj; rw [hb]; rfl
    · rfl
  | some blk =>
    dsimp only
    have hoff : cdiv blk.m_offset s.m_cfi.GetBufferSize = b := by
      rw [hwf b blk hb]; exact cdiv_mul_cancel b _ hbs
    by_cases hc : blk.m_refcnt - 1 = 0 ∧ blk.is_finished = true
    · rw [if_pos hc, free_block_map]
      dsimp only
      rw [BlockMap.find_modify, if_pos rfl, hb]
      dsimp only [Option.map]
      show BlockMap.find (BlockMap.erase _ (cdiv blk.m_offset s.m_cfi.GetBufferSize)) j = _
      rw [hoff, BlockMap.find_erase, BlockMap.find_modify]
      split_ifs with hj
      · simp [Option.bind, hc]
      · rfl
    · rw [if_neg hc, BlockMap.find_modify]
      split_ifs with hj
      · rw [hb]; simp [Option.bind, hc]
      · rfl

theorem dec_ref_count_nodup (s : File) (b : Int) (h : (BlockMap.keys s.m_block_map).Nodup) :
    (BlockMap.keys (s.dec_ref_count b).m_block_map).Nodup := by
  unfold dec_ref_count
  cases hb : s.m_block_map.find b with
  | none => exact h
  | some blk =>
    dsimp only
    split_ifs
    · rw [free_block_map]
      dsimp only
      cases BlockMap.find (BlockMap.modify s.m_block_map b _) b with
      | none => dsimp only; rw [BlockMap.keys_modify]; exact h
      | some x =>
        dsimp only
        apply BlockMap.keys_erase_nodup
        rw [BlockMap.keys_modify]; exact h
    · dsimp only
      rw [BlockMap.keys_modify]; exact h

theorem dec_ref_count_MapWF (s : File) (b : Int) (hbs : 0 < s.m_cfi.GetBufferSize) (hwf : s.MapWF) :
    (s.dec_ref_count b).MapWF := by
  intro k x hx
  rw [dec_ref_count_find s b hbs hwf] at hx
  rw [show (s.dec_ref_count b).m_cfi = s.m_cfi from dec_ref_count_cfi s b]
  split_ifs at hx with hk
  · subst hk
    cases hb : s.m_block_map.find k with
    | none => rw [hb] at hx; simp at hx
    | some blk =>
      rw [hb] at hx
      simp only [Option.bind] at hx
      split_ifs at hx
      have := Option.some.inj hx
      rw [← this]
      exact hwf k blk hb
  · exact hwf k x hx

theorem frame_cfi {s t : File} (h : t.frame = s.frame) : t.m_cfi = s.m_cfi :=
  congrArg (fun p => p.1) h

theorem frame_offset {s t : File} (h : t.frame = s.frame) : t.m_offset = s.m_offset :=
  congrArg (fun p => p.2.1) h

theorem frame_queue {s t : File} (h : t.frame = s.frame) :
    t.cache.write_queue = s.cache.write_queue :=
  congrArg (fun p => p.2.2.1) h

theorem frame_in_sync {s t : File} (h : t.frame = s.frame) : t.m_in_sync = s.m_in_sync :=
  congrArg (fun p => p.2.2.2.1) h

theorem frame_deferred {s t : File} (h : t.frame = s.frame) :
    t.m_writes_during_sync = s.m_writes_during_sync :=
  congrArg (fun p => p.2.2.2.2) h

/-- The accounting with equal numbers of references. -/
theorem Acct_congr (s : File) (T U : Int → Nat) (h : s.Acct T) (hTU : ∀ k, U k = T k) : s.Acct U := by
  have : U = T := funext hTU
  rw [this]; exact h

/-- One more reference to a block of the map. -/
theorem Acct_inc (s : File) (T : Int → Nat) (i : Int) (h : s.Acct T)
    (hi : s.m_block_map.find i ≠ none) :
    (s.inc_ref_count i).Acct (fun k => if k = i then T k + 1 else T k) := by
  have hfind : ∀ j, (s.inc_ref_count i).m_block_map.find j =
      if j = i then (s.m_block_map.find i).map (fun x => { x with m_refcnt := x.m_refcnt + 1 })
      else s.m_block_map.find j := by
    intro j
    rw [inc_ref_count_map, BlockMap.find_modify]
  refine ⟨h.bs, MapWF_inc_ref_count s i h.wf, ?_, ?_, ?_, ?_⟩
  · rw [inc_ref_count_map, BlockMap.keys_modify]; exact h.nodup
  · intro k b hb
    rw [hfind] at hb
    split_ifs at hb with hk
    · subst hk
      cases hx : s.m_block_map.find k with
      | none => rw [hx] at hb; simp at hb
      | some x =>
        rw [hx] at hb
        have := Option.some.inj hb
        rw [← this]
        have := h.refs k x hx
        dsimp only
        rw [if_pos rfl]
        push_cast
        omega
    · rw [if_neg hk]; exact h.refs k b hb
  · intro k b hb hfin
    rw [hfind] at hb
    split_ifs at hb with hk
    · subst hk
      cases hx : s.m_block_map.find k with
      | none => rw [hx] at hb; simp at hb
      | some x =>
        rw [hx] at hb
        have := Option.some.inj hb
        rw [← this]
        have := h.refs k x hx
        dsimp only
        split_ifs at this <;> omega
    · exact h.pos k b hb hfin
  · intro k hk
    rw [hfind] at hk
    split_ifs at hk with hki
    · subst hki
      cases hx : s.m_block_map.find k with
      | none => exact absurd hx hi
      | some x => rw [hx] at hk; simp at hk
    · rw [if_neg hki]; exact h.absent k hk

/-- A new block under a key that was not in the map. -/
theorem Acct_RequestBlock (s : File) (T : Int → Nat) (i : Int) (p : Bool) (h : s.Acct T)
    (hi : s.m_block_map.find i = none) : (s.RequestBlock i p).Acct T := by
  have hfind : ∃ nb : Block, nb.m_refcnt = 0 ∧ nb.m_downloaded = false ∧ nb.m_failed = false ∧
      ∀ j, (s.RequestBlock i p).m_block_map.find j =
        if j = i then some nb else s.m_block_map.find j := by
    refine ⟨Block.create (i * s.m_cfi.GetBufferSize)
        (if i = s.m_cfi.GetSizeInBits - 1 then s.m_fileSize - i * s.m_cfi.GetBufferSize
         else s.m_cfi.GetBufferSize) p, rfl, rfl, rfl, ?_⟩
    intro j
    rw [RequestBlock_map, BlockMap.find_set]
  obtain ⟨nb, hn1, hn2, hn3, hfind⟩ := hfind
  refine ⟨?_, MapWF_RequestBlock s i p h.wf, ?_, ?_, ?_, ?_⟩
  · rw [RequestBlock_cfi]; exact h.bs
  · rw [RequestBlock_map]; exact BlockMap.keys_set_nodup _ _ _ h.nodup
  · intro k b hb
    rw [hfind] at hb
    by_cases hk : k = i
    · rw [if_pos hk] at hb
      subst hk
      have := Option.some.inj hb
      rw [← this, h.absent k hi, hn1, hn3]
      simp
    · rw [if_neg hk] at hb
      exact h.refs k b hb
  · intro k b hb hfin
    rw [hfind] at hb
    by_cases hk : k = i
    · rw [if_pos hk] at hb
      have := Option.some.inj hb
      rw [← this] at hfin
      simp [Block.is_finished, hn2, hn3] at hfin
    · rw [if_neg hk] at hb
      exact h.pos k b hb hfin
  · intro k hk
    rw [hfind] at hk
    by_cases hki : k = i
    · rw [if_pos hki] at hk; simp at hk
    · rw [if_neg hki] at hk
      exact h.absent k hk

/-- One reference to a block is released. -/
theorem Acct_dec (s : File) (T : Int → Nat) (i : Int) (h : s.Acct T) (hi : 1 ≤ T i) :
    (s.dec_ref_count i).Acct (fun k => if k = i then T k - 1 else T k) := by
  refine ⟨?_, dec_ref_count_MapWF s i h.bs h.wf, dec_ref_count_nodup s i h.nodup, ?_, ?_, ?_⟩
  · rw [dec_ref_count_cfi]; exact h.bs
  · intro k b hb
    rw [dec_ref_count_find s i h.bs h.wf] at hb
    split_ifs at hb with hk
    · subst hk
      cases hx : s.m_block_map.find k with
      | none => rw [hx] at hb; simp at hb
      | some x =>
        rw [hx] at hb
        simp only [Option.bind] at hb
        split_ifs at hb
        have := Option.some.inj hb
        rw [← this]
        have := h.refs k x hx
        dsimp only
        rw [if_pos rfl]
        omega
    · rw [if_neg hk]; exact h.refs k b hb
  · intro k b hb hfin
    rw [dec_ref_count_find s i h.bs h.wf] at hb
    split_ifs at hb with hk
    · subst hk
      cases hx : s.m_block_map.find k with
      | none => rw [hx] at hb; simp at hb
      | some x =>
        rw [hx] at hb
        simp only [Option.bind] at hb
        split_ifs at hb with hc
        have hb1 := Option.some.inj hb
        rw [← hb1] at hfin ⊢
        have hfx : x.is_finished = true := hfin
        have h1 := h.refs k x hx
        have h2 := h.pos k x hx hfx
        dsimp only
        have : x.m_refcnt - 1 ≠ 0 := fun h0 => hc ⟨h0, hfx⟩
        omega
    · exact h.pos k b hb hfin
  · intro k hk
    rw [dec_ref_count_find s i h.bs h.wf] at hk
    split_ifs at hk with hki
    · subst hki
      cases hx : s.m_block_map.find k with
      | none => have := h.absent k hx; omega
      | some x =>
        rw [hx] at hk
        simp only [Option.bind] at hk
        split_ifs at hk with hc
        have h1 := h.refs k x hx
        rw [if_pos rfl]
        split_ifs at h1 <;> omega
    · rw [if_neg hki]; exact h.absent k hk

/-- The references of a list of blocks are released. -/
theorem Acct_release (l : List Int) (s : File) (T : Int → Nat)
    (h : s.Acct (fun k => T k + l.count k)) : (l.foldl dec_ref_count s).Acct T := by
  induction l generalizing s with
  | nil => exact Acct_congr s _ _ h (fun k => by simp)
  | cons i rest ih =>
    rw [List.foldl_cons]
    apply ih
    have hd := Acct_dec s _ i h (by rw [List.count_cons_self]; omega)
    refine Acct_congr _ _ _ hd ?_
    intro k
    dsimp only
    by_cases hk : k = i
    · subst hk; simp
    · have : ¬ i = k := fun hh => hk hh.symm
      rw [if_neg hk, List.count_cons]
      simp [this]

end File

namespace BlockMap

theorem find_filter (m : BlockMap) (p : Int × Block → Bool) (hnd : (keys m).Nodup) (k : Int) :
    find (m.filter p) k = (find m k).bind (fun b => if p (k, b) = true then some b else none) := by
  induction m with
  | nil => rfl
  | cons e rest ih =>
    obtain ⟨j, x⟩ := e
    simp only [keys, List.map_cons, List.nodup_cons] at hnd
    have ih1 := ih hnd.2
    rw [List.filter_cons, find_cons]
    by_cases hj : j = k
    · subst hj
      rw [if_pos rfl]
      have hnone : find rest j = none := by
        cases hf : find rest j with
        | none => rfl
        | some y =>
          exfalso
          apply hnd.1
          have := find_mem rest j y hf
          exact List.mem_map_of_mem Prod.fst this
      by_cases hp : p (j, x) = true
      · rw [if_pos hp, find_cons, if_pos rfl]
        simp [Option.bind, hp]
      · rw [if_neg hp, ih1, hnone]
        simp [Option.bind, hp]
    · rw [if_neg hj]
      by_cases hp : p (j, x) = true
      · rw [if_pos hp, find_cons, if_neg hj, ih1]
      · rw [if_neg hp, ih1]

end BlockMap

namespace File

theorem Acct_of_eq (s t : File) (T : Int → Nat) (hmap : t.m_block_map = s.m_block_map)
    (hcfi : t.m_cfi = s.m_cfi) (h : s.Acct T) : t.Acct T := by
  refine ⟨?_, ?_, ?_, ?_, ?_, ?_⟩
  · rw [hcfi]; exact h.bs
  · intro k b hb
    rw [hmap] at hb
    rw [hcfi]; exact h.wf k b hb
  · rw [hmap]; exact h.nodup
  · intro k b hb
    rw [hmap] at hb
    exact h.refs k b hb
  · intro k b hb
    rw [hmap] at hb
    exact h.pos k b hb
  · intro k hk
    rw [hmap] at hk
    exact h.absent k hk

theorem Shrinks_of_eq (s t : File) (hmap : t.m_block_map = s.m_block_map) : Shrinks s t := by
  intro k b1 hb
  rw [hmap] at hb
  exact ⟨b1, hb, rfl⟩

theorem Shrinks_trans (s t u : File) (h1 : Shrinks s t) (h2 : Shrinks t u) : Shrinks s u := by
  intro k b2 hb
  obtain ⟨b1, hb1, e1⟩ := h2 k b2 hb
  obtain ⟨b, hb0, e0⟩ := h1 k b1 hb1
  refine ⟨b, hb0, ?_⟩
  rw [e1, e0]

theorem Evolves_of_Shrinks (s t : File) (h : Shrinks s t) : Evolves s t :=
  fun k b1 hb => Or.inl (h k b1 hb)

theorem Shrinks_dec_ref_count (s : File) (i : Int) (hbs : 0 < s.m_cfi.GetBufferSize)
    (hwf : s.MapWF) : Shrinks s (s.dec_ref_count i) := by
  intro k b1 hb
  rw [dec_ref_count_find s i hbs hwf] at hb
  by_cases hk : k = i
  · rw [if_pos hk] at hb
    subst hk
    cases hx : s.m_block_map.find k with
    | none => rw [hx] at hb; simp at hb
    | some x =>
      rw [hx] at hb
      simp only [Option.bind] at hb
      split_ifs at hb
      have := Option.some.inj hb
      exact ⟨x, rfl, by rw [← this]⟩
  · rw [if_neg hk] at hb
    exact ⟨b1, hb, rfl⟩

theorem Shrinks_release (l : List Int) (s : File) (T : Int → Nat)
    (h : s.Acct (fun k => T k + l.count k)) : Shrinks s (l.foldl dec_ref_count s) := by
  induction l generalizing s with
  | nil => exact Shrinks_of_eq s s rfl
  | cons i rest ih =>
    rw [List.foldl_cons]
    have hd := Acct_dec s _ i h (by rw [List.count_cons_self]; omega)
    have hd2 : (s.dec_ref_count i).Acct (fun k => T k + rest.count k) := by
      refine Acct_congr _ _ _ hd ?_
      intro k
      dsimp only
      by_cases hk : k = i
      · subst hk; simp
      · have : ¬ i = k := fun hh => hk hh.symm
        rw [if_neg hk, List.count_cons]
        simp [this]
    exact Shrinks_trans _ _ _ (Shrinks_dec_ref_count s i h.bs h.wf) (ih _ hd2)

theorem Evolves_trans (s t u : File) (h1 : Evolves s t) (h2 : Evolves t u)
    (hkeep : ∀ k, t.m_block_map.find k = none → s.m_block_map.find k = none)
    (hframe : t.frame = s.frame) : Evolves s u := by
  intro k b2 hb
  rcases h2 k b2 hb with ⟨b1, hb1, e1⟩ | ⟨hn, hd, hf, hbit⟩
  · rcases h1 k b1 hb1 with ⟨b, hb0, e0⟩ | ⟨hn, hd, hf, hbit⟩
    · left
      refine ⟨b, hb0, ?_⟩
      rw [e1, e0]
    · right
      refine ⟨hn, ?_, ?_, hbit⟩
      · rw [e1]; exact hd
      · rw [e1]; exact hf
  · right
    refine ⟨hkeep k hn, hd, hf, ?_⟩
    unfold offsetIdx at hbit ⊢
    rw [frame_cfi hframe, frame_offset hframe] at hbit
    exact hbit

/-- The classification of one block index: the accounting, with the references of the reader. -/
theorem Read_classify_step_acct (ca : CacheAnswers) (acc : File × ReadLists) (i : Int)
    (T : Int → Nat) (h : acc.1.Acct (fun k => T k + acc.2.blks_to_process.count k)) :
    (Read_classify_step ca acc i).1.Acct
        (fun k => T k + (Read_classify_step ca acc i).2.blks_to_process.count k) ∧
    Evolves acc.1 (Read_classify_step ca acc i).1 ∧
    (∀ k, (Read_classify_step ca acc i).1.m_block_map.find k = none →
      acc.1.m_block_map.find k = none) := by
  unfold Read_classify_step
  cases hf : acc.1.m_block_map.find i with
  | some x =>
    dsimp only
    refine ⟨?_, ?_, ?_⟩
    · refine Acct_congr _ _ _ (Acct_inc acc.1 _ i h (by rw [hf]; simp)) ?_
      intro k
      dsimp only
      by_cases hk : k = i
      · subst hk; rw [if_pos rfl, List.count_cons_self]; omega
      · have : ¬ i = k := fun hh => hk hh.symm
        rw [if_neg hk, List.count_cons]
        simp [this]
    · intro k b1 hb
      left
      rw [inc_ref_count_map, BlockMap.find_modify] at hb
      by_cases hk : k = i
      · rw [if_pos hk, hf] at hb
        have := Option.some.inj hb
        subst hk
        exact ⟨x, hf, by rw [← this]⟩
      · rw [if_neg hk] at hb
        exact ⟨b1, hb, rfl⟩
    · intro k hk
      rw [inc_ref_count_map, BlockMap.find_modify] at hk
      by_cases hki : k = i
      · rw [if_pos hki, hf] at hk; simp at hk
      · rw [if_neg hki] at hk; exact hk
  | none =>
    dsimp only
    by_cases hbit : acc.1.m_cfi.TestBit (acc.1.offsetIdx i) = true
    · rw [if_pos hbit]
      exact ⟨h, Evolves_of_Shrinks _ _ (Shrinks_of_eq _ _ rfl), fun k hk => hk⟩
    · rw [if_neg hbit]
      by_cases hg : (ca.HaveFreeWritingSlots i && ca.RequestRAMBlock i) = true
      · rw [if_pos hg]
        dsimp only
        have h1 : File.Acct { acc.1 with cache := acc.1.cache.RequestRAMBlock true }
            (fun k => T k + acc.2.blks_to_process.count k) := Acct_of_eq acc.1 _ _ rfl rfl h
        have hf1 : BlockMap.find
            (File.m_block_map { acc.1 with cache := acc.1.cache.RequestRAMBlock true }) i = none := hf
        have h2 := Acct_RequestBlock _ _ i false h1 hf1
        have hfind : ∀ j, (RequestBlock { acc.1 with cache := acc.1.cache.RequestRAMBlock true }
            i false).m_block_map.find j =
            if j = i then some (Block.create (i * acc.1.m_cfi.GetBufferSize)
              (if i = acc.1.m_cfi.GetSizeInBits - 1 then acc.1.m_fileSize - i * acc.1.m_cfi.GetBufferSize
               else acc.1.m_cfi.GetBufferSize) false)
            else acc.1.m_block_map.find j := by
          intro j
          rw [RequestBlock_map, BlockMap.find_set]
        have h3 := Acct_inc _ _ i h2 (by rw [hfind, if_pos rfl]; simp)
        refine ⟨?_, ?_, ?_⟩
        · refine Acct_congr _ _ _ h3 ?_
          intro k
          dsimp only
          by_cases hk : k = i
          · subst hk; rw [if_pos rfl, List.count_append]; simp; omega
          · have : ¬ i = k := fun hh => hk hh.symm
            rw [if_neg hk, List.count_append,
              List.count_eq_zero_of_not_mem (by simpa using hk : k ∉ [i])]
            rfl
        · intro k b1 hb
          rw [inc_ref_count_map, BlockMap.find_modify, hfind] at hb
          by_cases hk : k = i
          · right
            rw [if_pos hk, if_pos rfl] at hb
            have := Option.some.inj hb
            subst hk
            refine ⟨hf, by rw [← this]; rfl, by rw [← this]; rfl, ?_⟩
            simpa using hbit
          · left
            rw [if_neg hk, hfind, if_neg hk] at hb
            exact ⟨b1, hb, rfl⟩
        · intro k hk
          rw [inc_ref_count_map, BlockMap.find_modify, hfind] at hk
          by_cases hki : k = i
          · rw [if_pos hki, if_pos rfl] at hk; simp at hk
          · rw [if_neg hki, hfind, if_neg hki] at hk; exact hk
      · rw [if_neg hg]
        exact ⟨h, Evolves_of_Shrinks _ _ (Shrinks_of_eq _ _ rfl), fun k hk => hk⟩

theorem Read_classify_fold_acct (ca : CacheAnswers) (l : List Int) (acc : File × ReadLists)
    (T : Int → Nat) (h : acc.1.Acct (fun k => T k + acc.2.blks_to_process.count k)) :
    (l.foldl (Read_classify_step ca) acc).1.Acct
        (fun k => T k + (l.foldl (Read_classify_step ca) acc).2.blks_to_process.count k) ∧
    Evolves acc.1 (l.foldl (Read_classify_step ca) acc).1 := by
  induction l generalizing acc with
  | nil => exact ⟨h, Evolves_of_Shrinks _ _ (Shrinks_of_eq _ _ rfl)⟩
  | cons i rest ih =>
    rw [List.foldl_cons]
    obtain ⟨h1, h2, h3⟩ := Read_classify_step_acct ca acc i T h
    obtain ⟨g1, g2⟩ := ih _ h1
    exact ⟨g1, Evolves_trans _ _ _ h2 g2 h3 (Read_classify_step_keeps_frame ca acc i)⟩

/-- What a call of `Prefetch` does to the state. -/
theorem Prefetch_cases (s : File) (g : Bool) (t : File) (h : s.Prefetch g = some t) :
    (t.m_block_map = s.m_block_map ∧ t.frame = s.frame) ∨
    ∃ f1, s.m_block_map.find f1 = none ∧ s.m_cfi.TestBit (s.offsetIdx f1) = false ∧
      t = s.Prefetch_take g f1 := by
  have hloop : ∀ (fuel : Nat) (f : Int) (r : File × Bool),
      Prefetch_loop s g fuel f = some r →
      (r = (s, false)) ∨
      (r.2 = true ∧ ∃ f1, s.m_block_map.find f1 = none ∧
        s.m_cfi.TestBit (s.offsetIdx f1) = false ∧ r.1 = s.Prefetch_take g f1) := by
    intro fuel
    induction fuel with
    | zero => intro f r hr; simp [Prefetch_loop] at hr
    | succ n ih =>
      intro f r hr
      unfold Prefetch_loop at hr
      by_cases h1 : f < s.m_cfi.GetSizeInBits
      · rw [if_pos h1] at hr
        by_cases h2 : (!s.m_cfi.TestBit f) = true
        · rw [if_pos h2] at hr
          dsimp only at hr
          cases hfind : s.m_block_map.find (f + cdiv s.m_offset s.m_cfi.GetBufferSize) with
          | none =>
            rw [hfind] at hr
            dsimp only at hr
            right
            have := Option.some.inj hr
            rw [← this]
            refine ⟨rfl, _, hfind, ?_, rfl⟩
            unfold offsetIdx
            have : f + cdiv s.m_offset s.m_cfi.GetBufferSize - cdiv s.m_offset s.m_cfi.GetBufferSize = f := by
              ring
            rw [this]
            simpa using h2
          | some x =>
            rw [hfind] at hr
            dsimp only at hr
            exact ih _ r hr
        · rw [if_neg h2] at hr
          exact ih _ r hr
      · rw [if_neg h1] at hr
        left
        exact (Option.some.inj hr).symm
  unfold Prefetch at h
  by_cases hst : s.m_prefetchState ≠ PrefetchState.kOn
  · rw [if_pos hst] at h
    left
    rw [← Option.some.inj h]
    exact ⟨rfl, rfl⟩
  · rw [if_neg hst] at h
    cases hl : Prefetch_loop s g (s.m_cfi.GetSizeInBits.toNat + 1) 0 with
    | none => rw [hl] at h; simp at h
    | some r =>
      rw [hl] at h
      obtain ⟨s1, found⟩ := r
      dsimp only at h
      rcases hloop _ _ _ hl with hr | ⟨hr1, f1, hr2, hr3, hr4⟩
      · have e1 : s1 = s := congrArg Prod.fst hr
        have e2 : found = false := congrArg Prod.snd hr
        subst e1; subst e2
        left
        simp only [Bool.not_false, if_true] at h
        rw [← Option.some.inj h]
        exact ⟨rfl, rfl⟩
      · right
        dsimp only at hr1 hr4
        subst hr1
        simp only [Bool.not_true, Bool.false_eq_true, if_false] at h
        rw [← Option.some.inj h]
        exact ⟨f1, hr2, hr3, hr4⟩

/-- The state after `Prefetch` has taken a block: the accounting is as before. -/
theorem Prefetch_take_acct (s : File) (g : Bool) (f1 : Int) (T : Int → Nat) (h : s.Acct T)
    (hf : s.m_block_map.find f1 = none) (hbit : s.m_cfi.TestBit (s.offsetIdx f1) = false) :
    (s.Prefetch_take g f1).Acct T ∧ Evolves s (s.Prefetch_take g f1) := by
  have h1 : File.Acct { s with cache := s.cache.RequestRAMBlock g } T := Acct_of_eq s _ _ rfl rfl h
  have h2 := Acct_RequestBlock _ _ f1 true h1 hf
  have hmap : (s.Prefetch_take g f1).m_block_map =
      (RequestBlock { s with cache := s.cache.RequestRAMBlock g } f1 true).m_block_map := rfl
  have hcfi : (s.Prefetch_take g f1).m_cfi =
      (RequestBlock { s with cache := s.cache.RequestRAMBlock g } f1 true).m_cfi := rfl
  refine ⟨Acct_of_eq _ _ _ hmap hcfi h2, ?_⟩
  intro k b1 hb
  rw [hmap, RequestBlock_map, BlockMap.find_set] at hb
  by_cases hk : k = f1
  · right
    rw [if_pos hk] at hb
    have := Option.some.inj hb
    subst hk
    exact ⟨hf, by rw [← this]; rfl, by rw [← this]; rfl, hbit⟩
  · left
    rw [if_neg hk] at hb
    exact ⟨b1, hb, rfl⟩

/-- The loop of `ioActive`: the map it leaves, and the frame. -/
theorem ioActive_sweep_fold_map (l pre : BlockMap) (st : File)
    (hBS : 0 < st.m_cfi.GetBufferSize) (hmap : st.m_block_map = pre ++ l)
    (hnd : (BlockMap.keys (pre ++ l)).Nodup)
    (hoff : ∀ e ∈ l, e.2.m_offset = e.1 * st.m_cfi.GetBufferSize) :
    (l.foldl (fun st e => if e.2.is_failed = true ∧ e.2.m_refcnt = 1 then st.free_block e.1 else st)
        st).m_block_map
      = pre ++ l.filter (fun e => !(e.2.is_failed && decide (e.2.m_refcnt = 1))) ∧
    (l.foldl (fun st e => if e.2.is_failed = true ∧ e.2.m_refcnt = 1 then st.free_block e.1 else st)
        st).frame = st.frame := by
  induction l generalizing pre st with
  | nil => simp [hmap]
  | cons e rest ih =>
    obtain ⟨k, b⟩ := e
    simp only [List.foldl_cons]
    have hk : k ∉ BlockMap.keys pre ∧ k ∉ BlockMap.keys rest := by
      simp only [BlockMap.keys, List.map_append, List.map_cons] at hnd
      rw [List.nodup_append] at hnd
      obtain ⟨_, h2, h3⟩ := hnd
      rw [List.nodup_cons] at h2
      refine ⟨fun h => h3 h (List.mem_cons_self _ _), h2.1⟩
    by_cases hq : b.is_failed = true ∧ b.m_refcnt = 1
    · rw [if_pos hq]
      have hfind : st.m_block_map.find k = some b := by
        rw [hmap, BlockMap.find_append_of_not_mem _ _ _ hk.1, BlockMap.find_cons, if_pos rfl]
      have hfree : (st.free_block k).m_block_map = pre ++ rest := by
        rw [free_block_map, hfind]
        dsimp only
        have hb := hoff (k, b) (List.mem_cons_self _ _)
        dsimp only at hb
        rw [hb]
        unfold BufferSize
        rw [cdiv_mul_cancel k _ hBS, hmap, BlockMap.erase_append_cons pre rest k b hk.1 hk.2]
      have hnd2 : (BlockMap.keys (pre ++ rest)).Nodup := by
        simp only [BlockMap.keys, List.map_append, List.map_cons] at hnd ⊢
        rw [List.nodup_append] at hnd ⊢
        obtain ⟨h1, h2, h3⟩ := hnd
        rw [List.nodup_cons] at h2
        exact ⟨h1, h2.2, fun x hx1 hx2 => h3 hx1 (List.mem_cons_of_mem _ hx2)⟩
      have hcfi : (st.free_block k).m_cfi = st.m_cfi := free_block_cfi st k
      obtain ⟨g1, g2⟩ := ih pre (st.free_block k) (by rw [hcfi]; exact hBS) hfree hnd2
        (fun e he => by rw [hcfi]; exact hoff e (List.mem_cons_of_mem _ he))
      refine ⟨?_, by rw [g2, free_block_frame]⟩
      rw [g1, List.filter_cons]
      simp [hq.1, hq.2]
    · rw [if_neg hq]
      have hmap2 : st.m_block_map = (pre ++ [(k, b)]) ++ rest := by rw [hmap]; simp
      obtain ⟨g1, g2⟩ := ih (pre ++ [(k, b)]) st hBS hmap2 (by simpa using hnd)
        (fun e he => hoff e (List.mem_cons_of_mem _ he))
      refine ⟨?_, g2⟩
      rw [g1, List.filter_cons]
      have : (!(b.is_failed && decide (b.m_refcnt = 1))) = true := by
        by_contra hc
        apply hq
        simpa using hc
      simp [this]

/-- The block map after the loop of `ioActive`. -/
theorem ioActive_sweep_find (s : File) (T : Int → Nat) (h : s.Acct T) (k : Int) :
    s.ioActive_sweep.m_block_map.find k =
      (s.m_block_map.find k).bind (fun b =>
        if (!(b.is_failed && decide (b.m_refcnt = 1))) = true then some b else none) ∧
    s.ioActive_sweep.frame = s.frame := by
  have hoff : ∀ e ∈ s.m_block_map, e.2.m_offset = e.1 * s.m_cfi.GetBufferSize := by
    intro e he
    exact h.wf e.1 e.2 (mem_find_of_nodup _ h.nodup e he)
  obtain ⟨g1, g2⟩ := ioActive_sweep_fold_map s.m_block_map [] s h.bs rfl h.nodup hoff
  unfold ioActive_sweep
  refine ⟨?_, g2⟩
  rw [g1, List.nil_append]
  exact BlockMap.find_filter _ _ h.nodup k

theorem ioActive_sweep_acct (s : File) (T : Int → Nat) (h : s.Acct T) :
    s.ioActive_sweep.Acct T ∧ Shrinks s s.ioActive_sweep := by
  have hfind := fun k => (ioActive_sweep_find s T h k).1
  have hframe := (ioActive_sweep_find s T h 0).2
  have hcfi := frame_cfi hframe
  have hkeep : ∀ k b, s.ioActive_sweep.m_block_map.find k = some b →
      s.m_block_map.find k = some b ∧ ¬ (b.m_failed = true ∧ b.m_refcnt = 1) := by
    intro k b hb
    rw [hfind] at hb
    cases hx : s.m_block_map.find k with
    | none => rw [hx] at hb; simp at hb
    | some x =>
      rw [hx] at hb
      simp only [Option.bind] at hb
      split_ifs at hb with hc
      have := Option.some.inj hb
      subst this
      refine ⟨rfl, ?_⟩
      intro hh
      simp [Block.is_failed, hh.1, hh.2] at hc
  refine ⟨⟨?_, ?_, ?_, ?_, ?_, ?_⟩, ?_⟩
  · rw [hcfi]; exact h.bs
  · intro k b hb
    rw [hcfi]; exact h.wf k b (hkeep k b hb).1
  · have hoff : ∀ e ∈ s.m_block_map, e.2.m_offset = e.1 * s.m_cfi.GetBufferSize := by
      intro e he
      exact h.wf e.1 e.2 (mem_find_of_nodup _ h.nodup e he)
    have g1 := (ioActive_sweep_fold_map s.m_block_map [] s h.bs rfl h.nodup hoff).1
    unfold ioActive_sweep
    rw [g1, List.nil_append]
    unfold BlockMap.keys
    exact (List.Nodup.sublist (List.Sublist.map _ (List.filter_sublist _)) h.nodup)
  · intro k b hb
    exact h.refs k b (hkeep k b hb).1
  · intro k b hb
    exact h.pos k b (hkeep k b hb).1
  · intro k hk
    rw [hfind] at hk
    cases hx : s.m_block_map.find k with
    | none => exact h.absent k hx
    | some x =>
      rw [hx] at hk
      simp only [Option.bind] at hk
      split_ifs at hk with hc
      have h1 := h.refs k x hx
      have hc2 : x.m_failed = true ∧ x.m_refcnt = 1 := by
        simpa [Block.is_failed] using hc
      rw [if_pos hc2.1, hc2.2] at h1
      omega
  · intro k b hb
    exact ⟨b, (hkeep k b hb).1, rfl⟩

end File

namespace File

theorem Read_classify_acct (s : File) (ca : CacheAnswers) (first last : Int) (T : Int → Nat)
    (h : s.Acct T) :
    (Read_classify s ca first last).1.Acct
        (fun k => T k + (Read_classify s ca first last).2.blks_to_process.count k) ∧
    Evolves s (Read_classify s ca first last).1 ∧
    (Read_classify s ca first last).1.frame = s.frame := by
  have h0 : File.Acct s (fun k => T k + ([] : List Int).count k) :=
    Acct_congr _ _ _ h (fun k => by simp)
  obtain ⟨g1, g2⟩ := Read_classify_fold_acct ca (idxRange first last)
    (s, { blks_to_process := [], blks_on_disk := [], blks_direct := [] }) T h0
  exact ⟨g1, g2, Read_classify_fold_keeps_frame ca (idxRange first last)
    (s, { blks_to_process := [], blks_on_disk := [], blks_direct := [] })⟩

end File

namespace File

theorem Acct_of_bs (s t : File) (T : Int → Nat) (hmap : t.m_block_map = s.m_block_map)
    (hbs : t.m_cfi.GetBufferSize = s.m_cfi.GetBufferSize) (h : s.Acct T) : t.Acct T := by
  refine ⟨?_, ?_, ?_, ?_, ?_, ?_⟩
  · rw [hbs]; exact h.bs
  · intro k b hb
    rw [hmap] at hb
    rw [hbs]; exact h.wf k b hb
  · rw [hmap]; exact h.nodup
  · intro k b hb
    rw [hmap] at hb
    exact h.refs k b hb
  · intro k b hb
    rw [hmap] at hb
    exact h.pos k b hb
  · intro k hk
    rw [hmap] at hk
    exact h.absent k hk

end File

namespace System

theorem calls_append (S : System) (f : File) (R : List (List Int)) (w : Writeback)
    (P : WbStage → Bool) (k : Int) :
    System.calls { file := f, readers := R, writers := S.writers ++ [w] } P k
      = S.calls P k + (if w.blk = k ∧ P w.stage = true then 1 else 0) := by
  unfold calls
  simp only [List.map_append, List.sum_append, List.map_cons, List.map_nil, List.sum_cons,
    List.sum_nil, Nat.add_zero]

theorem calls_set (S : System) (f : File) (R : List (List Int)) (n : Nat) (w w1 : Writeback)
    (hn : S.writers[n]? = some w) (P : WbStage → Bool) (k : Int) :
    System.calls { file := f, readers := R, writers := S.writers.set n w1 } P k
        + (if w.blk = k ∧ P w.stage = true then 1 else 0)
      = S.calls P k + (if w1.blk = k ∧ P w1.stage = true then 1 else 0) := by
  unfold calls
  exact sum_map_set_add _ S.writers n w w1 hn

theorem calls_eraseIdx (S : System) (f : File) (R : List (List Int)) (n : Nat) (w : Writeback)
    (hn : S.writers[n]? = some w) (P : WbStage → Bool) (k : Int) :
    System.calls { file := f, readers := R, writers := S.writers.eraseIdx n } P k
        + (if w.blk = k ∧ P w.stage = true then 1 else 0)
      = S.calls P k := by
  unfold calls
  exact sum_map_eraseIdx_add _ S.writers n w hn

theorem calls_same (S : System) (f : File) (R : List (List Int)) (P : WbStage → Bool) (k : Int) :
    System.calls { file := f, readers := R, writers := S.writers } P k = S.calls P k := rfl

theorem holds_append (S : System) (f : File) (W : List Writeback) (r : List Int) (k : Int) :
    System.holds { file := f, readers := S.readers ++ [r], writers := W } k
      = S.holds k + r.count k := by
  unfold holds
  simp only [List.map_append, List.sum_append, List.map_cons, List.map_nil, List.sum_cons,
    List.sum_nil, Nat.add_zero]

theorem holds_eraseIdx (S : System) (f : File) (W : List Writeback) (n : Nat) (r : List Int)
    (hn : S.readers[n]? = some r) (k : Int) :
    System.holds { file := f, readers := S.readers.eraseIdx n, writers := W } k + r.count k
      = S.holds k := by
  unfold holds
  exact sum_map_eraseIdx_add _ S.readers n r hn

theorem holds_same (S : System) (f : File) (W : List Writeback) (k : Int) :
    System.holds { file := f, readers := S.readers, writers := W } k = S.holds k := rfl

/-- The invariant after a step that changes the ref-counts of the blocks, brings unanswered
blocks into the map, or takes references for the writeback away. -/
theorem Inv_evolve (S S1 : System) (h : S.Inv)
    (hbs : S1.file.m_cfi.GetBufferSize = S.file.m_cfi.GetBufferSize)
    (hbits : ∀ i, S1.file.m_cfi.TestBit i = S.file.m_cfi.TestBit i)
    (hoff : S1.file.m_offset = S.file.m_offset)
    (hev : Evolves S.file S1.file)
    (hacct : S1.file.Acct (fun k => S1.holds k + S1.wbrefs k))
    (hwb : ∀ k, S1.wbrefs k ≤ S.wbrefs k)
    (hpend : ∀ k, S.file.cache.write_queue.count k = 0 → S.calls WbStage.pending k = 0 →
      S1.file.cache.write_queue.count k = 0 ∧ S1.calls WbStage.pending k = 0)
    (hidx : ∀ w ∈ S1.writers, w ∈ S.writers ∨ w.pfIdx = S.file.offsetIdx w.blk) : S1.Inv := by
  have hoi : ∀ k, S1.file.offsetIdx k = S.file.offsetIdx k := by
    intro k; unfold offsetIdx; rw [hbs, hoff]
  refine ⟨hacct, ?_, ?_, ?_, ?_, ?_⟩
  · rw [hbs, hoff]; exact h.aligned
  · intro k b1 hb
    rcases hev k b1 hb with ⟨b, hb0, e⟩ | ⟨hn, hd, _, _⟩
    · have := h.once k b hb0
      have h1 := hwb k
      have hd : b1.m_downloaded = b.m_downloaded := by rw [e]
      rw [hd]
      omega
    · have := h.acct.absent k hn
      have h1 := hwb k
      omega
  · intro k b1 hb hd
    rcases hev k b1 hb with ⟨b, hb0, e⟩ | ⟨hn, hd1, _, _⟩
    · have hd2 : b.m_downloaded = true := by rw [e] at hd; exact hd
      have := h.excl k b hb0 hd2
      rw [e]; exact this
    · rw [hd1] at hd; cases hd
  · intro k b1 hb hbit
    rw [hbits, hoi] at hbit
    rcases hev k b1 hb with ⟨b, hb0, e⟩ | ⟨hn, _, _, hbit1⟩
    · obtain ⟨g1, g2, g3⟩ := h.present k b hb0 hbit
      refine ⟨?_, hpend k g2 g3⟩
      rw [e]; exact g1
    · rw [hbit1] at hbit; cases hbit
  · intro w hw
    rw [hoi]
    rcases hidx w hw with hw0 | hw0
    · exact h.idx w hw0
    · exact hw0

theorem Inv_read_begin (S : System) (h : S.Inv) (off size : Int) (ca : CacheAnswers) :
    System.Inv
      { file := (S.file.Read_classify ca (cdiv off S.file.m_cfi.GetBufferSize)
          (cdiv (off + size - 1) S.file.m_cfi.GetBufferSize)).1
        readers := S.readers ++ [(S.file.Read_classify ca (cdiv off S.file.m_cfi.GetBufferSize)
          (cdiv (off + size - 1) S.file.m_cfi.GetBufferSize)).2.blks_to_process]
        writers := S.writers } := by
  obtain ⟨g1, g2, hfr⟩ := Read_classify_acct S.file ca (cdiv off S.file.m_cfi.GetBufferSize)
    (cdiv (off + size - 1) S.file.m_cfi.GetBufferSize) _ h.acct
  have hq := frame_queue hfr
  refine Inv_evolve S _ h (congrArg Info.GetBufferSize (frame_cfi hfr))
    (fun i => congrArg (fun c => Info.TestBit c i) (frame_cfi hfr)) (frame_offset hfr) g2 ?_ ?_ ?_ ?_
  · refine Acct_congr _ _ _ g1 ?_
    intro k
    rw [holds_append]
    unfold wbrefs
    rw [calls_same]
    dsimp only
    rw [hq]
    omega
  · intro k
    unfold wbrefs
    rw [calls_same]
    dsimp only
    rw [hq]
  · intro k hk1 hk2
    rw [calls_same]
    dsimp only
    rw [hq]
    exact ⟨hk1, hk2⟩
  · intro w hw
    exact Or.inl hw

/-- A step that leaves the block map, the buffer size, the present bits, the offset and the write
queue as they are. -/
theorem Inv_keep (S : System) (h : S.Inv) (f1 : File) (hmap : f1.m_block_map = S.file.m_block_map)
    (hbs : f1.m_cfi.GetBufferSize = S.file.m_cfi.GetBufferSize)
    (hbits : ∀ i, f1.m_cfi.TestBit i = S.file.m_cfi.TestBit i)
    (hoff : f1.m_offset = S.file.m_offset)
    (hq : f1.cache.write_queue = S.file.cache.write_queue) :
    System.Inv { file := f1, readers := S.readers, writers := S.writers } := by
  refine Inv_evolve S _ h hbs hbits hoff (Evolves_of_Shrinks _ _ (Shrinks_of_eq _ _ hmap)) ?_ ?_ ?_ ?_
  · refine Acct_congr _ _ _ (Acct_of_bs S.file f1 _ hmap hbs h.acct) ?_
    intro k
    rw [holds_same]
    unfold wbrefs
    rw [calls_same]
    dsimp only
    rw [hq]
  · intro k
    unfold wbrefs
    rw [calls_same]
    dsimp only
    rw [hq]
  · intro k hk1 hk2
    rw [calls_same]
    dsimp only
    rw [hq]
    exact ⟨hk1, hk2⟩
  · intro w hw
    exact Or.inl hw

theorem Inv_keep_frame (S : System) (h : S.Inv) (f1 : File)
    (hk : f1.m_block_map = S.file.m_block_map ∧ f1.frame = S.file.frame) :
    System.Inv { file := f1, readers := S.readers, writers := S.writers } :=
  Inv_keep S h f1 hk.1 (congrArg Info.GetBufferSize (frame_cfi hk.2))
    (fun i => congrArg (fun c => Info.TestBit c i) (frame_cfi hk.2)) (frame_offset hk.2)
    (frame_queue hk.2)

theorem Inv_read_end (S : System) (h : S.Inv) (n : Nat) (order r : List Int)
    (hn : S.readers[n]? = some r) (hp : order.Perm r) :
    System.Inv
      { file := order.foldl File.dec_ref_count S.file
        readers := S.readers.eraseIdx n
        writers := S.writers } := by
  have hfr := release_keeps_frame order S.file
  have hq := frame_queue hfr
  have hT : File.Acct S.file (fun k =>
      (System.holds
        { file := order.foldl File.dec_ref_count S.file
          readers := S.readers.eraseIdx n
          writers := S.writers } k + S.wbrefs k)
        + order.count k) := by
    refine Acct_congr _ _ _ h.acct ?_
    intro k
    have := holds_eraseIdx S (order.foldl File.dec_ref_count S.file) S.writers n r hn k
    rw [hp.count_eq]
    omega
  refine Inv_evolve S _ h (congrArg Info.GetBufferSize (frame_cfi hfr))
    (fun i => congrArg (fun c => Info.TestBit c i) (frame_cfi hfr)) (frame_offset hfr)
    (Evolves_of_Shrinks _ _ (Shrinks_release order S.file _ hT)) ?_ ?_ ?_ ?_
  · refine Acct_congr _ _ _ (Acct_release order S.file _ hT) ?_
    intro k
    unfold wbrefs
    rw [calls_same]
    dsimp only
    rw [hq]
  · intro k
    unfold wbrefs
    rw [calls_same]
    dsimp only
    rw [hq]
  · intro k hk1 hk2
    rw [calls_same]
    dsimp only
    rw [hq]
    exact ⟨hk1, hk2⟩
  · intro w hw
    exact Or.inl hw

end System

namespace File

theorem pfIdx_eq_offsetIdx (s : File) (T : Int → Nat) (h : s.Acct T)
    (hal : ∃ c : Int, s.m_offset = c * s.m_cfi.GetBufferSize) (b : Int) (blk : Block)
    (hb : s.m_block_map.find b = some blk) : WriteBlockToDisk_pfIdx s blk = s.offsetIdx b := by
  obtain ⟨c, hc⟩ := hal
  unfold WriteBlockToDisk_pfIdx offsetIdx
  rw [h.wf b blk hb, hc, cdiv_mul_cancel c _ h.bs]
  have : b * s.m_cfi.GetBufferSize - c * s.m_cfi.GetBufferSize = (b - c) * s.m_cfi.GetBufferSize := by
    ring
  rw [this, cdiv_mul_cancel _ _ h.bs]

theorem Sync_cfi (l : List Int) (c : Info) :
    (l.foldl Info.SetBitWriteCalled c).buffer_size = c.buffer_size ∧
    (l.foldl Info.SetBitWriteCalled c).present_bits = c.present_bits := by
  induction l generalizing c with
  | nil => exact ⟨rfl, rfl⟩
  | cons i rest ih =>
    rw [List.foldl_cons]
    obtain ⟨h1, h2⟩ := ih (c.SetBitWriteCalled i)
    exact ⟨h1, h2⟩

end File

namespace System

theorem Inv_wb_begin (S : System) (h : S.Inv) (b : Int) (blk : Block) (st : WbStage)
    (hb : S.file.m_block_map.find b = some blk) (hq : b ∈ S.file.cache.write_queue)
    (hst : st.holding = true) :
    System.Inv
      { file := { S.file with cache := S.file.cache.TakeWriteTask b }
        readers := S.readers
        writers := S.writers ++
          [{ blk := b, pfIdx := File.WriteBlockToDisk_pfIdx S.file blk, stage := st }] } := by
  have hcnt : 1 ≤ S.file.cache.write_queue.count b := List.count_pos_iff.mpr hq
  have hqk : ∀ k, (S.file.cache.write_queue.erase b).count k + (if b = k then 1 else 0)
      = S.file.cache.write_queue.count k := by
    intro k
    by_cases hk : b = k
    · subst hk
      rw [List.count_erase_self, if_pos rfl]; omega
    · rw [List.count_erase_of_ne (fun hh => hk hh.symm), if_neg hk]; rfl
  have hwbk : ∀ k, System.wbrefs
      { file := { S.file with cache := S.file.cache.TakeWriteTask b }
        readers := S.readers
        writers := S.writers ++
          [{ blk := b, pfIdx := File.WriteBlockToDisk_pfIdx S.file blk, stage := st }] } k
      = S.wbrefs k := by
    intro k
    unfold wbrefs
    rw [calls_append]
    dsimp only [Cache.TakeWriteTask]
    have := hqk k
    by_cases hk : b = k
    · rw [if_pos hk] at this
      rw [if_pos ⟨hk, hst⟩]; omega
    · rw [if_neg hk] at this
      rw [if_neg (fun hh => hk hh.1)]; omega
  refine Inv_evolve S _ h rfl (fun _ => rfl) rfl (Evolves_of_Shrinks _ _ (Shrinks_of_eq _ _ rfl))
    ?_ ?_ ?_ ?_
  · refine Acct_congr _ _ _ (Acct_of_bs S.file _ _ rfl rfl h.acct) ?_
    intro k
    rw [hwbk k]
    rfl
  · intro k
    rw [hwbk k]
  · intro k hk1 hk2
    rw [calls_append]
    dsimp only [Cache.TakeWriteTask]
    have := hqk k
    by_cases hk : b = k
    · exfalso
      subst hk
      omega
    · rw [if_neg hk] at this
      rw [if_neg (fun hh => hk hh.1)]
      omega
  · intro w hw
    dsimp only at hw
    rw [List.mem_append, List.mem_singleton] at hw
    rcases hw with hw | hw
    · exact Or.inl hw
    · right
      rw [hw]
      exact pfIdx_eq_offsetIdx S.file _ h.acct h.aligned b blk hb

theorem Inv_wb_dec_ref (S : System) (h : S.Inv) (n : Nat) (w : Writeback)
    (hn : S.writers[n]? = some w) (hst : w.stage = WbStage.bit_set) :
    System.Inv
      { file := S.file.dec_ref_count w.blk
        readers := S.readers
        writers := S.writers.set n { w with stage := WbStage.released } } := by
  have hfr := dec_ref_count_frame S.file w.blk
  have hq := frame_queue hfr
  have hc : ∀ k, System.calls
      { file := S.file.dec_ref_count w.blk
        readers := S.readers
        writers := S.writers.set n { w with stage := WbStage.released } } WbStage.holding k
      + (if w.blk = k then 1 else 0) = S.calls WbStage.holding k := by
    intro k
    have := calls_set S (S.file.dec_ref_count w.blk) S.readers n w
      { w with stage := WbStage.released } hn WbStage.holding k
    rw [hst] at this
    by_cases hk : w.blk = k
    · rw [if_pos ⟨hk, rfl⟩, if_neg (by simp [WbStage.holding])] at this
      rw [if_pos hk]; omega
    · rw [if_neg (fun hh => hk hh.1), if_neg (fun hh => hk hh.1)] at this
      rw [if_neg hk]; omega
  have hp : ∀ k, System.calls
      { file := S.file.dec_ref_count w.blk
        readers := S.readers
        writers := S.writers.set n { w with stage := WbStage.released } } WbStage.pending k
      = S.calls WbStage.pending k := by
    intro k
    have := calls_set S (S.file.dec_ref_count w.blk) S.readers n w
      { w with stage := WbStage.released } hn WbStage.pending k
    rw [hst] at this
    rw [if_neg (by simp [WbStage.pending]), if_neg (by simp [WbStage.pending])] at this
    omega
  have h1 : 1 ≤ S.holds w.blk + S.wbrefs w.blk := by
    have := hc w.blk
    rw [if_pos rfl] at this
    unfold wbrefs
    omega
  refine Inv_evolve S _ h (congrArg Info.GetBufferSize (frame_cfi hfr))
    (fun i => congrArg (fun c => Info.TestBit c i) (frame_cfi hfr)) (frame_offset hfr)
    (Evolves_of_Shrinks _ _ (Shrinks_dec_ref_count S.file w.blk h.acct.bs h.acct.wf)) ?_ ?_ ?_ ?_
  · refine Acct_congr _ _ _ (Acct_dec S.file _ w.blk h.acct h1) ?_
    intro k
    rw [holds_same]
    have := hc k
    unfold wbrefs at this ⊢
    dsimp only
    rw [hq]
    by_cases hk : k = w.blk
    · rw [if_pos hk]
      rw [if_pos hk.symm] at this
      omega
    · rw [if_neg hk]
      rw [if_neg (fun hh => hk hh.symm)] at this
      omega
  · intro k
    have := hc k
    unfold wbrefs
    dsimp only
    rw [hq]
    omega
  · intro k hk1 hk2
    rw [hp k]
    dsimp only
    rw [hq]
    exact ⟨hk1, hk2⟩
  · intro w1 hw1
    dsimp only at hw1
    rcases List.mem_or_eq_of_mem_set hw1 with hw | hw
    · exact Or.inl hw
    · right
      rw [hw]
      exact h.idx w (List.getElem?_mem hn)

theorem Inv_wb_synced (S : System) (h : S.Inv) (n : Nat) (w : Writeback)
    (hn : S.writers[n]? = some w) (hst : w.stage = WbStage.released) :
    System.Inv
      { file := File.WriteBlockToDisk_synced S.file w.pfIdx
        readers := S.readers
        writers := S.writers.eraseIdx n } := by
  have hk : (File.WriteBlockToDisk_synced S.file w.pfIdx).m_block_map = S.file.m_block_map ∧
      (File.WriteBlockToDisk_synced S.file w.pfIdx).m_cfi.GetBufferSize = S.file.m_cfi.GetBufferSize ∧
      (∀ i, (File.WriteBlockToDisk_synced S.file w.pfIdx).m_cfi.TestBit i = S.file.m_cfi.TestBit i) ∧
      (File.WriteBlockToDisk_synced S.file w.pfIdx).m_offset = S.file.m_offset ∧
      (File.WriteBlockToDisk_synced S.file w.pfIdx).cache.write_queue = S.file.cache.write_queue := by
    unfold File.WriteBlockToDisk_synced
    by_cases hin : S.file.m_in_sync = true
    · rw [if_pos hin]; exact ⟨rfl, rfl, fun _ => rfl, rfl, rfl⟩
    · rw [if_neg hin]
      dsimp only
      split_ifs <;> exact ⟨rfl, rfl, fun _ => rfl, rfl, rfl⟩
  obtain ⟨k1, k2, k3, k4, k5⟩ := hk
  have hc : ∀ (P : WbStage → Bool) k, P WbStage.released = false → System.calls
      { file := File.WriteBlockToDisk_synced S.file w.pfIdx
        readers := S.readers
        writers := S.writers.eraseIdx n } P k = S.calls P k := by
    intro P k hP
    have := calls_eraseIdx S (File.WriteBlockToDisk_synced S.file w.pfIdx) S.readers n w hn P k
    rw [hst, if_neg (by simp [hP])] at this
    omega
  refine Inv_evolve S _ h k2 k3 k4 (Evolves_of_Shrinks _ _ (Shrinks_of_eq _ _ k1)) ?_ ?_ ?_ ?_
  · refine Acct_congr _ _ _ (Acct_of_bs S.file _ _ k1 k2 h.acct) ?_
    intro k
    rw [holds_same]
    unfold wbrefs
    rw [hc _ k rfl]
    dsimp only
    rw [k5]
  · intro k
    unfold wbrefs
    rw [hc _ k rfl]
    dsimp only
    rw [k5]
  · intro k hk1 hk2
    rw [hc _ k rfl]
    dsimp only
    rw [k5]
    exact ⟨hk1, hk2⟩
  · intro w1 hw1
    exact Or.inl (List.mem_of_mem_eraseIdx hw1)

theorem Inv_removed_from_writeQ (S : System) (h : S.Inv) (b : Int)
    (hq : b ∈ S.file.cache.write_queue) :
    System.Inv
      { file := File.BlockRemovedFromWriteQ { S.file with cache := S.file.cache.TakeWriteTask b } b
        readers := S.readers
        writers := S.writers } := by
  have hcnt : 1 ≤ S.file.cache.write_queue.count b := List.count_pos_iff.mpr hq
  have hqk : ∀ k, (S.file.cache.write_queue.erase b).count k + (if b = k then 1 else 0)
      = S.file.cache.write_queue.count k := by
    intro k
    by_cases hk : b = k
    · subst hk
      rw [List.count_erase_self, if_pos rfl]; omega
    · rw [List.count_erase_of_ne (fun hh => hk hh.symm), if_neg hk]; rfl
  have hfr := dec_ref_count_frame { S.file with cache := S.file.cache.TakeWriteTask b } b
  have hq1 : (File.BlockRemovedFromWriteQ { S.file with cache := S.file.cache.TakeWriteTask b }
      b).cache.write_queue = S.file.cache.write_queue.erase b := (frame_queue hfr).trans rfl
  have hcfi : (File.BlockRemovedFromWriteQ { S.file with cache := S.file.cache.TakeWriteTask b }
      b).m_cfi = S.file.m_cfi := (frame_cfi hfr).trans rfl
  have hoff : (File.BlockRemovedFromWriteQ { S.file with cache := S.file.cache.TakeWriteTask b }
      b).m_offset = S.file.m_offset := (frame_offset hfr).trans rfl
  have hA : File.Acct { S.file with cache := S.file.cache.TakeWriteTask b }
      (fun k => S.holds k + S.wbrefs k) := Acct_of_bs S.file _ _ rfl rfl h.acct
  have h1 : 1 ≤ S.holds b + S.wbrefs b := by unfold wbrefs; omega
  have hsh : Shrinks S.file
      (File.BlockRemovedFromWriteQ { S.file with cache := S.file.cache.TakeWriteTask b } b) :=
    Shrinks_trans S.file { S.file with cache := S.file.cache.TakeWriteTask b } _
      (Shrinks_of_eq _ _ rfl) (Shrinks_dec_ref_count _ b hA.bs hA.wf)
  refine Inv_evolve S _ h (congrArg Info.GetBufferSize hcfi)
    (fun i => congrArg (fun c => Info.TestBit c i) hcfi) hoff (Evolves_of_Shrinks _ _ hsh) ?_ ?_ ?_ ?_
  · refine Acct_congr _ _ _ (Acct_dec _ _ b hA h1) ?_
    intro k
    rw [holds_same]
    have := hqk k
    unfold wbrefs
    rw [calls_same]
    dsimp only
    rw [hq1]
    by_cases hk : k = b
    · rw [if_pos hk]
      rw [if_pos hk.symm] at this
      omega
    · rw [if_neg hk]
      rw [if_neg (fun hh => hk hh.symm)] at this
      omega
  · intro k
    have := hqk k
    unfold wbrefs
    rw [calls_same]
    dsimp only
    rw [hq1]
    omega
  · intro k hk1 hk2
    have := hqk k
    rw [calls_same]
    dsimp only
    rw [hq1]
    exact ⟨by omega, hk2⟩
  · intro w hw
    exact Or.inl hw

theorem Inv_sync_job (S : System) (h : S.Inv) :
    System.Inv
      { file := File.Sync { S.file with sync_jobs := S.file.sync_jobs - 1 }
        readers := S.readers
        writers := S.writers } := by
  have hc := Sync_cfi S.file.m_writes_during_sync S.file.m_cfi
  refine Inv_keep S h _ rfl hc.1 ?_ rfl rfl
  intro i
  show decide (i ∈ (S.file.m_writes_during_sync.foldl Info.SetBitWriteCalled S.file.m_cfi).present_bits)
    = decide (i ∈ S.file.m_cfi.present_bits)
  rw [hc.2]

theorem Inv_prefetch (S : System) (h : S.Inv) (g : Bool) (f1 : File)
    (hp : S.file.Prefetch g = some f1) :
    System.Inv { file := f1, readers := S.readers, writers := S.writers } := by
  rcases Prefetch_cases S.file g f1 hp with hk | ⟨i, hi, hbit, ht⟩
  · exact Inv_keep_frame S h f1 hk
  · subst ht
    obtain ⟨g1, g2⟩ := Prefetch_take_acct S.file g i _ h.acct hi hbit
    have hfr := Prefetch_take_frame S.file g i
    have hq := frame_queue hfr
    refine Inv_evolve S _ h (congrArg Info.GetBufferSize (frame_cfi hfr))
      (fun i => congrArg (fun c => Info.TestBit c i) (frame_cfi hfr)) (frame_offset hfr) g2 ?_ ?_ ?_ ?_
    · refine Acct_congr _ _ _ g1 ?_
      intro k
      rw [holds_same]
      unfold wbrefs
      rw [calls_same]
      dsimp only
      rw [hq]
    · intro k
      unfold wbrefs
      rw [calls_same]
      dsimp only
      rw [hq]
    · intro k hk1 hk2
      rw [calls_same]
      dsimp only
      rw [hq]
      exact ⟨hk1, hk2⟩
    · intro w hw
      exact Or.inl hw

theorem Inv_ioActive_sweep (S : System) (h : S.Inv) :
    System.Inv { file := S.file.ioActive_sweep, readers := S.readers, writers := S.writers } := by
  obtain ⟨g1, g2⟩ := ioActive_sweep_acct S.file _ h.acct
  have hfr := (ioActive_sweep_find S.file _ h.acct 0).2
  have hq := frame_queue hfr
  refine Inv_evolve S _ h (congrArg Info.GetBufferSize (frame_cfi hfr))
    (fun i => congrArg (fun c => Info.TestBit c i) (frame_cfi hfr)) (frame_offset hfr)
    (Evolves_of_Shrinks _ _ g2) ?_ ?_ ?_ ?_
  · refine Acct_congr _ _ _ g1 ?_
    intro k
    rw [holds_same]
    unfold wbrefs
    rw [calls_same]
    dsimp only
    rw [hq]
  · intro k
    unfold wbrefs
    rw [calls_same]
    dsimp only
    rw [hq]
  · intro k hk1 hk2
    rw [calls_same]
    dsimp only
    rw [hq]
    exact ⟨hk1, hk2⟩
  · intro w hw
    exact Or.inl hw

end System

namespace File

theorem ProcessBlockResponse_queue (s : File) (b res err : Int) (blk : Block)
    (hb : s.m_block_map.find b = some blk) :
    (s.ProcessBlockResponse b res err).cache.write_queue =
      if res ≥ 0 then s.cache.write_queue ++ [b] else s.cache.write_queue := by
  unfold ProcessBlockResponse
  rw [hb]
  dsimp only
  split_ifs <;> rfl

theorem ProcessBlockResponse_nodup (s : File) (b res err : Int)
    (h : (BlockMap.keys s.m_block_map).Nodup) :
    (BlockMap.keys (s.ProcessBlockResponse b res err).m_block_map).Nodup := by
  rw [ProcessBlockResponse_map]
  cases s.m_block_map.find b with
  | none => exact h
  | some x =>
    dsimp only
    split_ifs
    · rw [BlockMap.keys_modify, BlockMap.keys_modify]; exact h
    · rw [BlockMap.keys_modify, BlockMap.keys_modify]; exact h

end File

namespace System

theorem calls_mono (S : System) (P Q : WbStage → Bool) (hPQ : ∀ st, P st = true → Q st = true)
    (k : Int) : S.calls P k ≤ S.calls Q k := by
  unfold calls
  induction S.writers with
  | nil => simp
  | cons w rest ih =>
    simp only [List.map_cons, List.sum_cons]
    by_cases hp : w.blk = k ∧ P w.stage = true
    · rw [if_pos hp, if_pos ⟨hp.1, hPQ _ hp.2⟩]; omega
    · rw [if_neg hp]
      split_ifs <;> omega

theorem calls_pos (S : System) (n : Nat) (w : Writeback) (hn : S.writers[n]? = some w)
    (P : WbStage → Bool) (hP : P w.stage = true) : 1 ≤ S.calls P w.blk := by
  have := calls_eraseIdx S S.file S.readers n w hn P w.blk
  rw [if_pos ⟨rfl, hP⟩] at this
  omega

theorem Inv_response (S : System) (h : S.Inv) (b res err : Int) (blk : Block)
    (hb : S.file.m_block_map.find b = some blk) (hfin : blk.is_finished = false) :
    System.Inv
      { file := S.file.ProcessBlockResponse b res err
        readers := S.readers
        writers := S.writers } := by
  have hdl : blk.m_downloaded = false ∧ blk.m_failed = false := by
    simpa [Block.is_finished] using hfin
  have hfind : ∀ j, (S.file.ProcessBlockResponse b res err).m_block_map.find j =
      if j = b then
        some (if res ≥ 0 then { blk with m_downloaded := true, m_refcnt := blk.m_refcnt + 1 }
              else { blk with m_errno := err, m_failed := true, m_refcnt := blk.m_refcnt + 1 })
      else S.file.m_block_map.find j := by
    intro j
    rw [find_ProcessBlockResponse, hb]
    rfl
  have hq := ProcessBlockResponse_queue S.file b res err blk hb
  have hcfi : (S.file.ProcessBlockResponse b res err).m_cfi = S.file.m_cfi :=
    ProcessBlockResponse_cfi S.file b res err
  have hoff : (S.file.ProcessBlockResponse b res err).m_offset = S.file.m_offset :=
    ProcessBlockResponse_offset S.file b res err
  have hoi : ∀ k, (S.file.ProcessBlockResponse b res err).offsetIdx k = S.file.offsetIdx k := by
    intro k; unfold offsetIdx; rw [hcfi, hoff]
  have hwb : ∀ k, System.wbrefs
      { file := S.file.ProcessBlockResponse b res err
        readers := S.readers
        writers := S.writers } k
      = S.wbrefs k + (if res ≥ 0 ∧ k = b then 1 else 0) := by
    intro k
    unfold wbrefs
    rw [calls_same]
    dsimp only
    rw [hq]
    by_cases hr : res ≥ 0
    · rw [if_pos hr, List.count_append]
      by_cases hk : k = b
      · subst hk
        rw [if_pos ⟨hr, rfl⟩]
        simp
        omega
      · rw [if_neg (fun hh => hk hh.2),
          List.count_eq_zero_of_not_mem (by simpa using hk : k ∉ [b])]
        omega
    · rw [if_neg hr, if_neg (fun hh => hr hh.1)]
      omega
  have hrefs0 := h.acct.refs b blk hb
  rw [hdl.2] at hrefs0
  simp only [Bool.false_eq_true, if_false, add_zero] at hrefs0
  have honce0 := h.once b blk hb
  rw [hdl.1] at honce0
  simp only [Bool.false_eq_true, if_false] at honce0
  refine ⟨⟨?_, MapWF_ProcessBlockResponse S.file b res err h.acct.wf,
    ProcessBlockResponse_nodup S.file b res err h.acct.nodup, ?_, ?_, ?_⟩, ?_, ?_, ?_, ?_, ?_⟩
  · rw [hcfi]; exact h.acct.bs
  · intro k x hx
    rw [hfind] at hx
    rw [holds_same, hwb k]
    by_cases hk : k = b
    · rw [if_pos hk] at hx
      have := Option.some.inj hx
      subst hk
      by_cases hr : res ≥ 0
      · rw [if_pos hr] at this
        rw [if_pos ⟨hr, rfl⟩, ← this]
        dsimp only
        rw [hdl.2]
        push_cast
        omega
      · rw [if_neg hr] at this
        rw [if_neg (fun hh => hr hh.1), ← this]
        dsimp only
        push_cast
        rw [if_pos rfl]
        omega
    · rw [if_neg hk] at hx
      rw [if_neg (fun hh => hk hh.2)]
      exact h.acct.refs k x hx
  · intro k x hx hfx
    rw [hfind] at hx
    by_cases hk : k = b
    · rw [if_pos hk] at hx
      have := Option.some.inj hx
      rw [← this]
      split_ifs <;> dsimp only <;> omega
    · rw [if_neg hk] at hx
      exact h.acct.pos k x hx hfx
  · intro k hk
    rw [hfind] at hk
    by_cases hkb : k = b
    · rw [if_pos hkb] at hk; simp at hk
    · rw [if_neg hkb] at hk
      rw [holds_same, hwb k, if_neg (fun hh => hkb hh.2)]
      exact h.acct.absent k hk
  · rw [hcfi, hoff]; exact h.aligned
  · intro k x hx
    rw [hfind] at hx
    rw [hwb k]
    by_cases hk : k = b
    · rw [if_pos hk] at hx
      have := Option.some.inj hx
      subst hk
      by_cases hr : res ≥ 0
      · rw [if_pos hr] at this
        rw [if_pos ⟨hr, rfl⟩, ← this]
        dsimp only
        simp only [if_true]
        omega
      · rw [if_neg hr] at this
        rw [if_neg (fun hh => hr hh.1), ← this]
        dsimp only
        omega
    · rw [if_neg hk] at hx
      rw [if_neg (fun hh => hk hh.2)]
      exact h.once k x hx
  · intro k x hx hd
    rw [hfind] at hx
    by_cases hk : k = b
    · rw [if_pos hk] at hx
      have := Option.some.inj hx
      by_cases hr : res ≥ 0
      · rw [if_pos hr] at this
        rw [← this]
        exact hdl.2
      · rw [if_neg hr] at this
        rw [← this] at hd
        dsimp only at hd
        rw [hdl.1] at hd
        cases hd
    · rw [if_neg hk] at hx
      exact h.excl k x hx hd
  · intro k x hx hbit
    rw [hcfi, hoi] at hbit
    rw [hfind] at hx
    by_cases hk : k = b
    · exfalso
      subst hk
      have := (h.present k blk hb hbit).1
      rw [hdl.1] at this
      cases this
    · rw [if_neg hk] at hx
      obtain ⟨g1, g2, g3⟩ := h.present k x hx hbit
      refine ⟨g1, ?_, ?_⟩
      · dsimp only
        rw [hq]
        split_ifs
        · rw [List.count_append, g2,
            List.count_eq_zero_of_not_mem (by simpa using hk : k ∉ [b])]
        · exact g2
      · rw [calls_same]; exact g3
  · intro w hw
    rw [hoi]
    exact h.idx w hw

theorem Inv_wb_set_bit (S : System) (h : S.Inv) (n : Nat) (w : Writeback)
    (hn : S.writers[n]? = some w) (hst : w.stage = WbStage.written) :
    System.Inv
      { file := File.WriteBlockToDisk_setbit S.file w.pfIdx
        readers := S.readers
        writers := S.writers.set n { w with stage := WbStage.bit_set } } := by
  have hc : ∀ k, System.calls
      { file := File.WriteBlockToDisk_setbit S.file w.pfIdx
        readers := S.readers
        writers := S.writers.set n { w with stage := WbStage.bit_set } } WbStage.holding k
      = S.calls WbStage.holding k := by
    intro k
    have := calls_set S (File.WriteBlockToDisk_setbit S.file w.pfIdx) S.readers n w
      { w with stage := WbStage.bit_set } hn WbStage.holding k
    rw [hst] at this
    by_cases hk : w.blk = k
    · rw [if_pos ⟨hk, rfl⟩, if_pos ⟨hk, rfl⟩] at this
      omega
    · rw [if_neg (fun hh => hk hh.1), if_neg (fun hh => hk hh.1)] at this
      omega
  have hp : ∀ k, System.calls
      { file := File.WriteBlockToDisk_setbit S.file w.pfIdx
        readers := S.readers
        writers := S.writers.set n { w with stage := WbStage.bit_set } } WbStage.pending k
      + (if w.blk = k then 1 else 0) = S.calls WbStage.pending k := by
    intro k
    have := calls_set S (File.WriteBlockToDisk_setbit S.file w.pfIdx) S.readers n w
      { w with stage := WbStage.bit_set } hn WbStage.pending k
    rw [hst] at this
    by_cases hk : w.blk = k
    · rw [if_pos ⟨hk, rfl⟩, if_neg (by simp [WbStage.pending])] at this
      rw [if_pos hk]; omega
    · rw [if_neg (fun hh => hk hh.1), if_neg (fun hh => hk hh.1)] at this
      rw [if_neg hk]; omega
  have hwb : ∀ k, System.wbrefs
      { file := File.WriteBlockToDisk_setbit S.file w.pfIdx
        readers := S.readers
        writers := S.writers.set n { w with stage := WbStage.bit_set } } k = S.wbrefs k := by
    intro k
    unfold wbrefs
    rw [hc k]
    rfl
  have hwin : w ∈ S.writers := List.getElem?_mem hn
  refine ⟨?_, h.aligned, ?_, h.excl, ?_, ?_⟩
  · refine Acct_congr _ _ _ (Acct_of_bs S.file _ _ rfl rfl h.acct) ?_
    intro k
    rw [hwb k]
    rfl
  · intro k x hx
    rw [hwb k]
    exact h.once k x hx
  · intro k x hx hbit
    have hx0 : S.file.m_block_map.find k = some x := hx
    have hbit0 : (decide (S.file.offsetIdx k ∈ w.pfIdx :: S.file.m_cfi.present_bits)) = true := hbit
    rw [decide_eq_true_iff, List.mem_cons] at hbit0
    have hpk := hp k
    show x.m_downloaded = true ∧ S.file.cache.write_queue.count k = 0 ∧ _ = 0
    rcases hbit0 with heq | hmem
    · have hkw : w.blk = k := by
        have := h.idx w hwin
        rw [this] at heq
        unfold offsetIdx at heq
        omega
      have h1 := calls_pos S n w hn WbStage.holding (by rw [hst]; rfl)
      have h2 := calls_pos S n w hn WbStage.pending (by rw [hst]; rfl)
      have h3 := calls_mono S WbStage.pending WbStage.holding
        (by intro st; cases st <;> simp [WbStage.pending, WbStage.holding]) k
      have h4 := h.once k x hx0
      rw [hkw] at h1 h2
      rw [if_pos hkw] at hpk
      unfold wbrefs at h4
      by_cases hd : x.m_downloaded = true
      · rw [if_pos hd] at h4
        exact ⟨hd, by omega, by omega⟩
      · rw [if_neg hd] at h4
        omega
    · have hb0 : S.file.m_cfi.TestBit (S.file.offsetIdx k) = true := by
        unfold Info.TestBit
        rw [decide_eq_true_iff]
        exact hmem
      obtain ⟨g1, g2, g3⟩ := h.present k x hx0 hb0
      exact ⟨g1, g2, by omega⟩
  · intro w1 hw1
    dsimp only at hw1
    show w1.pfIdx = S.file.offsetIdx w1.blk
    rcases List.mem_or_eq_of_mem_set hw1 with hw | hw
    · exact h.idx w1 hw
    · rw [hw]
      exact h.idx w hwin

theorem Inv_init (bufferSize prefetch_max_blocks iOffset iFileSize : Int) (loaded : Option Info)
    (hBS : 0 < (File.create bufferSize prefetch_max_blocks iOffset iFileSize loaded).m_cfi.GetBufferSize)
    (hal : ∃ c : Int, iOffset =
      c * (File.create bufferSize prefetch_max_blocks iOffset iFileSize loaded).m_cfi.GetBufferSize) :
    (System.init bufferSize prefetch_max_blocks iOffset iFileSize loaded).Inv := by
  refine ⟨⟨hBS, ?_, ?_, ?_, ?_, ?_⟩, hal, ?_, ?_, ?_, ?_⟩
  · intro k b hb; cases hb
  · exact List.nodup_nil
  · intro k b hb; cases hb
  · intro k b hb; cases hb
  · intro k _; rfl
  · intro k b hb; cases hb
  · intro k b hb; cases hb
  · intro k b hb; cases hb
  · intro w hw; cases hw

/-- Every step keeps the invariant of the block map and the present bits. -/
theorem Inv_step (S S1 : System) (e : Event) (h : S.Inv) (hs : S.step e = some S1) : S1.Inv := by
  cases e with
  | read_begin off size ca =>
    simp only [step, Option.some.injEq] at hs
    rw [← hs]
    exact Inv_read_begin S h off size ca
  | read_direct off size junk blocks =>
    simp only [step, Option.some.injEq] at hs
    rw [← hs]
    exact Inv_keep_frame S h _ (RequestBlocksDirect_loop_keeps off size junk blocks S.file 0)
  | read_disk rd off size junk blocks =>
    simp only [step, Option.some.injEq] at hs
    rw [← hs]
    exact Inv_keep_frame S h _ (ReadBlocksFromDisk_loop_keeps rd off size junk blocks S.file 0)
  | read_ram off size junk fin =>
    simp only [step, Option.some.injEq] at hs
    rw [← hs]
    exact Inv_keep_frame S h _ (Read_consume_keeps off size junk fin S.file 0 none)
  | read_missed d =>
    simp only [step, Option.some.injEq] at hs
    rw [← hs]
    exact Inv_keep_frame S h _ ⟨rfl, rfl⟩
  | read_end n order =>
    simp only [step] at hs
    cases hn : S.readers[n]? with
    | none => rw [hn] at hs; simp at hs
    | some r =>
      rw [hn] at hs
      dsimp only at hs
      by_cases hp : order.Perm r
      · rw [if_pos hp] at hs
        rw [← Option.some.inj hs]
        exact Inv_read_end S h n order r hn hp
      · rw [if_neg hp] at hs; cases hs
  | response b res err =>
    simp only [step] at hs
    cases hb : S.file.m_block_map.find b with
    | none => rw [hb] at hs; simp at hs
    | some blk =>
      rw [hb] at hs
      dsimp only at hs
      by_cases hf : blk.is_finished = true
      · rw [if_pos hf] at hs; cases hs
      · rw [if_neg hf] at hs
        rw [← Option.some.inj hs]
        exact Inv_response S h b res err blk hb (by simpa using hf)
  | wb_begin b w =>
    simp only [step] at hs
    cases hb : S.file.m_block_map.find b with
    | none => rw [hb] at hs; simp at hs
    | some blk =>
      rw [hb] at hs
      dsimp only at hs
      by_cases hq : b ∈ S.file.cache.write_queue
      · rw [if_pos hq] at hs
        rw [← Option.some.inj hs]
        apply Inv_wb_begin S h b blk _ hb hq
        split_ifs <;> rfl
      · rw [if_neg hq] at hs; cases hs
  | wb_set_bit n =>
    simp only [step] at hs
    cases hn : S.writers[n]? with
    | none => rw [hn] at hs; simp at hs
    | some w =>
      rw [hn] at hs
      dsimp only at hs
      by_cases hst : w.stage = WbStage.written
      · rw [if_pos hst] at hs
        rw [← Option.some.inj hs]
        exact Inv_wb_set_bit S h n w hn hst
      · rw [if_neg hst] at hs; cases hs
  | wb_dec_ref n =>
    simp only [step] at hs
    cases hn : S.writers[n]? with
    | none => rw [hn] at hs; simp at hs
    | some w =>
      rw [hn] at hs
      dsimp only at hs
      by_cases hst : w.stage = WbStage.bit_set
      · rw [if_pos hst] at hs
        rw [← Option.some.inj hs]
        exact Inv_wb_dec_ref S h n w hn hst
      · rw [if_neg hst] at hs; cases hs
  | wb_synced n =>
    simp only [step] at hs
    cases hn : S.writers[n]? with
    | none => rw [hn] at hs; simp at hs
    | some w =>
      rw [hn] at hs
      dsimp only at hs
      by_cases hst : w.stage = WbStage.released
      · rw [if_pos hst] at hs
        rw [← Option.some.inj hs]
        exact Inv_wb_synced S h n w hn hst
      · rw [if_neg hst] at hs; cases hs
  | removed_from_writeQ b =>
    simp only [step] at hs
    by_cases hq : b ∈ S.file.cache.write_queue
    · rw [if_pos hq] at hs
      rw [← Option.some.inj hs]
      exact Inv_removed_from_writeQ S h b hq
    · rw [if_neg hq] at hs; cases hs
  | sync_job =>
    simp only [step] at hs
    by_cases hj : 0 < S.file.sync_jobs
    · rw [if_pos hj] at hs
      rw [← Option.some.inj hs]
      exact Inv_sync_job S h
    · rw [if_neg hj] at hs; cases hs
  | prefetch g =>
    simp only [step] at hs
    cases hp : S.file.Prefetch g with
    | none => rw [hp] at hs; simp at hs
    | some f1 =>
      rw [hp] at hs
      dsimp only at hs
      rw [← Option.some.inj hs]
      exact Inv_prefetch S h g f1 hp
  | ioActive_stop =>
    simp only [step, Option.some.injEq] at hs
    rw [← hs]
    exact Inv_keep_frame S h _ (ioActive_stop_keeps S.file)
  | ioActive_sweep =>
    simp only [step, Option.some.injEq] at hs
    rw [← hs]
    exact Inv_ioActive_sweep S h
  | wakeUp =>
    simp only [step, Option.some.injEq] at hs
    rw [← hs]
    exact Inv_keep_frame S h _ (WakeUp_keeps S.file)

theorem Inv_of_Reachable (S0 S : System) (h0 : S0.Inv) (hS : Reachable S0 S) : S.Inv := by
  induction hS with
  | start => exact h0
  | step S S1 e _ hs ih => exact Inv_step S S1 e ih hs

end System

namespace File

theorem ProcessBlockResponse_sync (s : File) (b res err : Int) :
    (s.ProcessBlockResponse b res err).m_in_sync = s.m_in_sync ∧
    (s.ProcessBlockResponse b res err).m_writes_during_sync = s.m_writes_during_sync := by
  unfold ProcessBlockResponse
  cases s.m_block_map.find b with
  | none => exact ⟨rfl, rfl⟩
  | some _ => dsimp only; split_ifs <;> exact ⟨rfl, rfl⟩

theorem Sync_write_called (l : List Int) (c : Info) (p : Int) :
    (l.foldl Info.SetBitWriteCalled c).TestWriteCalledBit p = true ↔
      p ∈ l ∨ c.TestWriteCalledBit p = true := by
  induction l generalizing c with
  | nil => simp
  | cons i rest ih =>
    rw [List.foldl_cons, ih]
    unfold Info.SetBitWriteCalled Info.TestWriteCalledBit
    simp only [decide_eq_true_iff, List.mem_cons]
    tauto

end File

namespace System

theorem InvSync_keep (S : System) (h : S.InvSync) (f1 : File) (R : List (List Int))
    (W : List Writeback) (hcfi : f1.m_cfi = S.file.m_cfi) (hin : f1.m_in_sync = S.file.m_in_sync)
    (hdef : f1.m_writes_during_sync = S.file.m_writes_during_sync)
    (hun : ∀ p, System.unsynced { file := f1, readers := R, writers := W } p = S.unsynced p) :
    System.InvSync { file := f1, readers := R, writers := W } := by
  refine ⟨?_, ?_⟩
  · intro p hp
    dsimp only at hp ⊢
    rw [hcfi] at hp
    rw [hcfi, hdef, hun p]
    exact h.bits p hp
  · intro hi
    dsimp only at hi ⊢
    rw [hin] at hi
    rw [hdef]
    exact h.deferred hi

theorem InvSync_keep_frame (S : System) (h : S.InvSync) (f1 : File) (R : List (List Int))
    (hfr : f1.frame = S.file.frame) :
    System.InvSync { file := f1, readers := R, writers := S.writers } :=
  InvSync_keep S h f1 R S.writers (frame_cfi hfr) (frame_in_sync hfr) (frame_deferred hfr)
    (fun _ => rfl)

theorem InvSync_wb_begin (S : System) (h : S.InvSync) (b pf : Int) (st : WbStage)
    (hst : st = WbStage.gave_up ∨ st = WbStage.written) :
    System.InvSync
      { file := { S.file with cache := S.file.cache.TakeWriteTask b }
        readers := S.readers
        writers := S.writers ++ [{ blk := b, pfIdx := pf, stage := st }] } := by
  refine InvSync_keep S h _ _ _ rfl rfl rfl ?_
  intro p
  unfold unsynced
  simp only [List.map_append, List.sum_append, List.map_cons, List.map_nil, List.sum_cons,
    List.sum_nil, Nat.add_zero]
  rw [if_neg]
  · rfl
  · rcases hst with hst | hst <;> rw [hst] <;> simp

theorem InvSync_wb_set_bit (S : System) (h : S.InvSync) (n : Nat) (w : Writeback)
    (hn : S.writers[n]? = some w) (hst : w.stage = WbStage.written) :
    System.InvSync
      { file := File.WriteBlockToDisk_setbit S.file w.pfIdx
        readers := S.readers
        writers := S.writers.set n { w with stage := WbStage.bit_set } } := by
  have hun : ∀ p, System.unsynced
      { file := File.WriteBlockToDisk_setbit S.file w.pfIdx
        readers := S.readers
        writers := S.writers.set n { w with stage := WbStage.bit_set } } p
      = S.unsynced p + (if w.pfIdx = p then 1 else 0) := by
    intro p
    have := sum_map_set_add (fun (x : Writeback) =>
      if x.pfIdx = p ∧ (x.stage = WbStage.bit_set ∨ x.stage = WbStage.released) then 1 else 0)
      S.writers n w { w with stage := WbStage.bit_set } hn
    unfold unsynced
    dsimp only at this ⊢
    rw [hst] at this
    rw [if_neg (by simp)] at this
    by_cases hp : w.pfIdx = p
    · rw [if_pos ⟨hp, Or.inl rfl⟩] at this
      rw [if_pos hp]; omega
    · rw [if_neg (fun hh => hp hh.1)] at this
      rw [if_neg hp]; omega
  refine ⟨?_, h.deferred⟩
  intro p hp
  have hp0 : decide (p ∈ w.pfIdx :: S.file.m_cfi.present_bits) = true := hp
  rw [decide_eq_true_iff, List.mem_cons] at hp0
  rw [hun p]
  show S.file.m_cfi.TestWriteCalledBit p = true ∨ p ∈ S.file.m_writes_during_sync ∨ _
  rcases hp0 with heq | hmem
  · right; right
    rw [if_pos heq.symm]; omega
  · have : S.file.m_cfi.TestBit p = true := by
      unfold Info.TestBit
      rw [decide_eq_true_iff]; exact hmem
    rcases h.bits p this with g | g | g
    · exact Or.inl g
    · exact Or.inr (Or.inl g)
    · right; right; omega

theorem InvSync_wb_dec_ref (S : System) (h : S.InvSync) (n : Nat) (w : Writeback)
    (hn : S.writers[n]? = some w) (hst : w.stage = WbStage.bit_set) :
    System.InvSync
      { file := S.file.dec_ref_count w.blk
        readers := S.readers
        writers := S.writers.set n { w with stage := WbStage.released } } := by
  have hfr := dec_ref_count_frame S.file w.blk
  refine InvSync_keep S h _ _ _ (frame_cfi hfr) (frame_in_sync hfr) (frame_deferred hfr) ?_
  intro p
  have := sum_map_set_add (fun (x : Writeback) =>
    if x.pfIdx = p ∧ (x.stage = WbStage.bit_set ∨ x.stage = WbStage.released) then 1 else 0)
    S.writers n w { w with stage := WbStage.released } hn
  unfold unsynced
  dsimp only at this ⊢
  rw [hst] at this
  by_cases hp : w.pfIdx = p
  · rw [if_pos ⟨hp, Or.inl rfl⟩, if_pos ⟨hp, Or.inr rfl⟩] at this
    omega
  · rw [if_neg (fun hh => hp hh.1), if_neg (fun hh => hp hh.1)] at this
    omega

theorem InvSync_wb_synced (S : System) (h : S.InvSync) (n : Nat) (w : Writeback)
    (hn : S.writers[n]? = some w) (hst : w.stage = WbStage.released) :
    System.InvSync
      { file := File.WriteBlockToDisk_synced S.file w.pfIdx
        readers := S.readers
        writers := S.writers.eraseIdx n } := by
  have hun : ∀ p, System.unsynced
      { file := File.WriteBlockToDisk_synced S.file w.pfIdx
        readers := S.readers
        writers := S.writers.eraseIdx n } p + (if w.pfIdx = p then 1 else 0) = S.unsynced p := by
    intro p
    have := sum_map_eraseIdx_add (fun (x : Writeback) =>
      if x.pfIdx = p ∧ (x.stage = WbStage.bit_set ∨ x.stage = WbStage.released) then 1 else 0)
      S.writers n w hn
    unfold unsynced
    dsimp only at this ⊢
    rw [hst] at this
    by_cases hp : w.pfIdx = p
    · rw [if_pos ⟨hp, Or.inr rfl⟩] at this
      rw [if_pos hp]; omega
    · rw [if_neg (fun hh => hp hh.1)] at this
      rw [if_neg hp]; omega
  have hfile : (S.file.m_in_sync = true ∧
        (File.WriteBlockToDisk_synced S.file w.pfIdx).m_cfi = S.file.m_cfi ∧
        (File.WriteBlockToDisk_synced S.file w.pfIdx).m_in_sync = true ∧
        (File.WriteBlockToDisk_synced S.file w.pfIdx).m_writes_during_sync
          = S.file.m_writes_during_sync ++ [w.pfIdx]) ∨
      (S.file.m_in_sync = false ∧
        (File.WriteBlockToDisk_synced S.file w.pfIdx).m_cfi = S.file.m_cfi.SetBitWriteCalled w.pfIdx ∧
        (File.WriteBlockToDisk_synced S.file w.pfIdx).m_writes_during_sync
          = S.file.m_writes_during_sync) := by
    unfold File.WriteBlockToDisk_synced
    by_cases hin : S.file.m_in_sync = true
    · left
      rw [if_pos hin]
      exact ⟨hin, rfl, hin, rfl⟩
    · right
      rw [if_neg hin]
      dsimp only
      refine ⟨by simpa using hin, ?_⟩
      split_ifs <;> exact ⟨rfl, rfl⟩
  rcases hfile with ⟨hin, h1, h2, h3⟩ | ⟨hin, h1, h3⟩
  · refine ⟨?_, ?_⟩
    · intro p hp
      dsimp only at hp ⊢
      rw [h1] at hp
      rw [h1, h3]
      have hu := hun p
      rcases h.bits p hp with g | g | g
      · exact Or.inl g
      · exact Or.inr (Or.inl (List.mem_append_left _ g))
      · by_cases hpw : w.pfIdx = p
        · right; left
          rw [hpw]
          exact List.mem_append_right _ (List.mem_singleton_self p)
        · rw [if_neg hpw] at hu
          right; right; omega
    · intro hi
      dsimp only at hi
      rw [h2] at hi
      cases hi
  · refine ⟨?_, ?_⟩
    · intro p hp
      dsimp only at hp ⊢
      rw [h1] at hp
      rw [h1, h3]
      have hp0 : S.file.m_cfi.TestBit p = true := hp
      have hu := hun p
      have hwc : ∀ q, S.file.m_cfi.TestWriteCalledBit q = true →
          (S.file.m_cfi.SetBitWriteCalled w.pfIdx).TestWriteCalledBit q = true := by
        intro q hq
        unfold Info.SetBitWriteCalled Info.TestWriteCalledBit at hq ⊢
        rw [decide_eq_true_iff] at hq ⊢
        exact List.mem_cons_of_mem _ hq
      rcases h.bits p hp0 with g | g | g
      · exact Or.inl (hwc p g)
      · exact Or.inr (Or.inl g)
      · by_cases hpw : w.pfIdx = p
        · left
          unfold Info.SetBitWriteCalled Info.TestWriteCalledBit
          rw [decide_eq_true_iff, hpw]
          exact List.mem_cons_self _ _
        · rw [if_neg hpw] at hu
          right; right; omega
    · intro _
      dsimp only
      rw [h3]
      exact h.deferred hin

theorem InvSync_sync_job (S : System) (h : S.InvSync) :
    System.InvSync
      { file := File.Sync { S.file with sync_jobs := S.file.sync_jobs - 1 }
        readers := S.readers
        writers := S.writers } := by
  have hc := Sync_cfi S.file.m_writes_during_sync S.file.m_cfi
  refine ⟨?_, fun _ => rfl⟩
  intro p hp
  have hp0 : decide (p ∈ (S.file.m_writes_during_sync.foldl Info.SetBitWriteCalled
      S.file.m_cfi).present_bits) = true := hp
  rw [hc.2] at hp0
  have hp1 : S.file.m_cfi.TestBit p = true := hp0
  show (S.file.m_writes_during_sync.foldl Info.SetBitWriteCalled S.file.m_cfi).TestWriteCalledBit p
      = true ∨ p ∈ ([] : List Int) ∨ 0 < S.unsynced p
  rw [Sync_write_called]
  rcases h.bits p hp1 with g | g | g
  · exact Or.inl (Or.inr g)
  · exact Or.inl (Or.inl g)
  · exact Or.inr (Or.inr g)

theorem InvSync_init (bufferSize prefetch_max_blocks iOffset iFileSize : Int) (loaded : Option Info)
    (hl : ∀ c, loaded = some c → ∀ i, c.TestBit i = true → c.TestWriteCalledBit i = true) :
    (System.init bufferSize prefetch_max_blocks iOffset iFileSize loaded).InvSync := by
  refine ⟨?_, fun _ => rfl⟩
  intro p hp
  left
  cases loaded with
  | none => cases hp
  | some c => exact hl c rfl p hp

/-- Every step keeps the invariant of the present bits and the write-called bits. -/
theorem InvSync_step (S S1 : System) (e : Event) (h : S.InvSync) (hs : S.step e = some S1) :
    S1.InvSync := by
  cases e with
  | read_begin off size ca =>
    simp only [step, Option.some.injEq] at hs
    rw [← hs]
    exact InvSync_keep_frame S h _ _ (Read_classify_fold_keeps_frame ca _ _)
  | read_direct off size junk blocks =>
    simp only [step, Option.some.injEq] at hs
    rw [← hs]
    exact InvSync_keep_frame S h _ _ (RequestBlocksDirect_loop_keeps off size junk blocks S.file 0).2
  | read_disk rd off size junk blocks =>
    simp only [step, Option.some.injEq] at hs
    rw [← hs]
    exact InvSync_keep_frame S h _ _ (ReadBlocksFromDisk_loop_keeps rd off size junk blocks S.file 0).2
  | read_ram off size junk fin =>
    simp only [step, Option.some.injEq] at hs
    rw [← hs]
    exact InvSync_keep_frame S h _ _ (Read_consume_keeps off size junk fin S.file 0 none).2
  | read_missed d =>
    simp only [step, Option.some.injEq] at hs
    rw [← hs]
    exact InvSync_keep_frame S h _ _ rfl
  | read_end n order =>
    simp only [step] at hs
    cases hn : S.readers[n]? with
    | none => rw [hn] at hs; simp at hs
    | some r =>
      rw [hn] at hs
      dsimp only at hs
      by_cases hp : order.Perm r
      · rw [if_pos hp] at hs
        rw [← Option.some.inj hs]
        exact InvSync_keep_frame S h _ _ (release_keeps_frame order S.file)
      · rw [if_neg hp] at hs; cases hs
  | response b res err =>
    simp only [step] at hs
    cases hb : S.file.m_block_map.find b with
    | none => rw [hb] at hs; simp at hs
    | some blk =>
      rw [hb] at hs
      dsimp only at hs
      by_cases hf : blk.is_finished = true
      · rw [if_pos hf] at hs; cases hs
      · rw [if_neg hf] at hs
        rw [← Option.some.inj hs]
        exact InvSync_keep S h _ _ _ (ProcessBlockResponse_cfi S.file b res err)
          (ProcessBlockResponse_sync S.file b res err).1
          (ProcessBlockResponse_sync S.file b res err).2 (fun _ => rfl)
  | wb_begin b w =>
    simp only [step] at hs
    cases hb : S.file.m_block_map.find b with
    | none => rw [hb] at hs; simp at hs
    | some blk =>
      rw [hb] at hs
      dsimp only at hs
      by_cases hq : b ∈ S.file.cache.write_queue
      · rw [if_pos hq] at hs
        rw [← Option.some.inj hs]
        apply InvSync_wb_begin S h
        split_ifs
        · exact Or.inl rfl
        · exact Or.inr rfl
      · rw [if_neg hq] at hs; cases hs
  | wb_set_bit n =>
    simp only [step] at hs
    cases hn : S.writers[n]? with
    | none => rw [hn] at hs; simp at hs
    | some w =>
      rw [hn] at hs
      dsimp only at hs
      by_cases hst : w.stage = WbStage.written
      · rw [if_pos hst] at hs
        rw [← Option.some.inj hs]
        exact InvSync_wb_set_bit S h n w hn hst
      · rw [if_neg hst] at hs; cases hs
  | wb_dec_ref n =>
    simp only [step] at hs
    cases hn : S.writers[n]? with
    | none => rw [hn] at hs; simp at hs
    | some w =>
      rw [hn] at hs
      dsimp only at hs
      by_cases hst : w.stage = WbStage.bit_set
      · rw [if_pos hst] at hs
        rw [← Option.some.inj hs]
        exact InvSync_wb_dec_ref S h n w hn hst
      · rw [if_neg hst] at hs; cases hs
  | wb_synced n =>
    simp only [step] at hs
    cases hn : S.writers[n]? with
    | none => rw [hn] at hs; simp at hs
    | some w =>
      rw [hn] at hs
      dsimp only at hs
      by_cases hst : w.stage = WbStage.released
      · rw [if_pos hst] at hs
        rw [← Option.some.inj hs]
        exact InvSync_wb_synced S h n w hn hst
      · rw [if_neg hst] at hs; cases hs
  | removed_from_writeQ b =>
    simp only [step] at hs
    by_cases hq : b ∈ S.file.cache.write_queue
    · rw [if_pos hq] at hs
      rw [← Option.some.inj hs]
      have hfr := dec_ref_count_frame { S.file with cache := S.file.cache.TakeWriteTask b } b
      exact InvSync_keep S h _ _ _ ((frame_cfi hfr).trans rfl) ((frame_in_sync hfr).trans rfl)
        ((frame_deferred hfr).trans rfl) (fun _ => rfl)
    · rw [if_neg hq] at hs; cases hs
  | sync_job =>
    simp only [step] at hs
    by_cases hj : 0 < S.file.sync_jobs
    · rw [if_pos hj] at hs
      rw [← Option.some.inj hs]
      exact InvSync_sync_job S h
    · rw [if_neg hj] at hs; cases hs
  | prefetch g =>
    simp only [step] at hs
    cases hp : S.file.Prefetch g with
    | none => rw [hp] at hs; simp at hs
    | some f1 =>
      rw [hp] at hs
      dsimp only at hs
      rw [← Option.some.inj hs]
      rcases Prefetch_cases S.file g f1 hp with hk | ⟨i, _, _, ht⟩
      · exact InvSync_keep_frame S h _ _ hk.2
      · rw [ht]
        exact InvSync_keep_frame S h _ _ (Prefetch_take_frame S.file g i)
  | ioActive_stop =>
    simp only [step, Option.some.injEq] at hs
    rw [← hs]
    exact InvSync_keep_frame S h _ _ (ioActive_stop_keeps S.file).2
  | ioActive_sweep =>
    simp only [step, Option.some.injEq] at hs
    rw [← hs]
    refine InvSync_keep_frame S h _ _ ?_
    unfold ioActive_sweep
    generalize S.file.m_block_map = l
    generalize S.file = st
    induction l generalizing st with
    | nil => rfl
    | cons e rest ih =>
      rw [List.foldl_cons, ih]
      split_ifs
      · exact free_block_frame st e.1
      · rfl
  | wakeUp =>
    simp only [step, Option.some.injEq] at hs
    rw [← hs]
    exact InvSync_keep_frame S h _ _ (WakeUp_keeps S.file).2

theorem InvSync_of_Reachable (S0 S : System) (h0 : S0.InvSync) (hS : Reachable S0 S) :
    S.InvSync := by
  induction hS with
  | start => exact h0
  | step S S1 e _ hs ih => exact InvSync_step S S1 e ih hs

theorem Reachable_of_run (S0 S : System) (es : List Event) (S1 : System) (hS : Reachable S0 S)
    (h : S.run es = some S1) : Reachable S0 S1 := by
  induction es generalizing S with
  | nil =>
    have := Option.some.inj h
    rw [← this]; exact hS
  | cons e rest ih =>
    unfold run at h
    cases he : S.step e with
    | none => rw [he] at h; simp at h
    | some S2 =>
      rw [he] at h
      exact ih S2 (Reachable.step S S2 e hS he) h

end System

theorem exists_of_sum_pos {α : Type} (l : List α) (P : α → Prop) [DecidablePred P]
    (h : 0 < (l.map (fun a => if P a then 1 else 0)).sum) : ∃ a ∈ l, P a := by
  induction l with
  | nil => simp at h
  | cons w rest ih =>
    simp only [List.map_cons, List.sum_cons] at h
    by_cases hw : P w
    · exact ⟨w, List.mem_cons_self _ _, hw⟩
    · rw [if_neg hw] at h
      obtain ⟨x, hx, hx2⟩ := ih (by omega)
      exact ⟨x, List.mem_cons_of_mem _ hx, hx2⟩

namespace System

theorem calls_split (S : System) (k : Int) :
    S.calls WbStage.holding k
      = S.calls WbStage.pending k + S.calls (fun st => decide (st = WbStage.bit_set)) k := by
  unfold calls
  induction S.writers with
  | nil => rfl
  | cons w rest ih =>
    simp only [List.map_cons, List.sum_cons, ih]
    by_cases hk : w.blk = k
    · cases hst : w.stage <;> simp [hk, WbStage.holding, WbStage.pending] <;> omega
    · simp [hk]

theorem calls_pos_exists (S : System) (P : WbStage → Bool) (k : Int) (h : 0 < S.calls P k) :
    ∃ w ∈ S.writers, w.blk = k ∧ P w.stage = true :=
  exists_of_sum_pos S.writers (fun w => w.blk = k ∧ P w.stage = true) h

theorem unsynced_pos_exists (S : System) (p : Int) (h : 0 < S.unsynced p) :
    ∃ w ∈ S.writers, w.pfIdx = p ∧ (w.stage = WbStage.bit_set ∨ w.stage = WbStage.released) :=
  exists_of_sum_pos S.writers
    (fun w => w.pfIdx = p ∧ (w.stage = WbStage.bit_set ∨ w.stage = WbStage.released)) h

theorem run_getD (S : System) (es : List Event) (d : System) (h : (S.run es).isSome = true) :
    S.run es = some ((S.run es).getD d) := by
  cases hr : S.run es with
  | none => rw [hr] at h; cases h
  | some x => rfl

theorem sysHeld_run : (System.init 1024 10 0 3000 none).run runHeld = some sysHeld :=
  run_getD _ _ _ (by decide)

/-- C9, counterexample: a reader takes block 0 of a file of 3000 bytes (buffer size 1024), the
origin answers, and the block is written back while the reader still holds it.  In the state
reached no call of `WriteBlockToDisk` is under way, index 0 is in the block map (with ref-count 1,
the reference of the reader) and its present bit is set. -/
theorem block_in_map_and_present_counterexample :
    (System.init 1024 10 0 3000 none).run runHeld = some sysHeld ∧
    Reachable (System.init 1024 10 0 3000 none) sysHeld ∧
    sysHeld.readers = [[0]] ∧ sysHeld.writers = [] ∧
    sysHeld.file.m_block_map.find 0 = some blockHeld ∧
    sysHeld.file.m_cfi.TestBit (sysHeld.file.offsetIdx 0) = true :=
  ⟨sysHeld_run, Reachable_of_run _ _ _ _ Reachable.start sysHeld_run, by decide, by decide,
    by decide, by decide⟩

/-- C9, amended: in every state that a file with a positive buffer size and with an offset that is
a multiple of the buffer size reaches, an index that is both in the block map and marked present
belongs to a downloaded block with ref-count at least 1 that is still held, by a reader that has
not yet released it or by the call of `WriteBlockToDisk` that has set the bit and has not yet
released its reference. -/
theorem block_in_map_and_present_is_held (bufferSize prefetch_max_blocks iOffset iFileSize : Int)
    (loaded : Option Info)
    (hBS : 0 < (File.create bufferSize prefetch_max_blocks iOffset iFileSize loaded).m_cfi.GetBufferSize)
    (hal : ∃ c : Int, iOffset =
      c * (File.create bufferSize prefetch_max_blocks iOffset iFileSize loaded).m_cfi.GetBufferSize)
    (S : System)
    (hS : Reachable (System.init bufferSize prefetch_max_blocks iOffset iFileSize loaded) S)
    (i : Int) (b : Block) (hmap : S.file.m_block_map.find i = some b)
    (hbit : S.file.m_cfi.TestBit (S.file.offsetIdx i) = true) :
    b.m_downloaded = true ∧ 1 ≤ b.m_refcnt ∧
    (0 < S.holds i ∨ ∃ w ∈ S.writers, w.blk = i ∧ w.stage = WbStage.bit_set) := by
  have hI := Inv_of_Reachable _ S
    (Inv_init bufferSize prefetch_max_blocks iOffset iFileSize loaded hBS hal) hS
  obtain ⟨hd, hq, hp⟩ := hI.present i b hmap hbit
  have hf := hI.excl i b hmap hd
  have hr := hI.acct.refs i b hmap
  have hpos := hI.acct.pos i b hmap (by simp [Block.is_finished, hd])
  refine ⟨hd, hpos, ?_⟩
  by_cases hh : 0 < S.holds i
  · exact Or.inl hh
  · right
    have hsplit := calls_split S i
    rw [hf] at hr
    simp only [Bool.false_eq_true, if_false, add_zero] at hr
    unfold wbrefs at hr
    have hc : 0 < S.calls (fun st => decide (st = WbStage.bit_set)) i := by
      push_cast at hr
      omega
    obtain ⟨w, hw, hw1, hw2⟩ := calls_pos_exists S _ i hc
    exact ⟨w, hw, hw1, by simpa using hw2⟩

/-- C9 (amended) at the state `sysHeld`: block 0 is in the map and present, and the reader holds
it. -/
theorem block_in_map_and_present_is_held_witness :
    (0 < (File.create 1024 10 0 3000 none).m_cfi.GetBufferSize ∧
      (∃ c : Int, (0 : Int) = c * (File.create 1024 10 0 3000 none).m_cfi.GetBufferSize) ∧
      Reachable (System.init 1024 10 0 3000 none) sysHeld ∧
      sysHeld.file.m_block_map.find 0 = some blockHeld ∧
      sysHeld.file.m_cfi.TestBit (sysHeld.file.offsetIdx 0) = true) ∧
    (blockHeld.m_downloaded = true ∧ 1 ≤ blockHeld.m_refcnt ∧
      (0 < sysHeld.holds 0 ∨ ∃ w ∈ sysHeld.writers, w.blk = 0 ∧ w.stage = WbStage.bit_set)) :=
  ⟨⟨by decide, ⟨0, by decide⟩, Reachable_of_run _ _ _ _ Reachable.start sysHeld_run, by decide,
      by decide⟩,
    block_in_map_and_present_is_held 1024 10 0 3000 none (by decide) ⟨0, by decide⟩ sysHeld
      (Reachable_of_run _ _ _ _ Reachable.start sysHeld_run) 0 blockHeld (by decide) (by decide)⟩

/-- C10, counterexample: 101 blocks of a file of 101 bytes (buffer size 1) are prefetched and
written back one after the other.  The hundredth writeback schedules a sync; the writeback of
block 100 then finds `m_in_sync` set and defers its index.  In the state reached no call of
`WriteBlockToDisk` is under way, a sync is in progress, present bit 100 is set and write-called
bit 100 is not. -/
theorem present_without_write_called_counterexample :
    ∃ S, (System.init 1 10 0 101 none).run (prefetchCycles 101) = some S ∧
      Reachable (System.init 1 10 0 101 none) S ∧
      S.writers = [] ∧ S.file.m_in_sync = true ∧ S.file.m_writes_during_sync = [100] ∧
      S.file.m_cfi.TestBit 100 = true ∧ S.file.m_cfi.TestWriteCalledBit 100 = false := by
  have hall : (((System.init 1 10 0 101 none).run (prefetchCycles 101)).map (fun S =>
      S.writers.isEmpty && S.file.m_in_sync && decide (S.file.m_writes_during_sync = [100])
        && S.file.m_cfi.TestBit 100 && !S.file.m_cfi.TestWriteCalledBit 100)) = some true := by
    set_option maxRecDepth 1000000 in decide
  cases hr : (System.init 1 10 0 101 none).run (prefetchCycles 101) with
  | none => rw [hr] at hall; cases hall
  | some S =>
    rw [hr] at hall
    have hb := Option.some.inj hall
    simp only [Bool.and_eq_true, List.isEmpty_iff, decide_eq_true_eq, Bool.not_eq_true'] at hb
    obtain ⟨⟨⟨⟨h1, h2⟩, h3⟩, h4⟩, h5⟩ := hb
    exact ⟨S, rfl, Reachable_of_run _ _ _ _ Reachable.start hr, h1, h2, h3, h4, h5⟩

/-- C10, amended: in every state that a file reaches whose info file, when there was one, had the
write-called bit of every present block, a present bit `p` that is set has its write-called bit
set, or `p` is in `m_writes_during_sync` while a sync is in progress, or the call of
`WriteBlockToDisk` that set the bit has not yet run its section under the sync mutex. -/
theorem present_is_write_called_or_deferred
    (bufferSize prefetch_max_blocks iOffset iFileSize : Int) (loaded : Option Info)
    (hl : ∀ c, loaded = some c → ∀ i, c.TestBit i = true → c.TestWriteCalledBit i = true)
    (S : System)
    (hS : Reachable (System.init bufferSize prefetch_max_blocks iOffset iFileSize loaded) S)
    (p : Int) (hp : S.file.m_cfi.TestBit p = true) :
    S.file.m_cfi.TestWriteCalledBit p = true ∨
    (S.file.m_in_sync = true ∧ p ∈ S.file.m_writes_during_sync) ∨
    ∃ w ∈ S.writers, w.pfIdx = p ∧ (w.stage = WbStage.bit_set ∨ w.stage = WbStage.released) := by
  have hI := InvSync_of_Reachable _ S
    (InvSync_init bufferSize prefetch_max_blocks iOffset iFileSize loaded hl) hS
  rcases hI.bits p hp with g | g | g
  · exact Or.inl g
  · right; left
    refine ⟨?_, g⟩
    cases hin : S.file.m_in_sync with
    | true => rfl
    | false =>
      have := hI.deferred hin
      rw [this] at g
      cases g
  · exact Or.inr (Or.inr (unsynced_pos_exists S p g))

/-- C10 (amended) at the state `sysHeld`: present bit 0 is set, and so is write-called bit 0. -/
theorem present_is_write_called_or_deferred_witness :
    ((∀ c, (none : Option Info) = some c → ∀ i, c.TestBit i = true → c.TestWriteCalledBit i = true) ∧
      Reachable (System.init 1024 10 0 3000 none) sysHeld ∧
      sysHeld.file.m_cfi.TestBit 0 = true) ∧
    (sysHeld.file.m_cfi.TestWriteCalledBit 0 = true ∨
      (sysHeld.file.m_in_sync = true ∧ 0 ∈ sysHeld.file.m_writes_during_sync) ∨
      ∃ w ∈ sysHeld.writers, w.pfIdx = 0 ∧
        (w.stage = WbStage.bit_set ∨ w.stage = WbStage.released)) :=
  ⟨⟨(fun c hc => by cases hc), Reachable_of_run _ _ _ _ Reachable.start sysHeld_run, by decide⟩,
    present_is_write_called_or_deferred 1024 10 0 3000 none (fun c hc => by cases hc) sysHeld
      (Reachable_of_run _ _ _ _ Reachable.start sysHeld_run) 0 (by decide)⟩

end System

namespace System

/-- The ref-count invariant after a step that changes the ref-counts of the blocks, brings
unanswered blocks into the map, or takes references for the writeback away. -/
theorem InvRef_evolve (S S1 : System) (h : S.InvRef)
    (hev : Evolves S.file S1.file)
    (hacct : S1.file.Acct (fun k => S1.holds k + S1.wbrefs k))
    (hwb : ∀ k, S1.wbrefs k ≤ S.wbrefs k)
    (hr : ∀ r ∈ S1.readers, r ∈ S.readers ∨ r.Nodup) : S1.InvRef := by
  refine ⟨hacct, ?_, ?_, ?_⟩
  · intro k b1 hb
    rcases hev k b1 hb with ⟨b, hb0, e⟩ | ⟨hn, hd, _, _⟩
    · have := h.once k b hb0
      have h1 := hwb k
      have hd : b1.m_downloaded = b.m_downloaded := by rw [e]
      rw [hd]
      omega
    · have := h.acct.absent k hn
      have h1 := hwb k
      omega
  · intro k b1 hb hd
    rcases hev k b1 hb with ⟨b, hb0, e⟩ | ⟨hn, hd1, _, _⟩
    · have hd2 : b.m_downloaded = true := by rw [e] at hd; exact hd
      have := h.excl k b hb0 hd2
      rw [e]; exact this
    · rw [hd1] at hd; cases hd
  · intro r hr1
    rcases hr r hr1 with h1 | h1
    · exact h.readers_nodup r h1
    · exact h1

theorem InvRef_keep (S : System) (h : S.InvRef) (f1 : File)
    (hmap : f1.m_block_map = S.file.m_block_map)
    (hbs : f1.m_cfi.GetBufferSize = S.file.m_cfi.GetBufferSize)
    (hq : f1.cache.write_queue = S.file.cache.write_queue) :
    System.InvRef { file := f1, readers := S.readers, writers := S.writers } := by
  refine InvRef_evolve S _ h (Evolves_of_Shrinks _ _ (Shrinks_of_eq _ _ hmap)) ?_ ?_
    (fun r hr => Or.inl hr)
  · refine Acct_congr _ _ _ (Acct_of_bs S.file f1 _ hmap hbs h.acct) ?_
    intro k
    rw [holds_same]
    unfold wbrefs
    rw [calls_same]
    dsimp only
    rw [hq]
  · intro k
    unfold wbrefs
    rw [calls_same]
    dsimp only
    rw [hq]

theorem InvRef_keep_frame (S : System) (h : S.InvRef) (f1 : File)
    (hk : f1.m_block_map = S.file.m_block_map ∧ f1.frame = S.file.frame) :
    System.InvRef { file := f1, readers := S.readers, writers := S.writers } :=
  InvRef_keep S h f1 hk.1 (congrArg Info.GetBufferSize (frame_cfi hk.2)) (frame_queue hk.2)

theorem InvRef_read_begin (S : System) (h : S.InvRef) (off size : Int) (ca : CacheAnswers) :
    System.InvRef
      { file := (S.file.Read_classify ca (cdiv off S.file.m_cfi.GetBufferSize)
          (cdiv (off + size - 1) S.file.m_cfi.GetBufferSize)).1
        readers := S.readers ++ [(S.file.Read_classify ca (cdiv off S.file.m_cfi.GetBufferSize)
          (cdiv (off + size - 1) S.file.m_cfi.GetBufferSize)).2.blks_to_process]
        writers := S.writers } := by
  obtain ⟨g1, g2, hfr⟩ := Read_classify_acct S.file ca (cdiv off S.file.m_cfi.GetBufferSize)
    (cdiv (off + size - 1) S.file.m_cfi.GetBufferSize) _ h.acct
  have hq := frame_queue hfr
  refine InvRef_evolve S _ h g2 ?_ ?_ ?_
  · refine Acct_congr _ _ _ g1 ?_
    intro k
    rw [holds_append]
    unfold wbrefs
    rw [calls_same]
    dsimp only
    rw [hq]
    omega
  · intro k
    unfold wbrefs
    rw [calls_same]
    dsimp only
    rw [hq]
  · intro r hr
    dsimp only at hr
    rw [List.mem_append, List.mem_singleton] at hr
    rcases hr with hr | hr
    · exact Or.inl hr
    · right
      rw [hr]
      have hp := (Read_classify_spec ca S.file (cdiv off S.file.m_cfi.GetBufferSize)
        (cdiv (off + size - 1) S.file.m_cfi.GetBufferSize)).2.2
      have hn := (List.Perm.nodup_iff hp).mpr (idxRange_nodup _ _)
      rw [List.append_assoc] at hn
      exact (List.nodup_append.mp hn).1

theorem InvRef_read_end (S : System) (h : S.InvRef) (n : Nat) (order r : List Int)
    (hn : S.readers[n]? = some r) (hp : order.Perm r) :
    System.InvRef
      { file := order.foldl File.dec_ref_count S.file
        readers := S.readers.eraseIdx n
        writers := S.writers } := by
  have hfr := release_keeps_frame order S.file
  have hq := frame_queue hfr
  have hT : File.Acct S.file (fun k =>
      (System.holds
        { file := order.foldl File.dec_ref_count S.file
          readers := S.readers.eraseIdx n
          writers := S.writers } k + S.wbrefs k)
        + order.count k) := by
    refine Acct_congr _ _ _ h.acct ?_
    intro k
    have := holds_eraseIdx S (order.foldl File.dec_ref_count S.file) S.writers n r hn k
    rw [hp.count_eq]
    omega
  refine InvRef_evolve S _ h (Evolves_of_Shrinks _ _ (Shrinks_release order S.file _ hT)) ?_ ?_ ?_
  · refine Acct_congr _ _ _ (Acct_release order S.file _ hT) ?_
    intro k
    unfold wbrefs
    rw [calls_same]
    dsimp only
    rw [hq]
  · intro k
    unfold wbrefs
    rw [calls_same]
    dsimp only
    rw [hq]
  · intro r1 hr1
    exact Or.inl (List.mem_of_mem_eraseIdx hr1)

theorem wbrefs_wb_begin (S : System) (b pf : Int) (st : WbStage)
    (hq : b ∈ S.file.cache.write_queue) (hst : st.holding = true) (k : Int) :
    System.wbrefs
      { file := { S.file with cache := S.file.cache.TakeWriteTask b }
        readers := S.readers
        writers := S.writers ++ [{ blk := b, pfIdx := pf, stage := st }] } k
      = S.wbrefs k := by
  have hcnt : 1 ≤ S.file.cache.write_queue.count b := List.count_pos_iff.mpr hq
  have hqk : (S.file.cache.write_queue.erase b).count k + (if b = k then 1 else 0)
      = S.file.cache.write_queue.count k := by
    by_cases hk : b = k
    · subst hk
      rw [List.count_erase_self, if_pos rfl]; omega
    · rw [List.count_erase_of_ne (fun hh => hk hh.symm), if_neg hk]; rfl
  unfold wbrefs
  rw [calls_append]
  dsimp only [Cache.TakeWriteTask]
  by_cases hk : b = k
  · rw [if_pos hk] at hqk
    rw [if_pos ⟨hk, hst⟩]; omega
  · rw [if_neg hk] at hqk
    rw [if_neg (fun hh => hk hh.1)]; omega

theorem InvRef_wb_begin (S : System) (h : S.InvRef) (b pf : Int) (st : WbStage)
    (hq : b ∈ S.file.cache.write_queue) (hst : st.holding = true) :
    System.InvRef
      { file := { S.file with cache := S.file.cache.TakeWriteTask b }
        readers := S.readers
        writers := S.writers ++ [{ blk := b, pfIdx := pf, stage := st }] } := by
  refine InvRef_evolve S _ h (Evolves_of_Shrinks _ _ (Shrinks_of_eq _ _ rfl)) ?_ ?_
    (fun r hr => Or.inl hr)
  · refine Acct_congr _ _ _ (Acct_of_bs S.file _ _ rfl rfl h.acct) ?_
    intro k
    rw [wbrefs_wb_begin S b pf st hq hst k]
    rfl
  · intro k
    rw [wbrefs_wb_begin S b pf st hq hst k]

theorem InvRef_wb_set_bit (S : System) (h : S.InvRef) (n : Nat) (w : Writeback)
    (hn : S.writers[n]? = some w) (hst : w.stage = WbStage.written) :
    System.InvRef
      { file := File.WriteBlockToDisk_setbit S.file w.pfIdx
        readers := S.readers
        writers := S.writers.set n { w with stage := WbStage.bit_set } } := by
  have hwb : ∀ k, System.wbrefs
      { file := File.WriteBlockToDisk_setbit S.file w.pfIdx
        readers := S.readers
        writers := S.writers.set n { w with stage := WbStage.bit_set } } k = S.wbrefs k := by
    intro k
    have := calls_set S (File.WriteBlockToDisk_setbit S.file w.pfIdx) S.readers n w
      { w with stage := WbStage.bit_set } hn WbStage.holding k
    rw [hst] at this
    unfold wbrefs
    show S.file.cache.write_queue.count k + _ = _
    by_cases hk : w.blk = k
    · rw [if_pos ⟨hk, rfl⟩, if_pos ⟨hk, rfl⟩] at this
      omega
    · rw [if_neg (fun hh => hk hh.1), if_neg (fun hh => hk hh.1)] at this
      omega
  refine InvRef_evolve S _ h (Evolves_of_Shrinks _ _ (Shrinks_of_eq _ _ rfl)) ?_ ?_
    (fun r hr => Or.inl hr)
  · refine Acct_congr _ _ _ (Acct_of_bs S.file _ _ rfl rfl h.acct) ?_
    intro k
    rw [hwb k]
    rfl
  · intro k
    rw [hwb k]

theorem calls_wb_dec_ref (S : System) (f : File) (n : Nat) (w : Writeback)
    (hn : S.writers[n]? = some w) (hst : w.stage = WbStage.bit_set) (k : Int) :
    System.calls
      { file := f
        readers := S.readers
        writers := S.writers.set n { w with stage := WbStage.released } } WbStage.holding k
      + (if w.blk = k then 1 else 0) = S.calls WbStage.holding k := by
  have := calls_set S f S.readers n w { w with stage := WbStage.released } hn WbStage.holding k
  rw [hst] at this
  by_cases hk : w.blk = k
  · rw [if_pos ⟨hk, rfl⟩, if_neg (by simp [WbStage.holding])] at this
    rw [if_pos hk]; omega
  · rw [if_neg (fun hh => hk hh.1), if_neg (fun hh => hk hh.1)] at this
    rw [if_neg hk]; omega

theorem InvRef_wb_dec_ref (S : System) (h : S.InvRef) (n : Nat) (w : Writeback)
    (hn : S.writers[n]? = some w) (hst : w.stage = WbStage.bit_set) :
    System.InvRef
      { file := S.file.dec_ref_count w.blk
        readers := S.readers
        writers := S.writers.set n { w with stage := WbStage.released } } := by
  have hfr := dec_ref_count_frame S.file w.blk
  have hq := frame_queue hfr
  have hc := calls_wb_dec_ref S (S.file.dec_ref_count w.blk) n w hn hst
  have h1 : 1 ≤ S.holds w.blk + S.wbrefs w.blk := by
    have := hc w.blk
    rw [if_pos rfl] at this
    unfold wbrefs
    omega
  refine InvRef_evolve S _ h
    (Evolves_of_Shrinks _ _ (Shrinks_dec_ref_count S.file w.blk h.acct.bs h.acct.wf)) ?_ ?_
    (fun r hr => Or.inl hr)
  · refine Acct_congr _ _ _ (Acct_dec S.file _ w.blk h.acct h1) ?_
    intro k
    rw [holds_same]
    have := hc k
    unfold wbrefs at this ⊢
    dsimp only
    rw [hq]
    by_cases hk : k = w.blk
    · rw [if_pos hk]
      rw [if_pos hk.symm] at this
      omega
    · rw [if_neg hk]
      rw [if_neg (fun hh => hk hh.symm)] at this
      omega
  · intro k
    have := hc k
    unfold wbrefs
    dsimp only
    rw [hq]
    omega

theorem InvRef_wb_synced (S : System) (h : S.InvRef) (n : Nat) (w : Writeback)
    (hn : S.writers[n]? = some w) (hst : w.stage = WbStage.released) :
    System.InvRef
      { file := File.WriteBlockToDisk_synced S.file w.pfIdx
        readers := S.readers
        writers := S.writers.eraseIdx n } := by
  have hk : (File.WriteBlockToDisk_synced S.file w.pfIdx).m_block_map = S.file.m_block_map ∧
      (File.WriteBlockToDisk_synced S.file w.pfIdx).m_cfi.GetBufferSize = S.file.m_cfi.GetBufferSize ∧
      (File.WriteBlockToDisk_synced S.file w.pfIdx).cache.write_queue = S.file.cache.write_queue := by
    unfold File.WriteBlockToDisk_synced
    by_cases hin : S.file.m_in_sync = true
    · rw [if_pos hin]; exact ⟨rfl, rfl, rfl⟩
    · rw [if_neg hin]
      dsimp only
      split_ifs <;> exact ⟨rfl, rfl, rfl⟩
  obtain ⟨k1, k2, k5⟩ := hk
  have hc : ∀ k, System.calls
      { file := File.WriteBlockToDisk_synced S.file w.pfIdx
        readers := S.readers
        writers := S.writers.eraseIdx n } WbStage.holding k = S.calls WbStage.holding k := by
    intro k
    have := calls_eraseIdx S (File.WriteBlockToDisk_synced S.file w.pfIdx) S.readers n w hn
      WbStage.holding k
    rw [hst, if_neg (by simp [WbStage.holding])] at this
    omega
  refine InvRef_evolve S _ h (Evolves_of_Shrinks _ _ (Shrinks_of_eq _ _ k1)) ?_ ?_
    (fun r hr => Or.inl hr)
  · refine Acct_congr _ _ _ (Acct_of_bs S.file _ _ k1 k2 h.acct) ?_
    intro k
    rw [holds_same]
    unfold wbrefs
    rw [hc k]
    dsimp only
    rw [k5]
  · intro k
    unfold wbrefs
    rw [hc k]
    dsimp only
    rw [k5]

theorem count_erase_add (q : List Int) (b k : Int) (hq : b ∈ q) :
    (q.erase b).count k + (if b = k then 1 else 0) = q.count k := by
  have hcnt : 1 ≤ q.count b := List.count_pos_iff.mpr hq
  by_cases hk : b = k
  · subst hk
    rw [List.count_erase_self, if_pos rfl]; omega
  · rw [List.count_erase_of_ne (fun hh => hk hh.symm), if_neg hk]; rfl

theorem InvRef_removed_from_writeQ (S : System) (h : S.InvRef) (b : Int)
    (hq : b ∈ S.file.cache.write_queue) :
    System.InvRef
      { file := File.BlockRemovedFromWriteQ { S.file with cache := S.file.cache.TakeWriteTask b } b
        readers := S.readers
        writers := S.writers } := by
  have hcnt : 1 ≤ S.file.cache.write_queue.count b := List.count_pos_iff.mpr hq
  have hqk := fun k => count_erase_add S.file.cache.write_queue b k hq
  have hfr := dec_ref_count_frame { S.file with cache := S.file.cache.TakeWriteTask b } b
  have hq1 : (File.BlockRemovedFromWriteQ { S.file with cache := S.file.cache.TakeWriteTask b }
      b).cache.write_queue = S.file.cache.write_queue.erase b := (frame_queue hfr).trans rfl
  have hA : File.Acct { S.file with cache := S.file.cache.TakeWriteTask b }
      (fun k => S.holds k + S.wbrefs k) := Acct_of_bs S.file _ _ rfl rfl h.acct
  have h1 : 1 ≤ S.holds b + S.wbrefs b := by unfold wbrefs; omega
  have hsh : Shrinks S.file
      (File.BlockRemovedFromWriteQ { S.file with cache := S.file.cache.TakeWriteTask b } b) :=
    Shrinks_trans S.file { S.file with cache := S.file.cache.TakeWriteTask b } _
      (Shrinks_of_eq _ _ rfl) (Shrinks_dec_ref_count _ b hA.bs hA.wf)
  refine InvRef_evolve S _ h (Evolves_of_Shrinks _ _ hsh) ?_ ?_ (fun r hr => Or.inl hr)
  · refine Acct_congr _ _ _ (Acct_dec _ _ b hA h1) ?_
    intro k
    rw [holds_same]
    have := hqk k
    unfold wbrefs
    rw [calls_same]
    dsimp only
    rw [hq1]
    by_cases hk : k = b
    · rw [if_pos hk]
      rw [if_pos hk.symm] at this
      omega
    · rw [if_neg hk]
      rw [if_neg (fun hh => hk hh.symm)] at this
      omega
  · intro k
    have := hqk k
    unfold wbrefs
    rw [calls_same]
    dsimp only
    rw [hq1]
    omega

theorem InvRef_prefetch (S : System) (h : S.InvRef) (g : Bool) (f1 : File)
    (hp : S.file.Prefetch g = some f1) :
    System.InvRef { file := f1, readers := S.readers, writers := S.writers } := by
  rcases Prefetch_cases S.file g f1 hp with hk | ⟨i, hi, hbit, ht⟩
  · exact InvRef_keep_frame S h f1 hk
  · subst ht
    obtain ⟨g1, g2⟩ := Prefetch_take_acct S.file g i _ h.acct hi hbit
    have hfr := Prefetch_take_frame S.file g i
    have hq := frame_queue hfr
    refine InvRef_evolve S _ h g2 ?_ ?_ (fun r hr => Or.inl hr)
    · refine Acct_congr _ _ _ g1 ?_
      intro k
      rw [holds_same]
      unfold wbrefs
      rw [calls_same]
      dsimp only
      rw [hq]
    · intro k
      unfold wbrefs
      rw [calls_same]
      dsimp only
      rw [hq]

theorem InvRef_ioActive_sweep (S : System) (h : S.InvRef) :
    System.InvRef { file := S.file.ioActive_sweep, readers := S.readers, writers := S.writers } := by
  obtain ⟨g1, g2⟩ := ioActive_sweep_acct S.file _ h.acct
  have hfr := (ioActive_sweep_find S.file _ h.acct 0).2
  have hq := frame_queue hfr
  refine InvRef_evolve S _ h (Evolves_of_Shrinks _ _ g2) ?_ ?_ (fun r hr => Or.inl hr)
  · refine Acct_congr _ _ _ g1 ?_
    intro k
    rw [holds_same]
    unfold wbrefs
    rw [calls_same]
    dsimp only
    rw [hq]
  · intro k
    unfold wbrefs
    rw [calls_same]
    dsimp only
    rw [hq]

theorem InvRef_response (S : System) (h : S.InvRef) (b res err : Int) (blk : Block)
    (hb : S.file.m_block_map.find b = some blk) (hfin : blk.is_finished = false) :
    System.InvRef
      { file := S.file.ProcessBlockResponse b res err
        readers := S.readers
        writers := S.writers } := by
  have hdl : blk.m_downloaded = false ∧ blk.m_failed = false := by
    simpa [Block.is_finished] using hfin
  have hfind : ∀ j, (S.file.ProcessBlockResponse b res err).m_block_map.find j =
      if j = b then
        some (if res ≥ 0 then { blk with m_downloaded := true, m_refcnt := blk.m_refcnt + 1 }
              else { blk with m_errno := err, m_failed := true, m_refcnt := blk.m_refcnt + 1 })
      else S.file.m_block_map.find j := by
    intro j
    rw [find_ProcessBlockResponse, hb]
    rfl
  have hq := ProcessBlockResponse_queue S.file b res err blk hb
  have hcfi : (S.file.ProcessBlockResponse b res err).m_cfi = S.file.m_cfi :=
    ProcessBlockResponse_cfi S.file b res err
  have hwb : ∀ k, System.wbrefs
      { file := S.file.ProcessBlockResponse b res err
        readers := S.readers
        writers := S.writers } k
      = S.wbrefs k + (if res ≥ 0 ∧ k = b then 1 else 0) := by
    intro k
    unfold wbrefs
    rw [calls_same]
    dsimp only
    rw [hq]
    by_cases hr : res ≥ 0
    · rw [if_pos hr, List.count_append]
      by_cases hk : k = b
      · subst hk
        rw [if_pos ⟨hr, rfl⟩]
        simp
        omega
      · rw [if_neg (fun hh => hk hh.2),
          List.count_eq_zero_of_not_mem (by simpa using hk : k ∉ [b])]
        omega
    · rw [if_neg hr, if_neg (fun hh => hr hh.1)]
      omega
  have hrefs0 := h.acct.refs b blk hb
  rw [hdl.2] at hrefs0
  simp only [Bool.false_eq_true, if_false, add_zero] at hrefs0
  have honce0 := h.once b blk hb
  rw [hdl.1] at honce0
  simp only [Bool.false_eq_true, if_false] at honce0
  refine ⟨⟨?_, MapWF_ProcessBlockResponse S.file b res err h.acct.wf,
    ProcessBlockResponse_nodup S.file b res err h.acct.nodup, ?_, ?_, ?_⟩, ?_, ?_, h.readers_nodup⟩
  · rw [hcfi]; exact h.acct.bs
  · intro k x hx
    rw [hfind] at hx
    rw [holds_same, hwb k]
    by_cases hk : k = b
    · rw [if_pos hk] at hx
      have := Option.some.inj hx
      subst hk
      by_cases hr : res ≥ 0
      · rw [if_pos hr] at this
        rw [if_pos ⟨hr, rfl⟩, ← this]
        dsimp only
        rw [hdl.2]
        push_cast
        omega
      · rw [if_neg hr] at this
        rw [if_neg (fun hh => hr hh.1), ← this]
        dsimp only
        push_cast
        rw [if_pos rfl]
        omega
    · rw [if_neg hk] at hx
      rw [if_neg (fun hh => hk hh.2)]
      exact h.acct.refs k x hx
  · intro k x hx hfx
    rw [hfind] at hx
    by_cases hk : k = b
    · rw [if_pos hk] at hx
      have := Option.some.inj hx
      rw [← this]
      split_ifs <;> dsimp only <;> omega
    · rw [if_neg hk] at hx
      exact h.acct.pos k x hx hfx
  · intro k hk
    rw [hfind] at hk
    by_cases hkb : k = b
    · rw [if_pos hkb] at hk; simp at hk
    · rw [if_neg hkb] at hk
      rw [holds_same, hwb k, if_neg (fun hh => hkb hh.2)]
      exact h.acct.absent k hk
  · intro k x hx
    rw [hfind] at hx
    rw [hwb k]
    by_cases hk : k = b
    · rw [if_pos hk] at hx
      have := Option.some.inj hx
      subst hk
      by_cases hr : res ≥ 0
      · rw [if_pos hr] at this
        rw [if_pos ⟨hr, rfl⟩, ← this]
        dsimp only
        simp only [if_true]
        omega
      · rw [if_neg hr] at this
        rw [if_neg (fun hh => hr hh.1), ← this]
        dsimp only
        omega
    · rw [if_neg hk] at hx
      rw [if_neg (fun hh => hk hh.2)]
      exact h.once k x hx
  · intro k x hx hd
    rw [hfind] at hx
    by_cases hk : k = b
    · rw [if_pos hk] at hx
      have := Option.some.inj hx
      by_cases hr : res ≥ 0
      · rw [if_pos hr] at this
        rw [← this]
        exact hdl.2
      · rw [if_neg hr] at this
        rw [← this] at hd
        dsimp only at hd
        rw [hdl.1] at hd
        cases hd
    · rw [if_neg hk] at hx
      exact h.excl k x hx hd

theorem InvRef_init (bufferSize prefetch_max_blocks iOffset iFileSize : Int) (loaded : Option Info)
    (hBS : 0 < (File.create bufferSize prefetch_max_blocks iOffset iFileSize loaded).m_cfi.GetBufferSize) :
    (System.init bufferSize prefetch_max_blocks iOffset iFileSize loaded).InvRef := by
  refine ⟨⟨hBS, ?_, ?_, ?_, ?_, ?_⟩, ?_, ?_, ?_⟩
  · intro k b hb; cases hb
  · exact List.nodup_nil
  · intro k b hb; cases hb
  · intro k b hb; cases hb
  · intro k _; rfl
  · intro k b hb; cases hb
  · intro k b hb; cases hb
  · intro r hr; cases hr

/-- Every step keeps the invariant of the ref-counts. -/
theorem InvRef_step (S S1 : System) (e : Event) (h : S.InvRef) (hs : S.step e = some S1) :
    S1.InvRef := by
  cases e with
  | read_begin off size ca =>
    simp only [step, Option.some.injEq] at hs
    rw [← hs]
    exact InvRef_read_begin S h off size ca
  | read_direct off size junk blocks =>
    simp only [step, Option.some.injEq] at hs
    rw [← hs]
    exact InvRef_keep_frame S h _ (RequestBlocksDirect_loop_keeps off size junk blocks S.file 0)
  | read_disk rd off size junk blocks =>
    simp only [step, Option.some.injEq] at hs
    rw [← hs]
    exact InvRef_keep_frame S h _ (ReadBlocksFromDisk_loop_keeps rd off size junk blocks S.file 0)
  | read_ram off size junk fin =>
    simp only [step, Option.some.injEq] at hs
    rw [← hs]
    exact InvRef_keep_frame S h _ (Read_consume_keeps off size junk fin S.file 0 none)
  | read_missed d =>
    simp only [step, Option.some.injEq] at hs
    rw [← hs]
    exact InvRef_keep_frame S h _ ⟨rfl, rfl⟩
  | read_end n order =>
    simp only [step] at hs
    cases hn : S.readers[n]? with
    | none => rw [hn] at hs; simp at hs
    | some r =>
      rw [hn] at hs
      dsimp only at hs
      by_cases hp : order.Perm r
      · rw [if_pos hp] at hs
        rw [← Option.some.inj hs]
        exact InvRef_read_end S h n order r hn hp
      · rw [if_neg hp] at hs; cases hs
  | response b res err =>
    simp only [step] at hs
    cases hb : S.file.m_block_map.find b with
    | none => rw [hb] at hs; simp at hs
    | some blk =>
      rw [hb] at hs
      dsimp only at hs
      by_cases hf : blk.is_finished = true
      · rw [if_pos hf] at hs; cases hs
      · rw [if_neg hf] at hs
        rw [← Option.some.inj hs]
        exact InvRef_response S h b res err blk hb (by simpa using hf)
  | wb_begin b w =>
    simp only [step] at hs
    cases hb : S.file.m_block_map.find b with
    | none => rw [hb] at hs; simp at hs
    | some blk =>
      rw [hb] at hs
      dsimp only at hs
      by_cases hq : b ∈ S.file.cache.write_queue
      · rw [if_pos hq] at hs
        rw [← Option.some.inj hs]
        apply InvRef_wb_begin S h b _ _ hq
        split_ifs <;> rfl
      · rw [if_neg hq] at hs; cases hs
  | wb_set_bit n =>
    simp only [step] at hs
    cases hn : S.writers[n]? with
    | none => rw [hn] at hs; simp at hs
    | some w =>
      rw [hn] at hs
      dsimp only at hs
      by_cases hst : w.stage = WbStage.written
      · rw [if_pos hst] at hs
        rw [← Option.some.inj hs]
        exact InvRef_wb_set_bit S h n w hn hst
      · rw [if_neg hst] at hs; cases hs
  | wb_dec_ref n =>
    simp only [step] at hs
    cases hn : S.writers[n]? with
    | none => rw [hn] at hs; simp at hs
    | some w =>
      rw [hn] at hs
      dsimp only at hs
      by_cases hst : w.stage = WbStage.bit_set
      · rw [if_pos hst] at hs
        rw [← Option.some.inj hs]
        exact InvRef_wb_dec_ref S h n w hn hst
      · rw [if_neg hst] at hs; cases hs
  | wb_synced n =>
    simp only [step] at hs
    cases hn : S.writers[n]? with
    | none => rw [hn] at hs; simp at hs
    | some w =>
      rw [hn] at hs
      dsimp only at hs
      by_cases hst : w.stage = WbStage.released
      · rw [if_pos hst] at hs
        rw [← Option.some.inj hs]
        exact InvRef_wb_synced S h n w hn hst
      · rw [if_neg hst] at hs; cases hs
  | removed_from_writeQ b =>
    simp only [step] at hs
    by_cases hq : b ∈ S.file.cache.write_queue
    · rw [if_pos hq] at hs
      rw [← Option.some.inj hs]
      exact InvRef_removed_from_writeQ S h b hq
    · rw [if_neg hq] at hs; cases hs
  | sync_job =>
    simp only [step] at hs
    by_cases hj : 0 < S.file.sync_jobs
    · rw [if_pos hj] at hs
      rw [← Option.some.inj hs]
      exact InvRef_keep S h _ rfl (Sync_cfi S.file.m_writes_during_sync S.file.m_cfi).1 rfl
    · rw [if_neg hj] at hs; cases hs
  | prefetch g =>
    simp only [step] at hs
    cases hp : S.file.Prefetch g with
    | none => rw [hp] at hs; simp at hs
    | some f1 =>
      rw [hp] at hs
      dsimp only at hs
      rw [← Option.some.inj hs]
      exact InvRef_prefetch S h g f1 hp
  | ioActive_stop =>
    simp only [step, Option.some.injEq] at hs
    rw [← hs]
    exact InvRef_keep_frame S h _ (ioActive_stop_keeps S.file)
  | ioActive_sweep =>
    simp only [step, Option.some.injEq] at hs
    rw [← hs]
    exact InvRef_ioActive_sweep S h
  | wakeUp =>
    simp only [step, Option.some.injEq] at hs
    rw [← hs]
    exact InvRef_keep_frame S h _ (WakeUp_keeps S.file)

theorem InvRef_of_Reachable (S0 S : System) (h0 : S0.InvRef) (hS : Reachable S0 S) : S.InvRef := by
  induction hS with
  | start => exact h0
  | step S S1 e _ hs ih => exact InvRef_step S S1 e ih hs

end System

namespace File

/-- A block to which a reference is held passes the assertion of `dec_ref_count`. -/
theorem Acct_asserts (l : List Int) (s : File) (T : Int → Nat)
    (h : s.Acct (fun k => T k + l.count k)) : s.dec_ref_asserts l = true := by
  induction l generalizing s with
  | nil => rfl
  | cons i rest ih =>
    unfold dec_ref_asserts
    have hpos : 1 ≤ T i + (i :: rest).count i := by rw [List.count_cons_self]; omega
    have hd := Acct_dec s _ i h hpos
    have hd2 : (s.dec_ref_count i).Acct (fun k => T k + rest.count k) := by
      refine Acct_congr _ _ _ hd ?_
      intro k
      dsimp only
      by_cases hk : k = i
      · subst hk; simp
      · have : ¬ i = k := fun hh => hk hh.symm
        rw [if_neg hk, List.count_cons]
        simp [this]
    rw [ih _ hd2, Bool.and_true]
    cases hf : s.m_block_map.find i with
    | none =>
      have := h.absent i hf
      omega
    | some blk =>
      have := h.refs i blk hf
      dsimp only
      rw [decide_eq_true_iff]
      split_ifs at this <;> omega

/-- A failed block stays in the map when readers release their references. -/
theorem release_keeps_failed (l : List Int) (s : File) (T : Int → Nat)
    (h : s.Acct (fun k => T k + l.count k)) (k : Int) (b : Block)
    (hb : s.m_block_map.find k = some b) (hf : b.m_failed = true) :
    ∃ b1, (l.foldl dec_ref_count s).m_block_map.find k = some b1 ∧ b1.m_failed = true := by
  induction l generalizing s b with
  | nil => exact ⟨b, hb, hf⟩
  | cons i rest ih =>
    rw [List.foldl_cons]
    have hpos : 1 ≤ T i + (i :: rest).count i := by rw [List.count_cons_self]; omega
    have hd := Acct_dec s _ i h hpos
    have hd2 : (s.dec_ref_count i).Acct (fun k => T k + rest.count k) := by
      refine Acct_congr _ _ _ hd ?_
      intro k
      dsimp only
      by_cases hk : k = i
      · subst hk; simp
      · have : ¬ i = k := fun hh => hk hh.symm
        rw [if_neg hk, List.count_cons]
        simp [this]
    have hfind := dec_ref_count_find s i h.bs h.wf k
    by_cases hk : k = i
    · subst hk
      rw [if_pos rfl, hb] at hfind
      have hr := h.refs k b hb
      rw [if_pos hf, List.count_cons_self] at hr
      have hne : ¬ (b.m_refcnt - 1 = 0 ∧ b.is_finished = true) := by
        intro hh
        have := hh.1
        omega
      simp only [Option.bind, if_neg hne] at hfind
      exact ih _ hd2 _ hfind hf
    · rw [if_neg hk] at hfind
      exact ih _ hd2 b (hfind.trans hb) hf

end File

namespace System

theorem sum_count_le_length (R : List (List Int)) (h : ∀ r ∈ R, r.Nodup) (k : Int) :
    (R.map (fun r => r.count k)).sum ≤ R.length := by
  induction R with
  | nil => simp
  | cons r rest ih =>
    simp only [List.map_cons, List.sum_cons, List.length_cons]
    have h1 := List.nodup_iff_count_le_one.mp (h r (List.mem_cons_self _ _)) k
    have h2 := ih (fun x hx => h x (List.mem_cons_of_mem _ hx))
    omega

theorem holds_le_length (S : System) (h : ∀ r ∈ S.readers, r.Nodup) (k : Int) :
    S.holds k ≤ S.readers.length :=
  sum_count_le_length S.readers h k

/-- The invariant says how many references a block has at most. -/
theorem InvRef_bound (S : System) (h : S.InvRef) (k : Int) (b : Block)
    (hb : S.file.m_block_map.find k = some b) :
    b.m_refcnt = (S.holds k : Int) + (S.wbrefs k : Int) + (if b.m_failed = true then 1 else 0) ∧
    S.wbrefs k + (if b.m_failed = true then 1 else 0) ≤ 1 := by
  refine ⟨h.acct.refs k b hb, ?_⟩
  have h1 := h.once k b hb
  by_cases hd : b.m_downloaded = true
  · rw [if_pos hd] at h1
    rw [h.excl k b hb hd]
    simp only [Bool.false_eq_true, if_false]
    omega
  · rw [if_neg hd] at h1
    split_ifs <;> omega

theorem InvRef_asserts (S S1 : System) (e : Event) (h : S.InvRef) (hs : S.step e = some S1) :
    (S.dec_refs e).1.dec_ref_asserts (S.dec_refs e).2 = true := by
  cases e with
  | read_end n order =>
    simp only [step] at hs
    cases hn : S.readers[n]? with
    | none => rw [hn] at hs; simp at hs
    | some r =>
      rw [hn] at hs
      dsimp only at hs
      by_cases hp : order.Perm r
      · have hT : File.Acct S.file (fun k =>
            (System.holds
              { file := S.file
                readers := S.readers.eraseIdx n
                writers := S.writers } k + S.wbrefs k)
              + order.count k) := by
          refine Acct_congr _ _ _ h.acct ?_
          intro k
          have := holds_eraseIdx S S.file S.writers n r hn k
          rw [hp.count_eq]
          omega
        exact Acct_asserts order S.file _ hT
      · rw [if_neg hp] at hs; cases hs
  | wb_dec_ref n =>
    simp only [step] at hs
    cases hn : S.writers[n]? with
    | none => rw [hn] at hs; simp at hs
    | some w =>
      rw [hn] at hs
      dsimp only at hs
      by_cases hst : w.stage = WbStage.bit_set
      · have hc := calls_pos S n w hn WbStage.holding (by rw [hst]; rfl)
        simp only [dec_refs, hn]
        refine Acct_asserts [w.blk] S.file
          (fun k => if k = w.blk then S.holds k + S.wbrefs k - 1 else S.holds k + S.wbrefs k) ?_
        refine Acct_congr _ _ _ h.acct ?_
        intro k
        dsimp only
        by_cases hk : k = w.blk
        · subst hk
          rw [if_pos rfl, List.count_cons_self]
          unfold wbrefs
          simp only [List.count_nil]
          omega
        · rw [if_neg hk, List.count_eq_zero_of_not_mem (by simpa using hk : k ∉ [w.blk])]
          rfl
      · rw [if_neg hst] at hs; cases hs
  | removed_from_writeQ b =>
    simp only [step] at hs
    by_cases hq : b ∈ S.file.cache.write_queue
    · have hcnt : 1 ≤ S.file.cache.write_queue.count b := List.count_pos_iff.mpr hq
      have hA : File.Acct { S.file with cache := S.file.cache.TakeWriteTask b }
          (fun k => S.holds k + S.wbrefs k) := Acct_of_bs S.file _ _ rfl rfl h.acct
      simp only [dec_refs]
      refine Acct_asserts [b] _
        (fun k => if k = b then S.holds k + S.wbrefs k - 1 else S.holds k + S.wbrefs k) ?_
      refine Acct_congr _ _ _ hA ?_
      intro k
      dsimp only
      by_cases hk : k = b
      · subst hk
        rw [if_pos rfl, List.count_cons_self]
        unfold wbrefs
        simp only [List.count_nil]
        omega
      · rw [if_neg hk, List.count_eq_zero_of_not_mem (by simpa using hk : k ∉ [b])]
        rfl
    · rw [if_neg hq] at hs; cases hs
  | read_begin off size ca => rfl
  | read_direct off size junk blocks => rfl
  | read_disk rd off size junk blocks => rfl
  | read_ram off size junk fin => rfl
  | read_missed d => rfl
  | response b res err => rfl
  | wb_begin b w => rfl
  | wb_set_bit n => rfl
  | wb_synced n => rfl
  | sync_job => rfl
  | prefetch g => rfl
  | ioActive_stop => rfl
  | ioActive_sweep => rfl
  | wakeUp => rfl

/-- C11: in every state that a file with a positive buffer size reaches, the ref-count of a block
of the map is at least 0 and at most the number of readers that hold the block, plus one when the
block is in writeback, plus 1 (it is at most the number of holders plus 1, and at most one
reference is held per reader); and every call of `dec_ref_count` that a step makes is for a block
of the map and passes the assertion `m_refcnt >= 0`. -/
theorem refcnt_within_bounds (bufferSize prefetch_max_blocks iOffset iFileSize : Int)
    (loaded : Option Info)
    (hBS : 0 < (File.create bufferSize prefetch_max_blocks iOffset iFileSize loaded).m_cfi.GetBufferSize)
    (S : System)
    (hS : Reachable (System.init bufferSize prefetch_max_blocks iOffset iFileSize loaded) S) :
    (∀ k b, S.file.m_block_map.find k = some b →
      0 ≤ b.m_refcnt ∧ b.m_refcnt ≤ (S.holds k : Int) + (S.in_writeback k : Int) + 1 ∧
      b.m_refcnt ≤ (S.holds k : Int) + 1 ∧ S.holds k ≤ S.readers.length) ∧
    (∀ e S1, S.step e = some S1 → (S.dec_refs e).1.dec_ref_asserts (S.dec_refs e).2 = true) := by
  have hI := InvRef_of_Reachable _ S
    (InvRef_init bufferSize prefetch_max_blocks iOffset iFileSize loaded hBS) hS
  refine ⟨?_, fun e S1 hs => InvRef_asserts S S1 e hI hs⟩
  intro k b hb
  obtain ⟨h1, h2⟩ := InvRef_bound S hI k b hb
  have h3 := holds_le_length S hI.readers_nodup k
  refine ⟨?_, ?_, ?_, h3⟩
  · rw [h1]
    split_ifs <;> omega
  · rw [h1]
    have : (0 : Int) ≤ (S.in_writeback k : Int) := Int.ofNat_nonneg _
    split_ifs at h2 ⊢ <;> omega
  · rw [h1]
    split_ifs at h2 ⊢ <;> omega

theorem sysFailed_run : (System.init 1024 10 0 3000 none).run runFailed = some sysFailed :=
  run_getD _ _ _ (by decide)

theorem sysPrefetched_run :
    (System.init 1024 10 0 3000 none).run [Event.prefetch true] = some sysPrefetched :=
  run_getD _ _ _ (by decide)

/-- C11 at the state `sysFailed`: the failed block 0, held by nobody, has ref-count 1. -/
theorem refcnt_within_bounds_witness :
    (0 < (File.create 1024 10 0 3000 none).m_cfi.GetBufferSize ∧
      Reachable (System.init 1024 10 0 3000 none) sysFailed) ∧
    ((∀ k b, sysFailed.file.m_block_map.find k = some b →
      0 ≤ b.m_refcnt ∧ b.m_refcnt ≤ (sysFailed.holds k : Int) + (sysFailed.in_writeback k : Int) + 1 ∧
      b.m_refcnt ≤ (sysFailed.holds k : Int) + 1 ∧ sysFailed.holds k ≤ sysFailed.readers.length) ∧
    (∀ e S1, sysFailed.step e = some S1 →
      (sysFailed.dec_refs e).1.dec_ref_asserts (sysFailed.dec_refs e).2 = true)) :=
  ⟨⟨by decide, Reachable_of_run _ _ _ _ Reachable.start sysFailed_run⟩,
    refcnt_within_bounds 1024 10 0 3000 none (by decide) sysFailed
      (Reachable_of_run _ _ _ _ Reachable.start sysFailed_run)⟩

/-- C12, counterexample: `Prefetch` takes block 0 of the new file of 3000 bytes.  The block is
prefetched, no reader has touched it, nobody holds it and it is not in the write queue: its
ref-count is 0, where the claim has 1. -/
theorem refcnt_of_prefetched_block_counterexample :
    (System.init 1024 10 0 3000 none).run [Event.prefetch true] = some sysPrefetched ∧
    Reachable (System.init 1024 10 0 3000 none) sysPrefetched ∧
    sysPrefetched.file.m_block_map.find 0 = some blockPrefetched ∧
    blockPrefetched.m_prefetch = true ∧ sysPrefetched.readers = [] ∧
    sysPrefetched.file.cache.write_queue = [] ∧
    blockPrefetched.m_refcnt ≠
      (sysPrefetched.holds 0 : Int) + (if (0 : Int) ∈ sysPrefetched.file.cache.write_queue then 1 else 0)
        + 1 :=
  ⟨sysPrefetched_run, Reachable_of_run _ _ _ _ Reachable.start sysPrefetched_run, by decide,
    by decide, by decide, by decide, by decide⟩

/-- C12, amended: in every state that a file with a positive buffer size reaches, the ref-count of
a block of the map is the number of readers that hold it, plus one when the block is in the write
queue or with a call of `WriteBlockToDisk` that has not released it (also one that gave up), plus
one when the block is failed; a prefetched block counts for nothing.  The second and the third
summand are not both 1. -/
theorem refcnt_is_holders_writeback_failed
    (bufferSize prefetch_max_blocks iOffset iFileSize : Int) (loaded : Option Info)
    (hBS : 0 < (File.create bufferSize prefetch_max_blocks iOffset iFileSize loaded).m_cfi.GetBufferSize)
    (S : System)
    (hS : Reachable (System.init bufferSize prefetch_max_blocks iOffset iFileSize loaded) S)
    (k : Int) (b : Block) (hb : S.file.m_block_map.find k = some b) :
    b.m_refcnt = (S.holds k : Int) + (S.wbrefs k : Int) + (if b.m_failed = true then 1 else 0) ∧
    S.wbrefs k + (if b.m_failed = true then 1 else 0) ≤ 1 ∧
    (0 < S.wbrefs k → b.m_downloaded = true) := by
  have hI := InvRef_of_Reachable _ S
    (InvRef_init bufferSize prefetch_max_blocks iOffset iFileSize loaded hBS) hS
  obtain ⟨h1, h2⟩ := InvRef_bound S hI k b hb
  refine ⟨h1, h2, ?_⟩
  intro hw
  have := hI.once k b hb
  by_contra hd
  rw [if_neg hd] at this
  omega

/-- C12 (amended) at the state `sysPrefetched`. -/
theorem refcnt_is_holders_writeback_failed_witness :
    (0 < (File.create 1024 10 0 3000 none).m_cfi.GetBufferSize ∧
      Reachable (System.init 1024 10 0 3000 none) sysPrefetched ∧
      sysPrefetched.file.m_block_map.find 0 = some blockPrefetched) ∧
    (blockPrefetched.m_refcnt = (sysPrefetched.holds 0 : Int) + (sysPrefetched.wbrefs 0 : Int)
        + (if blockPrefetched.m_failed = true then 1 else 0) ∧
      sysPrefetched.wbrefs 0 + (if blockPrefetched.m_failed = true then 1 else 0) ≤ 1 ∧
      (0 < sysPrefetched.wbrefs 0 → blockPrefetched.m_downloaded = true)) :=
  ⟨⟨by decide, Reachable_of_run _ _ _ _ Reachable.start sysPrefetched_run, by decide⟩,
    refcnt_is_holders_writeback_failed 1024 10 0 3000 none (by decide) sysPrefetched
      (Reachable_of_run _ _ _ _ Reachable.start sysPrefetched_run) 0 blockPrefetched (by decide)⟩

end System

namespace System

/-- A failed block stays in the map at every step other than the sweep of `ioActive`. -/
theorem failed_stays_step (S S1 : System) (e : Event) (h : S.InvRef)
    (he : e ≠ Event.ioActive_sweep) (hs : S.step e = some S1) (k : Int) (b : Block)
    (hb : S.file.m_block_map.find k = some b) (hf : b.m_failed = true) :
    ∃ b1, S1.file.m_block_map.find k = some b1 ∧ b1.m_failed = true := by
  have hwb0 : S.wbrefs k = 0 := by
    have := (InvRef_bound S h k b hb).2
    rw [if_pos hf] at this
    omega
  have hsame : ∀ f1 : File, f1.m_block_map = S.file.m_block_map →
      ∃ b1, f1.m_block_map.find k = some b1 ∧ b1.m_failed = true := by
    intro f1 hm
    rw [hm]
    exact ⟨b, hb, hf⟩
  cases e with
  | read_begin off size ca =>
    simp only [step, Option.some.injEq] at hs
    rw [← hs]
    obtain ⟨b1, h1, h2⟩ := (Read_classify_fold_reads ca
      (idxRange (cdiv off S.file.m_cfi.GetBufferSize) (cdiv (off + size - 1) S.file.m_cfi.GetBufferSize))
      S.file { blks_to_process := [], blks_on_disk := [], blks_direct := [] }
      (idxRange_nodup _ _)).2 k b hb
    refine ⟨b1, h1, ?_⟩
    rw [h2]
    exact hf
  | read_direct off size junk blocks =>
    simp only [step, Option.some.injEq] at hs
    rw [← hs]
    exact hsame _ (RequestBlocksDirect_loop_keeps off size junk blocks S.file 0).1
  | read_disk rd off size junk blocks =>
    simp only [step, Option.some.injEq] at hs
    rw [← hs]
    exact hsame _ (ReadBlocksFromDisk_loop_keeps rd off size junk blocks S.file 0).1
  | read_ram off size junk fin =>
    simp only [step, Option.some.injEq] at hs
    rw [← hs]
    exact hsame _ (Read_consume_keeps off size junk fin S.file 0 none).1
  | read_missed d =>
    simp only [step, Option.some.injEq] at hs
    rw [← hs]
    exact hsame _ rfl
  | read_end n order =>
    simp only [step] at hs
    cases hn : S.readers[n]? with
    | none => rw [hn] at hs; simp at hs
    | some r =>
      rw [hn] at hs
      dsimp only at hs
      by_cases hp : order.Perm r
      · rw [if_pos hp] at hs
        rw [← Option.some.inj hs]
        have hT : File.Acct S.file (fun k =>
            (System.holds
              { file := S.file
                readers := S.readers.eraseIdx n
                writers := S.writers } k + S.wbrefs k)
              + order.count k) := by
          refine Acct_congr _ _ _ h.acct ?_
          intro k
          have := holds_eraseIdx S S.file S.writers n r hn k
          rw [hp.count_eq]
          omega
        exact release_keeps_failed order S.file _ hT k b hb hf
      · rw [if_neg hp] at hs; cases hs
  | response b0 res err =>
    simp only [step] at hs
    cases hb0 : S.file.m_block_map.find b0 with
    | none => rw [hb0] at hs; simp at hs
    | some blk =>
      rw [hb0] at hs
      dsimp only at hs
      by_cases hfin : blk.is_finished = true
      · rw [if_pos hfin] at hs; cases hs
      · rw [if_neg hfin] at hs
        rw [← Option.some.inj hs]
        have hne : k ≠ b0 := by
          intro hh
          subst hh
          rw [hb] at hb0
          have := Option.some.inj hb0
          subst this
          apply hfin
          simp [Block.is_finished, hf]
        refine ⟨b, ?_, hf⟩
        show (S.file.ProcessBlockResponse b0 res err).m_block_map.find k = some b
        rw [find_ProcessBlockResponse_ne S.file b0 res err k hne]
        exact hb
  | wb_begin b0 w =>
    simp only [step] at hs
    cases hb0 : S.file.m_block_map.find b0 with
    | none => rw [hb0] at hs; simp at hs
    | some blk =>
      rw [hb0] at hs
      dsimp only at hs
      by_cases hq : b0 ∈ S.file.cache.write_queue
      · rw [if_pos hq] at hs
        rw [← Option.some.inj hs]
        exact hsame _ rfl
      · rw [if_neg hq] at hs; cases hs
  | wb_set_bit n =>
    simp only [step] at hs
    cases hn : S.writers[n]? with
    | none => rw [hn] at hs; simp at hs
    | some w =>
      rw [hn] at hs
      dsimp only at hs
      by_cases hst : w.stage = WbStage.written
      · rw [if_pos hst] at hs
        rw [← Option.some.inj hs]
        exact hsame _ rfl
      · rw [if_neg hst] at hs; cases hs
  | wb_dec_ref n =>
    simp only [step] at hs
    cases hn : S.writers[n]? with
    | none => rw [hn] at hs; simp at hs
    | some w =>
      rw [hn] at hs
      dsimp only at hs
      by_cases hst : w.stage = WbStage.bit_set
      · rw [if_pos hst] at hs
        rw [← Option.some.inj hs]
        have hc := calls_pos S n w hn WbStage.holding (by rw [hst]; rfl)
        have hne : k ≠ w.blk := by
          intro hh
          rw [← hh] at hc
          unfold wbrefs at hwb0
          omega
        refine ⟨b, ?_, hf⟩
        show (S.file.dec_ref_count w.blk).m_block_map.find k = some b
        rw [dec_ref_count_find S.file w.blk h.acct.bs h.acct.wf, if_neg hne]
        exact hb
      · rw [if_neg hst] at hs; cases hs
  | wb_synced n =>
    simp only [step] at hs
    cases hn : S.writers[n]? with
    | none => rw [hn] at hs; simp at hs
    | some w =>
      rw [hn] at hs
      dsimp only at hs
      by_cases hst : w.stage = WbStage.released
      · rw [if_pos hst] at hs
        rw [← Option.some.inj hs]
        apply hsame
        unfold File.WriteBlockToDisk_synced
        by_cases hin : S.file.m_in_sync = true
        · rw [if_pos hin]
        · rw [if_neg hin]
          dsimp only
          split_ifs <;> rfl
      · rw [if_neg hst] at hs; cases hs
  | removed_from_writeQ b0 =>
    simp only [step] at hs
    by_cases hq : b0 ∈ S.file.cache.write_queue
    · rw [if_pos hq] at hs
      rw [← Option.some.inj hs]
      have hcnt : 1 ≤ S.file.cache.write_queue.count b0 := List.count_pos_iff.mpr hq
      have hne : k ≠ b0 := by
        intro hh
        rw [← hh] at hcnt
        unfold wbrefs at hwb0
        omega
      have hA : File.Acct { S.file with cache := S.file.cache.TakeWriteTask b0 }
          (fun k => S.holds k + S.wbrefs k) := Acct_of_bs S.file _ _ rfl rfl h.acct
      refine ⟨b, ?_, hf⟩
      show (File.dec_ref_count { S.file with cache := S.file.cache.TakeWriteTask b0 }
        b0).m_block_map.find k = some b
      rw [dec_ref_count_find _ b0 hA.bs hA.wf, if_neg hne]
      exact hb
    · rw [if_neg hq] at hs; cases hs
  | sync_job =>
    simp only [step] at hs
    by_cases hj : 0 < S.file.sync_jobs
    · rw [if_pos hj] at hs
      rw [← Option.some.inj hs]
      exact hsame _ rfl
    · rw [if_neg hj] at hs; cases hs
  | prefetch g =>
    simp only [step] at hs
    cases hp : S.file.Prefetch g with
    | none => rw [hp] at hs; simp at hs
    | some f1 =>
      rw [hp] at hs
      dsimp only at hs
      rw [← Option.some.inj hs]
      rcases Prefetch_cases S.file g f1 hp with hk | ⟨i, hi, _, ht⟩
      · exact hsame _ hk.1
      · subst ht
        have hne : k ≠ i := by
          intro hh
          rw [hh, hi] at hb
          cases hb
        refine ⟨b, ?_, hf⟩
        show (RequestBlock { S.file with cache := S.file.cache.RequestRAMBlock g } i
          true).m_block_map.find k = some b
        rw [RequestBlock_map, BlockMap.find_set, if_neg hne]
        exact hb
  | ioActive_stop =>
    simp only [step, Option.some.injEq] at hs
    rw [← hs]
    exact hsame _ (ioActive_stop_keeps S.file).1
  | ioActive_sweep => exact absurd rfl he
  | wakeUp =>
    simp only [step, Option.some.injEq] at hs
    rw [← hs]
    exact hsame _ (WakeUp_keeps S.file).1

/-- C14, counterexample: a reader takes block 0 of the new file of 3000 bytes, the origin fails
the fetch, and the reader (the only one that held the block) releases it.  The block is still in
the map, failed, with ref-count 1. -/
theorem failed_block_kept_counterexample :
    (System.init 1024 10 0 3000 none).run runFailed = some sysFailed ∧
    Reachable (System.init 1024 10 0 3000 none) sysFailed ∧
    sysFailed.readers = [] ∧ sysFailed.holds 0 = 0 ∧
    sysFailed.file.m_block_map.find 0 = some blockFailedKept ∧
    blockFailedKept.m_failed = true ∧ blockFailedKept.m_refcnt = 1 :=
  ⟨sysFailed_run, Reachable_of_run _ _ _ _ Reachable.start sysFailed_run, by decide, by decide,
    by decide, by decide, by decide⟩

/-- C14, amended: in every state that a file with a positive buffer size reaches, a failed block of
the map has as ref-count the number of readers that hold it plus 1, the reference taken by
`ProcessBlockResponse`, which no reader releases: the block stays in the map, failed, at every
step other than the sweep of `ioActive`, and the sweep of `ioActive` removes it exactly when no
reader holds it. -/
theorem failed_block_stays_until_ioActive
    (bufferSize prefetch_max_blocks iOffset iFileSize : Int) (loaded : Option Info)
    (hBS : 0 < (File.create bufferSize prefetch_max_blocks iOffset iFileSize loaded).m_cfi.GetBufferSize)
    (S : System)
    (hS : Reachable (System.init bufferSize prefetch_max_blocks iOffset iFileSize loaded) S)
    (k : Int) (b : Block) (hb : S.file.m_block_map.find k = some b) (hf : b.m_failed = true) :
    b.m_refcnt = (S.holds k : Int) + 1 ∧
    (∀ e S1, e ≠ Event.ioActive_sweep → S.step e = some S1 →
      ∃ b1, S1.file.m_block_map.find k = some b1 ∧ b1.m_failed = true) ∧
    (∀ S1, S.step Event.ioActive_sweep = some S1 →
      (S1.file.m_block_map.find k = none ↔ S.holds k = 0)) := by
  have hI := InvRef_of_Reachable _ S
    (InvRef_init bufferSize prefetch_max_blocks iOffset iFileSize loaded hBS) hS
  obtain ⟨h1, h2⟩ := InvRef_bound S hI k b hb
  rw [if_pos hf] at h1 h2
  have hr : b.m_refcnt = (S.holds k : Int) + 1 := by omega
  refine ⟨hr, fun e S1 he hs => failed_stays_step S S1 e hI he hs k b hb hf, ?_⟩
  intro S1 hs
  simp only [step, Option.some.injEq] at hs
  rw [← hs]
  show S.file.ioActive_sweep.m_block_map.find k = none ↔ S.holds k = 0
  rw [(ioActive_sweep_find S.file _ hI.acct k).1, hb]
  simp only [Option.bind, Block.is_failed, hf, Bool.true_and]
  constructor
  · intro hh
    split_ifs at hh with hc
    simp only [Bool.not_eq_true', decide_eq_false_iff_not, not_not] at hc
    omega
  · intro hh
    rw [if_neg]
    simp only [Bool.not_eq_true', decide_eq_false_iff_not, not_not]
    omega

/-- C14 (amended) at the state `sysFailed`. -/
theorem failed_block_stays_until_ioActive_witness :
    (0 < (File.create 1024 10 0 3000 none).m_cfi.GetBufferSize ∧
      Reachable (System.init 1024 10 0 3000 none) sysFailed ∧
      sysFailed.file.m_block_map.find 0 = some blockFailedKept ∧
      blockFailedKept.m_failed = true) ∧
    (blockFailedKept.m_refcnt = (sysFailed.holds 0 : Int) + 1 ∧
      (∀ e S1, e ≠ Event.ioActive_sweep → sysFailed.step e = some S1 →
        ∃ b1, S1.file.m_block_map.find 0 = some b1 ∧ b1.m_failed = true) ∧
      (∀ S1, sysFailed.step Event.ioActive_sweep = some S1 →
        (S1.file.m_block_map.find 0 = none ↔ sysFailed.holds 0 = 0))) :=
  ⟨⟨by decide, Reachable_of_run _ _ _ _ Reachable.start sysFailed_run, by decide, by decide⟩,
    failed_block_stays_until_ioActive 1024 10 0 3000 none (by decide) sysFailed
      (Reachable_of_run _ _ _ _ Reachable.start sysFailed_run) 0 blockFailedKept (by decide)
      (by decide)⟩

end System

namespace File

theorem Read_finished_pending_perm (s : File) (l : List Int) :
    List.Perm ((Read_finished s l).map Prod.fst ++ Read_pending s l) l := by
  induction l with
  | nil => exact List.Perm.refl _
  | cons k rest ih =>
    unfold Read_finished Read_pending at ih ⊢
    rw [List.filterMap_cons, List.filter_cons]
    cases hf : s.m_block_map.find k with
    | none =>
      dsimp only
      rw [if_pos rfl]
      exact List.perm_middle.trans (List.Perm.cons k ih)
    | some b =>
      dsimp only
      by_cases hb : b.is_finished = true
      · rw [if_pos hb]
        dsimp only
        rw [if_neg (by simp [hb]), List.map_cons, List.cons_append]
        exact List.Perm.cons k ih
      · rw [if_neg hb]
        dsimp only
        rw [if_pos (by simpa using hb)]
        exact List.perm_middle.trans (List.Perm.cons k ih)

theorem Read_iter_perm (off size : Int) (junk : Overlap) (s : File) (v : ReadVars) :
    List.Perm
      ((Read_iter off size junk s v).2.blks_processed ++ (Read_iter off size junk s v).2.blks_to_process)
      (v.blks_processed ++ v.blks_to_process) := by
  unfold Read_iter
  dsimp only
  by_cases hfin : Read_finished s v.blks_to_process = []
  · rw [if_pos hfin]
  · rw [if_neg hfin]
    dsimp only
    rw [List.append_assoc]
    exact List.Perm.append_left _ (Read_finished_pending_perm s v.blks_to_process)

theorem Read_wait_loop_perm (off size : Int) (junk : Overlap) (sched : List (List Response))
    (s : File) (v : ReadVars) (s1 : File) (v1 : ReadVars)
    (h : Read_wait_loop off size junk sched s v = some (s1, v1)) :
    List.Perm (v1.blks_processed ++ v1.blks_to_process) (v.blks_processed ++ v.blks_to_process) := by
  induction sched generalizing s v with
  | nil =>
    unfold Read_wait_loop at h
    by_cases hd : Read_loop_done v = true
    · rw [if_pos hd] at h
      have e : v = v1 := congrArg Prod.snd (Option.some.inj h)
      rw [← e]
    · rw [if_neg hd] at h
      dsimp only at h
      split_ifs at h
      have e : (Read_iter off size junk s v).2 = v1 := congrArg Prod.snd (Option.some.inj h)
      rw [← e]
      exact Read_iter_perm off size junk s v
  | cons batch rest ih =>
    unfold Read_wait_loop at h
    by_cases hd : Read_loop_done v = true
    · rw [if_pos hd] at h
      have e : v = v1 := congrArg Prod.snd (Option.some.inj h)
      rw [← e]
    · rw [if_neg hd] at h
      dsimp only at h
      exact (ih _ _ h).trans (Read_iter_perm off size junk (deliver s batch) v)

/-- The classification of one block index adds to the ref-count of a block what it adds to the
list of the blocks taken. -/
theorem Read_classify_step_refcnt (ca : CacheAnswers) (acc : File × ReadLists) (i k : Int) :
    refcnt_of (Read_classify_step ca acc i).1 k + acc.2.blks_to_process.count k
      = refcnt_of acc.1 k + (Read_classify_step ca acc i).2.blks_to_process.count k := by
  unfold Read_classify_step
  cases hf : acc.1.m_block_map.find i with
  | some x =>
    dsimp only
    unfold refcnt_of
    rw [inc_ref_count_map, BlockMap.find_modify]
    by_cases hk : k = i
    · subst hk
      rw [if_pos rfl, hf, List.count_cons_self]
      dsimp only [Option.map]
      push_cast
      ring
    · have : ¬ i = k := fun hh => hk hh.symm
      rw [if_neg hk, List.count_cons]
      simp [this]
  | none =>
    dsimp only
    by_cases hbit : acc.1.m_cfi.TestBit (acc.1.offsetIdx i) = true
    · rw [if_pos hbit]
    · rw [if_neg hbit]
      by_cases hg : (ca.HaveFreeWritingSlots i && ca.RequestRAMBlock i) = true
      · rw [if_pos hg]
        dsimp only
        unfold refcnt_of
        rw [inc_ref_count_map, BlockMap.find_modify, RequestBlock_map, BlockMap.find_set,
          BlockMap.find_set]
        by_cases hk : k = i
        · subst hk
          rw [if_pos rfl, if_pos rfl, hf, List.count_append, List.count_singleton_self]
          dsimp only [Option.map, Block.create]
          push_cast
          ring
        · rw [if_neg hk, if_neg hk, List.count_append,
            List.count_eq_zero_of_not_mem (by simpa using hk : k ∉ [i])]
          rfl
      · rw [if_neg hg]

theorem Read_classify_fold_refcnt (ca : CacheAnswers) (l : List Int) (acc : File × ReadLists)
    (k : Int) :
    refcnt_of (l.foldl (Read_classify_step ca) acc).1 k + acc.2.blks_to_process.count k
      = refcnt_of acc.1 k + (l.foldl (Read_classify_step ca) acc).2.blks_to_process.count k := by
  induction l generalizing acc with
  | nil => rfl
  | cons i rest ih =>
    rw [List.foldl_cons]
    have h1 := ih (Read_classify_step ca acc i)
    have h2 := Read_classify_step_refcnt ca acc i k
    omega

theorem Read_file_release (s : File) (off size : Int) (env : ReadEnv) :
    (Read s off size env).map ReadResult.file
      = (Read_release s off size env).map (fun x => x.2.foldl dec_ref_count x.1) := by
  unfold Read Read_release
  dsimp only
  generalize Read_classify s env.cache (cdiv off s.m_cfi.GetBufferSize)
    (cdiv (off + size - 1) s.m_cfi.GetBufferSize) = c
  generalize (if c.2.blks_direct.isEmpty = true then (c.1, (0 : Int))
    else RequestBlocksDirect c.1 c.2.blks_direct off size env.junk) = d
  by_cases h1 : (!c.2.blks_direct.isEmpty) = true ∧ d.2 < 0
  · rw [if_pos h1, if_pos h1]
    rfl
  · rw [if_neg h1, if_neg h1]
    generalize (if c.2.blks_on_disk.isEmpty = true then (d.1, (0 : Int))
      else ReadBlocksFromDisk d.1 env.disk_read c.2.blks_on_disk off size env.junk) = k
    cases Read_wait_loop off size env.junk env.responses k.1
        { bytes_read := k.2, errno := none, blks_to_process := c.2.blks_to_process,
          blks_processed := [] } with
    | none => rfl
    | some p =>
      obtain ⟨s3, v⟩ := p
      dsimp only
      by_cases h2 : (!c.2.blks_direct.isEmpty) = true ∧ v.bytes_read ≥ 0
      · rw [if_pos h2, if_pos h2]
        by_cases h3 : (List.foldl (fun h r => h.Done r.1 r.2)
            (DirectResponseHandler.create (c.2.blks_direct.length : Int)) env.direct_done).m_to_wait > 0
        · rw [if_pos h3, if_pos h3]
          rfl
        · rw [if_neg h3, if_neg h3]
          by_cases h4 : (List.foldl (fun h r => h.Done r.1 r.2)
              (DirectResponseHandler.create (c.2.blks_direct.length : Int)) env.direct_done).m_errno = 0
          · rw [if_pos h4, if_pos h4]
            rfl
          · rw [if_neg h4, if_neg h4]
            rfl
      · rw [if_neg h2, if_neg h2]
        rfl

end File

namespace File

theorem Read_release_perm (s : File) (off size : Int) (env : ReadEnv) (x : File × List Int)
    (h : Read_release s off size env = some x) :
    x.2.Perm (Read_classify s env.cache (cdiv off s.m_cfi.GetBufferSize)
      (cdiv (off + size - 1) s.m_cfi.GetBufferSize)).2.blks_to_process := by
  unfold Read_release at h
  dsimp only at h
  generalize Read_classify s env.cache (cdiv off s.m_cfi.GetBufferSize)
    (cdiv (off + size - 1) s.m_cfi.GetBufferSize) = c at h ⊢
  generalize (if c.2.blks_direct.isEmpty = true then (c.1, (0 : Int))
    else RequestBlocksDirect c.1 c.2.blks_direct off size env.junk) = d at h
  by_cases h1 : (!c.2.blks_direct.isEmpty) = true ∧ d.2 < 0
  · rw [if_pos h1] at h
    rw [← Option.some.inj h]
  · rw [if_neg h1] at h
    generalize (if c.2.blks_on_disk.isEmpty = true then (d.1, (0 : Int))
      else ReadBlocksFromDisk d.1 env.disk_read c.2.blks_on_disk off size env.junk) = k at h
    cases hw : Read_wait_loop off size env.junk env.responses k.1
        { bytes_read := k.2, errno := none, blks_to_process := c.2.blks_to_process,
          blks_processed := [] } with
    | none => rw [hw] at h; cases h
    | some p =>
      obtain ⟨s3, v⟩ := p
      rw [hw] at h
      dsimp only at h
      have hp := Read_wait_loop_perm off size env.junk env.responses _ _ s3 v hw
      dsimp only at hp
      rw [List.nil_append] at hp
      have hx : x.2 = v.blks_processed ++ v.blks_to_process := by
        split_ifs at h <;> rw [← Option.some.inj h]
      rw [hx]
      exact hp

theorem find_modify_isSome (m : BlockMap) (i : Int) (f : Block → Block) (k : Int)
    (h : BlockMap.find m k ≠ none) : BlockMap.find (BlockMap.modify m i f) k ≠ none := by
  rw [BlockMap.find_modify]
  by_cases hk : k = i
  · rw [if_pos hk]
    subst hk
    cases hf : BlockMap.find m k with
    | none => exact absurd hf h
    | some b => intro hh; cases hh
  · rw [if_neg hk]
    exact h

theorem find_ProcessBlockResponse_isSome (s : File) (b res err k : Int)
    (h : s.m_block_map.find k ≠ none) :
    (s.ProcessBlockResponse b res err).m_block_map.find k ≠ none := by
  rw [find_ProcessBlockResponse]
  by_cases hk : k = b
  · rw [if_pos hk]
    subst hk
    cases hf : s.m_block_map.find k with
    | none => exact absurd hf h
    | some x => intro hh; cases hh
  · rw [if_neg hk]
    exact h

theorem find_deliver_isSome (batch : List Response) (s : File) (k : Int)
    (h : s.m_block_map.find k ≠ none) : (deliver s batch).m_block_map.find k ≠ none := by
  unfold deliver
  induction batch generalizing s with
  | nil => exact h
  | cons r rest ih =>
    rw [List.foldl_cons]
    exact ih _ (find_ProcessBlockResponse_isSome s r.blk r.res r.err k h)

/-- The blocks that the classification has put on the list `blks_to_process` are in the map. -/
theorem Read_classify_step_in_map (ca : CacheAnswers) (acc : File × ReadLists) (i : Int)
    (h : ∀ k ∈ acc.2.blks_to_process, acc.1.m_block_map.find k ≠ none) :
    ∀ k ∈ (Read_classify_step ca acc i).2.blks_to_process,
      (Read_classify_step ca acc i).1.m_block_map.find k ≠ none := by
  unfold Read_classify_step
  cases hf : acc.1.m_block_map.find i with
  | some x =>
    dsimp only
    intro k hk
    rw [inc_ref_count_map]
    apply find_modify_isSome
    rcases List.mem_cons.mp hk with hk | hk
    · rw [hk, hf]
      intro hh
      cases hh
    · exact h k hk
  | none =>
    dsimp only
    split_ifs
    · exact h
    · dsimp only
      intro k hk
      rw [inc_ref_count_map]
      apply find_modify_isSome
      rw [RequestBlock_map, BlockMap.find_set]
      by_cases hki : k = i
      · rw [if_pos hki]
        intro hh
        cases hh
      · rw [if_neg hki]
        rcases List.mem_append.mp hk with hk | hk
        · exact h k hk
        · exact absurd (List.mem_singleton.mp hk) hki
    · exact h

theorem Read_classify_fold_in_map (ca : CacheAnswers) (l : List Int) (acc : File × ReadLists)
    (h : ∀ k ∈ acc.2.blks_to_process, acc.1.m_block_map.find k ≠ none) :
    ∀ k ∈ (l.foldl (Read_classify_step ca) acc).2.blks_to_process,
      (l.foldl (Read_classify_step ca) acc).1.m_block_map.find k ≠ none := by
  induction l generalizing acc with
  | nil => exact h
  | cons i rest ih =>
    rw [List.foldl_cons]
    exact ih _ (Read_classify_step_in_map ca acc i h)

/-- The third phase of `Read` leaves the info mirror as it is and takes no block out of the
map. -/
theorem Read_wait_loop_grows (off size : Int) (junk : Overlap) (sched : List (List Response))
    (s : File) (v : ReadVars) (s1 : File) (v1 : ReadVars)
    (h : Read_wait_loop off size junk sched s v = some (s1, v1)) :
    (s.MapWF → s1.MapWF) ∧ ∀ k, s.m_block_map.find k ≠ none → s1.m_block_map.find k ≠ none := by
  have hiter : ∀ (t : File) (w : ReadVars),
      (t.MapWF → (Read_iter off size junk t w).1.MapWF) ∧
      ∀ k, t.m_block_map.find k ≠ none →
        (Read_iter off size junk t w).1.m_block_map.find k ≠ none := by
    intro t w
    refine ⟨?_, ?_⟩
    · intro hwf k b hb
      rw [Read_iter_spec_map] at hb
      rw [Read_iter_cfi]
      exact hwf k b hb
    · intro k hk
      rw [Read_iter_spec_map]
      exact hk
  induction sched generalizing s v with
  | nil =>
    unfold Read_wait_loop at h
    by_cases hd : Read_loop_done v = true
    · rw [if_pos hd] at h
      have hs := congrArg Prod.fst (Option.some.inj h)
      dsimp only at hs
      rw [← hs]
      exact ⟨fun hh => hh, fun k hk => hk⟩
    · rw [if_neg hd] at h
      dsimp only at h
      by_cases hd2 : Read_loop_done (Read_iter off size junk s v).2 = true
      · rw [if_pos hd2] at h
        have hs := congrArg Prod.fst (Option.some.inj h)
        dsimp only at hs
        rw [← hs]
        exact hiter s v
      · rw [if_neg hd2] at h
        cases h
  | cons batch rest ih =>
    unfold Read_wait_loop at h
    by_cases hd : Read_loop_done v = true
    · rw [if_pos hd] at h
      have hs := congrArg Prod.fst (Option.some.inj h)
      dsimp only at hs
      rw [← hs]
      exact ⟨fun hh => hh, fun k hk => hk⟩
    · rw [if_neg hd] at h
      dsimp only at h
      obtain ⟨g1, g2⟩ := ih _ _ h
      obtain ⟨i1, i2⟩ := hiter (deliver s batch) v
      exact ⟨fun hh => g1 (i1 (MapWF_deliver s batch hh)),
        fun k hk => g2 k (i2 k (find_deliver_isSome batch s k hk))⟩

/-- The state of the file at the first call of `dec_ref_count` of `Read`: the info mirror is the
one at the call, the map is well-formed when it was, and the blocks that the classification took
are in the map. -/
theorem Read_release_state (s : File) (off size : Int) (env : ReadEnv) (x : File × List Int)
    (h : Read_release s off size env = some x) :
    x.1.m_cfi = s.m_cfi ∧ (s.MapWF → x.1.MapWF) ∧
    ∀ k ∈ (Read_classify s env.cache (cdiv off s.m_cfi.GetBufferSize)
        (cdiv (off + size - 1) s.m_cfi.GetBufferSize)).2.blks_to_process,
      x.1.m_block_map.find k ≠ none := by
  have hc1 := (Read_classify_spec env.cache s (cdiv off s.m_cfi.GetBufferSize)
    (cdiv (off + size - 1) s.m_cfi.GetBufferSize)).1
  have hc2 := (Read_classify_spec env.cache s (cdiv off s.m_cfi.GetBufferSize)
    (cdiv (off + size - 1) s.m_cfi.GetBufferSize)).2.1
  have hc3 : ∀ k ∈ (Read_classify s env.cache (cdiv off s.m_cfi.GetBufferSize)
        (cdiv (off + size - 1) s.m_cfi.GetBufferSize)).2.blks_to_process,
      (Read_classify s env.cache (cdiv off s.m_cfi.GetBufferSize)
        (cdiv (off + size - 1) s.m_cfi.GetBufferSize)).1.m_block_map.find k ≠ none :=
    Read_classify_fold_in_map env.cache _
      (s, { blks_to_process := [], blks_on_disk := [], blks_direct := [] })
      (fun k hk => by cases hk)
  unfold Read_release at h
  dsimp only at h
  generalize Read_classify s env.cache (cdiv off s.m_cfi.GetBufferSize)
    (cdiv (off + size - 1) s.m_cfi.GetBufferSize) = c at h hc1 hc2 hc3 ⊢
  have hd : ∀ d : File × Int,
      d = (if c.2.blks_direct.isEmpty = true then (c.1, (0 : Int))
        else RequestBlocksDirect c.1 c.2.blks_direct off size env.junk) →
      d.1.m_cfi = c.1.m_cfi ∧ d.1.m_block_map = c.1.m_block_map := by
    intro d hd
    rw [hd]
    split_ifs
    · exact ⟨rfl, rfl⟩
    · exact ⟨(RequestBlocksDirect_loop_spec off size env.junk c.2.blks_direct c.1 0).1,
        (RequestBlocksDirect_loop_spec off size env.junk c.2.blks_direct c.1 0).2.1⟩
  generalize (if c.2.blks_direct.isEmpty = true then (c.1, (0 : Int))
    else RequestBlocksDirect c.1 c.2.blks_direct off size env.junk) = d at h hd
  obtain ⟨hd1, hd2⟩ := hd d rfl
  have hdwf : s.MapWF → d.1.MapWF := by
    intro hwf k b hb
    rw [hd2] at hb
    rw [hd1]
    exact hc2 hwf k b hb
  by_cases h1 : (!c.2.blks_direct.isEmpty) = true ∧ d.2 < 0
  · rw [if_pos h1] at h
    rw [← Option.some.inj h]
    refine ⟨hd1.trans hc1, hdwf, ?_⟩
    intro k hk
    dsimp only
    rw [hd2]
    exact hc3 k hk
  · rw [if_neg h1] at h
    have hk : ∀ k : File × Int,
        k = (if c.2.blks_on_disk.isEmpty = true then (d.1, (0 : Int))
          else ReadBlocksFromDisk d.1 env.disk_read c.2.blks_on_disk off size env.junk) →
        k.1.m_cfi = d.1.m_cfi ∧ k.1.m_block_map = d.1.m_block_map := by
      intro k hk
      rw [hk]
      split_ifs
      · exact ⟨rfl, rfl⟩
      · exact ⟨(ReadBlocksFromDisk_loop_spec env.disk_read off size env.junk c.2.blks_on_disk d.1 0).1,
          (ReadBlocksFromDisk_loop_spec env.disk_read off size env.junk c.2.blks_on_disk d.1 0).2.1⟩
    generalize (if c.2.blks_on_disk.isEmpty = true then (d.1, (0 : Int))
      else ReadBlocksFromDisk d.1 env.disk_read c.2.blks_on_disk off size env.junk) = k at h hk
    obtain ⟨hk1, hk2⟩ := hk k rfl
    cases hw : Read_wait_loop off size env.junk env.responses k.1
        { bytes_read := k.2, errno := none, blks_to_process := c.2.blks_to_process,
          blks_processed := [] } with
    | none => rw [hw] at h; cases h
    | some p =>
      obtain ⟨s3, v⟩ := p
      rw [hw] at h
      dsimp only at h
      have hcfi3 := Read_wait_loop_cfi off size env.junk env.responses _ _ s3 v hw
      obtain ⟨g1, g2⟩ := Read_wait_loop_grows off size env.junk env.responses _ _ s3 v hw
      have hkwf : s.MapWF → k.1.MapWF := by
        intro hwf j b hb
        rw [hk2] at hb
        rw [hk1]
        exact hdwf hwf j b hb
      have hs3 : s3.m_cfi = s.m_cfi ∧ (s.MapWF → s3.MapWF) ∧
          ∀ j ∈ c.2.blks_to_process, s3.m_block_map.find j ≠ none := by
        refine ⟨hcfi3.trans (hk1.trans (hd1.trans hc1)), fun hwf => g1 (hkwf hwf), ?_⟩
        intro j hj
        apply g2
        rw [hk2, hd2]
        exact hc3 j hj
      have hx : x.1 = s3 ∨ x.1 = { s3 with m_stats :=
          { s3.m_stats with m_BytesMissed := s3.m_stats.m_BytesMissed + d.2 } } := by
        split_ifs at h <;> rw [← Option.some.inj h]
        · exact Or.inr rfl
        · exact Or.inl rfl
        · exact Or.inl rfl
      rcases hx with hx | hx
      · rw [hx]
        exact hs3
      · rw [hx]
        exact hs3

/-- The effect of the calls of `dec_ref_count` for the blocks of a list without repetition: the
ref-count of each block of the list is one less, or the block is freed when its ref-count has
come to 0 and it is finished; every other block is as it was. -/
theorem release_find (l : List Int) (s : File) (hBS : 0 < s.m_cfi.GetBufferSize) (hwf : s.MapWF)
    (hnd : l.Nodup) (k : Int) :
    (l.foldl dec_ref_count s).m_block_map.find k =
      if k ∈ l then
        (s.m_block_map.find k).bind (fun blk =>
          if blk.m_refcnt - 1 = 0 ∧ blk.is_finished = true then none
          else some { blk with m_refcnt := blk.m_refcnt - 1 })
      else s.m_block_map.find k := by
  induction l generalizing s with
  | nil => simp
  | cons b rest ih =>
    rw [List.foldl_cons]
    rw [List.nodup_cons] at hnd
    have hBS1 : 0 < (s.dec_ref_count b).m_cfi.GetBufferSize := by
      rw [dec_ref_count_cfi]; exact hBS
    rw [ih (s.dec_ref_count b) hBS1 (dec_ref_count_MapWF s b hBS hwf) hnd.2,
      dec_ref_count_find s b hBS hwf k]
    by_cases hkb : k = b
    · subst hkb
      rw [if_neg hnd.1, if_pos rfl, if_pos (List.mem_cons_self _ _)]
    · rw [if_neg hkb]
      by_cases hkr : k ∈ rest
      · rw [if_pos hkr, if_pos (List.mem_cons_of_mem _ hkr)]
      · rw [if_neg hkr, if_neg (by
          intro hh
          rcases List.mem_cons.mp hh with hh | hh
          · exact hkb hh
          · exact hkr hh)]

/-- C13: the calls of `dec_ref_count` of a call of `Read` (`Read_release`, which gives the state
that `Read` leaves) are, on every path on which `Read` returns, one call for each block that the
classification took, in some order; the classification took each block once and added 1 to the
ref-count of the blocks it took and nothing to that of any other block.  `Read` returns when the
collaborators serve it.  In the state that `Read` leaves, each block that the classification took
has a ref-count one below the one it had when `Read` began to release (or it has left the map,
when that brought the ref-count of a finished block to 0), and every other block is as it was
then.  In the cold read of the file of 3000 bytes the three blocks have ref-count 2 when `Read`
begins to release (the reference of the reader and the one of the writeback) and ref-count 1
when it returns. -/
theorem Read_releases_what_it_took (s : File) (off size : Int) (env : ReadEnv) :
    (Read s off size env).map ReadResult.file
      = (Read_release s off size env).map (fun x => x.2.foldl dec_ref_count x.1) ∧
    (∀ k, refcnt_of (Read_classify s env.cache (cdiv off s.m_cfi.GetBufferSize)
          (cdiv (off + size - 1) s.m_cfi.GetBufferSize)).1 k
        = refcnt_of s k + ((Read_classify s env.cache (cdiv off s.m_cfi.GetBufferSize)
          (cdiv (off + size - 1) s.m_cfi.GetBufferSize)).2.blks_to_process.count k : Int)) ∧
    (Read_classify s env.cache (cdiv off s.m_cfi.GetBufferSize)
      (cdiv (off + size - 1) s.m_cfi.GetBufferSize)).2.blks_to_process.Nodup ∧
    (∀ x, Read_release s off size env = some x →
      x.2.Perm (Read_classify s env.cache (cdiv off s.m_cfi.GetBufferSize)
        (cdiv (off + size - 1) s.m_cfi.GetBufferSize)).2.blks_to_process) ∧
    (0 < s.m_cfi.GetBufferSize → s.MapWF → Read_served s off size env = true →
      ∃ x, Read_release s off size env = some x) ∧
    (∀ r x, Read s off size env = some r → Read_release s off size env = some x →
      0 < s.m_cfi.GetBufferSize → s.MapWF →
      (∀ k ∈ (Read_classify s env.cache (cdiv off s.m_cfi.GetBufferSize)
          (cdiv (off + size - 1) s.m_cfi.GetBufferSize)).2.blks_to_process,
        ∃ b, x.1.m_block_map.find k = some b ∧
          r.file.m_block_map.find k
            = if b.m_refcnt - 1 = 0 ∧ b.is_finished = true then none
              else some { b with m_refcnt := b.m_refcnt - 1 }) ∧
      (∀ k, k ∉ (Read_classify s env.cache (cdiv off s.m_cfi.GetBufferSize)
          (cdiv (off + size - 1) s.m_cfi.GetBufferSize)).2.blks_to_process →
        r.file.m_block_map.find k = x.1.m_block_map.find k) ∧
      (∀ k, refcnt_of r.file k
        = refcnt_of x.1 k - ((Read_classify s env.cache (cdiv off s.m_cfi.GetBufferSize)
          (cdiv (off + size - 1) s.m_cfi.GetBufferSize)).2.blks_to_process.count k : Int))) ∧
    ((Read_release file3000 0 3000 envCold).map (fun x => ([0, 1, 2].map (refcnt_of x.1), x.2))
        = some ([2, 2, 2], [0, 1, 2]) ∧
      (Read file3000 0 3000 envCold).map (fun r => ([0, 1, 2].map (refcnt_of r.file), r.ret))
        = some ([1, 1, 1], 3000)) := by
  have hnodup : (Read_classify s env.cache (cdiv off s.m_cfi.GetBufferSize)
      (cdiv (off + size - 1) s.m_cfi.GetBufferSize)).2.blks_to_process.Nodup := by
    have hp := (Read_classify_spec env.cache s (cdiv off s.m_cfi.GetBufferSize)
      (cdiv (off + size - 1) s.m_cfi.GetBufferSize)).2.2
    have hn := (List.Perm.nodup_iff hp).mpr (idxRange_nodup _ _)
    rw [List.append_assoc] at hn
    exact (List.nodup_append.mp hn).1
  refine ⟨Read_file_release s off size env, ?_, hnodup, Read_release_perm s off size env, ?_, ?_,
    by decide, by decide⟩
  · intro k
    have := Read_classify_fold_refcnt env.cache
      (idxRange (cdiv off s.m_cfi.GetBufferSize) (cdiv (off + size - 1) s.m_cfi.GetBufferSize))
      (s, { blks_to_process := [], blks_on_disk := [], blks_direct := [] }) k
    unfold Read_classify
    simp only [List.count_nil, Nat.cast_zero, add_zero] at this
    exact this
  · intro hBS hwf hserved
    obtain ⟨r, hr, _⟩ := Read_ret_spec s off size env hBS hwf hserved
    have hm := Read_file_release s off size env
    rw [hr] at hm
    cases hx : Read_release s off size env with
    | none => rw [hx] at hm; cases hm
    | some x => exact ⟨x, rfl⟩
  · intro r x hr hx hBS hwf
    have hm := Read_file_release s off size env
    rw [hr, hx] at hm
    have hfile : r.file = x.2.foldl dec_ref_count x.1 := Option.some.inj hm
    have hperm := Read_release_perm s off size env x hx
    obtain ⟨hcfi, hwf1, hin⟩ := Read_release_state s off size env x hx
    have hnd : x.2.Nodup := (List.Perm.nodup_iff hperm).mpr hnodup
    have hfind := release_find x.2 x.1 (by rw [hcfi]; exact hBS) (hwf1 hwf) hnd
    have hone : ∀ k ∈ (Read_classify s env.cache (cdiv off s.m_cfi.GetBufferSize)
          (cdiv (off + size - 1) s.m_cfi.GetBufferSize)).2.blks_to_process,
        ∃ b, x.1.m_block_map.find k = some b ∧
          r.file.m_block_map.find k
            = if b.m_refcnt - 1 = 0 ∧ b.is_finished = true then none
              else some { b with m_refcnt := b.m_refcnt - 1 } := by
      intro k hk
      cases hb : x.1.m_block_map.find k with
      | none => exact absurd hb (hin k hk)
      | some b =>
        refine ⟨b, rfl, ?_⟩
        rw [hfile, hfind k, if_pos ((List.Perm.mem_iff hperm).mpr hk), hb]
        rfl
    have hother : ∀ k, k ∉ (Read_classify s env.cache (cdiv off s.m_cfi.GetBufferSize)
          (cdiv (off + size - 1) s.m_cfi.GetBufferSize)).2.blks_to_process →
        r.file.m_block_map.find k = x.1.m_block_map.find k := by
      intro k hk
      rw [hfile, hfind k, if_neg (fun hh => hk ((List.Perm.mem_iff hperm).mp hh))]
    refine ⟨hone, hother, ?_⟩
    intro k
    by_cases hk : k ∈ (Read_classify s env.cache (cdiv off s.m_cfi.GetBufferSize)
        (cdiv (off + size - 1) s.m_cfi.GetBufferSize)).2.blks_to_process
    · obtain ⟨b, hb1, hb2⟩ := hone k hk
      rw [List.count_eq_one_of_mem hnodup hk]
      unfold refcnt_of
      rw [hb1, hb2]
      dsimp only
      by_cases hz : b.m_refcnt - 1 = 0 ∧ b.is_finished = true
      · rw [if_pos hz]
        dsimp only
        omega
      · rw [if_neg hz]
        dsimp only
        omega
    · rw [List.count_eq_zero_of_not_mem hk]
      unfold refcnt_of
      rw [hother k hk]
      simp

end File

namespace File

/-- C15: `ProcessBlockResponse` for a block of the map that is neither downloaded nor failed marks
the block downloaded iff the result is not negative and failed iff it is negative (with the error
stored), adds exactly 1 to its ref-count, leaves every other block as it was, and appends the block
to the write queue iff the result is not negative. -/
theorem ProcessBlockResponse_marks_once (s : File) (b res err : Int) (blk : Block)
    (hb : s.m_block_map.find b = some blk)
    (hnew : blk.m_downloaded = false ∧ blk.m_failed = false) :
    (∃ blk1, (s.ProcessBlockResponse b res err).m_block_map.find b = some blk1 ∧
      (blk1.m_downloaded = true ↔ res ≥ 0) ∧ (blk1.m_failed = true ↔ res < 0) ∧
      (blk1.m_downloaded = true ↔ ¬ blk1.m_failed = true) ∧
      blk1.m_refcnt = blk.m_refcnt + 1 ∧ (res < 0 → blk1.m_errno = err) ∧
      blk1.m_offset = blk.m_offset ∧ blk1.m_size = blk.m_size ∧ blk1.m_prefetch = blk.m_prefetch) ∧
    (∀ j, j ≠ b → (s.ProcessBlockResponse b res err).m_block_map.find j = s.m_block_map.find j) ∧
    (s.ProcessBlockResponse b res err).cache.write_queue
      = (if res ≥ 0 then s.cache.write_queue ++ [b] else s.cache.write_queue) ∧
    ((s.ProcessBlockResponse b res err).cache.write_queue.count b
      = s.cache.write_queue.count b + (if res ≥ 0 then 1 else 0)) := by
  have hq := ProcessBlockResponse_queue s b res err blk hb
  refine ⟨?_, fun j hj => find_ProcessBlockResponse_ne s b res err j hj, hq, ?_⟩
  · have hfind : (s.ProcessBlockResponse b res err).m_block_map.find b =
        some (if res ≥ 0 then { blk with m_downloaded := true, m_refcnt := blk.m_refcnt + 1 }
              else { blk with m_errno := err, m_failed := true, m_refcnt := blk.m_refcnt + 1 }) := by
      rw [find_ProcessBlockResponse, if_pos rfl, hb]
      rfl
    rw [hfind]
    by_cases hr : res ≥ 0
    · refine ⟨_, rfl, ?_⟩
      rw [if_pos hr]
      dsimp only
      rw [hnew.2]
      refine ⟨by simp [hr], ?_, by simp, rfl, ?_, rfl, rfl, rfl⟩
      · constructor
        · intro h; cases h
        · intro h; omega
      · intro h; omega
    · refine ⟨_, rfl, ?_⟩
      rw [if_neg hr]
      dsimp only
      rw [hnew.1]
      refine ⟨?_, ?_, by simp, rfl, fun _ => rfl, rfl, rfl, rfl⟩
      · constructor
        · intro h; cases h
        · intro h; exact absurd h hr
      · constructor
        · intro _; omega
        · intro _; rfl
  · rw [hq]
    by_cases hr : res ≥ 0
    · rw [if_pos hr, if_pos hr, List.count_append, List.count_singleton_self]
    · rw [if_neg hr, if_neg hr]
      rfl

/-- C15 at the prefetched block 0 of the file of 3000 bytes, answered with a failure. -/
theorem ProcessBlockResponse_marks_once_witness :
    (sysPrefetched.file.m_block_map.find 0 = some blockPrefetched ∧
      (blockPrefetched.m_downloaded = false ∧ blockPrefetched.m_failed = false)) ∧
    ((∃ blk1, (sysPrefetched.file.ProcessBlockResponse 0 (-1) 5).m_block_map.find 0 = some blk1 ∧
      (blk1.m_downloaded = true ↔ (-1 : Int) ≥ 0) ∧ (blk1.m_failed = true ↔ (-1 : Int) < 0) ∧
      (blk1.m_downloaded = true ↔ ¬ blk1.m_failed = true) ∧
      blk1.m_refcnt = blockPrefetched.m_refcnt + 1 ∧ ((-1 : Int) < 0 → blk1.m_errno = 5) ∧
      blk1.m_offset = blockPrefetched.m_offset ∧ blk1.m_size = blockPrefetched.m_size ∧
      blk1.m_prefetch = blockPrefetched.m_prefetch) ∧
    (∀ j, j ≠ 0 → (sysPrefetched.file.ProcessBlockResponse 0 (-1) 5).m_block_map.find j
      = sysPrefetched.file.m_block_map.find j) ∧
    (sysPrefetched.file.ProcessBlockResponse 0 (-1) 5).cache.write_queue
      = (if (-1 : Int) ≥ 0 then sysPrefetched.file.cache.write_queue ++ [0]
         else sysPrefetched.file.cache.write_queue) ∧
    ((sysPrefetched.file.ProcessBlockResponse 0 (-1) 5).cache.write_queue.count 0
      = sysPrefetched.file.cache.write_queue.count 0 + (if (-1 : Int) ≥ 0 then 1 else 0))) :=
  ⟨⟨by decide, by decide, by decide⟩,
    ProcessBlockResponse_marks_once sysPrefetched.file 0 (-1) 5 blockPrefetched (by decide)
      ⟨by decide, by decide⟩⟩

/-- The fields of the sync status after one call of `WriteBlockToDisk` that does not give up. -/
theorem WriteBlockToDisk_sync_status (s : File) (b : Int) (w : Nat → WriteResult) (blk : Block)
    (hb : s.m_block_map.find b = some blk) (hw : (WriteBlockToDisk_write s blk w).2 = false) :
    (s.m_in_sync = true →
      (WriteBlockToDisk s b w).m_in_sync = true ∧
      (WriteBlockToDisk s b w).sync_jobs = s.sync_jobs ∧
      (WriteBlockToDisk s b w).m_non_flushed_cnt = s.m_non_flushed_cnt ∧
      (WriteBlockToDisk s b w).m_writes_during_sync
        = s.m_writes_during_sync ++ [WriteBlockToDisk_pfIdx s blk] ∧
      (WriteBlockToDisk s b w).m_cfi.write_called_bits = s.m_cfi.write_called_bits) ∧
    (s.m_in_sync = false →
      (WriteBlockToDisk s b w).m_writes_during_sync = s.m_writes_during_sync ∧
      (WriteBlockToDisk s b w).m_cfi.write_called_bits
        = WriteBlockToDisk_pfIdx s blk :: s.m_cfi.write_called_bits ∧
      (s.m_non_flushed_cnt + 1 < 100 →
        (WriteBlockToDisk s b w).m_in_sync = false ∧
        (WriteBlockToDisk s b w).sync_jobs = s.sync_jobs ∧
        (WriteBlockToDisk s b w).m_non_flushed_cnt = s.m_non_flushed_cnt + 1) ∧
      (100 ≤ s.m_non_flushed_cnt + 1 →
        (WriteBlockToDisk s b w).m_in_sync = true ∧
        (WriteBlockToDisk s b w).sync_jobs = s.sync_jobs + 1 ∧
        (WriteBlockToDisk s b w).m_non_flushed_cnt = 0)) := by
  have hstat : ∀ t : File, ∀ k : Int,
      (t.dec_ref_count k).m_non_flushed_cnt = t.m_non_flushed_cnt ∧
      (t.dec_ref_count k).sync_jobs = t.sync_jobs := by
    intro t k
    unfold dec_ref_count
    cases t.m_block_map.find k with
    | none => exact ⟨rfl, rfl⟩
    | some x =>
      dsimp only
      have hfree : ∀ u : File, (u.free_block k).m_non_flushed_cnt = u.m_non_flushed_cnt ∧
          (u.free_block k).sync_jobs = u.sync_jobs := by
        intro u
        unfold free_block
        cases u.m_block_map.find k with
        | none => exact ⟨rfl, rfl⟩
        | some _ => dsimp only; split_ifs <;> exact ⟨rfl, rfl⟩
      split_ifs
      · exact hfree _
      · exact ⟨rfl, rfl⟩
  have hfr := dec_ref_count_frame (WriteBlockToDisk_setbit s (WriteBlockToDisk_pfIdx s blk)) b
  have h1 : (dec_ref_count (WriteBlockToDisk_setbit s (WriteBlockToDisk_pfIdx s blk)) b).m_in_sync
      = s.m_in_sync := (frame_in_sync hfr).trans rfl
  have h2 : (dec_ref_count (WriteBlockToDisk_setbit s (WriteBlockToDisk_pfIdx s blk))
      b).m_writes_during_sync = s.m_writes_during_sync := (frame_deferred hfr).trans rfl
  have h3 : (dec_ref_count (WriteBlockToDisk_setbit s (WriteBlockToDisk_pfIdx s blk))
      b).m_cfi.write_called_bits = s.m_cfi.write_called_bits :=
    (congrArg Info.write_called_bits (frame_cfi hfr)).trans rfl
  have h4 : (dec_ref_count (WriteBlockToDisk_setbit s (WriteBlockToDisk_pfIdx s blk))
      b).m_non_flushed_cnt = s.m_non_flushed_cnt := (hstat _ b).1.trans rfl
  have h5 : (dec_ref_count (WriteBlockToDisk_setbit s (WriteBlockToDisk_pfIdx s blk))
      b).sync_jobs = s.sync_jobs := (hstat _ b).2.trans rfl
  have he : WriteBlockToDisk s b w = WriteBlockToDisk_synced
      (dec_ref_count (WriteBlockToDisk_setbit s (WriteBlockToDisk_pfIdx s blk)) b)
      (WriteBlockToDisk_pfIdx s blk) := by
    unfold WriteBlockToDisk
    rw [hb]
    dsimp only
    rw [if_neg (by rw [hw]; simp)]
  rw [he]
  generalize dec_ref_count (WriteBlockToDisk_setbit s (WriteBlockToDisk_pfIdx s blk)) b = t
    at h1 h2 h3 h4 h5
  unfold WriteBlockToDisk_synced
  refine ⟨?_, ?_⟩
  · intro hin
    rw [if_pos (h1.trans hin)]
    exact ⟨h1.trans hin, h5, h4, by rw [← h2], h3⟩
  · intro hin
    rw [if_neg (by rw [h1, hin]; simp)]
    dsimp only
    refine ⟨?_, ?_, ?_, ?_⟩
    · split_ifs <;> exact h2
    · split_ifs <;> (show _ :: t.m_cfi.write_called_bits = _; rw [h3])
    · intro hlt
      rw [if_neg (by rw [h4]; omega)]
      exact ⟨h1.trans hin, h5, by rw [← h4]⟩
    · intro hge
      rw [if_pos (by rw [h4]; omega)]
      exact ⟨rfl, by rw [← h5], rfl⟩

/-- The sync status after a sequence of writebacks that starts with `m_in_sync` clear. -/
theorem WriteBlockToDisk_all_sync (l : List (Int × (Nat → WriteResult))) (s : File)
    (hcnt : 0 ≤ s.m_non_flushed_cnt) (hin : s.m_in_sync = false) (hok : Writebacks_done s l) :
    (s.m_non_flushed_cnt + l.length < 100 →
      (WriteBlockToDisk_all s l).m_in_sync = false ∧
      (WriteBlockToDisk_all s l).sync_jobs = s.sync_jobs ∧
      (WriteBlockToDisk_all s l).m_non_flushed_cnt = s.m_non_flushed_cnt + l.length) ∧
    (100 ≤ s.m_non_flushed_cnt + l.length →
      s.m_non_flushed_cnt < 100 →
      (WriteBlockToDisk_all s l).m_in_sync = true ∧
      (WriteBlockToDisk_all s l).sync_jobs = s.sync_jobs + 1) := by
  have hsync : ∀ (l : List (Int × (Nat → WriteResult))) (s : File), s.m_in_sync = true →
      Writebacks_done s l →
      (WriteBlockToDisk_all s l).m_in_sync = true ∧
      (WriteBlockToDisk_all s l).sync_jobs = s.sync_jobs := by
    intro l
    induction l with
    | nil => intro s hs _; exact ⟨hs, rfl⟩
    | cons c rest ih =>
      intro s hs hd
      obtain ⟨⟨blk, hb, hw⟩, hrest⟩ := hd
      obtain ⟨g1, g2, _⟩ := (WriteBlockToDisk_sync_status s c.1 c.2 blk hb hw).1 hs
      obtain ⟨i1, i2⟩ := ih _ g1 hrest
      exact ⟨i1, i2.trans g2⟩
  induction l generalizing s with
  | nil =>
    refine ⟨fun _ => ⟨hin, rfl, by simp [WriteBlockToDisk_all]⟩, ?_⟩
    intro h1 h2
    simp only [List.length_nil, Nat.cast_zero, add_zero] at h1
    omega
  | cons c rest ih =>
    obtain ⟨⟨blk, hb, hw⟩, hrest⟩ := hok
    obtain ⟨_, _, g3, g4⟩ := (WriteBlockToDisk_sync_status s c.1 c.2 blk hb hw).2 hin
    rw [show WriteBlockToDisk_all s (c :: rest)
      = WriteBlockToDisk_all (WriteBlockToDisk s c.1 c.2) rest from rfl]
    simp only [List.length_cons, Nat.cast_add, Nat.cast_one]
    by_cases hlt : s.m_non_flushed_cnt + 1 < 100
    · obtain ⟨k1, k2, k3⟩ := g3 hlt
      obtain ⟨i1, i2⟩ := ih (WriteBlockToDisk s c.1 c.2) (by rw [k3]; omega) k1 hrest
      rw [k3, k2] at i1 i2
      refine ⟨?_, ?_⟩
      · intro h
        obtain ⟨j1, j2, j3⟩ := i1 (by omega)
        exact ⟨j1, j2, by rw [j3]; ring⟩
      · intro h1 h2
        exact i2 (by omega) (by omega)
    · obtain ⟨k1, k2, k3⟩ := g4 (by omega)
      obtain ⟨i1, i2⟩ := hsync rest _ k1 hrest
      refine ⟨?_, ?_⟩
      · intro h
        have : (0 : Int) ≤ (rest.length : Int) := Int.ofNat_nonneg _
        omega
      · intro _ _
        exact ⟨i1, by rw [i2, k2]⟩

theorem Writebacks_done_take (l : List (Int × (Nat → WriteResult))) (s : File) (n : Nat)
    (hok : Writebacks_done s l) : Writebacks_done s (l.take n) := by
  induction l generalizing s n with
  | nil => rw [List.take_nil]; exact hok
  | cons c rest ih =>
    cases n with
    | zero => exact True.intro
    | succ m =>
      rw [List.take_succ_cons]
      exact ⟨hok.1, ih _ m hok.2⟩

end File

namespace File

/-- C16: starting with `m_in_sync` clear and `m_non_flushed_cnt = 0`, a sequence of calls of
`WriteBlockToDisk` that do not give up, with no `Sync` in between, schedules no sync job when it
has fewer than 100 calls and exactly one when it has 100 or more, the one that the hundredth call
schedules when it sets `m_in_sync`; a call that starts with `m_in_sync` set schedules no job, leaves
the write-called bits as they are and appends its index to `m_writes_during_sync`; a call
schedules a job exactly when it changes `m_in_sync` from false to true. -/
theorem sync_job_at_hundredth_writeback (s : File) (l : List (Int × (Nat → WriteResult)))
    (hin : s.m_in_sync = false) (hcnt : s.m_non_flushed_cnt = 0) (hok : Writebacks_done s l) :
    (l.length < 100 →
      (WriteBlockToDisk_all s l).sync_jobs = s.sync_jobs ∧
      (WriteBlockToDisk_all s l).m_in_sync = false ∧
      (WriteBlockToDisk_all s l).m_non_flushed_cnt = l.length) ∧
    (100 ≤ l.length →
      (WriteBlockToDisk_all s l).sync_jobs = s.sync_jobs + 1 ∧
      (WriteBlockToDisk_all s l).m_in_sync = true ∧
      (WriteBlockToDisk_all s (l.take 99)).sync_jobs = s.sync_jobs ∧
      (WriteBlockToDisk_all s (l.take 99)).m_in_sync = false ∧
      (WriteBlockToDisk_all s (l.take 100)).sync_jobs = s.sync_jobs + 1 ∧
      (WriteBlockToDisk_all s (l.take 100)).m_in_sync = true) ∧
    (∀ (t : File) (b : Int) (w : Nat → WriteResult) (blk : Block),
      t.m_block_map.find b = some blk → (WriteBlockToDisk_write t blk w).2 = false →
      (t.m_in_sync = true →
        (WriteBlockToDisk t b w).sync_jobs = t.sync_jobs ∧
        (WriteBlockToDisk t b w).m_in_sync = true ∧
        (WriteBlockToDisk t b w).m_writes_during_sync
          = t.m_writes_during_sync ++ [WriteBlockToDisk_pfIdx t blk] ∧
        (WriteBlockToDisk t b w).m_cfi.write_called_bits = t.m_cfi.write_called_bits) ∧
      (WriteBlockToDisk t b w).sync_jobs = t.sync_jobs +
        (if t.m_in_sync = false ∧ (WriteBlockToDisk t b w).m_in_sync = true then 1 else 0)) := by
  have hc0 : (0 : Int) ≤ s.m_non_flushed_cnt := by omega
  refine ⟨?_, ?_, ?_⟩
  · intro hlt
    obtain ⟨g1, g2, g3⟩ := (WriteBlockToDisk_all_sync l s hc0 hin hok).1 (by omega)
    exact ⟨g2, g1, by rw [g3, hcnt]; simp⟩
  · intro hge
    obtain ⟨g1, g2⟩ := (WriteBlockToDisk_all_sync l s hc0 hin hok).2 (by omega) (by omega)
    have h99 : (l.take 99).length = 99 := by rw [List.length_take]; omega
    have h100 : (l.take 100).length = 100 := by rw [List.length_take]; omega
    obtain ⟨a1, a2, _⟩ := (WriteBlockToDisk_all_sync (l.take 99) s hc0 hin
      (Writebacks_done_take l s 99 hok)).1 (by rw [h99, hcnt]; decide)
    obtain ⟨b1, b2⟩ := (WriteBlockToDisk_all_sync (l.take 100) s hc0 hin
      (Writebacks_done_take l s 100 hok)).2 (by rw [h100, hcnt]; decide) (by omega)
    exact ⟨g2, g1, a2, a1, b2, b1⟩
  · intro t b w blk hb hw
    have hst := WriteBlockToDisk_sync_status t b w blk hb hw
    refine ⟨?_, ?_⟩
    · intro hs
      obtain ⟨g1, g2, _, g4, g5⟩ := hst.1 hs
      exact ⟨g2, g1, g4, g5⟩
    · cases hs : t.m_in_sync with
      | true =>
        obtain ⟨_, g2, _⟩ := hst.1 hs
        rw [g2, if_neg (by simp)]
        rfl
      | false =>
        obtain ⟨_, _, g3, g4⟩ := hst.2 hs
        by_cases hlt : t.m_non_flushed_cnt + 1 < 100
        · obtain ⟨k1, k2, _⟩ := g3 hlt
          rw [k2, if_neg (by rw [k1]; simp)]
          rfl
        · obtain ⟨k1, k2, _⟩ := g4 (by omega)
          rw [k2, if_pos ⟨rfl, k1⟩]

theorem Writebacks_done_of_ok (l : List (Int × (Nat → WriteResult))) (s : File)
    (h : Writebacks_ok s l = true) : Writebacks_done s l := by
  induction l generalizing s with
  | nil => exact True.intro
  | cons c rest ih =>
    unfold Writebacks_ok at h
    rw [Bool.and_eq_true] at h
    refine ⟨?_, ih _ h.2⟩
    cases hf : s.m_block_map.find c.1 with
    | none =>
      have h1 := h.1
      rw [hf] at h1
      cases h1
    | some blk =>
      have h1 := h.1
      rw [hf] at h1
      dsimp only at h1
      refine ⟨blk, rfl, ?_⟩
      cases hw : (WriteBlockToDisk_write s blk c.2).2 with
      | false => rfl
      | true => rw [hw] at h1; cases h1

/-- C16 at the 101 writebacks of the blocks of `file101`: the first 99 schedule no sync job, the
100th sets `m_in_sync` and schedules the one job, and the 101st schedules none, leaves the
write-called bit of its block clear and appends its index to `m_writes_during_sync`. -/
theorem sync_job_at_hundredth_writeback_witness :
    (file101.m_in_sync = false ∧ file101.m_non_flushed_cnt = 0 ∧
      Writebacks_done file101 writeback101) ∧
    (writeback101.length = 101 ∧
      (WriteBlockToDisk_all file101 writeback101).m_writes_during_sync = [100] ∧
      (WriteBlockToDisk_all file101 writeback101).m_cfi.TestBit 100 = true ∧
      (WriteBlockToDisk_all file101 writeback101).m_cfi.TestWriteCalledBit 100 = false ∧
      (WriteBlockToDisk_all file101 writeback101).m_cfi.TestWriteCalledBit 99 = true) ∧
    ((WriteBlockToDisk_all file101 writeback101).sync_jobs = file101.sync_jobs + 1 ∧
      (WriteBlockToDisk_all file101 writeback101).m_in_sync = true ∧
      (WriteBlockToDisk_all file101 (writeback101.take 99)).sync_jobs = file101.sync_jobs ∧
      (WriteBlockToDisk_all file101 (writeback101.take 99)).m_in_sync = false ∧
      (WriteBlockToDisk_all file101 (writeback101.take 100)).sync_jobs = file101.sync_jobs + 1 ∧
      (WriteBlockToDisk_all file101 (writeback101.take 100)).m_in_sync = true) := by
  have hok : Writebacks_done file101 writeback101 :=
    Writebacks_done_of_ok writeback101 file101 (by set_option maxRecDepth 1000000 in decide)
  exact ⟨⟨by decide, by decide, hok⟩,
    ⟨by decide, by set_option maxRecDepth 1000000 in decide,
      by set_option maxRecDepth 1000000 in decide,
      by set_option maxRecDepth 1000000 in decide,
      by set_option maxRecDepth 1000000 in decide⟩,
    (sync_job_at_hundredth_writeback file101 writeback101 (by decide) (by decide) hok).2.1
      (by decide)⟩

theorem Sync_other_bits (l : List Int) (c : Info) :
    (l.foldl Info.SetBitWriteCalled c).prefetch_bits = c.prefetch_bits ∧
    (l.foldl Info.SetBitWriteCalled c).file_size = c.file_size := by
  induction l generalizing c with
  | nil => exact ⟨rfl, rfl⟩
  | cons i rest ih =>
    rw [List.foldl_cons]
    obtain ⟨h1, h2⟩ := ih (c.SetBitWriteCalled i)
    exact ⟨h1, h2⟩

/-- C17: after `Sync` the write-called bit of an index is set iff the index was in
`m_writes_during_sync` or the bit was set before; the other bit vectors, the buffer size and the
file size are as before; `m_non_flushed_cnt` is the number of the deferred indices,
`m_writes_during_sync` is empty and `m_in_sync` is false; the block map is as before and no job is
scheduled.  With `m_non_flushed_cnt = 0` and no deferred index the info mirror and the counter are
unchanged. -/
theorem Sync_sets_deferred_bits (s : File) :
    (∀ p, (Sync s).m_cfi.TestWriteCalledBit p = true ↔
      (p ∈ s.m_writes_during_sync ∨ s.m_cfi.TestWriteCalledBit p = true)) ∧
    (Sync s).m_cfi.present_bits = s.m_cfi.present_bits ∧
    (Sync s).m_cfi.prefetch_bits = s.m_cfi.prefetch_bits ∧
    (Sync s).m_cfi.buffer_size = s.m_cfi.buffer_size ∧
    (Sync s).m_cfi.file_size = s.m_cfi.file_size ∧
    (Sync s).m_non_flushed_cnt = (s.m_writes_during_sync.length : Int) ∧
    (Sync s).m_writes_during_sync = [] ∧
    (Sync s).m_in_sync = false ∧
    (Sync s).m_block_map = s.m_block_map ∧
    (Sync s).sync_jobs = s.sync_jobs ∧
    (s.m_non_flushed_cnt = 0 → s.m_writes_during_sync = [] →
      (Sync s).m_cfi = s.m_cfi ∧ (Sync s).m_non_flushed_cnt = s.m_non_flushed_cnt) := by
  refine ⟨fun p => Sync_write_called s.m_writes_during_sync s.m_cfi p,
    (Sync_cfi s.m_writes_during_sync s.m_cfi).2, (Sync_other_bits s.m_writes_during_sync s.m_cfi).1,
    (Sync_cfi s.m_writes_during_sync s.m_cfi).1, (Sync_other_bits s.m_writes_during_sync s.m_cfi).2,
    rfl, rfl, rfl, rfl, rfl, ?_⟩
  intro h0 hl
  unfold Sync
  dsimp only
  rw [hl, h0]
  exact ⟨rfl, rfl⟩

end File

namespace BlockMap

theorem size_modify (m : BlockMap) (i : Int) (f : Block → Block) : size (modify m i f) = size m := by
  unfold size modify
  rw [List.length_map]

theorem not_mem_keys_of_find_none (m : BlockMap) (i : Int) (h : find m i = none) : i ∉ keys m := by
  induction m with
  | nil => simp [keys]
  | cons e rest ih =>
    obtain ⟨k, b⟩ := e
    rw [find_cons] at h
    by_cases hk : k = i
    · rw [if_pos hk] at h; cases h
    · rw [if_neg hk] at h
      simp only [keys, List.map_cons, List.mem_cons, not_or]
      exact ⟨fun hh => hk hh.symm, ih h⟩

theorem size_set_of_find_none (m : BlockMap) (i : Int) (b : Block) (h : find m i = none) :
    size (set m i b) = size m + 1 := by
  unfold set
  rw [erase_of_not_mem m i (not_mem_keys_of_find_none m i h)]
  unfold size
  simp

theorem find_modify_ne_none (m : BlockMap) (i : Int) (f : Block → Block) (k : Int)
    (h : find (modify m i f) k ≠ none) : find m k ≠ none := by
  rw [find_modify] at h
  by_cases hk : k = i
  · rw [if_pos hk] at h
    subst hk
    intro hn
    rw [hn] at h
    exact h rfl
  · rw [if_neg hk] at h
    exact h

end BlockMap

namespace File

theorem requested_append (s t : File) (h : ∃ F, t.origin_reads = s.origin_reads ++ F) (k : Int)
    (hk : s.requested k) : t.requested k := by
  obtain ⟨F, hF⟩ := h
  obtain ⟨rd, hrd, h1, h2⟩ := hk
  exact ⟨rd, by rw [hF]; exact List.mem_append_left _ hrd, h1, h2⟩

theorem Same_refl (s : File) : Same s s := ⟨rfl, rfl, rfl, rfl, rfl, [], by simp⟩

theorem Same_trans (s t u : File) (h1 : Same s t) (h2 : Same t u) : Same s u := by
  obtain ⟨a1, a2, a3, a4, a5, F, a6⟩ := h1
  obtain ⟨b1, b2, b3, b4, b5, G, b6⟩ := h2
  exact ⟨b1.trans a1, b2.trans a2, b3.trans a3, b4.trans a4, b5.trans a5, F ++ G,
    by rw [b6, a6, List.append_assoc]⟩

/-- The way to `Tracks` for an operation that leaves the info mirror as it is. -/
theorem Tracks_of (s t : File) (hcfi : t.m_cfi = s.m_cfi) (hoff : t.m_offset = s.m_offset)
    (hreads : ∃ F, t.origin_reads = s.origin_reads ++ F)
    (hinmap : ∀ k, t.m_block_map.find k ≠ none → s.m_block_map.find k ≠ none ∨ t.requested k)
    (hcomplete : t.m_prefetchState = PrefetchState.kComplete →
      s.m_prefetchState = PrefetchState.kComplete)
    (hhold : s.HoldOK → t.HoldOK) : Tracks s t :=
  ⟨by rw [hcfi], by rw [hcfi], hoff, fun i hi => by rw [hcfi]; exact hi,
    requested_append s t hreads, hinmap, hcomplete, hhold⟩

theorem Tracks_of_Same (s t : File) (h : Same s t) : Tracks s t := by
  obtain ⟨a1, a2, a3, a4, a5, a6⟩ := h
  refine Tracks_of s t a1 a2 a6 ?_ ?_ ?_
  · intro k hk
    rw [a3] at hk
    exact Or.inl hk
  · intro hc
    rw [a4] at hc
    exact hc
  · intro hh hst
    rw [a4] at hst
    rw [a3, a5]
    exact hh hst

theorem Tracks_refl (s : File) : Tracks s s := Tracks_of_Same s s (Same_refl s)

theorem Tracks_trans (s t u : File) (h1 : Tracks s t) (h2 : Tracks t u) : Tracks s u := by
  refine ⟨h2.bs.trans h1.bs, h2.bits_total.trans h1.bits_total, h2.offset.trans h1.offset,
    fun i hi => h2.present i (h1.present i hi), fun k hk => h2.reads k (h1.reads k hk), ?_,
    fun hc => h1.complete (h2.complete hc), fun hh => h2.hold (h1.hold hh)⟩
  intro k hk
  rcases h2.inmap k hk with h | h
  · rcases h1.inmap k h with g | g
    · exact Or.inl g
    · exact Or.inr (h2.reads k g)
  · exact Or.inr h

theorem Tracks_modify (s : File) (i : Int) (f : Block → Block) :
    Tracks s { s with m_block_map := s.m_block_map.modify i f } := by
  refine Tracks_of s _ rfl rfl ⟨[], by simp⟩ ?_ (fun h => h) ?_
  · intro k hk
    exact Or.inl (BlockMap.find_modify_ne_none _ _ _ _ hk)
  · intro hh hst
    show s.m_prefetch_max_blocks ≤ BlockMap.size (BlockMap.modify s.m_block_map i f)
    rw [BlockMap.size_modify]
    exact hh hst

theorem Tracks_inc_ref_count (s : File) (i : Int) : Tracks s (s.inc_ref_count i) :=
  Tracks_modify s i _

theorem Tracks_free_block (s : File) (b : Int) : Tracks s (s.free_block b) := by
  unfold free_block
  cases s.m_block_map.find b with
  | none => exact Tracks_refl s
  | some blk =>
    dsimp only
    have hin : ∀ k, BlockMap.find (BlockMap.erase s.m_block_map (cdiv blk.m_offset s.BufferSize)) k
        ≠ none → s.m_block_map.find k ≠ none := by
      intro k hk
      rw [BlockMap.find_erase] at hk
      split_ifs at hk
      · exact absurd rfl hk
      · exact hk
    by_cases hc : s.m_prefetchState = PrefetchState.kHold ∧
        BlockMap.size (BlockMap.erase s.m_block_map (cdiv blk.m_offset s.BufferSize))
          < s.m_prefetch_max_blocks
    · rw [if_pos hc]
      refine Tracks_of s _ rfl rfl ⟨[], by simp⟩ (fun k hk => Or.inl (hin k hk)) ?_ ?_
      · intro h; cases h
      · intro _ h; cases h
    · rw [if_neg hc]
      refine Tracks_of s _ rfl rfl ⟨[], by simp⟩ (fun k hk => Or.inl (hin k hk)) (fun h => h) ?_
      · intro _ hst
        have hst0 : s.m_prefetchState = PrefetchState.kHold := hst
        show s.m_prefetch_max_blocks
          ≤ BlockMap.size (BlockMap.erase s.m_block_map (cdiv blk.m_offset s.BufferSize))
        by_contra hlt
        exact hc ⟨hst0, by omega⟩

theorem Tracks_dec_ref_count (s : File) (b : Int) : Tracks s (s.dec_ref_count b) := by
  unfold dec_ref_count
  cases s.m_block_map.find b with
  | none => exact Tracks_refl s
  | some blk =>
    dsimp only
    split_ifs
    · exact Tracks_trans _ _ _ (Tracks_modify s b _) (Tracks_free_block _ b)
    · exact Tracks_modify s b _

theorem Tracks_release (l : List Int) (s : File) : Tracks s (l.foldl dec_ref_count s) := by
  induction l generalizing s with
  | nil => exact Tracks_refl s
  | cons b rest ih =>
    rw [List.foldl_cons]
    exact Tracks_trans _ _ _ (Tracks_dec_ref_count s b) (ih _)

theorem Tracks_RequestBlock (s : File) (i : Int) (p : Bool) (hi : s.m_block_map.find i = none) :
    Tracks s (s.RequestBlock i p) := by
  have hreads := RequestBlock_origin_reads s i p
  have hmap := RequestBlock_map s i p
  have hsize : (s.RequestBlock i p).m_block_map.size = s.m_block_map.size + 1 := by
    rw [hmap]; exact BlockMap.size_set_of_find_none _ _ _ hi
  have hmax : (s.RequestBlock i p).m_prefetch_max_blocks = s.m_prefetch_max_blocks := by
    unfold RequestBlock
    dsimp only
    split_ifs <;> rfl
  have hstate : (s.RequestBlock i p).m_prefetchState = s.m_prefetchState ∨
      ((s.RequestBlock i p).m_prefetchState = PrefetchState.kHold ∧
        s.m_prefetchState = PrefetchState.kOn ∧
        (s.RequestBlock i p).m_block_map.size > s.m_prefetch_max_blocks) := by
    unfold RequestBlock
    dsimp only
    split_ifs <;> first
      | (left; rfl)
      | (right; exact ⟨rfl, (by assumption : _ ∧ _).1, (by assumption : _ ∧ _).2⟩)
  refine Tracks_of s _ (RequestBlock_cfi s i p) (RequestBlock_offset s i p) ⟨_, hreads⟩ ?_ ?_ ?_
  · intro k hk
    rw [hmap, BlockMap.find_set] at hk
    by_cases hki : k = i
    · right
      rw [hki]
      unfold requested
      rw [hreads]
      exact ⟨_, List.mem_append_right _ (List.mem_singleton_self _), rfl, rfl⟩
    · rw [if_neg hki] at hk
      exact Or.inl hk
  · intro hc
    rcases hstate with h | ⟨h, _, _⟩
    · rw [h] at hc; exact hc
    · rw [h] at hc; cases hc
  · intro hh hst
    rw [hmax]
    rcases hstate with h | ⟨_, _, h3⟩
    · rw [h] at hst
      have := hh hst
      rw [hsize]
      omega
    · omega

theorem ProcessBlockResponse_state (s : File) (b res err : Int) :
    (s.ProcessBlockResponse b res err).m_prefetchState = s.m_prefetchState ∧
    (s.ProcessBlockResponse b res err).m_prefetch_max_blocks = s.m_prefetch_max_blocks ∧
    (s.ProcessBlockResponse b res err).m_block_map.size = s.m_block_map.size := by
  unfold ProcessBlockResponse
  cases s.m_block_map.find b with
  | none => exact ⟨rfl, rfl, rfl⟩
  | some _ =>
    dsimp only
    split_ifs
    · refine ⟨rfl, rfl, ?_⟩
      dsimp only
      rw [inc_ref_count_map, BlockMap.size_modify, BlockMap.size_modify]
    · refine ⟨rfl, rfl, ?_⟩
      dsimp only
      rw [inc_ref_count_map, BlockMap.size_modify, BlockMap.size_modify]

theorem Tracks_ProcessBlockResponse (s : File) (b res err : Int) :
    Tracks s (s.ProcessBlockResponse b res err) := by
  obtain ⟨h1, h2, h3⟩ := ProcessBlockResponse_state s b res err
  refine Tracks_of s _ (ProcessBlockResponse_cfi s b res err) (ProcessBlockResponse_offset s b res err)
    ⟨[], by rw [ProcessBlockResponse_origin_reads]; simp⟩ ?_ ?_ ?_
  · intro k hk
    left
    intro hn
    exact hk (find_none_ProcessBlockResponse s b res err k hn)
  · intro hc
    rw [h1] at hc
    exact hc
  · intro hh hst
    rw [h1] at hst
    rw [h2, h3]
    exact hh hst

theorem Tracks_Read_classify_step (ca : CacheAnswers) (acc : File × ReadLists) (i : Int) :
    Tracks acc.1 (Read_classify_step ca acc i).1 := by
  unfold Read_classify_step
  cases hf : acc.1.m_block_map.find i with
  | some x => exact Tracks_inc_ref_count acc.1 i
  | none =>
    dsimp only
    split_ifs
    · exact Tracks_refl _
    · have h1 : Tracks acc.1 { acc.1 with cache := acc.1.cache.RequestRAMBlock true } :=
        Tracks_of_Same _ _ ⟨rfl, rfl, rfl, rfl, rfl, [], by simp⟩
      have h2 := Tracks_RequestBlock { acc.1 with cache := acc.1.cache.RequestRAMBlock true } i
        false hf
      exact Tracks_trans _ _ _ h1 (Tracks_trans _ _ _ h2 (Tracks_inc_ref_count _ i))
    · exact Tracks_refl _

theorem Tracks_Read_classify_fold (ca : CacheAnswers) (l : List Int) (acc : File × ReadLists) :
    Tracks acc.1 (l.foldl (Read_classify_step ca) acc).1 := by
  induction l generalizing acc with
  | nil => exact Tracks_refl _
  | cons i rest ih =>
    rw [List.foldl_cons]
    exact Tracks_trans _ _ _ (Tracks_Read_classify_step ca acc i) (ih _)

theorem Same_CheckPrefetchStatDisk (s : File) (i : Int) : Same s (s.CheckPrefetchStatDisk i) := by
  unfold CheckPrefetchStatDisk
  split_ifs <;> exact ⟨rfl, rfl, rfl, rfl, rfl, [], by simp⟩

theorem Same_CheckPrefetchStatRAM (s : File) (b : Block) : Same s (s.CheckPrefetchStatRAM b) := by
  unfold CheckPrefetchStatRAM
  split_ifs <;> exact ⟨rfl, rfl, rfl, rfl, rfl, [], by simp⟩

theorem Same_RequestBlocksDirect_loop (off size : Int) (junk : Overlap) (l : List Int) (s : File)
    (total : Int) : Same s (RequestBlocksDirect_loop off size junk l (s, total)).1 := by
  induction l generalizing s total with
  | nil => exact Same_refl s
  | cons i rest ih =>
    unfold RequestBlocksDirect_loop
    dsimp only
    refine Same_trans s _ _ ?_ (ih _ _)
    exact ⟨rfl, rfl, rfl, rfl, rfl, _, rfl⟩

theorem Same_ReadBlocksFromDisk_loop (rd : Int → Int → Int) (off size : Int) (junk : Overlap)
    (l : List Int) (s : File) (total : Int) :
    Same s (ReadBlocksFromDisk_loop rd off size junk l (s, total)).1 := by
  induction l generalizing s total with
  | nil => exact ⟨rfl, rfl, rfl, rfl, rfl, [], by simp [ReadBlocksFromDisk_loop]⟩
  | cons i rest ih =>
    unfold ReadBlocksFromDisk_loop
    dsimp only
    split_ifs
    · exact Same_refl s
    · exact Same_refl s
    · exact Same_trans s _ _ (Same_CheckPrefetchStatDisk s i) (ih _ _)

theorem Same_Read_consume (off size : Int) (junk : Overlap) (fin : List (Int × Block)) (s : File)
    (br : Int) (e : Option Int) : Same s (Read_consume off size junk fin (s, br, e)).1 := by
  induction fin generalizing s br with
  | nil => exact Same_refl s
  | cons x rest ih =>
    obtain ⟨k, b⟩ := x
    unfold Read_consume
    dsimp only
    split_ifs
    · refine Same_trans s _ _ ?_ (ih _ _)
      refine Same_trans s _ _ ?_ (Same_CheckPrefetchStatRAM _ b)
      exact ⟨rfl, rfl, rfl, rfl, rfl, [], by simp⟩
    · exact Same_refl s

theorem Tracks_ioActive_stop (s : File) : Tracks s s.ioActive_stop := by
  unfold ioActive_stop
  by_cases hc : s.m_prefetchState ≠ PrefetchState.kStopped
  · rw [if_pos hc]
    refine Tracks_of s _ rfl rfl ⟨[], by simp⟩ (fun k hk => Or.inl hk) ?_ ?_
    · intro h; cases h
    · intro _ h; cases h
  · rw [if_neg hc]
    exact Tracks_refl s

theorem Tracks_WakeUp (s : File) : Tracks s s.WakeUp := by
  unfold WakeUp
  by_cases hc : s.m_prefetchState ≠ PrefetchState.kComplete
  · rw [if_pos hc]
    refine Tracks_of s _ rfl rfl ⟨[], by simp⟩ (fun k hk => Or.inl hk) ?_ ?_
    · intro h; cases h
    · intro _ h; cases h
  · rw [if_neg hc]
    exact Tracks_refl s

theorem Tracks_ioActive_sweep (s : File) : Tracks s s.ioActive_sweep := by
  unfold ioActive_sweep
  generalize s.m_block_map = l
  induction l generalizing s with
  | nil => exact Tracks_refl s
  | cons e rest ih =>
    rw [List.foldl_cons]
    split_ifs
    · exact Tracks_trans _ _ _ (Tracks_free_block s e.1) (ih _)
    · exact ih s

theorem Tracks_Prefetch_take (s : File) (g : Bool) (f : Int) (hf : s.m_block_map.find f = none) :
    Tracks s (s.Prefetch_take g f) := by
  unfold Prefetch_take
  dsimp only
  have h1 : Tracks s { s with cache := s.cache.RequestRAMBlock g } :=
    Tracks_of_Same _ _ ⟨rfl, rfl, rfl, rfl, rfl, [], by simp⟩
  have h2 := Tracks_RequestBlock { s with cache := s.cache.RequestRAMBlock g } f true hf
  refine Tracks_trans _ _ _ h1 (Tracks_trans _ _ _ h2 ?_)
  exact Tracks_of_Same _ _ ⟨rfl, rfl, rfl, rfl, rfl, [], by simp⟩

/-- The way to `Tracks` for an operation on the bits of the info mirror. -/
theorem Tracks_of_bits (s t : File) (hbs : t.m_cfi.buffer_size = s.m_cfi.buffer_size)
    (hfs : t.m_cfi.file_size = s.m_cfi.file_size)
    (hpres : ∀ i, s.m_cfi.TestBit i = true → t.m_cfi.TestBit i = true)
    (hoff : t.m_offset = s.m_offset) (hreads : t.origin_reads = s.origin_reads)
    (hmap : t.m_block_map = s.m_block_map) (hst : t.m_prefetchState = s.m_prefetchState)
    (hmax : t.m_prefetch_max_blocks = s.m_prefetch_max_blocks) : Tracks s t := by
  refine ⟨hbs, ?_, hoff, hpres, ?_, ?_, ?_, ?_⟩
  · unfold Info.GetSizeInBits
    rw [hbs, hfs]
  · intro k hk
    unfold requested at hk ⊢
    rw [hreads]; exact hk
  · intro k hk
    rw [hmap] at hk
    exact Or.inl hk
  · intro hc
    rw [hst] at hc; exact hc
  · intro hh h
    rw [hst] at h
    rw [hmap, hmax]
    exact hh h

theorem Tracks_setbit (s : File) (p : Int) : Tracks s (WriteBlockToDisk_setbit s p) := by
  refine Tracks_of_bits s _ rfl rfl ?_ rfl rfl rfl rfl rfl
  intro i hi
  unfold WriteBlockToDisk_setbit Info.SetBitFetched Info.TestBit at *
  rw [decide_eq_true_iff] at hi ⊢
  exact List.mem_cons_of_mem _ hi

theorem Tracks_synced (s : File) (p : Int) : Tracks s (WriteBlockToDisk_synced s p) := by
  unfold WriteBlockToDisk_synced
  by_cases hin : s.m_in_sync = true
  · rw [if_pos hin]
    exact Tracks_of_Same _ _ ⟨rfl, rfl, rfl, rfl, rfl, [], by simp⟩
  · rw [if_neg hin]
    dsimp only
    split_ifs <;> exact Tracks_of_bits s _ rfl rfl (fun i hi => hi) rfl rfl rfl rfl rfl

theorem Tracks_Sync (s : File) : Tracks s (Sync s) := by
  have h1 := Sync_cfi s.m_writes_during_sync s.m_cfi
  have h2 := Sync_other_bits s.m_writes_during_sync s.m_cfi
  refine Tracks_of_bits s _ h1.1 h2.2 ?_ rfl rfl rfl rfl rfl
  intro i hi
  show decide (i ∈ (s.m_writes_during_sync.foldl Info.SetBitWriteCalled s.m_cfi).present_bits) = true
  rw [h1.2]
  exact hi

end File

namespace File

/-- What one run of the loop of `Prefetch` from the value `f` of the loop variable does when
`m_offset / BS` is 0: it takes the lowest index from `f` on whose present bit is clear and which
is not in the block map, or there is no such index and it leaves the loop without a block. -/
theorem Prefetch_loop_exact (s : File) (g : Bool)
    (hshift : cdiv s.m_offset s.m_cfi.GetBufferSize = 0) (fuel : Nat) (f : Int) (r : File × Bool)
    (h : Prefetch_loop s g fuel f = some r) :
    (r = (s, false) ∧
      ∀ i, f ≤ i → i < s.m_cfi.GetSizeInBits →
        s.m_cfi.TestBit i = true ∨ s.m_block_map.find i ≠ none) ∨
    (∃ f1, f ≤ f1 ∧ f1 < s.m_cfi.GetSizeInBits ∧ s.m_cfi.TestBit f1 = false ∧
      s.m_block_map.find f1 = none ∧
      (∀ i, f ≤ i → i < f1 → s.m_cfi.TestBit i = true ∨ s.m_block_map.find i ≠ none) ∧
      r = (s.Prefetch_take g f1, true)) := by
  induction fuel generalizing f with
  | zero =>
    unfold Prefetch_loop at h
    cases h
  | succ n ih =>
    unfold Prefetch_loop at h
    by_cases h1 : f < s.m_cfi.GetSizeInBits
    · rw [if_pos h1] at h
      have hstep : (s.m_cfi.TestBit f = true ∨ s.m_block_map.find f ≠ none) →
          Prefetch_loop s g n (f + 1) = some r →
          ((r = (s, false) ∧
            ∀ i, f ≤ i → i < s.m_cfi.GetSizeInBits →
              s.m_cfi.TestBit i = true ∨ s.m_block_map.find i ≠ none) ∨
          (∃ f1, f ≤ f1 ∧ f1 < s.m_cfi.GetSizeInBits ∧ s.m_cfi.TestBit f1 = false ∧
            s.m_block_map.find f1 = none ∧
            (∀ i, f ≤ i → i < f1 → s.m_cfi.TestBit i = true ∨ s.m_block_map.find i ≠ none) ∧
            r = (s.Prefetch_take g f1, true))) := fun hf h => by
        rcases ih (f + 1) h with ⟨hr, hall⟩ | ⟨f1, ha, hb, hc, hd, he, hr⟩
        · left
          refine ⟨hr, ?_⟩
          intro i hi1 hi2
          by_cases hif : i = f
          · rw [hif]; exact hf
          · exact hall i (by omega) hi2
        · right
          refine ⟨f1, by omega, hb, hc, hd, ?_, hr⟩
          intro i hi1 hi2
          by_cases hif : i = f
          · rw [hif]; exact hf
          · exact he i (by omega) hi2
      by_cases h2 : (!s.m_cfi.TestBit f) = true
      · rw [if_pos h2] at h
        dsimp only at h
        rw [hshift, add_zero] at h
        have hbit : s.m_cfi.TestBit f = false := by
          cases hb : s.m_cfi.TestBit f with
          | false => rfl
          | true => rw [hb] at h2; cases h2
        cases hf : s.m_block_map.find f with
        | none =>
          rw [hf] at h
          dsimp only at h
          right
          refine ⟨f, le_refl _, h1, hbit, hf, ?_, (Option.some.inj h).symm⟩
          intro i hi1 hi2
          omega
        | some x =>
          rw [hf] at h
          dsimp only at h
          exact hstep (Or.inr (by rw [hf]; intro hh; cases hh)) h
      · rw [if_neg h2] at h
        have hbit : s.m_cfi.TestBit f = true := by
          cases hb : s.m_cfi.TestBit f with
          | false => rw [hb] at h2; exact absurd rfl h2
          | true => rfl
        exact hstep (Or.inl hbit) h
    · rw [if_neg h1] at h
      left
      refine ⟨(Option.some.inj h).symm, ?_⟩
      intro i hi1 hi2
      omega

/-- The loop of `Prefetch` ends within the passes that `Prefetch` allows when `m_offset / BS` is
not negative. -/
theorem Prefetch_loop_ends (s : File) (g : Bool)
    (hshift : 0 ≤ cdiv s.m_offset s.m_cfi.GetBufferSize) (fuel : Nat) (f : Int)
    (hfuel : (s.m_cfi.GetSizeInBits - f).toNat < fuel) :
    (Prefetch_loop s g fuel f).isSome = true := by
  induction fuel generalizing f with
  | zero => omega
  | succ n ih =>
    unfold Prefetch_loop
    by_cases h1 : f < s.m_cfi.GetSizeInBits
    · rw [if_pos h1]
      by_cases h2 : (!s.m_cfi.TestBit f) = true
      · rw [if_pos h2]
        dsimp only
        cases hf : s.m_block_map.find (f + cdiv s.m_offset s.m_cfi.GetBufferSize) with
        | none => rfl
        | some x =>
          dsimp only
          exact ih _ (by omega)
      · rw [if_neg h2]
        exact ih _ (by omega)
    · rw [if_neg h1]
      rfl

/-- The two ways of `Prefetch`. -/
theorem Prefetch_unfold (s : File) (g : Bool) (t : File) (h : s.Prefetch g = some t) :
    (s.m_prefetchState ≠ PrefetchState.kOn ∧ t = s) ∨
    (s.m_prefetchState = PrefetchState.kOn ∧
      ∃ r, Prefetch_loop s g (s.m_cfi.GetSizeInBits.toNat + 1) 0 = some r ∧
        t = if (!r.2) = true then Prefetch_complete r.1 else r.1) := by
  unfold Prefetch at h
  by_cases hst : s.m_prefetchState ≠ PrefetchState.kOn
  · rw [if_pos hst] at h
    exact Or.inl ⟨hst, (Option.some.inj h).symm⟩
  · rw [if_neg hst] at h
    right
    refine ⟨not_not.mp hst, ?_⟩
    cases hl : Prefetch_loop s g (s.m_cfi.GetSizeInBits.toNat + 1) 0 with
    | none => rw [hl] at h; cases h
    | some r =>
      rw [hl] at h
      obtain ⟨r1, r2⟩ := r
      dsimp only at h
      refine ⟨(r1, r2), rfl, ?_⟩
      dsimp only
      by_cases hr : (!r2) = true
      · rw [if_pos hr] at h ⊢
        exact (Option.some.inj h).symm
      · rw [if_neg hr] at h ⊢
        exact (Option.some.inj h).symm

/-- `Prefetch` leaves the file as it is, or takes a block that is not in the map, or finds no block
and sets the state Complete. -/
theorem Prefetch_ways (s : File) (g : Bool) (t : File) (h : s.Prefetch g = some t) :
    Tracks s t ∨
    (t = Prefetch_complete s ∧
      Prefetch_loop s g (s.m_cfi.GetSizeInBits.toNat + 1) 0 = some (s, false)) := by
  rcases Prefetch_unfold s g t h with ⟨_, ht⟩ | ⟨_, r, hr, ht⟩
  · left
    rw [ht]
    exact Tracks_refl s
  · obtain ⟨r1, r2⟩ := r
    rcases Prefetch_loop_spec s g _ 0 r1 r2 hr with ⟨h1, h2⟩ | ⟨h1, f1, hf1, _⟩
    · right
      subst h1
      subst h2
      exact ⟨ht, hr⟩
    · left
      subst h1
      have hcase := Prefetch_cases s g t h
      rcases hcase with ⟨_, _⟩ | ⟨f2, hf2, _, ht2⟩
      · rw [ht]
        dsimp only
        rw [if_neg (by decide)]
        have : ∃ f, s.m_block_map.find f = none ∧ r1 = s.Prefetch_take g f := by
          clear ht
          generalize (s.m_cfi.GetSizeInBits.toNat + 1) = fuel at hr
          generalize (0 : Int) = f at hr
          induction fuel generalizing f with
          | zero => unfold Prefetch_loop at hr; cases hr
          | succ n ih =>
            unfold Prefetch_loop at hr
            by_cases h1 : f < s.m_cfi.GetSizeInBits
            · rw [if_pos h1] at hr
              by_cases h2 : (!s.m_cfi.TestBit f) = true
              · rw [if_pos h2] at hr
                dsimp only at hr
                cases hf : s.m_block_map.find (f + cdiv s.m_offset s.m_cfi.GetBufferSize) with
                | none =>
                  rw [hf] at hr
                  dsimp only at hr
                  exact ⟨_, hf, (congrArg Prod.fst (Option.some.inj hr)).symm⟩
                | some x =>
                  rw [hf] at hr
                  dsimp only at hr
                  exact ih _ hr
              · rw [if_neg h2] at hr
                exact ih _ hr
            · rw [if_neg h1] at hr
              have := congrArg Prod.snd (Option.some.inj hr)
              cases this
        obtain ⟨f, hf, hrf⟩ := this
        rw [hrf]
        exact Tracks_Prefetch_take s g f hf
      · rw [ht2]
        exact Tracks_Prefetch_take s g f2 hf2

end File

namespace System

/-- Every event other than the end of `Prefetch` without a block leaves the file in a state that
`Tracks` the one before. -/
theorem step_ways (S S1 : System) (e : Event) (h : S.step e = some S1) :
    Tracks S.file S1.file ∨
    (∃ g, S1.file = Prefetch_complete S.file ∧
      Prefetch_loop S.file g (S.file.m_cfi.GetSizeInBits.toNat + 1) 0 = some (S.file, false)) := by
  cases e with
  | read_begin off size ca =>
    left
    simp only [step, Option.some.injEq] at h
    rw [← h]
    exact Tracks_Read_classify_fold ca (idxRange _ _)
      (S.file, { blks_to_process := [], blks_on_disk := [], blks_direct := [] })
  | read_direct off size junk blocks =>
    left
    simp only [step, Option.some.injEq] at h
    rw [← h]
    exact Tracks_of_Same _ _ (Same_RequestBlocksDirect_loop off size junk blocks S.file 0)
  | read_disk disk_read off size junk blocks =>
    left
    simp only [step, Option.some.injEq] at h
    rw [← h]
    exact Tracks_of_Same _ _ (Same_ReadBlocksFromDisk_loop disk_read off size junk blocks S.file 0)
  | read_ram off size junk finished =>
    left
    simp only [step, Option.some.injEq] at h
    rw [← h]
    exact Tracks_of_Same _ _ (Same_Read_consume off size junk finished S.file 0 none)
  | read_missed d =>
    left
    simp only [step, Option.some.injEq] at h
    rw [← h]
    exact Tracks_of_Same _ _ ⟨rfl, rfl, rfl, rfl, rfl, [], by simp⟩
  | read_end n order =>
    left
    simp only [step] at h
    cases hr : S.readers[n]? with
    | none => rw [hr] at h; simp at h
    | some r =>
      rw [hr] at h
      dsimp only at h
      by_cases hp : order.Perm r
      · rw [if_pos hp] at h
        have := Option.some.inj h
        rw [← this]
        exact Tracks_release order S.file
      · rw [if_neg hp] at h; cases h
  | response b res err =>
    left
    simp only [step] at h
    cases hf : S.file.m_block_map.find b with
    | none => rw [hf] at h; simp at h
    | some blk =>
      rw [hf] at h
      dsimp only at h
      by_cases hfin : blk.is_finished = true
      · rw [if_pos hfin] at h; cases h
      · rw [if_neg hfin] at h
        have := Option.some.inj h
        rw [← this]
        exact Tracks_ProcessBlockResponse S.file b res err
  | wb_begin b w =>
    left
    simp only [step] at h
    cases hf : S.file.m_block_map.find b with
    | none => rw [hf] at h; simp at h
    | some blk =>
      rw [hf] at h
      dsimp only at h
      by_cases hq : b ∈ S.file.cache.write_queue
      · rw [if_pos hq] at h
        have := Option.some.inj h
        rw [← this]
        exact Tracks_of_Same _ _ ⟨rfl, rfl, rfl, rfl, rfl, [], by simp⟩
      · rw [if_neg hq] at h; cases h
  | wb_set_bit n =>
    left
    simp only [step] at h
    cases hw : S.writers[n]? with
    | none => rw [hw] at h; simp at h
    | some w =>
      rw [hw] at h
      dsimp only at h
      by_cases hst : w.stage = WbStage.written
      · rw [if_pos hst] at h
        have := Option.some.inj h
        rw [← this]
        exact Tracks_setbit S.file w.pfIdx
      · rw [if_neg hst] at h; cases h
  | wb_dec_ref n =>
    left
    simp only [step] at h
    cases hw : S.writers[n]? with
    | none => rw [hw] at h; simp at h
    | some w =>
      rw [hw] at h
      dsimp only at h
      by_cases hst : w.stage = WbStage.bit_set
      · rw [if_pos hst] at h
        have := Option.some.inj h
        rw [← this]
        exact Tracks_dec_ref_count S.file w.blk
      · rw [if_neg hst] at h; cases h
  | wb_synced n =>
    left
    simp only [step] at h
    cases hw : S.writers[n]? with
    | none => rw [hw] at h; simp at h
    | some w =>
      rw [hw] at h
      dsimp only at h
      by_cases hst : w.stage = WbStage.released
      · rw [if_pos hst] at h
        have := Option.some.inj h
        rw [← this]
        exact Tracks_synced S.file w.pfIdx
      · rw [if_neg hst] at h; cases h
  | removed_from_writeQ b =>
    left
    simp only [step] at h
    by_cases hq : b ∈ S.file.cache.write_queue
    · rw [if_pos hq] at h
      have := Option.some.inj h
      rw [← this]
      have h1 : Tracks S.file { S.file with cache := S.file.cache.TakeWriteTask b } :=
        Tracks_of_Same _ _ ⟨rfl, rfl, rfl, rfl, rfl, [], by simp⟩
      exact Tracks_trans _ _ _ h1 (Tracks_dec_ref_count _ b)
    · rw [if_neg hq] at h; cases h
  | sync_job =>
    left
    simp only [step] at h
    by_cases hq : 0 < S.file.sync_jobs
    · rw [if_pos hq] at h
      have := Option.some.inj h
      rw [← this]
      have h1 : Tracks S.file { S.file with sync_jobs := S.file.sync_jobs - 1 } :=
        Tracks_of_Same _ _ ⟨rfl, rfl, rfl, rfl, rfl, [], by simp⟩
      exact Tracks_trans _ _ _ h1 (Tracks_Sync _)
    · rw [if_neg hq] at h; cases h
  | prefetch g =>
    simp only [step] at h
    cases hp : S.file.Prefetch g with
    | none => rw [hp] at h; simp at h
    | some f1 =>
      rw [hp] at h
      dsimp only at h
      have := Option.some.inj h
      rw [← this]
      rcases Prefetch_ways S.file g f1 hp with ht | ⟨h1, h2⟩
      · exact Or.inl ht
      · exact Or.inr ⟨g, h1, h2⟩
  | ioActive_stop =>
    left
    simp only [step, Option.some.injEq] at h
    rw [← h]
    exact Tracks_ioActive_stop S.file
  | ioActive_sweep =>
    left
    simp only [step, Option.some.injEq] at h
    rw [← h]
    exact Tracks_ioActive_sweep S.file
  | wakeUp =>
    left
    simp only [step, Option.some.injEq] at h
    rw [← h]
    exact Tracks_WakeUp S.file

end System

namespace File

theorem HoldOK_create (bufferSize pm off fs : Int) (loaded : Option Info) :
    HoldOK (File.create bufferSize pm off fs loaded) := by
  intro hst
  exfalso
  unfold File.create at hst
  dsimp only at hst
  split_ifs at hst

theorem RequestBlock_state (s : File) (i : Int) (p : Bool) :
    (s.RequestBlock i p).m_prefetchState =
      if s.m_prefetchState = PrefetchState.kOn ∧
          (s.RequestBlock i p).m_block_map.size > s.m_prefetch_max_blocks
      then PrefetchState.kHold else s.m_prefetchState := by
  rw [RequestBlock_map]
  unfold RequestBlock
  dsimp only
  by_cases hc : s.m_prefetchState = PrefetchState.kOn ∧
      BlockMap.size (BlockMap.set s.m_block_map i
        (Block.create (i * s.m_cfi.GetBufferSize)
          (if i = s.m_cfi.GetSizeInBits - 1 then s.m_fileSize - i * s.m_cfi.GetBufferSize
           else s.m_cfi.GetBufferSize) p)) > s.m_prefetch_max_blocks
  · rw [if_pos hc, if_pos hc]
  · rw [if_neg hc, if_neg hc]

theorem free_block_state (s : File) (b : Int) (hb : s.m_block_map.find b ≠ none) :
    (s.free_block b).m_prefetchState =
      if s.m_prefetchState = PrefetchState.kHold ∧
          (s.free_block b).m_block_map.size < s.m_prefetch_max_blocks
      then PrefetchState.kOn else s.m_prefetchState := by
  unfold free_block
  cases hf : s.m_block_map.find b with
  | none => exact absurd hf hb
  | some blk =>
    dsimp only
    by_cases hc : s.m_prefetchState = PrefetchState.kHold ∧
        BlockMap.size (BlockMap.erase s.m_block_map (cdiv blk.m_offset s.BufferSize))
          < s.m_prefetch_max_blocks
    · rw [if_pos hc]
      dsimp only
      rw [if_pos hc]
    · rw [if_neg hc]
      dsimp only
      rw [if_neg hc]

end File

namespace System

theorem HoldOK_step (S S1 : System) (e : Event) (hh : HoldOK S.file) (h : S.step e = some S1) :
    HoldOK S1.file := by
  rcases step_ways S S1 e h with ht | ⟨g, h1, _⟩
  · exact ht.hold hh
  · rw [h1]
    intro hst
    cases hst

theorem HoldOK_of_Reachable (bufferSize pm off fs : Int) (loaded : Option Info) (S : System)
    (hR : Reachable (System.init bufferSize pm off fs loaded) S) : HoldOK S.file := by
  induction hR with
  | start => exact HoldOK_create bufferSize pm off fs loaded
  | step S S1 e _ h ih => exact HoldOK_step S S1 e ih h

end System

namespace File

theorem Prefetch_of_loop (s : File) (g : Bool) (r : File × Bool)
    (hst : s.m_prefetchState = PrefetchState.kOn)
    (hl : Prefetch_loop s g (s.m_cfi.GetSizeInBits.toNat + 1) 0 = some r) :
    s.Prefetch g = some (if (!r.2) = true then Prefetch_complete r.1 else r.1) := by
  unfold Prefetch
  rw [if_neg (not_not.mpr hst), hl]
  obtain ⟨r1, r2⟩ := r
  dsimp only
  cases r2 <;> rfl

/-- With `m_offset / BS = 0` the loop of `Prefetch`, run from 0 with the passes that `Prefetch`
allows, ends, and its result is the one of `Prefetch_loop_exact`. -/
theorem Prefetch_loop_result (s : File) (g : Bool)
    (hshift : cdiv s.m_offset s.m_cfi.GetBufferSize = 0) :
    ∃ r, Prefetch_loop s g (s.m_cfi.GetSizeInBits.toNat + 1) 0 = some r ∧
      ((r = (s, false) ∧
        ∀ i, 0 ≤ i → i < s.m_cfi.GetSizeInBits →
          s.m_cfi.TestBit i = true ∨ s.m_block_map.find i ≠ none) ∨
      (∃ f1, 0 ≤ f1 ∧ f1 < s.m_cfi.GetSizeInBits ∧ s.m_cfi.TestBit f1 = false ∧
        s.m_block_map.find f1 = none ∧
        (∀ i, 0 ≤ i → i < f1 → s.m_cfi.TestBit i = true ∨ s.m_block_map.find i ≠ none) ∧
        r = (s.Prefetch_take g f1, true))) := by
  have hsome := Prefetch_loop_ends s g (by rw [hshift]) (s.m_cfi.GetSizeInBits.toNat + 1) 0
    (by omega)
  cases hl : Prefetch_loop s g (s.m_cfi.GetSizeInBits.toNat + 1) 0 with
  | none => rw [hl] at hsome; cases hsome
  | some r => exact ⟨r, rfl, Prefetch_loop_exact s g hshift _ 0 r hl⟩

theorem Prefetch_take_find (s : File) (g : Bool) (f : Int) :
    (s.Prefetch_take g f).m_block_map.find f
      = some (Block.create (f * s.m_cfi.GetBufferSize)
          (if f = s.m_cfi.GetSizeInBits - 1 then s.m_fileSize - f * s.m_cfi.GetBufferSize
           else s.m_cfi.GetBufferSize) true) := by
  unfold Prefetch_take
  dsimp only
  rw [RequestBlock_map, BlockMap.find_set, if_pos rfl]

theorem Prefetch_take_reads (s : File) (g : Bool) (f : Int) :
    (s.Prefetch_take g f).origin_reads
      = s.origin_reads ++
          [{ direct := false
             target := f
             offset := f * s.m_cfi.GetBufferSize
             length := (if f = s.m_cfi.GetSizeInBits - 1 then s.m_fileSize - f * s.m_cfi.GetBufferSize
                        else s.m_cfi.GetBufferSize) }] := by
  unfold Prefetch_take
  dsimp only
  rw [RequestBlock_origin_reads]

theorem Prefetch_take_cnt (s : File) (g : Bool) (f : Int) :
    (s.Prefetch_take g f).m_prefetchReadCnt = s.m_prefetchReadCnt + 1 := by
  unfold Prefetch_take RequestBlock
  dsimp only
  split_ifs <;> rfl

/-- C18: what `File::Prefetch` does.  When the prefetch state is not On it changes nothing.  When
the state is On and `m_offset / BS` is 0, it requests the block with the lowest index whose
present bit is clear and which is not in the block map (one origin fetch, the block inserted with
the prefetch flag set, `m_prefetchReadCnt` one higher), and when there is no such index it issues
no request and sets the state Complete.  When `m_offset / BS` is not 0 this fails, because the loop
adds `m_offset / BS` to its own variable: in the file that covers the bytes 1024..4095 of its
origin (blocks 1, 2, 3 under the bits 0, 1, 2) with block 1 in the map, `Prefetch` requests block
3, and block 2, whose present bit is clear and which is not in the map, is passed over. -/
theorem Prefetch_takes_lowest_unless_shifted :
    (∀ (s : File) (g : Bool), s.m_prefetchState ≠ PrefetchState.kOn → s.Prefetch g = some s) ∧
    (∀ (s : File) (g : Bool), s.m_prefetchState = PrefetchState.kOn →
      cdiv s.m_offset s.m_cfi.GetBufferSize = 0 →
      (∀ f1, 0 ≤ f1 → f1 < s.m_cfi.GetSizeInBits → s.m_cfi.TestBit f1 = false →
        s.m_block_map.find f1 = none →
        (∀ i, 0 ≤ i → i < f1 → s.m_cfi.TestBit i = true ∨ s.m_block_map.find i ≠ none) →
        s.Prefetch g = some (s.Prefetch_take g f1)) ∧
      ((∀ i, 0 ≤ i → i < s.m_cfi.GetSizeInBits →
          s.m_cfi.TestBit i = true ∨ s.m_block_map.find i ≠ none) →
        s.Prefetch g = some (Prefetch_complete s))) ∧
    (∀ (s : File) (g : Bool) (f : Int),
      (s.Prefetch_take g f).origin_reads
        = s.origin_reads ++
          [{ direct := false
             target := f
             offset := f * s.m_cfi.GetBufferSize
             length := (if f = s.m_cfi.GetSizeInBits - 1 then s.m_fileSize - f * s.m_cfi.GetBufferSize
                        else s.m_cfi.GetBufferSize) }] ∧
      (∃ b, (s.Prefetch_take g f).m_block_map.find f = some b ∧ b.m_prefetch = true ∧
        b.m_refcnt = 0 ∧ b.is_finished = false) ∧
      (∀ k, k ≠ f → (s.Prefetch_take g f).m_block_map.find k = s.m_block_map.find k) ∧
      (s.Prefetch_take g f).m_prefetchReadCnt = s.m_prefetchReadCnt + 1 ∧
      (s.Prefetch_take g f).m_cfi = s.m_cfi) ∧
    (∀ (s : File), (Prefetch_complete s).m_prefetchState = PrefetchState.kComplete ∧
      (Prefetch_complete s).origin_reads = s.origin_reads ∧
      (Prefetch_complete s).m_block_map = s.m_block_map ∧
      (Prefetch_complete s).m_prefetchReadCnt = s.m_prefetchReadCnt ∧
      (Prefetch_complete s).m_cfi = s.m_cfi) ∧
    ((System.init 1024 10 1024 3072 none).run [Event.read_begin 1024 1024 grantAll]
        = some sysShifted ∧
      sysShifted.file.m_prefetchState = PrefetchState.kOn ∧
      cdiv sysShifted.file.m_offset sysShifted.file.m_cfi.GetBufferSize = 1 ∧
      sysShifted.file.m_cfi.GetSizeInBits = 3 ∧
      sysShifted.file.m_cfi.present_bits = [] ∧
      BlockMap.keys sysShifted.file.m_block_map = [1] ∧
      sysShifted.file.offsetIdx 2 = 1 ∧
      sysShifted.file.m_cfi.TestBit (sysShifted.file.offsetIdx 2) = false ∧
      sysShifted.file.m_block_map.find 2 = none ∧
      (sysShifted.file.Prefetch true).map
          (fun t => (t.origin_reads.map (fun r => (r.direct, r.target)),
            BlockMap.keys t.m_block_map, t.m_prefetchState, t.m_prefetchReadCnt))
        = some ([(false, 1), (false, 3)], [3, 1], PrefetchState.kOn, 1)) := by
  refine ⟨?_, ?_, ?_, ?_, ?_⟩
  · intro s g hst
    unfold Prefetch
    rw [if_pos hst]
  · intro s g hst hshift
    obtain ⟨r, hl, hr⟩ := Prefetch_loop_result s g hshift
    have hP := Prefetch_of_loop s g r hst hl
    refine ⟨?_, ?_⟩
    · intro f1 h0 h1 hbit hmap hlow
      rcases hr with ⟨_, hall⟩ | ⟨f2, g0, g1, gbit, gmap, glow, hr2⟩
      · exfalso
        rcases hall f1 h0 h1 with hb | hm
        · rw [hbit] at hb; cases hb
        · exact hm hmap
      · have hf : f2 = f1 := by
          rcases lt_trichotomy f2 f1 with hlt | heq | hgt
          · exfalso
            rcases hlow f2 g0 hlt with hb | hm
            · rw [gbit] at hb; cases hb
            · exact hm gmap
          · exact heq
          · exfalso
            rcases glow f1 h0 hgt with hb | hm
            · rw [hbit] at hb; cases hb
            · exact hm hmap
        rw [hP, hr2, hf]
        rfl
    · intro hall
      rcases hr with ⟨hr1, _⟩ | ⟨f2, g0, g1, gbit, gmap, _, _⟩
      · rw [hP, hr1]
        rfl
      · exfalso
        rcases hall f2 g0 g1 with hb | hm
        · rw [gbit] at hb; cases hb
        · exact hm gmap
  · intro s g f
    refine ⟨Prefetch_take_reads s g f, ⟨_, Prefetch_take_find s g f, rfl, rfl, rfl⟩, ?_,
      Prefetch_take_cnt s g f, ?_⟩
    · intro k hk
      unfold Prefetch_take
      dsimp only
      rw [RequestBlock_map, BlockMap.find_set, if_neg hk]
    · unfold Prefetch_take
      dsimp only
      rw [RequestBlock_cfi]
  · intro s
    exact ⟨rfl, rfl, rfl, rfl, rfl⟩
  · refine ⟨System.run_getD _ _ _ (by decide), by decide, by decide, by decide, by decide,
      by decide, by decide, by decide, by decide, by decide⟩

end File

namespace System

/-- C20: `RequestBlock` moves the prefetch state from On to Hold exactly when the size of the block
map after the insertion exceeds `prefetch_max_blocks`, `free_block` (of a block in the map) moves
it from Hold to On exactly when the size of the map after the erasure is below
`prefetch_max_blocks`, neither changes the state otherwise, and in every reachable state with
prefetch state Hold the block map has at least `prefetch_max_blocks` entries. -/
theorem prefetch_hold_follows_map_size (bufferSize pm off fs : Int) (loaded : Option Info)
    (S : System) (hR : Reachable (System.init bufferSize pm off fs loaded) S) :
    (∀ (s : File) (i : Int) (p : Bool),
      (s.RequestBlock i p).m_prefetchState =
        if s.m_prefetchState = PrefetchState.kOn ∧
            (s.RequestBlock i p).m_block_map.size > s.m_prefetch_max_blocks
        then PrefetchState.kHold else s.m_prefetchState) ∧
    (∀ (s : File) (b : Int), s.m_block_map.find b ≠ none →
      (s.free_block b).m_prefetchState =
        if s.m_prefetchState = PrefetchState.kHold ∧
            (s.free_block b).m_block_map.size < s.m_prefetch_max_blocks
        then PrefetchState.kOn else s.m_prefetchState) ∧
    (S.file.m_prefetchState = PrefetchState.kHold →
      S.file.m_prefetch_max_blocks ≤ S.file.m_block_map.size) :=
  ⟨RequestBlock_state, free_block_state, HoldOK_of_Reachable bufferSize pm off fs loaded S hR⟩

/-- C20 at the state `sysHold`: with `prefetch_max_blocks = 1`, the second block that a reader
takes moves the state to Hold; the map has two entries. -/
theorem prefetch_hold_follows_map_size_witness :
    (Reachable (System.init 1024 1 0 3000 none) sysHold ∧
      sysHold.file.m_prefetchState = PrefetchState.kHold ∧
      sysHold.file.m_prefetch_max_blocks = 1 ∧ sysHold.file.m_block_map.size = 2) ∧
    ((∀ (s : File) (i : Int) (p : Bool),
      (s.RequestBlock i p).m_prefetchState =
        if s.m_prefetchState = PrefetchState.kOn ∧
            (s.RequestBlock i p).m_block_map.size > s.m_prefetch_max_blocks
        then PrefetchState.kHold else s.m_prefetchState) ∧
    (∀ (s : File) (b : Int), s.m_block_map.find b ≠ none →
      (s.free_block b).m_prefetchState =
        if s.m_prefetchState = PrefetchState.kHold ∧
            (s.free_block b).m_block_map.size < s.m_prefetch_max_blocks
        then PrefetchState.kOn else s.m_prefetchState) ∧
    (sysHold.file.m_prefetchState = PrefetchState.kHold →
      sysHold.file.m_prefetch_max_blocks ≤ sysHold.file.m_block_map.size)) :=
  ⟨⟨Reachable_of_run _ _ _ _ Reachable.start (run_getD _ _ _ (by decide)), by decide, by decide,
      by decide⟩,
    prefetch_hold_follows_map_size 1024 1 0 3000 none sysHold
      (Reachable_of_run _ _ _ _ Reachable.start (run_getD _ _ _ (by decide)))⟩

end System

namespace File

/-- C26, counterexample: for the empty request at offset 5, `overlap` returns true for block 0 of
1024 bytes, with size 0, although the byte range of the request is empty and meets no block. -/
theorem overlap_empty_request_counterexample :
    (∀ out : Overlap, overlap 0 1024 5 0 out = (true, { off := 0, blk_off := 5, size := 0 })) ∧
    ¬ (∃ x : Int, 0 * 1024 ≤ x ∧ x < 0 * 1024 + 1024 ∧ 5 ≤ x ∧ x < 5 + 0) ∧
    ¬ (∀ out : Overlap, (overlap 0 1024 5 0 out).1 = true → 0 < (overlap 0 1024 5 0 out).2.size) := by
  refine ⟨fun out => rfl, ?_, ?_⟩
  · rintro ⟨x, _, _, h3, h4⟩
    omega
  · intro h
    have := h { off := 0, blk_off := 0, size := 0 } rfl
    revert this
    decide

/-- C26, amended: for a positive block size and a positive request size, `overlap` returns true
iff the byte range of the block and the byte range of the request have a byte in common, and then
`off`, `blk_off` and `size` are the start of the common range in the request, its start in the
block and its length, with `0 < size <= blk_size`, `blk_off + size <= blk_size` and
`off + size <= req_size`; when it returns false the output arguments are left as they were.  For
a request of size 0 it returns true iff the request offset lies strictly inside the block, and
the size is then 0. -/
theorem overlap_iff_intersect (blk blk_size req_off req_size : Int) (out : Overlap)
    (hbs : 0 < blk_size) (hsize : 0 < req_size) :
    ((overlap blk blk_size req_off req_size out).1 = true ↔
      ∃ x, blk * blk_size ≤ x ∧ x < blk * blk_size + blk_size ∧
        req_off ≤ x ∧ x < req_off + req_size) ∧
    ((overlap blk blk_size req_off req_size out).1 = true →
      (overlap blk blk_size req_off req_size out).2.off
        = max (blk * blk_size) req_off - req_off ∧
      (overlap blk blk_size req_off req_size out).2.blk_off
        = max (blk * blk_size) req_off - blk * blk_size ∧
      (overlap blk blk_size req_off req_size out).2.size
        = min (blk * blk_size + blk_size) (req_off + req_size) - max (blk * blk_size) req_off ∧
      0 < (overlap blk blk_size req_off req_size out).2.size ∧
      (overlap blk blk_size req_off req_size out).2.size ≤ blk_size ∧
      0 ≤ (overlap blk blk_size req_off req_size out).2.blk_off ∧
      (overlap blk blk_size req_off req_size out).2.blk_off
        + (overlap blk blk_size req_off req_size out).2.size ≤ blk_size ∧
      0 ≤ (overlap blk blk_size req_off req_size out).2.off ∧
      (overlap blk blk_size req_off req_size out).2.off
        + (overlap blk blk_size req_off req_size out).2.size ≤ req_size) ∧
    ((overlap blk blk_size req_off req_size out).1 = false →
      (overlap blk blk_size req_off req_size out).2 = out) ∧
    (((overlap blk blk_size req_off 0 out).1 = true ↔
      blk * blk_size < req_off ∧ req_off < blk * blk_size + blk_size) ∧
     ((overlap blk blk_size req_off 0 out).1 = true →
      (overlap blk blk_size req_off 0 out).2.size = 0)) := by
  refine ⟨?_, ?_, ?_, ?_, ?_⟩
  · unfold overlap
    dsimp only
    by_cases hc : req_off < blk * blk_size + blk_size ∧ req_off + req_size > blk * blk_size
    · rw [if_pos hc]
      refine ⟨fun _ => ⟨max (blk * blk_size) req_off, ?_, ?_, ?_, ?_⟩, fun _ => rfl⟩
      · exact le_max_left _ _
      · rcases max_cases (blk * blk_size) req_off with ⟨h, _⟩ | ⟨h, _⟩ <;> omega
      · exact le_max_right _ _
      · rcases max_cases (blk * blk_size) req_off with ⟨h, _⟩ | ⟨h, _⟩ <;> omega
    · rw [if_neg hc]
      refine ⟨fun h => (by cases h), ?_⟩
      rintro ⟨x, h1, h2, h3, h4⟩
      exfalso
      apply hc
      constructor <;> omega
  · unfold overlap
    dsimp only
    by_cases hc : req_off < blk * blk_size + blk_size ∧ req_off + req_size > blk * blk_size
    · rw [if_pos hc]
      intro _
      dsimp only
      rcases max_cases (blk * blk_size) req_off with ⟨h1, h1'⟩ | ⟨h1, h1'⟩ <;>
      rcases min_cases (blk * blk_size + blk_size) (req_off + req_size) with ⟨h2, h2'⟩ | ⟨h2, h2'⟩ <;>
      rw [h1, h2] <;> refine ⟨rfl, rfl, rfl, ?_, ?_, ?_, ?_, ?_, ?_⟩ <;> omega
    · rw [if_neg hc]
      intro h
      cases h
  · unfold overlap
    dsimp only
    by_cases hc : req_off < blk * blk_size + blk_size ∧ req_off + req_size > blk * blk_size
    · rw [if_pos hc]
      intro h
      cases h
    · rw [if_neg hc]
      intro _
      rfl
  · unfold overlap
    dsimp only
    by_cases hc : req_off < blk * blk_size + blk_size ∧ req_off + 0 > blk * blk_size
    · rw [if_pos hc]
      exact ⟨fun _ => ⟨by omega, hc.1⟩, fun _ => rfl⟩
    · rw [if_neg hc]
      refine ⟨fun h => (by cases h), fun h => ?_⟩
      exfalso
      apply hc
      constructor <;> omega
  · unfold overlap
    dsimp only
    by_cases hc : req_off < blk * blk_size + blk_size ∧ req_off + 0 > blk * blk_size
    · rw [if_pos hc]
      intro _
      dsimp only
      rcases max_cases (blk * blk_size) req_off with ⟨h1, h1'⟩ | ⟨h1, h1'⟩ <;>
      rcases min_cases (blk * blk_size + blk_size) (req_off + 0) with ⟨h2, h2'⟩ | ⟨h2, h2'⟩ <;>
      rw [h1, h2] <;> omega
    · rw [if_neg hc]
      intro h
      cases h

/-- C26 (amended) at block 1 of 1024 bytes and the request of 100 bytes at offset 1000. -/
theorem overlap_iff_intersect_witness :
    ((0 : Int) < 1024 ∧ (0 : Int) < 100) ∧
    (overlap 1 1024 1000 100 { off := 0, blk_off := 0, size := 0 }).1 = true ∧
    (overlap 1 1024 1000 100 { off := 0, blk_off := 0, size := 0 }).2
      = { off := 24, blk_off := 0, size := 76 } ∧
    ((overlap 1 1024 1000 100 { off := 0, blk_off := 0, size := 0 }).1 = true ↔
      ∃ x : Int, 1 * 1024 ≤ x ∧ x < 1 * 1024 + 1024 ∧ 1000 ≤ x ∧ x < 1000 + 100) :=
  ⟨⟨by decide, by decide⟩, by decide, by decide,
    (overlap_iff_intersect 1 1024 1000 100 { off := 0, blk_off := 0, size := 0 }
      (by decide) (by decide)).1⟩

end File

namespace File

/-- The quotient of `i * BS - m` by `BS` for `0 <= m <= i * BS`: `i - m / BS` when `BS` divides
`m`, one less otherwise. -/
theorem cdiv_sub_shift (BS m i : Int) (hBS : 0 < BS) (hm : 0 ≤ m) (hi : m ≤ i * BS) :
    cdiv (i * BS - m) BS = i - cdiv m BS - (if m % BS = 0 then 0 else 1) := by
  unfold cdiv
  rw [Int.tdiv_eq_ediv (by omega) (le_of_lt hBS), Int.tdiv_eq_ediv hm (le_of_lt hBS)]
  have hdm := Int.ediv_add_emod m BS
  have hr0 := Int.emod_nonneg m (ne_of_gt hBS)
  have hr1 := Int.emod_lt_of_pos m hBS
  by_cases hr : m % BS = 0
  · rw [if_pos hr]
    have e : i * BS - m = (i - m / BS) * BS := by
      rw [hr] at hdm
      have : m = BS * (m / BS) := by omega
      calc i * BS - m = i * BS - BS * (m / BS) := by rw [← this]
        _ = (i - m / BS) * BS := by ring
    rw [e, Int.mul_ediv_cancel _ (ne_of_gt hBS)]
    ring
  · rw [if_neg hr]
    have e : i * BS - m = (BS - m % BS) + BS * (i - m / BS - 1) := by
      have : m = BS * (m / BS) + m % BS := hdm.symm
      calc i * BS - m = i * BS - (BS * (m / BS) + m % BS) := by rw [← this]
        _ = (BS - m % BS) + BS * (i - m / BS - 1) := by ring
    have h := (Int.ediv_emod_unique hBS).mpr
      (⟨e.symm, by omega, by omega⟩ :
        (BS - m % BS) + BS * (i - m / BS - 1) = i * BS - m ∧ 0 ≤ BS - m % BS ∧ BS - m % BS < BS)
    rw [h.1]

/-- C28, counterexample: in the file with buffer size 1024 and `m_offset = 100`, the block that
`RequestBlock` creates for index 1 (byte offset 1024) has `pfIdx = (1024 - 100) / 1024 = 0` in
`WriteBlockToDisk`, and `Read` tests the bit `offsetIdx(1) = 1 - 100 / 1024 = 1`. -/
theorem pfIdx_unaligned_counterexample :
    fileUnaligned.m_offset = 100 ∧ fileUnaligned.m_cfi.GetBufferSize = 1024 ∧
    ((fileUnaligned.RequestBlock 1 false).m_block_map.find 1).map Block.m_offset = some (1 * 1024) ∧
    ((fileUnaligned.RequestBlock 1 false).m_block_map.find 1).map
      (WriteBlockToDisk_pfIdx (fileUnaligned.RequestBlock 1 false)) = some 0 ∧
    (fileUnaligned.RequestBlock 1 false).offsetIdx 1 = 1 := by
  decide

/-- C28, amended: for a positive buffer size and a block at byte offset `i * BS` that does not
start before the file (`0 <= m_offset <= i * BS`), the bit index `(block_offset - m_offset) / BS`
that `WriteBlockToDisk` marks equals the bit index `offsetIdx(i)` that `Read` tests iff `m_offset`
is a multiple of the buffer size; for such an `m_offset` the two are equal for every `i`. -/
theorem pfIdx_eq_offsetIdx_iff_aligned (s : File) (i : Int) (blk : Block)
    (hBS : 0 < s.m_cfi.GetBufferSize) (hblk : blk.m_offset = i * s.m_cfi.GetBufferSize)
    (hoff : 0 ≤ s.m_offset) :
    (s.m_offset ≤ i * s.m_cfi.GetBufferSize →
      (WriteBlockToDisk_pfIdx s blk = s.offsetIdx i ↔ s.m_offset % s.m_cfi.GetBufferSize = 0)) ∧
    (s.m_offset % s.m_cfi.GetBufferSize = 0 → WriteBlockToDisk_pfIdx s blk = s.offsetIdx i) := by
  refine ⟨?_, ?_⟩
  · intro hi
    unfold WriteBlockToDisk_pfIdx offsetIdx
    rw [hblk, cdiv_sub_shift _ _ _ hBS hoff hi]
    by_cases hr : s.m_offset % s.m_cfi.GetBufferSize = 0
    · rw [if_pos hr]
      exact ⟨fun _ => hr, fun _ => by omega⟩
    · rw [if_neg hr]
      exact ⟨fun h => by omega, fun h => absurd h hr⟩
  · intro hr
    unfold WriteBlockToDisk_pfIdx offsetIdx
    rw [hblk]
    have hdm := Int.ediv_add_emod s.m_offset s.m_cfi.GetBufferSize
    rw [hr, add_zero] at hdm
    have e : i * s.m_cfi.GetBufferSize - s.m_offset
        = (i - s.m_offset / s.m_cfi.GetBufferSize) * s.m_cfi.GetBufferSize := by
      calc i * s.m_cfi.GetBufferSize - s.m_offset
          = i * s.m_cfi.GetBufferSize
              - s.m_cfi.GetBufferSize * (s.m_offset / s.m_cfi.GetBufferSize) := by rw [hdm]
        _ = (i - s.m_offset / s.m_cfi.GetBufferSize) * s.m_cfi.GetBufferSize := by ring
    rw [e, cdiv_mul_cancel _ _ hBS]
    unfold cdiv
    rw [Int.tdiv_eq_ediv hoff (le_of_lt hBS)]

/-- C28 (amended) at block 2 of the file with buffer size 1024 and `m_offset = 1024`. -/
theorem pfIdx_eq_offsetIdx_iff_aligned_witness :
    ((0 : Int) < sysShifted.file.m_cfi.GetBufferSize ∧
      (Block.create 2048 1024 false).m_offset = 2 * sysShifted.file.m_cfi.GetBufferSize ∧
      0 ≤ sysShifted.file.m_offset) ∧
    sysShifted.file.m_offset % sysShifted.file.m_cfi.GetBufferSize = 0 ∧
    WriteBlockToDisk_pfIdx sysShifted.file (Block.create 2048 1024 false) = 1 ∧
    sysShifted.file.offsetIdx 2 = 1 ∧
    (sysShifted.file.m_offset % sysShifted.file.m_cfi.GetBufferSize = 0 →
      WriteBlockToDisk_pfIdx sysShifted.file (Block.create 2048 1024 false)
        = sysShifted.file.offsetIdx 2) :=
  ⟨⟨by decide, by decide, by decide⟩, by decide, by decide, by decide,
    (pfIdx_eq_offsetIdx_iff_aligned sysShifted.file 2 (Block.create 2048 1024 false)
      (by decide) (by decide) (by decide)).2⟩

namespace DirectResponseHandler

theorem after_append (n : Int) (rs : List (Int × Int)) (r : Int × Int) :
    after n (rs ++ [r]) = (after n rs).Done r.1 r.2 := by
  unfold after
  rw [List.foldl_append]
  rfl

theorem after_to_wait (n : Int) (rs : List (Int × Int)) :
    (after n rs).m_to_wait = n - (rs.length : Int) := by
  unfold after
  rw [DirectResponseHandler_fold_to_wait]
  rfl

theorem after_errno (n : Int) (rs : List (Int × Int)) : (after n rs).m_errno = last_error rs := by
  induction rs using List.reverseRecOn with
  | nil => rfl
  | append_singleton rs r ih =>
    rw [after_append]
    unfold Done
    dsimp only
    unfold last_error at ih ⊢
    rw [List.filter_append]
    by_cases hr : r.1 < 0
    · rw [if_pos hr]
      have : List.filter (fun r => decide (r.1 < 0)) [r] = [r] := by
        simp [List.filter, hr]
      rw [this, List.getLast?_append]
      simp
    · rw [if_neg hr, ih]
      have : List.filter (fun r => decide (r.1 < 0)) [r] = [] := by
        simp [List.filter, hr]
      rw [this, List.append_nil]

theorem last_error_eq_zero (rs : List (Int × Int)) (h : ∀ r ∈ rs, 0 ≤ r.1) : last_error rs = 0 := by
  unfold last_error
  have : rs.filter (fun r => decide (r.1 < 0)) = [] := by
    rw [List.filter_eq_nil_iff]
    intro r hr
    have := h r hr
    simp only [decide_eq_true_eq, not_lt]
    exact this
  rw [this]
  rfl

theorem last_error_mem (rs : List (Int × Int)) (h : ∃ r ∈ rs, r.1 < 0) :
    ∃ r ∈ rs, r.1 < 0 ∧ last_error rs = r.2 := by
  unfold last_error
  cases hl : (rs.filter (fun r => decide (r.1 < 0))).getLast? with
  | none =>
    exfalso
    rw [List.getLast?_eq_none_iff, List.filter_eq_nil_iff] at hl
    obtain ⟨r, hr, hneg⟩ := h
    exact hl r hr (by simpa using hneg)
  | some x =>
    have hx := List.mem_of_getLast?_eq_some hl
    rw [List.mem_filter] at hx
    exact ⟨x, hx.1, by simpa using hx.2, rfl⟩

end DirectResponseHandler

/-- C24, counterexample: two completions fail, the first with error 5 and the second with error
7; the error slot of the handler holds 7, the error of the last one. -/
theorem DirectResponseHandler_last_error_counterexample :
    (DirectResponseHandler.after 2 [(-1, 5), (-1, 7)]).m_to_wait = 0 ∧
    (DirectResponseHandler.after 2 [(-1, 5), (-1, 7)]).m_errno = 7 ∧
    (DirectResponseHandler.after 2 [(-1, 5), (-1, 7)]).m_errno ≠ 5 ∧
    (DirectResponseHandler.after 2 [(-1, 5), (0, 7)]).m_errno = 5 := by
  decide

/-- C24, amended: a handler created for `n` requests has the remaining counter `n - k` after `k`
calls of `Done`, so the counter is 0 exactly after the `n`-th call, and the call that signals is
the `n`-th; its error slot is 0 when no completion failed and otherwise the `errno` of the last
failing completion (each failure overwrites the slot); when every failing completion comes with
a non-zero `errno` the slot is 0 iff all results are non-negative. -/
theorem DirectResponseHandler_counts_and_keeps_last_error (n : Int) (rs : List (Int × Int)) :
    (∀ k, k ≤ rs.length →
      (DirectResponseHandler.after n (rs.take k)).m_to_wait = n - (k : Int) ∧
      ((DirectResponseHandler.after n (rs.take k)).m_to_wait = 0 ↔ (k : Int) = n)) ∧
    (∀ k, k < rs.length →
      ((DirectResponseHandler.after n (rs.take k)).Done_signals = true ↔ (k : Int) + 1 = n)) ∧
    (DirectResponseHandler.after n rs).m_errno = DirectResponseHandler.last_error rs ∧
    ((∀ r ∈ rs, 0 ≤ r.1) → (DirectResponseHandler.after n rs).m_errno = 0) ∧
    ((∃ r ∈ rs, r.1 < 0) →
      ∃ r ∈ rs, r.1 < 0 ∧ (DirectResponseHandler.after n rs).m_errno = r.2) ∧
    (∀ r, (DirectResponseHandler.after n (rs ++ [r])).m_errno
      = if r.1 < 0 then r.2 else (DirectResponseHandler.after n rs).m_errno) ∧
    ((∀ r ∈ rs, r.1 < 0 → r.2 ≠ 0) →
      ((DirectResponseHandler.after n rs).m_errno = 0 ↔ ∀ r ∈ rs, 0 ≤ r.1)) := by
  have hw : ∀ k, k ≤ rs.length →
      (DirectResponseHandler.after n (rs.take k)).m_to_wait = n - (k : Int) := by
    intro k hk
    rw [DirectResponseHandler.after_to_wait, List.length_take, Nat.min_eq_left hk]
  refine ⟨?_, ?_, DirectResponseHandler.after_errno n rs, ?_, ?_, ?_, ?_⟩
  · intro k hk
    refine ⟨hw k hk, ?_⟩
    rw [hw k hk]
    constructor <;> intro h <;> omega
  · intro k hk
    unfold DirectResponseHandler.Done_signals
    rw [hw k (le_of_lt hk), decide_eq_true_iff]
    constructor <;> intro h <;> omega
  · intro h
    rw [DirectResponseHandler.after_errno]
    exact DirectResponseHandler.last_error_eq_zero rs h
  · intro h
    rw [DirectResponseHandler.after_errno]
    exact DirectResponseHandler.last_error_mem rs h
  · intro r
    rw [DirectResponseHandler.after_append]
    rfl
  · intro hne
    rw [DirectResponseHandler.after_errno]
    constructor
    · intro h0 r hr
      by_contra hneg
      obtain ⟨x, hx, hxneg, hxe⟩ := DirectResponseHandler.last_error_mem rs ⟨r, hr, by omega⟩
      rw [h0] at hxe
      exact hne x hx hxneg hxe.symm
    · intro h
      exact DirectResponseHandler.last_error_eq_zero rs h

end File

namespace File

/-- The number of blocks is the quotient of the file size by the buffer size, rounded up. -/
theorem GetSizeInBits_bounds (c : Info) (hBS : 0 < c.GetBufferSize) (hfs : 0 < c.file_size) :
    (c.GetSizeInBits - 1) * c.GetBufferSize < c.file_size ∧
    c.file_size ≤ c.GetSizeInBits * c.GetBufferSize ∧ 1 ≤ c.GetSizeInBits := by
  have hb : 0 < c.buffer_size := hBS
  obtain ⟨h1, h2⟩ := cdiv_bounds c.buffer_size (c.file_size + c.buffer_size - 1) hb (by omega)
  have e1 : (cdiv (c.file_size + c.buffer_size - 1) c.buffer_size + 1) * c.buffer_size
      = cdiv (c.file_size + c.buffer_size - 1) c.buffer_size * c.buffer_size + c.buffer_size := by
    ring
  have e2 : (cdiv (c.file_size + c.buffer_size - 1) c.buffer_size - 1) * c.buffer_size
      = cdiv (c.file_size + c.buffer_size - 1) c.buffer_size * c.buffer_size - c.buffer_size := by
    ring
  show (cdiv (c.file_size + c.buffer_size - 1) c.buffer_size - 1) * c.buffer_size < c.file_size ∧
    c.file_size ≤ cdiv (c.file_size + c.buffer_size - 1) c.buffer_size * c.buffer_size ∧
    1 ≤ cdiv (c.file_size + c.buffer_size - 1) c.buffer_size
  refine ⟨by omega, by omega, ?_⟩
  by_contra hlt
  have : cdiv (c.file_size + c.buffer_size - 1) c.buffer_size ≤ 0 := by omega
  have := Int.mul_le_mul_of_nonneg_right this (le_of_lt hb)
  omega

/-- The length that `RequestBlock` gives to block `i`. -/
theorem RequestBlock_find (s : File) (i : Int) (p : Bool) :
    (s.RequestBlock i p).m_block_map.find i
      = some (Block.create (i * s.m_cfi.GetBufferSize)
          (if i = s.m_cfi.GetSizeInBits - 1 then s.m_fileSize - i * s.m_cfi.GetBufferSize
           else s.m_cfi.GetBufferSize) p) := by
  rw [RequestBlock_map, BlockMap.find_set, if_pos rfl]

theorem RequestBlock_size_eq_min (s : File) (i : Int) (hBS : 0 < s.m_cfi.GetBufferSize)
    (hfs : 0 < s.m_cfi.file_size) (hsz : s.m_fileSize = s.m_cfi.file_size)
    (hi1 : i < s.m_cfi.GetSizeInBits) :
    (if i = s.m_cfi.GetSizeInBits - 1 then s.m_fileSize - i * s.m_cfi.GetBufferSize
      else s.m_cfi.GetBufferSize)
      = min ((i + 1) * s.m_cfi.GetBufferSize) s.m_cfi.file_size
        - min (i * s.m_cfi.GetBufferSize) s.m_cfi.file_size := by
  obtain ⟨h1, h2, _⟩ := GetSizeInBits_bounds s.m_cfi hBS hfs
  have e1 : (i + 1) * s.m_cfi.GetBufferSize = i * s.m_cfi.GetBufferSize + s.m_cfi.GetBufferSize := by
    ring
  by_cases hl : i = s.m_cfi.GetSizeInBits - 1
  · rw [if_pos hl, hsz]
    have e2 : (s.m_cfi.GetSizeInBits - 1) * s.m_cfi.GetBufferSize = i * s.m_cfi.GetBufferSize := by
      rw [hl]
    have e3 : s.m_cfi.GetSizeInBits * s.m_cfi.GetBufferSize
        = i * s.m_cfi.GetBufferSize + s.m_cfi.GetBufferSize := by
      rw [hl]; ring
    rw [min_eq_right (by omega), min_eq_left (by omega)]
  · rw [if_neg hl]
    have h3 : i + 1 ≤ s.m_cfi.GetSizeInBits - 1 := by omega
    have h4 := Int.mul_le_mul_of_nonneg_right h3 (le_of_lt hBS)
    rw [min_eq_left (by omega), min_eq_left (by omega)]
    omega

/-- C23: in a file whose buffer size and file size are positive (the file size being the one
recorded in the info mirror, as for a file cached from offset 0), `RequestBlock` gives to every
block index `i` with `0 <= i < bits_total` a block at byte offset `i * BS` of length
`min(BS, file_size - i * BS)`, which it also asks of the origin; the length is positive and at
most `BS`, it is `file_size - offset` for the last block, the lengths of the blocks sum to the
file size, and `bits_total` is the quotient of the file size by `BS`, rounded up. -/
theorem RequestBlock_block_lengths (s : File) (p : Bool) (hBS : 0 < s.m_cfi.GetBufferSize)
    (hfs : 0 < s.m_cfi.file_size) (hsz : s.m_fileSize = s.m_cfi.file_size) :
    (∀ i, 0 ≤ i → i < s.m_cfi.GetSizeInBits →
      ∃ b, (s.RequestBlock i p).m_block_map.find i = some b ∧
        b.m_offset = i * s.m_cfi.GetBufferSize ∧
        b.m_size = min s.m_cfi.GetBufferSize (s.m_cfi.file_size - i * s.m_cfi.GetBufferSize) ∧
        0 < b.m_size ∧ b.m_size ≤ s.m_cfi.GetBufferSize ∧
        (i = s.m_cfi.GetSizeInBits - 1 → b.m_size = s.m_cfi.file_size - b.m_offset) ∧
        (i < s.m_cfi.GetSizeInBits - 1 → b.m_size = s.m_cfi.GetBufferSize) ∧
        b.m_prefetch = p ∧ b.m_refcnt = 0 ∧
        (s.RequestBlock i p).origin_reads = s.origin_reads ++
          [{ direct := false, target := i, offset := b.m_offset, length := b.m_size }]) ∧
    ((List.range s.m_cfi.GetSizeInBits.toNat).map
        (fun (k : Nat) =>
          (((s.RequestBlock (k : Int) p).m_block_map.find (k : Int)).map Block.m_size).getD 0)).sum
      = s.m_cfi.file_size ∧
    (s.m_cfi.GetSizeInBits - 1) * s.m_cfi.GetBufferSize < s.m_cfi.file_size ∧
    s.m_cfi.file_size ≤ s.m_cfi.GetSizeInBits * s.m_cfi.GetBufferSize := by
  obtain ⟨h1, h2, h3⟩ := GetSizeInBits_bounds s.m_cfi hBS hfs
  refine ⟨?_, ?_, h1, h2⟩
  · intro i hi0 hi1
    refine ⟨_, RequestBlock_find s i p, rfl, ?_, ?_, ?_, ?_, ?_, rfl, rfl, ?_⟩
    · show (if i = s.m_cfi.GetSizeInBits - 1 then s.m_fileSize - i * s.m_cfi.GetBufferSize
        else s.m_cfi.GetBufferSize) = _
      by_cases hl : i = s.m_cfi.GetSizeInBits - 1
      · rw [if_pos hl, hsz]
        have e3 : s.m_cfi.GetSizeInBits * s.m_cfi.GetBufferSize
            = i * s.m_cfi.GetBufferSize + s.m_cfi.GetBufferSize := by
          rw [hl]; ring
        rw [min_eq_right (by omega)]
      · rw [if_neg hl]
        have h4 := Int.mul_le_mul_of_nonneg_right (by omega : i + 1 ≤ s.m_cfi.GetSizeInBits - 1)
          (le_of_lt hBS)
        have e1 : (i + 1) * s.m_cfi.GetBufferSize
            = i * s.m_cfi.GetBufferSize + s.m_cfi.GetBufferSize := by ring
        rw [min_eq_left (by omega)]
    · show 0 < (if i = s.m_cfi.GetSizeInBits - 1 then s.m_fileSize - i * s.m_cfi.GetBufferSize
        else s.m_cfi.GetBufferSize)
      by_cases hl : i = s.m_cfi.GetSizeInBits - 1
      · rw [if_pos hl, hsz]
        have e2 : (s.m_cfi.GetSizeInBits - 1) * s.m_cfi.GetBufferSize
            = i * s.m_cfi.GetBufferSize := by rw [hl]
        omega
      · rw [if_neg hl]
        exact hBS
    · show (if i = s.m_cfi.GetSizeInBits - 1 then s.m_fileSize - i * s.m_cfi.GetBufferSize
        else s.m_cfi.GetBufferSize) ≤ _
      by_cases hl : i = s.m_cfi.GetSizeInBits - 1
      · rw [if_pos hl, hsz]
        have e3 : s.m_cfi.GetSizeInBits * s.m_cfi.GetBufferSize
            = i * s.m_cfi.GetBufferSize + s.m_cfi.GetBufferSize := by
          rw [hl]; ring
        omega
      · rw [if_neg hl]
    · intro hl
      show (if i = s.m_cfi.GetSizeInBits - 1 then s.m_fileSize - i * s.m_cfi.GetBufferSize
        else s.m_cfi.GetBufferSize) = s.m_cfi.file_size - i * s.m_cfi.GetBufferSize
      rw [if_pos hl, hsz]
    · intro hl
      show (if i = s.m_cfi.GetSizeInBits - 1 then s.m_fileSize - i * s.m_cfi.GetBufferSize
        else s.m_cfi.GetBufferSize) = s.m_cfi.GetBufferSize
      rw [if_neg (by omega)]
    · rw [RequestBlock_origin_reads]
      rfl
  · have hcongr : (List.range s.m_cfi.GetSizeInBits.toNat).map
          (fun (k : Nat) =>
            (((s.RequestBlock (k : Int) p).m_block_map.find (k : Int)).map Block.m_size).getD 0)
        = (List.range s.m_cfi.GetSizeInBits.toNat).map
          (fun (k : Nat) =>
            (fun j : Int => min (j * s.m_cfi.GetBufferSize) s.m_cfi.file_size) (0 + (k : Int) + 1)
            - (fun j : Int => min (j * s.m_cfi.GetBufferSize) s.m_cfi.file_size) (0 + (k : Int))) := by
      apply List.map_congr_left
      intro k hk
      rw [List.mem_range] at hk
      rw [RequestBlock_find]
      show (if (k : Int) = s.m_cfi.GetSizeInBits - 1
          then s.m_fileSize - (k : Int) * s.m_cfi.GetBufferSize
          else s.m_cfi.GetBufferSize) = _
      rw [RequestBlock_size_eq_min s k hBS hfs hsz (by omega)]
      dsimp only
      rw [zero_add]
    rw [hcongr,
      sum_telescope (fun j : Int => min (j * s.m_cfi.GetBufferSize) s.m_cfi.file_size) 0
        s.m_cfi.GetSizeInBits.toNat]
    rw [zero_add, Int.toNat_of_nonneg (by omega), min_eq_right h2, zero_mul,
      min_eq_left (le_of_lt hfs)]
    ring

/-- C23 at the file of 3000 bytes with buffer size 1024: three blocks of 1024, 1024 and 952
bytes. -/
theorem RequestBlock_block_lengths_witness :
    ((0 : Int) < file3000.m_cfi.GetBufferSize ∧ 0 < file3000.m_cfi.file_size ∧
      file3000.m_fileSize = file3000.m_cfi.file_size) ∧
    file3000.m_cfi.GetSizeInBits = 3 ∧
    ((file3000.RequestBlock 2 false).m_block_map.find 2).map Block.m_size = some 952 ∧
    ((List.range file3000.m_cfi.GetSizeInBits.toNat).map
        (fun (k : Nat) =>
          (((file3000.RequestBlock (k : Int) false).m_block_map.find (k : Int)).map
            Block.m_size).getD 0)).sum
      = file3000.m_cfi.file_size :=
  ⟨⟨by decide, by decide, by decide⟩, by decide, by decide,
    (RequestBlock_block_lengths file3000 false (by decide) (by decide) (by decide)).2.1⟩

end File

namespace File

theorem Prefetch_loop_found (s : File) (g : Bool) (fuel : Nat) (f : Int) (r : File)
    (h : Prefetch_loop s g fuel f = some (r, true)) :
    ∃ f1, s.m_block_map.find f1 = none ∧ r = s.Prefetch_take g f1 := by
  induction fuel generalizing f with
  | zero => unfold Prefetch_loop at h; cases h
  | succ n ih =>
    unfold Prefetch_loop at h
    by_cases h1 : f < s.m_cfi.GetSizeInBits
    · rw [if_pos h1] at h
      by_cases h2 : (!s.m_cfi.TestBit f) = true
      · rw [if_pos h2] at h
        dsimp only at h
        cases hf : s.m_block_map.find (f + cdiv s.m_offset s.m_cfi.GetBufferSize) with
        | none =>
          rw [hf] at h
          dsimp only at h
          exact ⟨_, hf, (congrArg Prod.fst (Option.some.inj h)).symm⟩
        | some x =>
          rw [hf] at h
          dsimp only at h
          exact ih _ h
      · rw [if_neg h2] at h
        exact ih _ h
    · rw [if_neg h1] at h
      have := congrArg Prod.snd (Option.some.inj h)
      cases this

/-- The three results of `Prefetch`. -/
theorem Prefetch_results (s : File) (g : Bool) (t : File) (h : s.Prefetch g = some t) :
    (s.m_prefetchState ≠ PrefetchState.kOn ∧ t = s) ∨
    (s.m_prefetchState = PrefetchState.kOn ∧ t = Prefetch_complete s) ∨
    (s.m_prefetchState = PrefetchState.kOn ∧
      ∃ f, s.m_block_map.find f = none ∧ t = s.Prefetch_take g f) := by
  rcases Prefetch_unfold s g t h with ⟨h1, h2⟩ | ⟨h1, r, hr, ht⟩
  · exact Or.inl ⟨h1, h2⟩
  · right
    obtain ⟨r1, r2⟩ := r
    cases r2 with
    | false =>
      left
      rcases Prefetch_loop_spec s g _ 0 r1 false hr with ⟨_, h2⟩ | ⟨h2, _⟩
      · rw [ht, ← h2]
        exact ⟨by rw [h2]; exact h1, rfl⟩
      · cases h2
    | true =>
      right
      obtain ⟨f, hf, hrf⟩ := Prefetch_loop_found s g _ 0 r1 hr
      rw [ht]
      exact ⟨h1, f, hf, hrf⟩

theorem size_set_pos (m : BlockMap) (i : Int) (b : Block) : 0 < BlockMap.size (BlockMap.set m i b) := by
  unfold BlockMap.size BlockMap.set
  rw [List.length_cons]
  omega

theorem size_nonneg (m : BlockMap) : 0 ≤ BlockMap.size m := by
  unfold BlockMap.size
  omega

theorem RequestBlock_not_On (s : File) (i : Int) (p : Bool) (hmax : s.m_prefetch_max_blocks = 0) :
    (s.RequestBlock i p).m_prefetchState ≠ PrefetchState.kOn ∧
    (s.m_prefetchState = PrefetchState.kOn →
      (s.RequestBlock i p).m_prefetchState = PrefetchState.kHold) := by
  have hst := RequestBlock_state s i p
  have hsz : 0 < (s.RequestBlock i p).m_block_map.size := by
    rw [RequestBlock_map]
    exact size_set_pos _ _ _
  by_cases hon : s.m_prefetchState = PrefetchState.kOn
  · rw [if_pos ⟨hon, by rw [hmax]; exact hsz⟩] at hst
    rw [hst]
    exact ⟨by decide, fun _ => rfl⟩
  · rw [if_neg (fun hh => hon hh.1)] at hst
    rw [hst]
    exact ⟨hon, fun hh => absurd hh hon⟩

theorem Prefetch_take_state (s : File) (g : Bool) (f : Int) :
    (s.Prefetch_take g f).m_prefetchState
      = ({ s with cache := s.cache.RequestRAMBlock g }.RequestBlock f true).m_prefetchState := rfl

/-- C21, counterexample: under `prefetch_max_blocks = 0` the new file of 3000 bytes is in the
prefetch state On, and `Prefetch` issues an origin fetch for block 0 and inserts the block into
the map. -/
theorem Prefetch_with_max_blocks_zero_counterexample :
    fileNoPrefetch.m_prefetch_max_blocks = 0 ∧
    fileNoPrefetch.m_prefetchState = PrefetchState.kOn ∧
    fileNoPrefetch.origin_reads = [] ∧ fileNoPrefetch.m_block_map = [] ∧
    (fileNoPrefetch.Prefetch true).map
        (fun t => (t.origin_reads, BlockMap.keys t.m_block_map, t.m_prefetchState))
      = some ([{ direct := false, target := 0, offset := 0, length := 1024 }], [0],
          PrefetchState.kHold) := by
  decide

/-- C21, amended: `Prefetch` does not look at `prefetch_max_blocks`.  Under
`prefetch_max_blocks = 0` a call in the state On requests a block as under any other value, unless
no block is left to request; the insertion moves the state to Hold, in which `Prefetch` does
nothing; `RequestBlock` never leaves the state On and `free_block` never sets it, so that only
`WakeUp` brings the state On back.  In a state other than On `Prefetch` changes nothing. -/
theorem Prefetch_max_blocks_zero (s : File) (g : Bool) (hmax : s.m_prefetch_max_blocks = 0) :
    (∀ t, s.Prefetch g = some t →
      (s.m_prefetchState ≠ PrefetchState.kOn ∧ t = s) ∨
      (s.m_prefetchState = PrefetchState.kOn ∧ t = Prefetch_complete s) ∨
      (s.m_prefetchState = PrefetchState.kOn ∧
        ∃ f, s.m_block_map.find f = none ∧ t = s.Prefetch_take g f ∧
          t.m_block_map.find f ≠ none ∧
          t.m_prefetchState = PrefetchState.kHold ∧ t.Prefetch g = some t)) ∧
    (∀ i p, (s.RequestBlock i p).m_prefetchState ≠ PrefetchState.kOn) ∧
    (∀ b, (s.free_block b).m_prefetchState = PrefetchState.kOn →
      s.m_prefetchState = PrefetchState.kOn) ∧
    (s.m_prefetchState ≠ PrefetchState.kOn → s.Prefetch g = some s) := by
  refine ⟨?_, fun i p => (RequestBlock_not_On s i p hmax).1, ?_, ?_⟩
  · intro t ht
    rcases Prefetch_results s g t ht with h | h | ⟨hon, f, hf, htf⟩
    · exact Or.inl h
    · exact Or.inr (Or.inl h)
    · right; right
      have hH : t.m_prefetchState = PrefetchState.kHold := by
        rw [htf, Prefetch_take_state]
        exact (RequestBlock_not_On { s with cache := s.cache.RequestRAMBlock g } f true hmax).2 hon
      refine ⟨hon, f, hf, htf, ?_, hH, ?_⟩
      · rw [htf, Prefetch_take_find]
        intro hh
        cases hh
      · unfold Prefetch
        rw [if_pos (by rw [hH]; decide)]
  · intro b hb
    cases hf : s.m_block_map.find b with
    | none =>
      have : s.free_block b = s := by
        unfold free_block
        rw [hf]
      rw [this] at hb
      exact hb
    | some blk =>
      have hst := free_block_state s b (by rw [hf]; intro hh; cases hh)
      have hsz := size_nonneg (s.free_block b).m_block_map
      rw [if_neg (fun hh => by rw [hmax] at hh; omega)] at hst
      rw [hst] at hb
      exact hb
  · intro hst
    unfold Prefetch
    rw [if_pos hst]

/-- C21 (amended) at the new file of 3000 bytes under `prefetch_max_blocks = 0`. -/
theorem Prefetch_max_blocks_zero_witness :
    fileNoPrefetch.m_prefetch_max_blocks = 0 ∧
    ((∀ t, fileNoPrefetch.Prefetch true = some t →
      (fileNoPrefetch.m_prefetchState ≠ PrefetchState.kOn ∧ t = fileNoPrefetch) ∨
      (fileNoPrefetch.m_prefetchState = PrefetchState.kOn ∧ t = Prefetch_complete fileNoPrefetch) ∨
      (fileNoPrefetch.m_prefetchState = PrefetchState.kOn ∧
        ∃ f, fileNoPrefetch.m_block_map.find f = none ∧ t = fileNoPrefetch.Prefetch_take true f ∧
          t.m_block_map.find f ≠ none ∧
          t.m_prefetchState = PrefetchState.kHold ∧ t.Prefetch true = some t)) ∧
    (∀ i p, (fileNoPrefetch.RequestBlock i p).m_prefetchState ≠ PrefetchState.kOn) ∧
    (∀ b, (fileNoPrefetch.free_block b).m_prefetchState = PrefetchState.kOn →
      fileNoPrefetch.m_prefetchState = PrefetchState.kOn) ∧
    (fileNoPrefetch.m_prefetchState ≠ PrefetchState.kOn →
      fileNoPrefetch.Prefetch true = some fileNoPrefetch)) :=
  ⟨by decide, Prefetch_max_blocks_zero fileNoPrefetch true (by decide)⟩

end File

namespace File

theorem fileScore_eq :
    fileScore = (File.create 1024 10 0 3000 (some infoPrefetched1)).Prefetch_take true 0 := by
  have h : (File.create 1024 10 0 3000 (some infoPrefetched1)).Prefetch true
      = some ((File.create 1024 10 0 3000 (some infoPrefetched1)).Prefetch_take true 0) := rfl
  unfold fileScore
  rw [h]
  rfl

/-- C22: `Prefetch` and the accounting of a block served from RAM leave
`m_prefetchScore = m_prefetchHitCnt / m_prefetchReadCnt`; the accounting of a block served from
disk (`CheckPrefetchStatDisk`) adds 1 to the hit count and leaves the score as it was.  In the
file opened with an info file whose block 1 is present and prefetched, after `Prefetch` has taken
block 0 (read count 1, hit count 0, score 0), `Read(1024, 1024)` serves block 1 from disk and
returns 1024 with hit count 1, read count 1 and score 0, where hit count / read count is 1. -/
theorem CheckPrefetchStatDisk_leaves_score :
    (∀ (s : File) (g : Bool) (f : Int),
      (s.Prefetch_take g f).m_prefetchReadCnt = s.m_prefetchReadCnt + 1 ∧
      (s.Prefetch_take g f).m_prefetchHitCnt = s.m_prefetchHitCnt ∧
      (s.Prefetch_take g f).m_prefetchScore
        = ((s.Prefetch_take g f).m_prefetchHitCnt : ℚ) / ((s.Prefetch_take g f).m_prefetchReadCnt : ℚ)) ∧
    (∀ (s : File) (b : Block), s.m_prefetch_max_blocks ≠ 0 → b.m_prefetch = true →
      (s.CheckPrefetchStatRAM b).m_prefetchHitCnt = s.m_prefetchHitCnt + 1 ∧
      (s.CheckPrefetchStatRAM b).m_prefetchReadCnt = s.m_prefetchReadCnt ∧
      (s.CheckPrefetchStatRAM b).m_prefetchScore
        = ((s.CheckPrefetchStatRAM b).m_prefetchHitCnt : ℚ)
          / ((s.CheckPrefetchStatRAM b).m_prefetchReadCnt : ℚ)) ∧
    (∀ (s : File) (b : Block), ¬ (s.m_prefetch_max_blocks ≠ 0 ∧ b.m_prefetch = true) →
      s.CheckPrefetchStatRAM b = s) ∧
    (∀ (s : File) (i : Int), s.m_prefetch_max_blocks ≠ 0 →
      s.m_cfi.TestPrefetchBit (s.offsetIdx i) = true →
      (s.CheckPrefetchStatDisk i).m_prefetchHitCnt = s.m_prefetchHitCnt + 1 ∧
      (s.CheckPrefetchStatDisk i).m_prefetchReadCnt = s.m_prefetchReadCnt ∧
      (s.CheckPrefetchStatDisk i).m_prefetchScore = s.m_prefetchScore) ∧
    (∀ (s : File) (i : Int), s.m_prefetch_max_blocks ≠ 0 →
      s.m_cfi.TestPrefetchBit (s.offsetIdx i) = true → 0 < s.m_prefetchReadCnt →
      s.m_prefetchScore = (s.m_prefetchHitCnt : ℚ) / (s.m_prefetchReadCnt : ℚ) →
      (s.CheckPrefetchStatDisk i).m_prefetchScore
        ≠ ((s.CheckPrefetchStatDisk i).m_prefetchHitCnt : ℚ)
          / ((s.CheckPrefetchStatDisk i).m_prefetchReadCnt : ℚ)) ∧
    (fileScore.m_prefetchReadCnt = 1 ∧ fileScore.m_prefetchHitCnt = 0 ∧
      fileScore.m_prefetchScore = 0 ∧
      (Read_classify fileScore envIdle.cache (cdiv 1024 1024) (cdiv (1024 + 1024 - 1) 1024)).2
        = { blks_to_process := [], blks_on_disk := [1], blks_direct := [] } ∧
      (Read fileScore 1024 1024 envIdle).map
          (fun r => (r.ret, r.file.m_prefetchHitCnt, r.file.m_prefetchReadCnt))
        = some (1024, 1, 1) ∧
      (Read fileScore 1024 1024 envIdle).map (fun r => r.file.m_prefetchScore) = some 0 ∧
      ((1 : Int) : ℚ) / ((1 : Int) : ℚ) ≠ 0) := by
  have hscore : fileScore.m_prefetchScore = 0 := by
    rw [fileScore_eq]
    show (((0 : Int) : ℚ)) / (((0 : Int) + 1 : Int) : ℚ) = 0
    simp
  refine ⟨?_, ?_, ?_, ?_, ?_, ?_⟩
  · intro s g f
    refine ⟨Prefetch_take_cnt s g f, ?_, ?_⟩
    · unfold Prefetch_take RequestBlock
      dsimp only
      split_ifs <;> rfl
    · unfold Prefetch_take
      rfl
  · intro s b hmax hp
    unfold CheckPrefetchStatRAM
    rw [if_pos hmax, if_pos hp]
    exact ⟨rfl, rfl, rfl⟩
  · intro s b h
    unfold CheckPrefetchStatRAM
    by_cases hmax : s.m_prefetch_max_blocks ≠ 0
    · rw [if_pos hmax, if_neg (fun hp => h ⟨hmax, hp⟩)]
    · rw [if_neg hmax]
  · intro s i hmax hbit
    unfold CheckPrefetchStatDisk
    rw [if_pos hmax, if_pos hbit]
    exact ⟨rfl, rfl, rfl⟩
  · intro s i hmax hbit hread hsc
    unfold CheckPrefetchStatDisk
    rw [if_pos hmax, if_pos hbit]
    dsimp only
    rw [hsc]
    have hr : ((s.m_prefetchReadCnt : Int) : ℚ) ≠ 0 := by
      have : s.m_prefetchReadCnt ≠ 0 := by omega
      exact_mod_cast this
    intro heq
    rw [div_left_inj' hr] at heq
    have h2 : s.m_prefetchHitCnt = s.m_prefetchHitCnt + 1 := by exact_mod_cast heq
    omega
  · refine ⟨by decide, by decide, hscore, by decide, by decide, ?_, by norm_num⟩
    have : (Read fileScore 1024 1024 envIdle).map (fun r => r.file.m_prefetchScore)
        = some fileScore.m_prefetchScore := rfl
    rw [this, hscore]

/-- The direct handler of `Read` after the completions of the environment. -/
theorem Read_waits_direct (s : File) (off size : Int) (env : ReadEnv) (r : ReadResult)
    (h : Read s off size env = some r) (hret : 0 ≤ r.ret)
    (hd : (Read_classify s env.cache (cdiv off s.m_cfi.GetBufferSize)
      (cdiv (off + size - 1) s.m_cfi.GetBufferSize)).2.blks_direct ≠ []) :
    (DirectResponseHandler.after
      ((Read_classify s env.cache (cdiv off s.m_cfi.GetBufferSize)
        (cdiv (off + size - 1) s.m_cfi.GetBufferSize)).2.blks_direct.length : Int)
      env.direct_done).m_to_wait ≤ 0 := by
  unfold Read at h
  dsimp only at h
  generalize Read_classify s env.cache (cdiv off s.m_cfi.GetBufferSize)
    (cdiv (off + size - 1) s.m_cfi.GetBufferSize) = c at h hd ⊢
  have hne : (!c.2.blks_direct.isEmpty) = true := by
    cases hl : c.2.blks_direct with
    | nil => exact absurd hl hd
    | cons a l => rfl
  generalize (if c.2.blks_direct.isEmpty = true then (c.1, (0 : Int))
    else RequestBlocksDirect c.1 c.2.blks_direct off size env.junk) = d at h
  by_cases h1 : (!c.2.blks_direct.isEmpty) = true ∧ d.2 < 0
  · rw [if_pos h1] at h
    rw [← Option.some.inj h] at hret
    dsimp only at hret
    omega
  · rw [if_neg h1] at h
    generalize (if c.2.blks_on_disk.isEmpty = true then (d.1, (0 : Int))
      else ReadBlocksFromDisk d.1 env.disk_read c.2.blks_on_disk off size env.junk) = k at h
    cases hw : Read_wait_loop off size env.junk env.responses k.1
        { bytes_read := k.2, errno := none, blks_to_process := c.2.blks_to_process,
          blks_processed := [] } with
    | none => rw [hw] at h; cases h
    | some p =>
      rw [hw] at h
      obtain ⟨s3, v⟩ := p
      dsimp only at h
      by_cases h2 : (!c.2.blks_direct.isEmpty) = true ∧ v.bytes_read ≥ 0
      · rw [if_pos h2] at h
        by_cases h3 : (List.foldl (fun h r => h.Done r.1 r.2)
            (DirectResponseHandler.create (c.2.blks_direct.length : Int)) env.direct_done).m_to_wait > 0
        · rw [if_pos h3] at h
          cases h
        · unfold DirectResponseHandler.after
          omega
      · rw [if_neg h2] at h
        rw [← Option.some.inj h] at hret
        exact absurd ⟨hne, hret⟩ h2

end File

namespace File

/-- C25: when `Read` returns a non-negative value, the handler of its direct requests has been
called once for each of them (its remaining counter is 0 or less); on the paths where a block or
a disk read has failed `Read` does not wait for the handler.  In the file of 3000 bytes with
block 0 on disk, block 1 failed in the map and no RAM-block permit left, `Read(0, 3000)` sends a
direct request for block 2 and returns -1 (error 110 of block 1) while the origin has not
completed the direct request: the remaining counter of the handler is 1.  The same happens when
the disk read of block 0 fails. -/
theorem Read_returns_with_direct_request_pending :
    (∀ (s : File) (off size : Int) (env : ReadEnv) (r : ReadResult),
      Read s off size env = some r → 0 ≤ r.ret →
      (Read_classify s env.cache (cdiv off s.m_cfi.GetBufferSize)
        (cdiv (off + size - 1) s.m_cfi.GetBufferSize)).2.blks_direct ≠ [] →
      (DirectResponseHandler.after
        ((Read_classify s env.cache (cdiv off s.m_cfi.GetBufferSize)
          (cdiv (off + size - 1) s.m_cfi.GetBufferSize)).2.blks_direct.length : Int)
        env.direct_done).m_to_wait ≤ 0) ∧
    ((Read_classify fileDisk0Failed1 envDirectPending.cache (cdiv 0 1024)
        (cdiv (0 + 3000 - 1) 1024)).2
        = { blks_to_process := [1], blks_on_disk := [0], blks_direct := [2] } ∧
      envDirectPending.direct_done = [] ∧
      (DirectResponseHandler.after 1 envDirectPending.direct_done).m_to_wait = 1 ∧
      (Read fileDisk0Failed1 0 3000 envDirectPending).map
          (fun r => (r.ret, r.errno, r.file.origin_reads))
        = some (-1, some 110, [{ direct := true, target := 2048, offset := 2048, length := 952 }])) ∧
    ((Read_classify fileDisk0Failed1 envDirectPendingDiskError.cache (cdiv 0 1024)
        (cdiv (0 + 3000 - 1) 1024)).2
        = { blks_to_process := [1], blks_on_disk := [0], blks_direct := [2] } ∧
      envDirectPendingDiskError.direct_done = [] ∧
      (DirectResponseHandler.after 1 envDirectPendingDiskError.direct_done).m_to_wait = 1 ∧
      (Read fileDisk0Failed1 0 3000 envDirectPendingDiskError).map
          (fun r => (r.ret, r.errno, r.file.origin_reads))
        = some (-1, none, [{ direct := true, target := 2048, offset := 2048, length := 952 }])) ∧
    (Read fileDisk0Failed1 2048 952 envDirectPending = none) := by
  refine ⟨Read_waits_direct, ⟨by decide, rfl, by decide, by decide⟩,
    ⟨by decide, rfl, by decide, by decide⟩, ?_⟩
  rfl

theorem idxRange_singleton (a : Int) : idxRange a a = [a] := by
  unfold idxRange
  have : (a - a + 1).toNat = 1 := by omega
  rw [this]
  show [a + ((0 : Nat) : Int)] = [a]
  simp

theorem idxRange_empty (a b : Int) (h : b < a) : idxRange a b = [] := by
  unfold idxRange
  have : (b - a + 1).toNat = 0 := by omega
  rw [this]
  rfl

/-- The block indices that the classification of a request of size 0 visits. -/
theorem idxRange_size_zero (BS off : Int) (hBS : 0 < BS) (hoff : 0 ≤ off) :
    idxRange (cdiv off BS) (cdiv (off + 0 - 1) BS)
      = if off % BS ≠ 0 ∨ (off = 0 ∧ 1 < BS) then [cdiv off BS] else [] := by
  rw [add_zero]
  by_cases h0 : off = 0
  · subst h0
    have e0 : cdiv 0 BS = 0 := by unfold cdiv; simp
    by_cases h1 : 1 < BS
    · rw [if_pos (Or.inr ⟨rfl, h1⟩), e0]
      have e1 : cdiv (0 - 1) BS = 0 := by
        unfold cdiv
        have : (0 : Int) - 1 = -1 := by norm_num
        rw [this, Int.neg_tdiv, Int.tdiv_eq_ediv (by norm_num) (le_of_lt hBS),
          Int.ediv_eq_zero_of_lt (by norm_num) h1]
        rfl
      rw [e1]
      exact idxRange_singleton 0
    · have hb : BS = 1 := by omega
      subst hb
      rw [if_neg (by simp)]
      exact idxRange_empty _ _ (by decide)
  · have hpos : 0 < off := by omega
    unfold cdiv
    rw [Int.tdiv_eq_ediv hoff (le_of_lt hBS), Int.tdiv_eq_ediv (by omega) (le_of_lt hBS)]
    have hdm := Int.ediv_add_emod off BS
    have hr0 := Int.emod_nonneg off (ne_of_gt hBS)
    have hr1 := Int.emod_lt_of_pos off hBS
    by_cases hr : off % BS = 0
    · rw [if_neg (by
        intro hh
        rcases hh with hh | hh
        · exact hh hr
        · exact h0 hh.1)]
      have h := (Int.ediv_emod_unique hBS).mpr
        (⟨by rw [hr] at hdm; linarith [hdm, mul_sub BS (off / BS) 1], by omega, by omega⟩ :
          (BS - 1) + BS * (off / BS - 1) = off - 1 ∧ 0 ≤ BS - 1 ∧ BS - 1 < BS)
      rw [h.1]
      exact idxRange_empty _ _ (by omega)
    · rw [if_pos (Or.inl hr)]
      have h := (Int.ediv_emod_unique hBS).mpr
        (⟨by linarith [hdm], by omega, by omega⟩ :
          (off % BS - 1) + BS * (off / BS) = off - 1 ∧ 0 ≤ off % BS - 1 ∧ off % BS - 1 < BS)
      rw [h.1]
      exact idxRange_singleton _

/-- A `Read` whose classification visits no block returns 0 and leaves the file as it is. -/
theorem Read_no_block (s : File) (off size : Int) (env : ReadEnv)
    (h : idxRange (cdiv off s.m_cfi.GetBufferSize) (cdiv (off + size - 1) s.m_cfi.GetBufferSize)
      = []) :
    Read s off size env = some { ret := 0, errno := none, file := s } := by
  have hc : Read_classify s env.cache (cdiv off s.m_cfi.GetBufferSize)
      (cdiv (off + size - 1) s.m_cfi.GetBufferSize)
      = (s, { blks_to_process := [], blks_on_disk := [], blks_direct := [] }) := by
    unfold Read_classify
    rw [h]
    rfl
  unfold Read
  dsimp only
  rw [hc]
  cases hr : env.responses with
  | nil => simp [Read_wait_loop, Read_loop_done]
  | cons b rest => simp [Read_wait_loop, Read_loop_done]

/-- C29: the classification of a `Read` of size 0 visits no block only when the offset is a
positive multiple of the buffer size (or the buffer size is 1); `Read` then returns 0 and leaves
the file as it is.  At every other offset it visits the block of the offset, because
`(offset - 1) / BS` is not below `offset / BS`.  `Read(0, 0)` on the new file of 3000 bytes
requests block 0 from the origin and takes a reference to it, `overlap` returns false for the
block and leaves its output arguments as they were, and `Read` returns what `size_to_copy` held
before the call (77 here).  `Read(5, 0)` requests block 0 as well. -/
theorem Read_size_zero_visits_block :
    (∀ (BS off : Int), 0 < BS → 0 ≤ off →
      idxRange (cdiv off BS) (cdiv (off + 0 - 1) BS)
        = if off % BS ≠ 0 ∨ (off = 0 ∧ 1 < BS) then [cdiv off BS] else []) ∧
    (∀ (s : File) (off : Int) (env : ReadEnv), 0 < s.m_cfi.GetBufferSize → 0 < off →
      off % s.m_cfi.GetBufferSize = 0 →
      Read s off 0 env = some { ret := 0, errno := none, file := s }) ∧
    (idxRange (cdiv 0 1024) (cdiv (0 + 0 - 1) 1024) = [0] ∧
      (Read_classify file3000 envJunk.cache (cdiv 0 1024) (cdiv (0 + 0 - 1) 1024)).2
        = { blks_to_process := [0], blks_on_disk := [], blks_direct := [] } ∧
      (Read_classify file3000 envJunk.cache (cdiv 0 1024) (cdiv (0 + 0 - 1) 1024)).1.origin_reads
        = [{ direct := false, target := 0, offset := 0, length := 1024 }] ∧
      ((Read_classify file3000 envJunk.cache (cdiv 0 1024)
          (cdiv (0 + 0 - 1) 1024)).1.m_block_map.find 0).map Block.m_refcnt = some 1 ∧
      overlap 0 1024 0 0 envJunk.junk = (false, envJunk.junk) ∧
      envJunk.junk.size = 77 ∧
      (Read file3000 0 0 envJunk).map (fun r => (r.ret, r.file.origin_reads))
        = some (77, [{ direct := false, target := 0, offset := 0, length := 1024 }])) ∧
    ((Read_classify file3000 envJunk.cache (cdiv 5 1024) (cdiv (5 + 0 - 1) 1024)).2
        = { blks_to_process := [0], blks_on_disk := [], blks_direct := [] } ∧
      overlap 0 1024 5 0 envJunk.junk = (true, { off := 0, blk_off := 5, size := 0 }) ∧
      (Read file3000 5 0 envJunk).map (fun r => (r.ret, r.file.origin_reads))
        = some (0, [{ direct := false, target := 0, offset := 0, length := 1024 }])) := by
  refine ⟨idxRange_size_zero, ?_, by decide, by decide⟩
  intro s off env hBS hoff hr
  apply Read_no_block
  rw [idxRange_size_zero _ _ hBS (le_of_lt hoff), if_neg]
  intro hh
  rcases hh with hh | hh
  · exact hh hr
  · omega

end File

namespace BlockMap

theorem size_erase_of_nodup (m : BlockMap) (i : Int) (b : Block) (hnd : (keys m).Nodup)
    (hf : find m i = some b) : size (erase m i) = size m - 1 := by
  induction m with
  | nil => cases hf
  | cons e rest ih =>
    obtain ⟨k, x⟩ := e
    simp only [keys, List.map_cons, List.nodup_cons] at hnd
    rw [find_cons] at hf
    by_cases hk : k = i
    · subst hk
      have hrest : erase rest k = rest := erase_of_not_mem rest k hnd.1
      have : erase ((k, x) :: rest) k = erase rest k := by
        unfold erase
        rw [List.filter_cons]
        simp
      rw [this, hrest]
      unfold size
      rw [List.length_cons]
      omega
    · rw [if_neg hk] at hf
      have : erase ((k, x) :: rest) i = (k, x) :: erase rest i := by
        unfold erase
        rw [List.filter_cons]
        simp [hk]
      rw [this]
      have := ih hnd.2 hf
      unfold size at this ⊢
      rw [List.length_cons, List.length_cons]
      omega

end BlockMap

namespace File

theorem MapOK_of_Acct (s : File) (T : Int → Nat) (h : s.Acct T) : s.MapOK := ⟨h.bs, h.wf, h.nodup⟩

theorem MapOK_congr (s t : File) (h : s.MapOK) (hcfi : t.m_cfi = s.m_cfi)
    (hmap : t.m_block_map = s.m_block_map) : t.MapOK := by
  obtain ⟨h1, h2, h3⟩ := h
  refine ⟨by rw [hcfi]; exact h1, ?_, by rw [hmap]; exact h3⟩
  intro k b hb
  rw [hmap] at hb
  rw [hcfi]
  exact h2 k b hb

theorem free_block_cache (s : File) (b : Int) (blk : Block) (hb : s.m_block_map.find b = some blk) :
    (s.free_block b).cache.ram_blocks = s.cache.ram_blocks - 1 := by
  unfold free_block
  rw [hb]
  dsimp only
  split_ifs <;> rfl

theorem free_block_permits (s : File) (b : Int) (h : s.MapOK) (hp : s.PermitsOK) :
    (s.free_block b).MapOK ∧ (s.free_block b).PermitsOK := by
  obtain ⟨h1, h2, h3⟩ := h
  cases hb : s.m_block_map.find b with
  | none =>
    have : s.free_block b = s := by
      unfold free_block
      rw [hb]
    rw [this]
    exact ⟨⟨h1, h2, h3⟩, hp⟩
  | some blk =>
    have hkey : cdiv blk.m_offset s.BufferSize = b := by
      rw [h2 b blk hb]
      exact cdiv_mul_cancel b _ h1
    have hmap : (s.free_block b).m_block_map = s.m_block_map.erase b := by
      rw [free_block_map, hb]
      dsimp only
      rw [hkey]
    refine ⟨⟨by rw [free_block_cfi]; exact h1, ?_, ?_⟩, ?_⟩
    · intro k x hx
      rw [hmap, BlockMap.find_erase] at hx
      rw [free_block_cfi]
      by_cases hk : k = b
      · rw [if_pos hk] at hx; cases hx
      · rw [if_neg hk] at hx
        exact h2 k x hx
    · rw [hmap]
      exact BlockMap.keys_erase_nodup _ _ h3
    · unfold PermitsOK at hp ⊢
      rw [free_block_cache s b blk hb, hmap, BlockMap.size_erase_of_nodup _ b blk h3 hb, hp]

theorem modify_refcnt_permits (s : File) (b : Int) (f : Int → Int) (h : s.MapOK) (hp : s.PermitsOK) :
    MapOK { s with m_block_map := s.m_block_map.modify b (fun x => { x with m_refcnt := f x.m_refcnt }) } ∧
    PermitsOK { s with m_block_map := s.m_block_map.modify b (fun x => { x with m_refcnt := f x.m_refcnt }) } := by
  obtain ⟨h1, h2, h3⟩ := h
  refine ⟨⟨h1, ?_, ?_⟩, ?_⟩
  · intro k x hx
    have hx1 : BlockMap.find (BlockMap.modify s.m_block_map b
        (fun x => { x with m_refcnt := f x.m_refcnt })) k = some x := hx
    rw [BlockMap.find_modify] at hx1
    show x.m_offset = k * s.m_cfi.GetBufferSize
    by_cases hk : k = b
    · rw [if_pos hk] at hx1
      cases hb : s.m_block_map.find b with
      | none => rw [hb] at hx1; cases hx1
      | some blk =>
        rw [hb] at hx1
        have := Option.some.inj hx1
        rw [← this, hk]
        exact h2 b blk hb
    · rw [if_neg hk] at hx1
      exact h2 k x hx1
  · dsimp only
    rw [BlockMap.keys_modify]
    exact h3
  · unfold PermitsOK at hp ⊢
    dsimp only
    rw [BlockMap.size_modify]
    exact hp

theorem dec_ref_count_permits (s : File) (b : Int) (h : s.MapOK) (hp : s.PermitsOK) :
    (s.dec_ref_count b).MapOK ∧ (s.dec_ref_count b).PermitsOK := by
  unfold dec_ref_count
  cases hb : s.m_block_map.find b with
  | none => exact ⟨h, hp⟩
  | some blk =>
    dsimp only
    have hm := modify_refcnt_permits s b (fun r => r - 1) h hp
    split_ifs
    · exact free_block_permits _ b hm.1 hm.2
    · exact hm

theorem release_permits (l : List Int) (s : File) (h : s.MapOK) (hp : s.PermitsOK) :
    (l.foldl dec_ref_count s).MapOK ∧ (l.foldl dec_ref_count s).PermitsOK := by
  induction l generalizing s with
  | nil => exact ⟨h, hp⟩
  | cons b rest ih =>
    rw [List.foldl_cons]
    obtain ⟨g1, g2⟩ := dec_ref_count_permits s b h hp
    exact ih _ g1 g2

theorem sweep_permits (l : BlockMap) (s : File) (h : s.MapOK) (hp : s.PermitsOK) :
    (l.foldl (fun st e => if e.2.is_failed = true ∧ e.2.m_refcnt = 1 then st.free_block e.1 else st)
      s).PermitsOK := by
  induction l generalizing s with
  | nil => exact hp
  | cons e rest ih =>
    rw [List.foldl_cons]
    split_ifs
    · obtain ⟨g1, g2⟩ := free_block_permits s e.1 h hp
      exact ih _ g1 g2
    · exact ih s h hp

theorem RequestBlock_ram (s : File) (i : Int) (p : Bool) :
    (s.RequestBlock i p).cache.ram_blocks = s.cache.ram_blocks := by
  unfold RequestBlock
  dsimp only
  split_ifs <;> rfl

theorem RequestBlock_permits (s : File) (i : Int) (p : Bool) (hi : s.m_block_map.find i = none)
    (hp : s.cache.ram_blocks = s.m_block_map.size + 1) : (s.RequestBlock i p).PermitsOK := by
  unfold PermitsOK
  rw [RequestBlock_ram, RequestBlock_map, BlockMap.size_set_of_find_none _ _ _ hi, hp]

theorem inc_ref_count_permits (s : File) (i : Int) (hp : s.PermitsOK) :
    (s.inc_ref_count i).PermitsOK := by
  unfold PermitsOK at hp ⊢
  rw [inc_ref_count_map, BlockMap.size_modify]
  exact hp

theorem Read_classify_step_permits (ca : CacheAnswers) (acc : File × ReadLists) (i : Int)
    (hp : acc.1.PermitsOK) : (Read_classify_step ca acc i).1.PermitsOK := by
  unfold Read_classify_step
  cases hf : acc.1.m_block_map.find i with
  | some x => exact inc_ref_count_permits acc.1 i hp
  | none =>
    dsimp only
    split_ifs
    · exact hp
    · apply inc_ref_count_permits
      exact RequestBlock_permits { acc.1 with cache := acc.1.cache.RequestRAMBlock true } i false hf
        (by
          unfold PermitsOK at hp
          show acc.1.cache.ram_blocks + 1 = _
          rw [hp])
    · exact hp

theorem Read_classify_fold_permits (ca : CacheAnswers) (l : List Int) (acc : File × ReadLists)
    (hp : acc.1.PermitsOK) : (l.foldl (Read_classify_step ca) acc).1.PermitsOK := by
  induction l generalizing acc with
  | nil => exact hp
  | cons i rest ih =>
    rw [List.foldl_cons]
    exact ih _ (Read_classify_step_permits ca acc i hp)

theorem PermitsOK_congr (s t : File) (hp : s.PermitsOK)
    (hc : t.cache.ram_blocks = s.cache.ram_blocks) (hm : t.m_block_map = s.m_block_map) :
    t.PermitsOK := by
  unfold PermitsOK at hp ⊢
  rw [hc, hm]
  exact hp

theorem RequestBlocksDirect_loop_ram (off size : Int) (junk : Overlap) (l : List Int) (s : File)
    (total : Int) :
    (RequestBlocksDirect_loop off size junk l (s, total)).1.cache = s.cache := by
  induction l generalizing s total with
  | nil => rfl
  | cons i rest ih =>
    unfold RequestBlocksDirect_loop
    dsimp only
    rw [ih]

theorem CheckPrefetchStatDisk_ram (s : File) (i : Int) : (s.CheckPrefetchStatDisk i).cache = s.cache := by
  unfold CheckPrefetchStatDisk
  split_ifs <;> rfl

theorem CheckPrefetchStatRAM_ram (s : File) (b : Block) : (s.CheckPrefetchStatRAM b).cache = s.cache := by
  unfold CheckPrefetchStatRAM
  split_ifs <;> rfl

theorem ReadBlocksFromDisk_loop_ram (rd : Int → Int → Int) (off size : Int) (junk : Overlap)
    (l : List Int) (s : File) (total : Int) :
    (ReadBlocksFromDisk_loop rd off size junk l (s, total)).1.cache = s.cache := by
  induction l generalizing s total with
  | nil => rfl
  | cons i rest ih =>
    unfold ReadBlocksFromDisk_loop
    dsimp only
    split_ifs
    · rfl
    · rfl
    · rw [ih, CheckPrefetchStatDisk_ram]

theorem Read_consume_ram (off size : Int) (junk : Overlap) (fin : List (Int × Block)) (s : File)
    (br : Int) (e : Option Int) : (Read_consume off size junk fin (s, br, e)).1.cache = s.cache := by
  induction fin generalizing s br with
  | nil => rfl
  | cons x rest ih =>
    obtain ⟨k, b⟩ := x
    unfold Read_consume
    dsimp only
    split_ifs
    · rw [ih, CheckPrefetchStatRAM_ram]
    · rfl

theorem ProcessBlockResponse_ram (s : File) (b res err : Int) :
    (s.ProcessBlockResponse b res err).cache.ram_blocks = s.cache.ram_blocks := by
  unfold ProcessBlockResponse
  cases s.m_block_map.find b with
  | none => rfl
  | some _ =>
    dsimp only
    split_ifs <;> rfl

theorem Prefetch_take_permits (s : File) (f : Int) (hf : s.m_block_map.find f = none)
    (hp : s.PermitsOK) : (s.Prefetch_take true f).PermitsOK := by
  have h := RequestBlock_permits { s with cache := s.cache.RequestRAMBlock true } f true hf (by
    unfold PermitsOK at hp
    show s.cache.ram_blocks + 1 = _
    rw [hp])
  exact PermitsOK_congr _ _ h rfl rfl

end File

namespace System

/-- Every step other than a `Prefetch` whose permit is refused keeps the permits equal to the size
of the map. -/
theorem PermitsOK_step (S S1 : System) (e : Event) (hI : S.InvRef) (hp : S.file.PermitsOK)
    (hg : e ≠ Event.prefetch false) (h : S.step e = some S1) : S1.file.PermitsOK := by
  have hM : S.file.MapOK := MapOK_of_Acct _ _ hI.acct
  cases e with
  | read_begin off size ca =>
    simp only [step, Option.some.injEq] at h
    rw [← h]
    exact Read_classify_fold_permits ca (idxRange _ _)
      (S.file, { blks_to_process := [], blks_on_disk := [], blks_direct := [] }) hp
  | read_direct off size junk blocks =>
    simp only [step, Option.some.injEq] at h
    rw [← h]
    exact PermitsOK_congr _ _ hp
      (congrArg Cache.ram_blocks (RequestBlocksDirect_loop_ram off size junk blocks S.file 0))
      (RequestBlocksDirect_loop_keeps off size junk blocks S.file 0).1
  | read_disk disk_read off size junk blocks =>
    simp only [step, Option.some.injEq] at h
    rw [← h]
    exact PermitsOK_congr _ _ hp
      (congrArg Cache.ram_blocks (ReadBlocksFromDisk_loop_ram disk_read off size junk blocks S.file 0))
      (ReadBlocksFromDisk_loop_keeps disk_read off size junk blocks S.file 0).1
  | read_ram off size junk finished =>
    simp only [step, Option.some.injEq] at h
    rw [← h]
    exact PermitsOK_congr _ _ hp
      (congrArg Cache.ram_blocks (Read_consume_ram off size junk finished S.file 0 none))
      (Read_consume_keeps off size junk finished S.file 0 none).1
  | read_missed d =>
    simp only [step, Option.some.injEq] at h
    rw [← h]
    exact hp
  | read_end n order =>
    simp only [step] at h
    cases hr : S.readers[n]? with
    | none => rw [hr] at h; simp at h
    | some r =>
      rw [hr] at h
      dsimp only at h
      by_cases hpm : order.Perm r
      · rw [if_pos hpm] at h
        have := Option.some.inj h
        rw [← this]
        exact (release_permits order S.file hM hp).2
      · rw [if_neg hpm] at h; cases h
  | response b res err =>
    simp only [step] at h
    cases hf : S.file.m_block_map.find b with
    | none => rw [hf] at h; simp at h
    | some blk =>
      rw [hf] at h
      dsimp only at h
      by_cases hfin : blk.is_finished = true
      · rw [if_pos hfin] at h; cases h
      · rw [if_neg hfin] at h
        have := Option.some.inj h
        rw [← this]
        unfold PermitsOK at hp ⊢
        show (S.file.ProcessBlockResponse b res err).cache.ram_blocks
          = (S.file.ProcessBlockResponse b res err).m_block_map.size
        rw [ProcessBlockResponse_ram, (ProcessBlockResponse_state S.file b res err).2.2]
        exact hp
  | wb_begin b w =>
    simp only [step] at h
    cases hf : S.file.m_block_map.find b with
    | none => rw [hf] at h; simp at h
    | some blk =>
      rw [hf] at h
      dsimp only at h
      by_cases hq : b ∈ S.file.cache.write_queue
      · rw [if_pos hq] at h
        have := Option.some.inj h
        rw [← this]
        exact hp
      · rw [if_neg hq] at h; cases h
  | wb_set_bit n =>
    simp only [step] at h
    cases hw : S.writers[n]? with
    | none => rw [hw] at h; simp at h
    | some w =>
      rw [hw] at h
      dsimp only at h
      by_cases hst : w.stage = WbStage.written
      · rw [if_pos hst] at h
        have := Option.some.inj h
        rw [← this]
        exact hp
      · rw [if_neg hst] at h; cases h
  | wb_dec_ref n =>
    simp only [step] at h
    cases hw : S.writers[n]? with
    | none => rw [hw] at h; simp at h
    | some w =>
      rw [hw] at h
      dsimp only at h
      by_cases hst : w.stage = WbStage.bit_set
      · rw [if_pos hst] at h
        have := Option.some.inj h
        rw [← this]
        exact (dec_ref_count_permits S.file w.blk hM hp).2
      · rw [if_neg hst] at h; cases h
  | wb_synced n =>
    simp only [step] at h
    cases hw : S.writers[n]? with
    | none => rw [hw] at h; simp at h
    | some w =>
      rw [hw] at h
      dsimp only at h
      by_cases hst : w.stage = WbStage.released
      · rw [if_pos hst] at h
        have := Option.some.inj h
        rw [← this]
        show (WriteBlockToDisk_synced S.file w.pfIdx).PermitsOK
        unfold WriteBlockToDisk_synced
        by_cases hin : S.file.m_in_sync = true
        · rw [if_pos hin]
          exact hp
        · rw [if_neg hin]
          dsimp only
          split_ifs <;> exact hp
      · rw [if_neg hst] at h; cases h
  | removed_from_writeQ b =>
    simp only [step] at h
    by_cases hq : b ∈ S.file.cache.write_queue
    · rw [if_pos hq] at h
      have := Option.some.inj h
      rw [← this]
      exact (dec_ref_count_permits { S.file with cache := S.file.cache.TakeWriteTask b } b
        (MapOK_congr _ _ hM rfl rfl) hp).2
    · rw [if_neg hq] at h; cases h
  | sync_job =>
    simp only [step] at h
    by_cases hq : 0 < S.file.sync_jobs
    · rw [if_pos hq] at h
      have := Option.some.inj h
      rw [← this]
      exact hp
    · rw [if_neg hq] at h; cases h
  | prefetch g =>
    simp only [step] at h
    cases hpf : S.file.Prefetch g with
    | none => rw [hpf] at h; simp at h
    | some f1 =>
      rw [hpf] at h
      dsimp only at h
      have := Option.some.inj h
      rw [← this]
      rcases Prefetch_results S.file g f1 hpf with ⟨_, ht⟩ | ⟨_, ht⟩ | ⟨_, f, hf, ht⟩
      · rw [ht]; exact hp
      · rw [ht]; exact hp
      · have hgt : g = true := by
          cases g with
          | true => rfl
          | false => exact absurd rfl hg
        rw [ht, hgt]
        exact Prefetch_take_permits S.file f hf hp
  | ioActive_stop =>
    simp only [step, Option.some.injEq] at h
    rw [← h]
    show S.file.ioActive_stop.PermitsOK
    unfold ioActive_stop
    split_ifs <;> exact hp
  | ioActive_sweep =>
    simp only [step, Option.some.injEq] at h
    rw [← h]
    exact sweep_permits S.file.m_block_map S.file hM hp
  | wakeUp =>
    simp only [step, Option.some.injEq] at h
    rw [← h]
    show S.file.WakeUp.PermitsOK
    unfold WakeUp
    split_ifs <;> exact hp

theorem PermitsOK_run (es : List Event) (S S1 : System) (hI : S.InvRef) (hp : S.file.PermitsOK)
    (hg : ∀ e ∈ es, e ≠ Event.prefetch false) (h : S.run es = some S1) : S1.file.PermitsOK := by
  induction es generalizing S with
  | nil =>
    have := Option.some.inj h
    rw [← this]
    exact hp
  | cons e rest ih =>
    unfold run at h
    cases he : S.step e with
    | none => rw [he] at h; cases h
    | some S2 =>
      rw [he] at h
      dsimp only at h
      exact ih S2 (InvRef_step S S2 e hI he)
        (PermitsOK_step S S2 e hI hp (hg e (List.mem_cons_self _ _)) he)
        (fun x hx => hg x (List.mem_cons_of_mem _ hx)) h

/-- C30: as long as the coordinator grants the permit that `Prefetch` asks for, the number of
RAM-block permits that a file holds equals the size of its block map in every state that it
reaches: `Read` inserts a block only after a permit was granted and takes none otherwise, and
`free_block` returns one permit for the block it erases.  `Prefetch` does not look at the answer
of `RequestRAMBlock`: when the permit is refused it inserts the block all the same, the file
holds 0 permits for a map of 1 block, and after the block has failed and `ioActive` has freed it
the file holds -1 permits for an empty map. -/
theorem Prefetch_inserts_without_permit :
    (∀ (bufferSize pm off fs : Int) (loaded : Option Info) (es : List Event) (S : System),
      0 < (File.create bufferSize pm off fs loaded).m_cfi.GetBufferSize →
      (∀ e ∈ es, e ≠ Event.prefetch false) →
      (System.init bufferSize pm off fs loaded).run es = some S →
      S.file.cache.ram_blocks = S.file.m_block_map.size) ∧
    (∀ (s : File) (f : Int), s.m_block_map.find f = none →
      (s.Prefetch_take false f).cache.ram_blocks = s.cache.ram_blocks ∧
      (s.Prefetch_take false f).m_block_map.size = s.m_block_map.size + 1) ∧
    ((System.init 1024 10 0 3000 none).run [Event.prefetch false] = some sysUnpermitted ∧
      sysUnpermitted.file.cache.ram_blocks = 0 ∧
      sysUnpermitted.file.m_block_map.size = 1 ∧
      BlockMap.keys sysUnpermitted.file.m_block_map = [0] ∧
      (System.init 1024 10 0 3000 none).run runUnpermitted = some sysUnpermittedClosed ∧
      sysUnpermittedClosed.file.cache.ram_blocks = -1 ∧
      sysUnpermittedClosed.file.m_block_map.size = 0) := by
  refine ⟨?_, ?_, ?_⟩
  · intro bufferSize pm off fs loaded es S hBS hg hrun
    exact PermitsOK_run es _ S (InvRef_init bufferSize pm off fs loaded hBS) rfl hg hrun
  · intro s f hf
    refine ⟨?_, ?_⟩
    · show ({ s with cache := s.cache.RequestRAMBlock false }.RequestBlock f true).cache.ram_blocks
        = s.cache.ram_blocks
      rw [RequestBlock_ram]
      rfl
    · show ({ s with cache := s.cache.RequestRAMBlock false }.RequestBlock f true).m_block_map.size
        = s.m_block_map.size + 1
      rw [RequestBlock_map]
      exact BlockMap.size_set_of_find_none _ _ _ hf
  · exact ⟨run_getD _ _ _ (by decide), by decide, by decide, by decide,
      run_getD _ _ _ (by decide), by decide, by decide⟩

end System

end XrdFileCache

namespace XrdSsi

/-- C27: `SetCBThreads` leaves `maxTCB` and `maxCLW` as they are for `cbNum <= 1`; for
`1 < cbNum < 32767` it sets `maxTCB` to 32767, not to `cbNum`; and for `cbNum > 32767` it converts
`cbNum` itself to `short`, which wraps around; the result is `min(cbNum, 32767)` only when
`cbNum` is 32767 modulo `2^16`.  With `cbNum = 100` the result is 32767 where
`min(cbNum, 32767) = 100`, and with `cbNum = 40000` it is -25536 where the minimum is 32767. -/
theorem SetCBThreads_raises_instead_of_capping :
    (∀ g cbNum ntNum, cbNum ≤ 1 → SetCBThreads g cbNum ntNum = g) ∧
    (∀ g cbNum ntNum, 1 < cbNum → cbNum < 32767 → (SetCBThreads g cbNum ntNum).maxTCB = 32767) ∧
    (∀ g cbNum ntNum, 32767 ≤ cbNum →
      (SetCBThreads g cbNum ntNum).maxTCB = toShort cbNum) ∧
    (∀ g cbNum ntNum, 1 < cbNum →
      ((SetCBThreads g cbNum ntNum).maxTCB = min cbNum 32767 ↔ cbNum % 65536 = 32767)) ∧
    ((SetCBThreads Globals.initial 100 5).maxTCB = 32767 ∧ min (100 : Int) 32767 = 100 ∧
      (SetCBThreads Globals.initial 100 5).maxCLW = 5 ∧
      (SetCBThreads Globals.initial 100 0).maxCLW = 3276 ∧
      (SetCBThreads Globals.initial 40000 5).maxTCB = -25536 ∧
      min (40000 : Int) 32767 = 32767) := by
  refine ⟨?_, ?_, ?_, ?_, by decide⟩
  · intro g cbNum ntNum h
    unfold SetCBThreads
    rw [if_neg (by omega)]
  · intro g cbNum ntNum h1 h2
    unfold SetCBThreads
    rw [if_pos (by omega)]
    dsimp only
    rw [if_pos h2]
    decide
  · intro g cbNum ntNum h
    unfold SetCBThreads
    rw [if_pos (by omega)]
    dsimp only
    rw [if_neg (by omega)]
  · intro g cbNum ntNum h1
    unfold SetCBThreads
    rw [if_pos (by omega)]
    dsimp only
    by_cases h2 : cbNum < 32767
    · rw [if_pos h2]
      have : toShort 32767 = 32767 := by decide
      rw [this, min_eq_left (le_of_lt h2)]
      constructor <;> intro h <;> omega
    · rw [if_neg h2, min_eq_right (by omega)]
      unfold toShort
      constructor <;> intro h <;> omega

end XrdSsi
